import Mathlib

/-!
# Scene-graph connectivity of `PandaNode` (panda/src/pgraph/pandaNode.cxx)

A shallow embedding of the parent/child bookkeeping, the path-component
repair loops, the stale-bound propagation and the Bam record codec of
`PandaNode`, followed by theorems about them.

Pointers are natural numbers, `NULL` is `0`.  A graph state maps every
pointer to the `CData` of the node stored there (current pipeline stage),
and every component handle to its `qpNodePathComponent` record.
Recursive functions of the source whose termination depends on the shape
of the graph take an explicit fuel argument; a failed `nassert` and an
exhausted fuel are distinct faults.
-/

namespace PandaNode

/-- A pointer to a `TypedWritable` object (node, render state, transform). -/
abbrev Ptr := Nat

/-- The null pointer. -/
def NULL : Ptr := 0

/-- A handle of a `qpNodePathComponent`. -/
abbrev Comp := Nat

/-- Why an operation did not run to completion. -/
inductive Fault where
  | assertion
  | fuel
deriving DecidableEq, Repr

/-- `PandaNode::DownConnection`: a child pointer with its sort index. -/
structure DownConnection where
  child : Ptr
  sort : Int
deriving DecidableEq, Repr

/-- `PandaNode::CData`: the cycled data of one node.  `up` holds the parent
pointer of each `UpConnection`. -/
structure CData where
  down : List DownConnection
  up : List Ptr
  chains : List Comp
  state : Ptr
  transform : Ptr
deriving DecidableEq, Repr

/-- Modelled from the spec: the record of a `qpNodePathComponent`
(qpnodePathComponent.h is not among the sources): the node it names, the next
component towards the root (`none` is the TOP marker), the cached depth, and
the component it has been collapsed into, if any. -/
structure PathComponent where
  node : Ptr
  next : Option Comp
  length : Int
  collapsed : Option Comp
deriving DecidableEq, Repr

/-- The state of the scene graph. -/
structure Graph where
  cdata : Ptr → CData
  comps : Comp → PathComponent
  stale : Ptr → Bool
  fresh : Comp

/-- Pointwise update of a table indexed by natural numbers. -/
def setAt {α : Type} (f : Nat → α) (k : Nat) (v : α) : Nat → α :=
  fun x => if x = k then v else f x

/-! ## Containers -/

/-- Modelled from the spec: `Down::insert` of the ordered child list
(pandaNode.h is not among the sources): the new connection goes after every
entry whose sort is not greater, before the first entry with a greater sort. -/
def downInsert : List DownConnection → DownConnection → List DownConnection
  | [], e => [e]
  | d :: ds, e => if e.sort < d.sort then e :: d :: ds else d :: downInsert ds e

/-- Modelled from the spec: `insert` of a set keyed by identity (`Up`,
`Chains`): an element already present is not added again. -/
def setInsert (l : List Nat) (x : Nat) : List Nat :=
  if x ∈ l then l else l ++ [x]

/-- Modelled from the spec: `erase(key)` of a set keyed by identity: every
entry equal to the key is removed. -/
def setErase (l : List Nat) (x : Nat) : List Nat :=
  l.filter (fun y => decide (y ≠ x))

/-- The count returned by `erase(key)`. -/
def numErased (l : List Nat) (x : Nat) : Nat :=
  l.count x

/-- The loop `for (di = _down.begin(); di != _down.end() && !found; ++di)` that
erases the first connection whose child is `c`; `none` when `found` stays
false. -/
def eraseChild : List DownConnection → Ptr → Option (List DownConnection)
  | [], _ => none
  | d :: ds, c =>
    if d.child = c then some ds
    else match eraseChild ds c with
      | some r => some (d :: r)
      | none => none

/-! ## Path components (modelled from the spec) -/

/-- Modelled from the spec: `qpNodePathComponent::is_top_node`. -/
def is_top_node (m : Comp → PathComponent) (c : Comp) : Bool :=
  (m c).next.isNone

/-- Modelled from the spec: `qpNodePathComponent::set_top_node`. -/
def set_top_node (m : Comp → PathComponent) (c : Comp) : Comp → PathComponent :=
  setAt m c { m c with next := none }

/-- Modelled from the spec: `qpNodePathComponent::set_next`. -/
def set_next (m : Comp → PathComponent) (c : Comp) (n : Option Comp) :
    Comp → PathComponent :=
  setAt m c { m c with next := n }

/-- Modelled from the spec: `qpNodePathComponent::collapse_with`: references to
`c` are redirected to `into`. -/
def collapse_with (m : Comp → PathComponent) (c into : Comp) : Comp → PathComponent :=
  setAt m c { m c with collapsed := some into }

/-- Modelled from the spec: the depth a component should cache: one more than
that of its next component, `0` for a TOP component. -/
def length_should_be (m : Comp → PathComponent) (c : Comp) : Int :=
  match (m c).next with
  | none => 0
  | some n => (m n).length + 1

/-- Modelled from the spec: `qpNodePathComponent::fix_length`: repairs the
cached depth and reports whether it was wrong. -/
def fix_length (m : Comp → PathComponent) (c : Comp) : (Comp → PathComponent) × Bool :=
  if (m c).length = length_should_be m c then (m, false)
  else (setAt m c { m c with length := length_should_be m c }, true)

/-- The first loop of `fix_chain_lengths`: `fix_length` on every component of
the chain set, reporting whether any was wrong. -/
def fix_chains (m : Comp → PathComponent) : List Comp → (Comp → PathComponent) × Bool
  | [] => (m, false)
  | c :: cs =>
    let r := fix_length m c
    let s := fix_chains r.1 cs
    (s.1, r.2 || s.2)

/-- `PandaNode::fix_chain_lengths`: repairs the chain set of `n` and, when a
depth changed, recurses into every child. -/
def fix_chain_lengths : Nat → (Ptr → CData) → (Comp → PathComponent) → Ptr →
    Except Fault (Comp → PathComponent)
  | 0, _, _, _ => .error .fuel
  | fuel + 1, cd, m, n =>
    let r := fix_chains m (cd n).chains
    if r.2 then
      (cd n).down.foldlM (fun acc d => fix_chain_lengths fuel cd acc d.child) r.1
    else .ok r.1

/-- The test `!(*ci)->is_top_node() && (*ci)->get_next()->get_node() == this`. -/
def references (m : Comp → PathComponent) (ci : Comp) (this : Ptr) : Bool :=
  match (m ci).next with
  | none => false
  | some nx => decide ((m nx).node = this)

/-- The severing loop shared by both `remove_child` forms and
`remove_all_children`: the first component whose next names `this` becomes TOP,
every later one is collapsed into it and erased from the chain set.  `chains` is
the set being edited, the last argument the part of it still to visit. -/
def sever (this : Ptr) : (Comp → PathComponent) → List Comp → Option Comp → List Comp →
    (Comp → PathComponent) × List Comp
  | m, chains, _, [] => (m, chains)
  | m, chains, collapsed, ci :: rest =>
    if references m ci this then
      match collapsed with
      | none => sever this (set_top_node m ci) chains (some ci) rest
      | some k => sever this (collapse_with m ci k) (setErase chains ci) (some k) rest
    else sever this m chains collapsed rest

/-! ## Bounding-volume staleness -/

/-- Modelled from the spec: `BoundedObject::mark_bound_stale` (boundedObject.h
is not among the sources) with `PandaNode::propagate_stale_bound` inlined: a
node that is already stale stops the propagation, otherwise it becomes stale and
every parent is marked in turn. -/
def mark_bound_stale : Nat → (Ptr → CData) → (Ptr → Bool) → Ptr → Except Fault (Ptr → Bool)
  | 0, _, _, _ => .error .fuel
  | fuel + 1, cd, st, n =>
    if st n then .ok st
    else (cd n).up.foldlM (fun acc p => mark_bound_stale fuel cd acc p) (setAt st n true)

/-- `PandaNode::propagate_stale_bound`: marks every parent stale. -/
def propagate_stale_bound (fuel : Nat) (cd : Ptr → CData) (st : Ptr → Bool) (n : Ptr) :
    Except Fault (Ptr → Bool) :=
  (cd n).up.foldlM (fun acc p => mark_bound_stale fuel cd acc p) st

/-- Modelled from the spec: `BoundedObject::force_bound_stale`: the node becomes
stale and the staleness is propagated whatever the flag was. -/
def force_bound_stale (fuel : Nat) (cd : Ptr → CData) (st : Ptr → Bool) (n : Ptr) :
    Except Fault (Ptr → Bool) :=
  propagate_stale_bound fuel cd (setAt st n true) n

/-! ## Component lookup -/

/-- Replaces the chain set of node `n`. -/
def setChains (g : Graph) (n : Ptr) (cs : List Comp) : Graph :=
  { g with cdata := setAt g.cdata n { g.cdata n with chains := cs } }

/-- Modelled from the spec: the constructor of `qpNodePathComponent`, storing
the record under the next unused handle. -/
def newComponent (g : Graph) (node : Ptr) (next : Option Comp) : Graph × Comp :=
  let len : Int := match next with
    | none => 0
    | some p => (g.comps p).length + 1
  ({ g with
      comps := setAt g.comps g.fresh
        { node := node, next := next, length := len, collapsed := none },
      fresh := g.fresh + 1 }, g.fresh)

/-- Modelled from the spec: `PandaNode::find_parent` (pandaNode.I is not among
the sources): the index of `node` in the up-set, or `-1`. -/
def find_parent (g : Graph) (this node : Ptr) : Int :=
  match (g.cdata this).up.indexOf? node with
  | some i => (i : Int)
  | none => -1

/-- `PandaNode::get_top_component`. -/
def get_top_component (g : Graph) (child_node : Ptr) : Graph × Comp :=
  match (g.cdata child_node).chains.find? (fun ci => is_top_node g.comps ci) with
  | some ci => (g, ci)
  | none =>
    let r := newComponent g child_node none
    (setChains r.1 child_node (setInsert (r.1.cdata child_node).chains r.2), r.2)

/-- `PandaNode::get_component`; `none` is the null result. -/
def get_component (g : Graph) (parent : Option Comp) (child_node : Ptr) :
    Except Fault (Graph × Option Comp) :=
  match parent with
  | none => .error .assertion
  | some p =>
    match (g.cdata child_node).chains.find? (fun ci => decide ((g.comps ci).next = some p)) with
    | some ci => .ok (g, some ci)
    | none =>
      if find_parent g child_node (g.comps p).node ≥ 0 then
        let r := newComponent g child_node (some p)
        .ok (setChains r.1 child_node (setInsert (r.1.cdata child_node).chains r.2), some r.2)
      else .ok (g, none)

/-- Modelled from the spec: `PandaNode::get_num_parents` (pandaNode.I). -/
def get_num_parents (g : Graph) (this : Ptr) : Nat :=
  (g.cdata this).up.length

/-- Modelled from the spec: `PandaNode::get_parent` (pandaNode.I). -/
def get_parent (g : Graph) (this : Ptr) (n : Nat) : Ptr :=
  (g.cdata this).up.getD n NULL

/-- `PandaNode::get_generic_component`. -/
def get_generic_component : Nat → Graph → Ptr → Except Fault (Graph × Option Comp)
  | 0, _, _ => .error .fuel
  | fuel + 1, g, this =>
    if get_num_parents g this = 0 then
      .ok ((get_top_component g this).1, some (get_top_component g this).2)
    else
      match get_generic_component fuel g (get_parent g this 0) with
      | .error e => .error e
      | .ok r => get_component r.1 r.2 this

/-! ## Child management -/

/-- Replaces the down-list of node `n`. -/
def setDown (g : Graph) (n : Ptr) (ds : List DownConnection) : Graph :=
  { g with cdata := setAt g.cdata n { g.cdata n with down := ds } }

/-- Replaces the up-set of node `n`. -/
def setUp (g : Graph) (n : Ptr) (us : List Ptr) : Graph :=
  { g with cdata := setAt g.cdata n { g.cdata n with up := us } }

/-- The scan of `find_child`, `i` being the index of the head of the list. -/
def findChildLoop : List DownConnection → Ptr → Nat → Int
  | [], _, _ => -1
  | d :: ds, node, i => if d.child = node then (i : Int) else findChildLoop ds node (i + 1)

/-- `PandaNode::find_child`: the index of the child, or `-1`. -/
def find_child (g : Graph) (this node : Ptr) : Int :=
  findChildLoop (g.cdata this).down node 0

/-- The severing loop applied to the chain set of `child_node`, followed by
`fix_chain_lengths` on it. -/
def severAndFix (fuel : Nat) (g : Graph) (this child_node : Ptr) : Except Fault Graph :=
  let s := sever this g.comps (g.cdata child_node).chains none (g.cdata child_node).chains
  let g1 := setChains { g with comps := s.1 } child_node s.2
  match fix_chain_lengths fuel g1.cdata g1.comps child_node with
  | .error e => .error e
  | .ok m => .ok { g1 with comps := m }

/-- The trailing `force_bound_stale()` of a node operation. -/
def forceStale (fuel : Nat) (g : Graph) (this : Ptr) : Except Fault Graph :=
  match force_bound_stale fuel g.cdata g.stale this with
  | .error e => .error e
  | .ok st => .ok { g with stale := st }

/-- `PandaNode::remove_child(PandaNode *)`: the flag is the value returned. -/
def remove_child (fuel : Nat) (g : Graph) (this child_node : Ptr) :
    Except Fault (Bool × Graph) :=
  let num_erased := numErased (g.cdata child_node).up this
  if num_erased = 0 then .ok (false, g)
  else
    let g1 := setUp g child_node (setErase (g.cdata child_node).up this)
    match severAndFix fuel g1 this child_node with
    | .error e => .error e
    | .ok g2 =>
      match eraseChild (g2.cdata this).down child_node with
      | none => .error .assertion
      | some ds =>
        match forceStale fuel (setDown g2 this ds) this with
        | .error e => .error e
        | .ok g3 => .ok (true, g3)

/-- `PandaNode::remove_child(int)`. -/
def remove_child_at (fuel : Nat) (g : Graph) (this : Ptr) (n : Int) : Except Fault Graph :=
  if 0 ≤ n ∧ n < ((g.cdata this).down.length : Int) then
    let child_node := ((g.cdata this).down.getD n.toNat ⟨NULL, 0⟩).child
    let g1 := setDown g this ((g.cdata this).down.eraseIdx n.toNat)
    let num_erased := numErased (g1.cdata child_node).up this
    let g2 := setUp g1 child_node (setErase (g1.cdata child_node).up this)
    if num_erased = 1 then
      match severAndFix fuel g2 this child_node with
      | .error e => .error e
      | .ok g3 => forceStale fuel g3 this
    else .error .assertion
  else .error .assertion

/-- The loop of `remove_all_children` over the down-list of `this`. -/
def removeAllLoop (fuel : Nat) (this : Ptr) : Graph → List DownConnection → Except Fault Graph
  | g, [] => .ok g
  | g, d :: rest =>
    let g1 := setUp g d.child (setErase (g.cdata d.child).up this)
    match severAndFix fuel g1 this d.child with
    | .error e => .error e
    | .ok g2 => removeAllLoop fuel this g2 rest

/-- `PandaNode::remove_all_children`. -/
def remove_all_children (fuel : Nat) (g : Graph) (this : Ptr) : Except Fault Graph :=
  match removeAllLoop fuel this g (g.cdata this).down with
  | .error e => .error e
  | .ok g1 => forceStale fuel g1 this

/-- The loop of `add_child` over the chain set of the child: every TOP
component gets the generic component of `this` as its next.  The loop visits
the chain set as it stands when the loop starts; `get_generic_component` only
edits the chain sets of `this` and of its ancestors. -/
def anchorLoop (fuel : Nat) (this : Ptr) : Graph → List Comp → Except Fault Graph
  | g, [] => .ok g
  | g, ci :: rest =>
    if is_top_node g.comps ci then
      match get_generic_component fuel g this with
      | .error e => .error e
      | .ok r => anchorLoop fuel this { r.1 with comps := set_next r.1.comps ci r.2 } rest
    else anchorLoop fuel this g rest

/-- `PandaNode::add_child`. -/
def add_child (fuel : Nat) (g : Graph) (this child_node : Ptr) (sort : Int) :
    Except Fault Graph :=
  match remove_child fuel g this child_node with
  | .error e => .error e
  | .ok r =>
    let g1 := setDown r.2 this (downInsert (r.2.cdata this).down ⟨child_node, sort⟩)
    let g2 := setUp g1 child_node (setInsert (g1.cdata child_node).up this)
    match anchorLoop fuel this g2 (g2.cdata child_node).chains with
    | .error e => .error e
    | .ok g3 =>
      match fix_chain_lengths fuel g3.cdata g3.comps child_node with
      | .error e => .error e
      | .ok m => forceStale fuel { g3 with comps := m } this

/-- A graph without edges, components or stale flags. -/
def emptyGraph : Graph :=
  { cdata := fun _ => ⟨[], [], [], NULL, NULL⟩,
    comps := fun _ => ⟨NULL, none, 0, none⟩,
    stale := fun _ => false,
    fresh := 1 }

/-! ## Predicates on states used by the theorems -/

/-- The number of connections of a down-list whose child is `c`. -/
def edgeCount (ds : List DownConnection) (c : Ptr) : Nat :=
  ds.countP (fun d => decide (d.child = c))

/-- The two states have the same down-lists and up-sets. -/
def SameEdges (g g1 : Graph) : Prop :=
  ∀ n, (g1.cdata n).down = (g.cdata n).down ∧ (g1.cdata n).up = (g.cdata n).up

/-- The two component tables differ at most in the cached depths. -/
def SameButLength (m m1 : Comp → PathComponent) : Prop :=
  ∀ c, (m1 c).node = (m c).node ∧ (m1 c).next = (m c).next ∧
    (m1 c).collapsed = (m c).collapsed

/-- Every component of a chain set names the node owning the set and has a
handle below the allocation mark. -/
def ChainsWF (g : Graph) : Prop :=
  ∀ n c, c ∈ (g.cdata n).chains → (g.comps c).node = n ∧ c < g.fresh

/-- Heights and depths witnessing that the graph has no cycle: a child is
strictly lower than its parent, a parent strictly shallower than its child. -/
structure Ranked (g : Graph) (hgt dpt : Ptr → Nat) : Prop where
  down_lt : ∀ n d, d ∈ (g.cdata n).down → hgt d.child < hgt n
  up_lt : ∀ n p, p ∈ (g.cdata n).up → dpt p < dpt n

/-- The pair invariant for parent `n` and child `c`: the down-list of `n` holds
one connection to `c` when the up-set of `c` lists `n`, and none otherwise. -/
def EdgePair (g : Graph) (n c : Ptr) : Prop :=
  edgeCount (g.cdata n).down c = if n ∈ (g.cdata c).up then 1 else 0

/-- A state in which node 1 has the single child 2, obtained by running
`add_child` in the empty graph. -/
def oneChildGraph : Graph :=
  match add_child 2 emptyGraph 1 2 0 with
  | .ok g => g
  | .error _ => emptyGraph

/-- The sorts of a down-list do not decrease. -/
def SortedDown (ds : List DownConnection) : Prop :=
  ds.Pairwise (fun a b => a.sort ≤ b.sort)

/-- The edge-pair invariant: every pair of nodes satisfies `EdgePair` and no
up-set lists a parent twice. -/
def EdgeInv (g : Graph) : Prop :=
  (∀ n c, EdgePair g n c) ∧ ∀ c, (g.cdata c).up.Nodup

/-- The states reached from a graph without edges by `add_child`,
`remove_child(int)` and `remove_child(PandaNode *)` calls that ran to
completion, each on a parent and a child that are two different nodes. -/
inductive Reachable : Graph → Prop where
  | init (g : Graph) (h : ∀ n, (g.cdata n).down = [] ∧ (g.cdata n).up = []) : Reachable g
  | byAdd (g g1 : Graph) (fuel : Nat) (P C : Ptr) (s : Int) (hg : Reachable g)
      (hne : P ≠ C) (h : add_child fuel g P C s = .ok g1) : Reachable g1
  | byRemoveAt (g g1 : Graph) (fuel : Nat) (P : Ptr) (n : Int) (hg : Reachable g)
      (hne : ((g.cdata P).down.getD n.toNat ⟨NULL, 0⟩).child ≠ P)
      (h : remove_child_at fuel g P n = .ok g1) : Reachable g1
  | byRemove (g g1 : Graph) (fuel : Nat) (P C : Ptr) (b : Bool) (hg : Reachable g)
      (hne : P ≠ C) (h : remove_child fuel g P C = .ok (b, g1)) : Reachable g1

/-! ## Bam records -/

/-- Modelled from the spec: one field of a datagram (datagram.h is not among
the sources): a pointer token, a 16-bit unsigned value or a 32-bit signed
value. -/
inductive Field where
  | pointer (token : Nat)
  | uint16 (v : Nat)
  | int32 (v : Int)
deriving DecidableEq, Repr

/-- Modelled from the spec: a datagram, or what a `DatagramIterator` has still
to read of it, as the sequence of its fields. -/
abbrev Datagram := List Field

/-- Modelled from the spec: what `write_datagram` uses of the `BamWriter`
(bamWriter.h is not among the sources): the test whether an object is already in
the object table of the stream, and the token written for an object. -/
structure BamWriter where
  has_object : Ptr → Bool
  token : Ptr → Nat

/-- Modelled from the spec: what `fillin` uses of the `BamReader`: the tokens
requested so far by `read_pointer`, in request order. -/
structure BamReader where
  requested : List Nat
deriving DecidableEq, Repr

/-- Modelled from the spec: `BamWriter::write_pointer`. -/
def BamWriter.write_pointer (manager : BamWriter) (dg : Datagram) (p : Ptr) : Datagram :=
  dg ++ [Field.pointer (manager.token p)]

/-- Modelled from the spec: `Datagram::add_uint16`, keeping the low 16 bits. -/
def add_uint16 (dg : Datagram) (v : Nat) : Datagram :=
  dg ++ [Field.uint16 (v % 65536)]

/-- The value of a 32-bit two's complement field holding `v`. -/
def wrapInt32 (v : Int) : Int :=
  (v + 2147483648) % 4294967296 - 2147483648

/-- Modelled from the spec: `Datagram::add_int32`. -/
def add_int32 (dg : Datagram) (v : Int) : Datagram :=
  dg ++ [Field.int32 (wrapInt32 v)]

/-- Modelled from the spec: `BamReader::read_pointer`: consumes a pointer token
and queues it for resolution; any other field is a fault. -/
def BamReader.read_pointer (manager : BamReader) (scan : Datagram) :
    Except Fault (BamReader × Datagram) :=
  match scan with
  | Field.pointer t :: rest => .ok ({ requested := manager.requested ++ [t] }, rest)
  | _ => .error .assertion

/-- Modelled from the spec: `DatagramIterator::get_uint16`. -/
def get_uint16 (scan : Datagram) : Except Fault (Nat × Datagram) :=
  match scan with
  | Field.uint16 v :: rest => .ok (v, rest)
  | _ => .error .assertion

/-- Modelled from the spec: `DatagramIterator::get_int32`. -/
def get_int32 (scan : Datagram) : Except Fault (Int × Datagram) :=
  match scan with
  | Field.int32 v :: rest => .ok (v, rest)
  | _ => .error .assertion

/-- The first loop of `CData::write_datagram`: counts the parents that are in
the object table, starting from `k`. -/
def countParents (manager : BamWriter) : List Ptr → Nat → Nat
  | [], k => k
  | p :: ps, k =>
    if manager.has_object p then countParents manager ps (k + 1)
    else countParents manager ps k

/-- The second loop of `CData::write_datagram`: writes a pointer for every
parent that is in the object table. -/
def writeParents (manager : BamWriter) : List Ptr → Datagram → Datagram
  | [], dg => dg
  | p :: ps, dg =>
    if manager.has_object p then writeParents manager ps (manager.write_pointer dg p)
    else writeParents manager ps dg

/-- The last loop of `CData::write_datagram`: a pointer and the sort of every
child. -/
def writeChildren (manager : BamWriter) : List DownConnection → Datagram → Datagram
  | [], dg => dg
  | d :: ds, dg =>
    writeChildren manager ds (add_int32 (manager.write_pointer dg d.child) d.sort)

/-- `PandaNode::CData::write_datagram`. -/
def CData.write_datagram (cd : CData) (manager : BamWriter) (dg : Datagram) :
    Except Fault Datagram :=
  let dg1 := manager.write_pointer dg cd.state
  let dg2 := manager.write_pointer dg1 cd.transform
  let num_parents := countParents manager cd.up 0
  if num_parents = num_parents % 65536 then
    let dg3 := add_uint16 dg2 num_parents
    let dg4 := writeParents manager cd.up dg3
    let num_children := cd.down.length
    if num_children = num_children % 65536 then
      .ok (writeChildren manager cd.down (add_uint16 dg4 num_children))
    else .error .assertion
  else .error .assertion

/-- The parent loop of `CData::fillin`: `i` pointers are requested and a null
connection is pushed back for each. -/
def fillinParents : Nat → CData → BamReader → Datagram →
    Except Fault (CData × BamReader × Datagram)
  | 0, cd, manager, scan => .ok (cd, manager, scan)
  | i + 1, cd, manager, scan =>
    match manager.read_pointer scan with
    | .error e => .error e
    | .ok r => fillinParents i { cd with up := cd.up ++ [NULL] } r.1 r.2

/-- The child loop of `CData::fillin`: `i` times a pointer is requested, the
sort is read and a connection with a null child is pushed back. -/
def fillinChildren : Nat → CData → BamReader → Datagram →
    Except Fault (CData × BamReader × Datagram)
  | 0, cd, manager, scan => .ok (cd, manager, scan)
  | i + 1, cd, manager, scan =>
    match manager.read_pointer scan with
    | .error e => .error e
    | .ok r =>
      match get_int32 r.2 with
      | .error e => .error e
      | .ok q => fillinChildren i { cd with down := cd.down ++ [⟨NULL, q.1⟩] } r.1 q.2

/-- `PandaNode::CData::fillin`. -/
def CData.fillin (cd : CData) (scan : Datagram) (manager : BamReader) :
    Except Fault (CData × BamReader × Datagram) :=
  match manager.read_pointer scan with
  | .error e => .error e
  | .ok r1 =>
    match r1.1.read_pointer r1.2 with
    | .error e => .error e
    | .ok r2 =>
      match get_uint16 r2.2 with
      | .error e => .error e
      | .ok np =>
        match fillinParents np.1 cd r2.1 np.2 with
        | .error e => .error e
        | .ok r3 =>
          match get_uint16 r3.2.2 with
          | .error e => .error e
          | .ok nc => fillinChildren nc.1 r3.1 r3.2.1 nc.2

/-- The parent loop of `CData::complete_pointers`: every slot of the up-set
takes the next pointer of `p_list`. -/
def completeUp : List Ptr → List Ptr → Nat → List Ptr × Nat
  | [], _, i => ([], i)
  | _ :: us, p_list, i =>
    let r := completeUp us p_list (i + 1)
    (p_list.getD i NULL :: r.1, r.2)

/-- The child loop of `CData::complete_pointers`: every slot of the down-list
takes the next pointer of `p_list` and keeps its sort. -/
def completeDown : List DownConnection → List Ptr → Nat → List DownConnection × Nat
  | [], _, i => ([], i)
  | d :: ds, p_list, i =>
    let r := completeDown ds p_list (i + 1)
    (⟨p_list.getD i NULL, d.sort⟩ :: r.1, r.2)

/-- `PandaNode::CData::complete_pointers`; `base` is the count returned by
`CycleData::complete_pointers`, the result carries the count returned. -/
def CData.complete_pointers (cd : CData) (p_list : List Ptr) (base : Nat) : CData × Nat :=
  let state := p_list.getD base NULL
  let transform := p_list.getD (base + 1) NULL
  let u := completeUp cd.up p_list (base + 2)
  let d := completeDown cd.down p_list u.2
  ({ cd with state := state, transform := transform, up := u.1, down := d.1 }, d.2)

/-- The parents of a snapshot that are in the object table of the writer. -/
def registeredParents (manager : BamWriter) (cd : CData) : List Ptr :=
  cd.up.filter manager.has_object

/-- The fields written for the children: a pointer and a 32-bit sort each. -/
def childFields (manager : BamWriter) : List DownConnection → Datagram
  | [] => []
  | d :: ds =>
    Field.pointer (manager.token d.child) :: Field.int32 (wrapInt32 d.sort) ::
      childFields manager ds

/-- The record layout: state, transform, parent count, parents, child count,
children. -/
def recordLayout (manager : BamWriter) (cd : CData) : Datagram :=
  [Field.pointer (manager.token cd.state), Field.pointer (manager.token cd.transform),
    Field.uint16 (registeredParents manager cd).length] ++
  (registeredParents manager cd).map (fun p => Field.pointer (manager.token p)) ++
  [Field.uint16 cd.down.length] ++ childFields manager cd.down

/-- A snapshot with children 2 at sort 0 and 3 at sort 5, the parent 9, render
state 7 and transform 8. -/
def sampleCData : CData :=
  { down := [⟨2, 0⟩, ⟨3, 5⟩], up := [9], chains := [], state := 7, transform := 8 }

/-- A writer whose object table holds node 9 only and whose tokens are the
pointers themselves. -/
def sampleWriter : BamWriter :=
  { has_object := fun p => p == 9, token := fun p => p }

/-- The snapshot of a node just made by `make_from_bam`. -/
def freshCData : CData :=
  { down := [], up := [], chains := [], state := NULL, transform := NULL }

/-- A snapshot with the 65536 parents 1, 2, ..., 65536 and no child. -/
def manyParents : CData :=
  { down := [], up := List.range' 1 65536, chains := [], state := 7, transform := 8 }

/-- A snapshot with the 65536 children 1, 2, ..., 65536 at sort 0 and the single
parent 9. -/
def manyChildren : CData :=
  { down := (List.range' 1 65536).map (fun c => ⟨c, 0⟩), up := [9], chains := [],
    state := 7, transform := 8 }

/-- A writer whose object table holds every object. -/
def registerAll : BamWriter :=
  { has_object := fun _ => true, token := fun p => p }

/-! ## Attaching and detaching path components -/

/-- The collapsing loop of `detach`: every component of the chain set other
than `child` whose next names `parent_node` is collapsed into `child` and
erased from the chain set.  `chains` is the set being edited, the last argument
the part of it still to visit. -/
def detachLoop (child : Comp) (parent_node : Ptr) :
    (Comp → PathComponent) → List Comp → List Comp → (Comp → PathComponent) × List Comp
  | m, chains, [] => (m, chains)
  | m, chains, ci :: rest =>
    if ci ≠ child ∧ references m ci parent_node = true then
      detachLoop child parent_node (collapse_with m ci child) (setErase chains ci) rest
    else detachLoop child parent_node m chains rest

/-- `PandaNode::detach`; `none` is the null component. -/
def detach (fuel : Nat) (g : Graph) (child : Option Comp) : Except Fault Graph :=
  match child with
  | none => .error .assertion
  | some c =>
    match (g.comps c).next with
    | none => .error .assertion
    | some nx =>
      let child_node := (g.comps c).node
      let parent_node := (g.comps nx).node
      let s := detachLoop c parent_node (set_top_node g.comps c)
        (g.cdata child_node).chains (g.cdata child_node).chains
      let g1 := setChains { g with comps := s.1 } child_node s.2
      let num_erased := numErased (g1.cdata child_node).up parent_node
      let g2 := setUp g1 child_node (setErase (g1.cdata child_node).up parent_node)
      if num_erased = 1 then
        match fix_chain_lengths fuel g2.cdata g2.comps child_node with
        | .error e => .error e
        | .ok m =>
          match eraseChild (g2.cdata parent_node).down child_node with
          | none => .error .assertion
          | some ds => forceStale fuel (setDown { g2 with comps := m } parent_node ds) parent_node
      else .error .assertion

/-- The part of `reparent` after the optional `detach`: the next of `c` becomes
`np`, the edge pair is inserted at `sort`, `c` is inserted in the chain set of
its node, the depths are repaired and the parent is marked stale. -/
def reattach (fuel : Nat) (g1 : Graph) (np c : Comp) (sort : Int) : Except Fault Graph :=
  let g2 : Graph := { g1 with comps := set_next g1.comps c (some np) }
  let child_node := (g2.comps c).node
  let parent_node := (g2.comps np).node
  let g3 := setDown g2 parent_node
    (downInsert (g2.cdata parent_node).down ⟨child_node, sort⟩)
  let g4 := setUp g3 child_node (setInsert (g3.cdata child_node).up parent_node)
  let g5 := setChains g4 child_node (setInsert (g4.cdata child_node).chains c)
  match fix_chain_lengths fuel g5.cdata g5.comps child_node with
  | .error e => .error e
  | .ok m => forceStale fuel { g5 with comps := m } parent_node

/-- `PandaNode::reparent`; `none` is the null component. -/
def reparent (fuel : Nat) (g : Graph) (new_parent child : Option Comp) (sort : Int) :
    Except Fault Graph :=
  match new_parent, child with
  | some np, some c =>
    match (if is_top_node g.comps c then .ok g else detach fuel g (some c)) with
    | .error e => .error e
    | .ok g1 => reattach fuel g1 np c sort
  | _, _ => .error .assertion

/-- `PandaNode::attach`: the component returned comes with the new state. -/
def attach (fuel : Nat) (g : Graph) (parent : Option Comp) (child_node : Ptr) (sort : Int) :
    Except Fault (Graph × Option Comp) :=
  match parent with
  | none => .error .assertion
  | some p =>
    match get_component g (some p) child_node with
    | .error e => .error e
    | .ok r =>
      let r2 : Graph × Option Comp :=
        match r.2 with
        | some c => (r.1, some c)
        | none =>
          ((get_top_component r.1 child_node).1, some (get_top_component r.1 child_node).2)
      match reparent fuel r2.1 (some p) r2.2 sort with
      | .error e => .error e
      | .ok g1 => .ok (g1, r2.2)

/-! ## Pointer consumption of `complete_pointers` -/

/-- The fields of a list of (child token, sort) pairs, in record order. -/
def pairFields : List (Nat × Int) → Datagram
  | [] => []
  | c :: cs => Field.pointer c.1 :: Field.int32 c.2 :: pairFields cs

/-- A record with parent tokens `ps` and (child token, sort) pairs `cs`, followed
by `rest`. -/
def recordOf (t1 t2 : Nat) (ps : List Nat) (cs : List (Nat × Int)) (rest : Datagram) :
    Datagram :=
  Field.pointer t1 :: Field.pointer t2 :: Field.uint16 ps.length ::
    (ps.map Field.pointer ++ Field.uint16 cs.length :: (pairFields cs ++ rest))

/-- The record of a snapshot with state 7, transform 8, the parent 9 and the
children 2 at sort 0 and 3 at sort 5. -/
def sampleRecord : Datagram :=
  [Field.pointer 7, Field.pointer 8, Field.uint16 1, Field.pointer 9, Field.uint16 2,
    Field.pointer 2, Field.int32 0, Field.pointer 3, Field.int32 5]

/-- The snapshot `fillin` makes of `sampleRecord`. -/
def sampleFilled : CData :=
  { down := [⟨NULL, 0⟩, ⟨NULL, 5⟩], up := [NULL], chains := [], state := NULL,
    transform := NULL }

/-! ## Looking up path components -/

/-- A state in which node 3 is instanced under the parents 1 and 2, both at sort
0, with the TOP components 1 of node 1 and 2 of node 2 and no component of
node 3. -/
def twoParentsGraph : Graph :=
  { cdata := fun n =>
      if n = 1 then ⟨[⟨3, 0⟩], [], [1], NULL, NULL⟩
      else if n = 2 then ⟨[⟨3, 0⟩], [], [2], NULL, NULL⟩
      else if n = 3 then ⟨[], [1, 2], [], NULL, NULL⟩
      else ⟨[], [], [], NULL, NULL⟩,
    comps := fun c =>
      if c = 1 then ⟨1, none, 0, none⟩
      else if c = 2 then ⟨2, none, 0, none⟩
      else ⟨NULL, none, 0, none⟩,
    stale := fun _ => false,
    fresh := 3 }

/-- The state `twoParentsGraph` with, in addition, the components 3 and 4 of
node 3, whose next are the components 1 and 2. -/
def instancedGraph : Graph :=
  { cdata := fun n =>
      if n = 1 then ⟨[⟨3, 0⟩], [], [1], NULL, NULL⟩
      else if n = 2 then ⟨[⟨3, 0⟩], [], [2], NULL, NULL⟩
      else if n = 3 then ⟨[], [1, 2], [3, 4], NULL, NULL⟩
      else ⟨[], [], [], NULL, NULL⟩,
    comps := fun c =>
      if c = 1 then ⟨1, none, 0, none⟩
      else if c = 2 then ⟨2, none, 0, none⟩
      else if c = 3 then ⟨3, some 1, 1, none⟩
      else if c = 4 then ⟨3, some 2, 1, none⟩
      else ⟨NULL, none, 0, none⟩,
    stale := fun _ => false,
    fresh := 5 }

/-! ## The generic component -/

/-- The component `r` is what `get_generic_component` finds for node `n` without
allocating anything: the first TOP component of a node without parent, or the
first component whose next is the generic component of the first parent. -/
inductive IsGeneric (g : Graph) : Ptr → Comp → Prop where
  | top (n : Ptr) (r : Comp) (h0 : get_num_parents g n = 0)
      (hf : (g.cdata n).chains.find? (fun ci => is_top_node g.comps ci) = some r) :
      IsGeneric g n r
  | step (n : Ptr) (q r : Comp) (h0 : get_num_parents g n ≠ 0)
      (hq : IsGeneric g (get_parent g n 0) q)
      (hf : (g.cdata n).chains.find? (fun ci => decide ((g.comps ci).next = some q))
        = some r) : IsGeneric g n r

/-! ## The severing loop -/

/-- Whether a run came to its end. -/
def completes {α : Type} (r : Except Fault α) : Bool :=
  match r with
  | .ok _ => true
  | .error _ => false

/-- The value of a run that came to its end, `d` otherwise. -/
def valueOr {α : Type} (r : Except Fault α) (d : α) : α :=
  match r with
  | .ok a => a
  | .error _ => d

/-- The outcome of severing the chain set `ch` from the parent `P`, from the
component table `m` to the table `m1` and the chain set `ch1`: the first
component whose next named `P` is in the set and TOP, every other such component
is collapsed into it and out of the set, and the components whose next did not
name `P` are in the set with their next unchanged. -/
def SeverPost (m : Comp → PathComponent) (ch : List Comp) (m1 : Comp → PathComponent)
    (ch1 : List Comp) (P : Ptr) : Prop :=
  (∀ f, ch.find? (fun c => references m c P) = some f →
    f ∈ ch1 ∧ (m1 f).next = none ∧
    ∀ c, c ∈ ch → references m c P = true → c ≠ f →
      c ∉ ch1 ∧ (m1 c).collapsed = some f) ∧
  (∀ c, c ∈ ch → references m c P = false → c ∈ ch1 ∧ (m1 c).next = (m c).next)

/-- The outcome of severing node `C` from its parent `P`, from state `g` to
state `g1`. -/
def Severed (g g1 : Graph) (P C : Ptr) : Prop :=
  SeverPost g.comps (g.cdata C).chains g1.comps (g1.cdata C).chains P

/-- A state in which node 1 is instanced under the nodes 5 and 6 and has the
child 3: the components 3 and 4 of node 1 run through 5 and 6, and the
components 5 and 6 of node 3 have them as their next. -/
def collapseGraph : Graph :=
  { cdata := fun n =>
      if n = 5 then ⟨[⟨1, 0⟩], [], [1], NULL, NULL⟩
      else if n = 6 then ⟨[⟨1, 0⟩], [], [2], NULL, NULL⟩
      else if n = 1 then ⟨[⟨3, 0⟩], [5, 6], [3, 4], NULL, NULL⟩
      else if n = 3 then ⟨[], [1], [5, 6], NULL, NULL⟩
      else ⟨[], [], [], NULL, NULL⟩,
    comps := fun c =>
      if c = 1 then ⟨5, none, 0, none⟩
      else if c = 2 then ⟨6, none, 0, none⟩
      else if c = 3 then ⟨1, some 1, 1, none⟩
      else if c = 4 then ⟨1, some 2, 1, none⟩
      else if c = 5 then ⟨3, some 3, 2, none⟩
      else if c = 6 then ⟨3, some 4, 2, none⟩
      else ⟨NULL, none, 0, none⟩,
    stale := fun _ => false,
    fresh := 7 }

/-! ## `reparent` and `attach` -/

/-- Node 3 is made a child of the nodes 1 and 2 of an empty graph, one component
of node 3 is looked up under each parent, and node 3 is then removed from both
parents with `remove_child`. -/
def twoTopsRemoveRun : Except Fault Graph := do
  let g ← add_child 3 emptyGraph 1 3 0
  let g ← add_child 3 g 2 3 0
  let r := get_top_component g 1
  let r2 := get_top_component r.1 2
  let c1 ← get_component r2.1 (some r.2) 3
  let c2 ← get_component c1.1 (some r2.2) 3
  let g ← remove_child 3 c2.1 1 3
  let g ← remove_child 3 g.2 2 3
  pure g.2

/-- Node 3 is attached under the top components of the nodes 1 and 2 of an empty
graph, and both components returned are then detached. -/
def twoTopsDetachRun : Except Fault Graph := do
  let r := get_top_component emptyGraph 1
  let r2 := get_top_component r.1 2
  let a ← attach 3 r2.1 (some r.2) 3 0
  let b ← attach 3 a.1 (some r2.2) 3 0
  let g ← detach 3 b.1 a.2
  let g ← detach 3 g b.2
  pure g

/-! ## Stale propagation -/

/-- `UpReach cd n a`: the node `a` is `n` itself or a transitive ancestor of `n`
along the up-sets. -/
inductive UpReach (cd : Ptr → CData) : Ptr → Ptr → Prop
  | refl (n : Ptr) : UpReach cd n n
  | step (n p a : Ptr) : p ∈ (cd n).up → UpReach cd p a → UpReach cd n a

/-- Every stale node outside `S` has only stale parents. -/
def ClosedExcept (cd : Ptr → CData) (st : Ptr → Bool) (S : Ptr → Prop) : Prop :=
  ∀ x p, st x = true → ¬ S x → p ∈ (cd x).up → st p = true

/-! ## Recomputing the bounding volume -/

/-- The operations `recompute_bound` calls that are not among the sources
(boundedObject.h, boundingVolume.h, geometricBoundingVolume.h,
transformState.h), as parameters over an arbitrary type `V` of volumes:
`fresh_bound` is the result of `BoundedObject::recompute_bound` (`none` is the
null pointer), `get_bound` the external volume of a child, `around` returns the
volume it leaves behind together with its success flag, and `is_geometric`
tells whether the cast of `DCAST_INTO_R` to a geometric volume succeeds. -/
structure BoundOps (V : Type) where
  fresh_bound : Option V
  get_internal_bound : Ptr → V
  get_bound : Ptr → V
  around : V → List V → V × Bool
  is_identity : Ptr → Bool
  is_geometric : V → Bool
  xform : V → Ptr → V

/-- What `recompute_bound` leaves behind: the graph (the function only holds a
read accessor), the volume returned, and whether `around` succeeded (no error
was reported). -/
structure Recomputed (V : Type) where
  graph : Graph
  bound : V
  success : Bool

/-- The vector `child_volumes` built by `recompute_bound`: the internal bound is
pushed first, then the loop over the down-list pushes the bound of each child. -/
def child_volumes {V : Type} (ops : BoundOps V) (g : Graph) (this : Ptr) : List V :=
  (g.cdata this).down.foldl (fun acc d => acc ++ [ops.get_bound d.child])
    [ops.get_internal_bound this]

/-- `PandaNode::recompute_bound`. -/
def recompute_bound {V : Type} (ops : BoundOps V) (g : Graph) (this : Ptr) :
    Except Fault (Recomputed V) :=
  match ops.fresh_bound with
  | none => .error .assertion
  | some bound =>
    let r := ops.around bound (child_volumes ops g this)
    let transform := (g.cdata this).transform
    if ops.is_identity transform then .ok ⟨g, r.1, r.2⟩
    else if ops.is_geometric r.1 then .ok ⟨g, ops.xform r.1 transform, r.2⟩
    else .error .assertion

/-- The same operations with an `around` that leaves the same volume behind and
reports success. -/
def BoundOps.succeeding {V : Type} (ops : BoundOps V) : BoundOps V :=
  { ops with around := fun b l => ((ops.around b l).1, true) }

/-- Sample operations on volumes that are lists of numbers: `around`
concatenates and reports failure, `xform` appends the transform. -/
def sampleOps : BoundOps (List Nat) :=
  { fresh_bound := some [],
    get_internal_bound := fun n => [n],
    get_bound := fun n => [10 * n],
    around := fun b l => (b ++ l.flatten, false),
    is_identity := fun t => decide (t = NULL),
    is_geometric := fun _ => true,
    xform := fun v t => v ++ [t] }

/-- Node 1 with the children 2 (sort 0) and 3 (sort 5) and the transform 7. -/
def boundGraph : Graph :=
  { cdata := fun n =>
      if n = 1 then ⟨[⟨2, 0⟩, ⟨3, 5⟩], [], [], NULL, 7⟩
      else if n = 2 then ⟨[], [1], [], NULL, NULL⟩
      else if n = 3 then ⟨[], [1], [], NULL, NULL⟩
      else ⟨[], [], [], NULL, NULL⟩,
    comps := fun _ => ⟨NULL, none, 0, none⟩,
    stale := fun _ => false,
    fresh := 1 }

/-! ## The pipeline cycler and `delete_component` -/

/-- Modelled from the spec: the pipeline cycler of one node (pipelineCycler.h is
not among the sources).  Stage `i` reads the snapshot kept in slot `slots[i]` of
`store`; stages that hold the same slot share one snapshot. -/
structure Cycler where
  slots : List Nat
  store : Nat → CData

/-- Modelled from the spec: `get_num_stages`. -/
def Cycler.get_num_stages (cy : Cycler) : Nat :=
  cy.slots.length

/-- The slot of stage `i`. -/
def Cycler.slot (cy : Cycler) (i : Nat) : Nat :=
  cy.slots.getD i 0

/-- Modelled from the spec: `read(stage)`, the snapshot current for stage `i`. -/
def Cycler.read_stage (cy : Cycler) (i : Nat) : CData :=
  cy.store (cy.slot i)

/-- Modelled from the spec: `is_stage_unique(stage)`: the stage has its own
divergent copy, that is, no other stage shares its snapshot. -/
def Cycler.is_stage_unique (cy : Cycler) (i : Nat) : Bool :=
  (List.range cy.get_num_stages).all (fun j => decide (j = i) || decide (cy.slot j ≠ cy.slot i))

/-- A slot no stage holds. -/
def Cycler.fresh_slot (cy : Cycler) : Nat :=
  cy.slots.foldl max 0 + 1

/-- Modelled from the spec: `write(stage)`, copy-on-write: a snapshot shared
with other stages is cloned into a slot of its own first; the snapshot to edit
is returned with the cycler. -/
def Cycler.write_stage (cy : Cycler) (i : Nat) : Cycler × CData :=
  if cy.is_stage_unique i then (cy, cy.read_stage i)
  else
    ({ slots := cy.slots.set i cy.fresh_slot,
       store := setAt cy.store cy.fresh_slot (cy.read_stage i) }, cy.read_stage i)

/-- Modelled from the spec: `release_write_stage`: the edited snapshot is the
one stage `i` holds from now on. -/
def Cycler.release_write_stage (cy : Cycler) (i : Nat) (cdata : CData) : Cycler :=
  { cy with store := setAt cy.store (cy.slot i) cdata }

/-- The snapshot with `component` erased from its chain set. -/
def eraseChain (cdata : CData) (component : Comp) : CData :=
  { cdata with chains := setErase cdata.chains component }

/-- The loop of `delete_component` over the stages still to visit; the number
carried along is `max_num_erased`. -/
def eraseStages (component : Comp) : List Nat → Cycler → Nat → Cycler × Nat
  | [], cy, m => (cy, m)
  | i :: rest, cy, m =>
    if cy.is_stage_unique i then
      let w := cy.write_stage i
      let num_erased := numErased w.2.chains component
      eraseStages component rest (w.1.release_write_stage i (eraseChain w.2 component))
        (max m num_erased)
    else eraseStages component rest cy m

/-- `PandaNode::delete_component`, on the cycler of the node. -/
def delete_component (cy : Cycler) (component : Comp) : Except Fault Cycler :=
  let r := eraseStages component (List.range cy.get_num_stages) cy 0
  if r.2 = 1 then .ok r.1 else .error .assertion

/-- The count of the claim: the erasures of `component` summed over the stages
that hold a snapshot of their own. -/
def totalErased (cy : Cycler) (component : Comp) : Nat :=
  (((List.range cy.get_num_stages).filter (fun i => cy.is_stage_unique i)).map
    (fun i => numErased (cy.read_stage i).chains component)).sum

/-- A cycler of three stages: stage 0 has a snapshot of its own whose chain set
is `[7, 8]`, the stages 1 and 2 share a snapshot whose chain set is `[7]`. -/
def sampleCycler : Cycler :=
  { slots := [0, 1, 1],
    store := fun s => if s = 0 then ⟨[⟨2, 0⟩], [4], [7, 8], 5, 6⟩ else ⟨[], [], [7], 5, 6⟩ }

/-- A cycler of two stages with a snapshot each; both chain sets hold the
component 7. -/
def twoCopiesCycler : Cycler :=
  { slots := [0, 1],
    store := fun s => if s = 0 then ⟨[], [], [7, 8], 5, 6⟩ else ⟨[], [], [7], 5, 6⟩ }

/-! ## Copying a node -/

/-- The scene graph with the allocator of nodes: `new` hands out the address
`next_node`, every node in use has a smaller address. -/
structure Heap where
  graph : Graph
  next_node : Ptr

/-- `new PandaNode(copy)`, the protected copy constructor: the new node has the
default containers (no children, no parents, no path components) and is given
the render state and the transform of `copy`.  The bounded-object part of the
node is not modelled. -/
def copy_construct (h : Heap) (copy : Ptr) : Heap × Ptr :=
  let this := h.next_node
  let cdata : CData :=
    ⟨[], [], [], (h.graph.cdata copy).state, (h.graph.cdata copy).transform⟩
  ({ graph := { h.graph with cdata := setAt h.graph.cdata this cdata },
     next_node := this + 1 }, this)

/-- `PandaNode::make_copy`. -/
def make_copy (h : Heap) (this : Ptr) : Heap × Ptr :=
  copy_construct h this

/-- `PandaNode::copy_subgraph`: the body is `nassertr(false, NULL)`. -/
def copy_subgraph (_h : Heap) (_this : Ptr) : Except Fault (Heap × Ptr) :=
  .error .assertion

/-! ## Combining nodes -/

/-- Modelled from the spec: `TypedObject::is_exact_type` (typedObject.h is not
among the sources): the type of the object, given by `type_of`, is the handle
itself and not a type derived from it. -/
def is_exact_type (type_of : Ptr → Nat) (this : Ptr) (handle : Nat) : Bool :=
  decide (type_of this = handle)

/-- `PandaNode::combine_with`; `class_type` is the handle that the static
`PandaNode::get_class_type()` returns. -/
def combine_with (type_of : Ptr → Nat) (class_type : Nat) (this other : Ptr) : Ptr :=
  if is_exact_type type_of this class_type then other
  else if is_exact_type type_of other class_type then this
  else NULL

/-! ## The record of a geom node -/

/-- `qpGeomNode::GeomEntry`: a geom and the render state it is drawn with. -/
structure GeomEntry where
  geom : Ptr
  state : Ptr
deriving DecidableEq, Repr

/-- `qpGeomNode::CData`: the cycled data of a geom node. -/
structure GeomCData where
  geoms : List GeomEntry
deriving DecidableEq, Repr

/-- The loop of `qpGeomNode::CData::write_datagram`: the geom pointer, then the
state pointer of every entry. -/
def writeGeoms (manager : BamWriter) : List GeomEntry → Datagram → Datagram
  | [], dg => dg
  | entry :: es, dg =>
    writeGeoms manager es
      (manager.write_pointer (manager.write_pointer dg entry.geom) entry.state)

/-- `qpGeomNode::CData::write_datagram`. -/
def GeomCData.write_datagram (cd : GeomCData) (manager : BamWriter) (dg : Datagram) :
    Except Fault Datagram :=
  let num_geoms := cd.geoms.length
  if num_geoms = num_geoms % 65536 then
    .ok (writeGeoms manager cd.geoms (add_uint16 dg num_geoms))
  else .error .assertion

/-- The loop of `qpGeomNode::CData::fillin`: `i` times two pointers are
requested and an entry of two null pointers is pushed back. -/
def fillinGeoms : Nat → GeomCData → BamReader → Datagram →
    Except Fault (GeomCData × BamReader × Datagram)
  | 0, cd, manager, scan => .ok (cd, manager, scan)
  | i + 1, cd, manager, scan =>
    match manager.read_pointer scan with
    | .error e => .error e
    | .ok r1 =>
      match r1.1.read_pointer r1.2 with
      | .error e => .error e
      | .ok r2 => fillinGeoms i { geoms := cd.geoms ++ [⟨NULL, NULL⟩] } r2.1 r2.2

/-- `qpGeomNode::CData::fillin`. -/
def GeomCData.fillin (cd : GeomCData) (scan : Datagram) (manager : BamReader) :
    Except Fault (GeomCData × BamReader × Datagram) :=
  match get_uint16 scan with
  | .error e => .error e
  | .ok num_geoms => fillinGeoms num_geoms.1 cd manager num_geoms.2

/-- The loop of `qpGeomNode::CData::complete_pointers`: every entry takes the
next two pointers of `p_list`, the geom first. -/
def completeGeoms : List GeomEntry → List Ptr → Nat → List GeomEntry × Nat
  | [], _, i => ([], i)
  | _ :: es, p_list, i =>
    let r := completeGeoms es p_list (i + 2)
    (⟨p_list.getD i NULL, p_list.getD (i + 1) NULL⟩ :: r.1, r.2)

/-- `qpGeomNode::CData::complete_pointers`; `base` is the count returned by
`CycleData::complete_pointers`, the result carries the count returned. -/
def GeomCData.complete_pointers (cd : GeomCData) (p_list : List Ptr) (base : Nat) :
    GeomCData × Nat :=
  let r := completeGeoms cd.geoms p_list base
  ({ geoms := r.1 }, r.2)

/-- The fields of a geom list: for every entry the token of the geom, then the
token of the state. -/
def geomFields (manager : BamWriter) (es : List GeomEntry) : Datagram :=
  es.flatMap (fun e =>
    [Field.pointer (manager.token e.geom), Field.pointer (manager.token e.state)])

/-- The tokens of a geom list in the order of `geomFields`. -/
def geomTokens (manager : BamWriter) (es : List GeomEntry) : List Nat :=
  es.flatMap (fun e => [manager.token e.geom, manager.token e.state])

/-- A geom node with the entries (11, 21) and (12, 22). -/
def sampleGeoms : GeomCData :=
  { geoms := [⟨11, 21⟩, ⟨12, 22⟩] }

/-! ## Termination of `fix_chain_lengths` -/

/-- `DownReach cd n a`: the node `a` is `n` itself or a descendant of `n` along
the down-lists. -/
inductive DownReach (cd : Ptr → CData) : Ptr → Ptr → Prop
  | refl (n : Ptr) : DownReach cd n n
  | step (n : Ptr) (d : DownConnection) (a : Ptr) : d ∈ (cd n).down →
      DownReach cd d.child a → DownReach cd n a

/-! ## The two forms of `remove_child` -/

/-- Modelled from the spec: `PandaNode::get_child` (pandaNode.I is not among the
sources): the child of the `n`-th connection of the down-list. -/
def get_child (g : Graph) (this : Ptr) (n : Nat) : Ptr :=
  ((g.cdata this).down.getD n ⟨NULL, 0⟩).child

/-! ## The path-anchoring invariant -/

/-- The invariant of the chain sets: they are well formed, the next of a
component in a chain set is an allocated component, and the node it names is a
parent of the node owning the chain set. -/
structure PathInv (g : Graph) : Prop where
  wf : ChainsWF g
  next_lt : ∀ C c nx, c ∈ (g.cdata C).chains → (g.comps c).next = some nx → nx < g.fresh
  anchored : ∀ C c nx, c ∈ (g.cdata C).chains → (g.comps c).next = some nx →
    (g.comps nx).node ∈ (g.cdata C).up

/-! ## The edge-pair invariant under `attach` and `detach` -/

/-- The states reached from a graph without edges and without path components
by calls of `add_child`, `remove_child(PandaNode *)`, `remove_child(int)`,
`attach`, `detach`, `get_component` and `get_top_component` that ran to
completion; a component handed to `attach` or `get_component` is an allocated
one. -/
inductive PathReach : Graph → Prop where
  | init (g : Graph)
      (h : ∀ n, (g.cdata n).down = [] ∧ (g.cdata n).up = [] ∧ (g.cdata n).chains = []) :
      PathReach g
  | byAdd (g g1 : Graph) (fuel : Nat) (P C : Ptr) (s : Int) (hg : PathReach g)
      (h : add_child fuel g P C s = .ok g1) : PathReach g1
  | byRemove (g g1 : Graph) (fuel : Nat) (P C : Ptr) (b : Bool) (hg : PathReach g)
      (h : remove_child fuel g P C = .ok (b, g1)) : PathReach g1
  | byRemoveAt (g g1 : Graph) (fuel : Nat) (P : Ptr) (n : Int) (hg : PathReach g)
      (h : remove_child_at fuel g P n = .ok g1) : PathReach g1
  | byAttach (g g1 : Graph) (fuel : Nat) (p : Comp) (C : Ptr) (s : Int) (r : Option Comp)
      (hg : PathReach g) (hp : p < g.fresh)
      (h : attach fuel g (some p) C s = .ok (g1, r)) : PathReach g1
  | byDetach (g g1 : Graph) (fuel : Nat) (c : Comp) (hg : PathReach g)
      (h : detach fuel g (some c) = .ok g1) : PathReach g1
  | byGetComponent (g g1 : Graph) (p : Comp) (C : Ptr) (r : Option Comp) (hg : PathReach g)
      (hp : p < g.fresh) (h : get_component g (some p) C = .ok (g1, r)) : PathReach g1
  | byGetTop (g : Graph) (N : Ptr) (hg : PathReach g) : PathReach (get_top_component g N).1

/-- The state after `add_child(2, 0)` on node 1, `get_top_component(1)` and
`get_component` of node 2 under the component returned. -/
def anchoredGraph : Graph :=
  match get_component (get_top_component oneChildGraph 1).1
      (some (get_top_component oneChildGraph 1).2) 2 with
  | .ok r => r.1
  | .error _ => emptyGraph

/-! ## The depth invariant -/

/-- Every component of the chain set of `x` caches the depth it should. -/
def Good (cd : Ptr → CData) (m : Comp → PathComponent) (x : Ptr) : Prop :=
  ∀ c, c ∈ (cd x).chains → (m c).length = length_should_be m c

/-- The depth invariant: every component of every chain set caches one more
than the depth cached by its next component, and `0` when it is TOP. -/
def Deep (g : Graph) : Prop :=
  ∀ n, Good g.cdata g.comps n

/-- What `fix_chain_lengths` relies on: a component of a chain set names the
node owning the set, the node named by its next component is a parent, and a
parent lists the node as a child. -/
structure FixCtx (cd : Ptr → CData) (m : Comp → PathComponent) : Prop where
  node : ∀ x c, c ∈ (cd x).chains → (m c).node = x
  anchored : ∀ x c nx, c ∈ (cd x).chains → (m c).next = some nx →
    (m nx).node ∈ (cd x).up
  child : ∀ x p, p ∈ (cd x).up → ∃ d, d ∈ (cd p).down ∧ d.child = x

/-- The state after `add_child(3, 0)` on node 2 of `anchoredGraph`. -/
def twoEdgeGraph : Graph :=
  match add_child 3 anchoredGraph 2 3 0 with
  | .ok g => g
  | .error _ => emptyGraph

/-- A chain of three nodes with one path: node 1 is the parent of node 2, node 2
the parent of node 3; the component 1 of node 1 is TOP, the component 2 of node 2
has it as its next, and the component 3 of node 3 has the component 2 as its
next. -/
def chainGraph : Graph :=
  match get_component twoEdgeGraph (some 2) 3 with
  | .ok r => r.1
  | .error _ => emptyGraph

/-! ## Anchoring on `add_child` -/

/-- The state `anchoredGraph` after `get_top_component(3)`: the node 3 has no
parent and the TOP component 3. -/
def rootedGraph : Graph :=
  (get_top_component anchoredGraph 3).1

/-! ## The state left by `remove_all_children` -/

/-- The state left by `remove_all_children` on node 1 of `oneChildGraph`: the
up-set of node 2 is empty, the down-list of node 1 still holds the connection to
node 2. -/
def halfRemovedGraph : Graph :=
  valueOr (remove_all_children 2 oneChildGraph 1) emptyGraph

/-! # Theorems -/

/-! ## Containers -/

theorem setAt_same {α : Type} (f : Nat → α) (k : Nat) (v : α) : setAt f k v k = v := by
  simp [setAt]

theorem setAt_other {α : Type} (f : Nat → α) (k : Nat) (v : α) (x : Nat) (h : x ≠ k) :
    setAt f k v x = f x := by
  simp [setAt, h]

theorem mem_setErase (l : List Nat) (x y : Nat) : y ∈ setErase l x ↔ y ∈ l ∧ y ≠ x := by
  simp [setErase]

theorem not_mem_setErase (l : List Nat) (x : Nat) : x ∉ setErase l x := by
  simp [setErase]

theorem setErase_of_not_mem (l : List Nat) (x : Nat) (h : x ∉ l) : setErase l x = l := by
  unfold setErase
  rw [List.filter_eq_self]
  intro a ha
  have : a ≠ x := fun e => h (e ▸ ha)
  simpa using this

theorem mem_setInsert (l : List Nat) (x y : Nat) : y ∈ setInsert l x ↔ y ∈ l ∨ y = x := by
  unfold setInsert
  split
  · constructor
    · intro h; exact Or.inl h
    · rintro (h | h)
      · exact h
      · subst h; assumption
  · simp

theorem count_setInsert_self (l : List Nat) (x : Nat) (h : x ∉ l) :
    (setInsert l x).count x = 1 := by
  simp [setInsert, h, List.count_eq_zero_of_not_mem h]

theorem count_setInsert_other (l : List Nat) (x y : Nat) (h : y ≠ x) :
    (setInsert l x).count y = l.count y := by
  unfold setInsert
  split
  · rfl
  · rw [List.count_append]
    have : [x].count y = 0 := by
      apply List.count_eq_zero_of_not_mem
      simpa using h
    omega

theorem count_setErase_other (l : List Nat) (x y : Nat) (h : y ≠ x) :
    (setErase l x).count y = l.count y := by
  unfold setErase
  induction l with
  | nil => rfl
  | cons a t ih =>
    by_cases hax : a = x
    · subst hax
      have : decide (a ≠ a) = false := by simp
      rw [List.filter_cons_of_neg (by simp), ih, List.count_cons_of_ne h]
    · rw [List.filter_cons_of_pos (by simpa using hax)]
      by_cases hay : a = y
      · subst hay
        simpa using ih
      · rw [List.count_cons_of_ne (Ne.symm hay), List.count_cons_of_ne (Ne.symm hay), ih]

theorem edgeCount_downInsert (ds : List DownConnection) (e : DownConnection) (c : Ptr) :
    edgeCount (downInsert ds e) c = edgeCount ds c + (if e.child = c then 1 else 0) := by
  induction ds with
  | nil => simp [downInsert, edgeCount, List.countP_cons]
  | cons d t ih =>
    unfold downInsert
    split
    · simp only [edgeCount, List.countP_cons, decide_eq_true_eq]
    · simp only [edgeCount, List.countP_cons, decide_eq_true_eq] at ih ⊢
      omega

theorem eraseChild_none (ds : List DownConnection) (c : Ptr) :
    eraseChild ds c = none ↔ edgeCount ds c = 0 := by
  induction ds with
  | nil => simp [eraseChild, edgeCount]
  | cons d t ih =>
    unfold eraseChild
    by_cases h : d.child = c
    · simp [h, edgeCount, List.countP_cons]
    · simp only [h, if_false]
      have hc : edgeCount (d :: t) c = edgeCount t c := by
        simp [edgeCount, List.countP_cons, h]
      rw [hc, ← ih]
      cases eraseChild t c <;> simp

theorem eraseChild_some (ds r : List DownConnection) (c : Ptr)
    (h : eraseChild ds c = some r) :
    edgeCount r c + 1 = edgeCount ds c ∧
      ∀ x, x ≠ c → edgeCount r x = edgeCount ds x := by
  induction ds generalizing r with
  | nil => simp [eraseChild] at h
  | cons d t ih =>
    unfold eraseChild at h
    by_cases hd : d.child = c
    · simp only [hd, if_true, Option.some.injEq] at h
      subst h
      constructor
      · simp [edgeCount, List.countP_cons, hd]
      · intro x hx
        have : ¬ d.child = x := by rw [hd]; exact Ne.symm hx
        simp [edgeCount, List.countP_cons, this]
    · simp only [hd, if_false] at h
      cases ht : eraseChild t c with
      | none => rw [ht] at h; simp at h
      | some r1 =>
        rw [ht] at h
        simp only [Option.some.injEq] at h
        subst h
        obtain ⟨h1, h2⟩ := ih r1 ht
        constructor
        · simp only [edgeCount, List.countP_cons, decide_eq_true_eq, hd, if_false] at h1 ⊢
          omega
        · intro x hx
          have := h2 x hx
          simp only [edgeCount, List.countP_cons, decide_eq_true_eq] at this ⊢
          omega

theorem findChildLoop_none (ds : List DownConnection) (c : Ptr) (i : Nat)
    (h : ∀ d ∈ ds, d.child ≠ c) : findChildLoop ds c i = -1 := by
  induction ds generalizing i with
  | nil => rfl
  | cons d t ih =>
    unfold findChildLoop
    have hd : d.child ≠ c := h d (List.mem_cons_self _ _)
    simp only [hd, if_false]
    exact ih (i + 1) (fun x hx => h x (List.mem_cons_of_mem _ hx))

theorem findChildLoop_some (ds : List DownConnection) (c : Ptr) (i : Nat)
    (h : ∃ d ∈ ds, d.child = c) :
    ∃ k : Nat, findChildLoop ds c i = ((i + k : Nat) : Int) ∧ k < ds.length ∧
      (∃ d, ds[k]? = some d ∧ d.child = c) ∧
      ∀ j d, j < k → ds[j]? = some d → d.child ≠ c := by
  induction ds generalizing i with
  | nil => simp at h
  | cons d t ih =>
    unfold findChildLoop
    by_cases hd : d.child = c
    · refine ⟨0, by simp [hd], by simp, ⟨d, by simp, hd⟩, ?_⟩
      intro j _ hj
      omega
    · have ht : ∃ x ∈ t, x.child = c := by
        obtain ⟨x, hx, hxc⟩ := h
        rcases List.mem_cons.mp hx with e | e
        · subst e; exact absurd hxc hd
        · exact ⟨x, e, hxc⟩
      obtain ⟨k, hk1, hk2, ⟨x, hx1, hx2⟩, hk4⟩ := ih (i + 1) ht
      refine ⟨k + 1, ?_, by simp; omega, ⟨x, by simpa using hx1, hx2⟩, ?_⟩
      · simp only [hd, if_false, hk1]
        congr 1
        omega
      · intro j y hj hy
        cases j with
        | zero =>
          simp at hy
          subst hy
          exact hd
        | succ j =>
          simp at hy
          exact hk4 j y (by omega) hy

theorem edgeCount_eq_zero (ds : List DownConnection) (c : Ptr) :
    edgeCount ds c = 0 ↔ ∀ d ∈ ds, d.child ≠ c := by
  simp [edgeCount, List.countP_eq_zero]

theorem edgeCount_pos (ds : List DownConnection) (c : Ptr) :
    0 < edgeCount ds c ↔ ∃ d ∈ ds, d.child = c := by
  simp [edgeCount, List.countP_pos_iff]

/-! ## Frame facts: what each helper leaves alone -/

theorem sameEdges_refl (g : Graph) : SameEdges g g := fun _ => ⟨Eq.refl _, Eq.refl _⟩

theorem sameEdges_trans {g1 g2 g3 : Graph} (h1 : SameEdges g1 g2) (h2 : SameEdges g2 g3) :
    SameEdges g1 g3 := fun n =>
  ⟨(h2 n).1.trans (h1 n).1, (h2 n).2.trans (h1 n).2⟩

theorem sameButLength_refl (m : Comp → PathComponent) : SameButLength m m :=
  fun _ => ⟨Eq.refl _, Eq.refl _, Eq.refl _⟩

theorem sameButLength_trans {m1 m2 m3 : Comp → PathComponent} (h1 : SameButLength m1 m2)
    (h2 : SameButLength m2 m3) : SameButLength m1 m3 := fun c =>
  ⟨(h2 c).1.trans (h1 c).1, (h2 c).2.1.trans (h1 c).2.1, (h2 c).2.2.trans (h1 c).2.2⟩

@[simp] theorem setChains_down (g : Graph) (n x : Ptr) (cs : List Comp) :
    ((setChains g n cs).cdata x).down = (g.cdata x).down := by
  unfold setChains setAt
  by_cases h : x = n <;> simp [h]

@[simp] theorem setChains_up (g : Graph) (n x : Ptr) (cs : List Comp) :
    ((setChains g n cs).cdata x).up = (g.cdata x).up := by
  unfold setChains setAt
  by_cases h : x = n <;> simp [h]

theorem setChains_chains (g : Graph) (n x : Ptr) (cs : List Comp) :
    ((setChains g n cs).cdata x).chains = if x = n then cs else (g.cdata x).chains := by
  unfold setChains setAt
  by_cases h : x = n <;> simp [h]

@[simp] theorem setChains_comps (g : Graph) (n : Ptr) (cs : List Comp) :
    (setChains g n cs).comps = g.comps := Eq.refl _

@[simp] theorem setChains_stale (g : Graph) (n : Ptr) (cs : List Comp) :
    (setChains g n cs).stale = g.stale := Eq.refl _

@[simp] theorem setChains_fresh (g : Graph) (n : Ptr) (cs : List Comp) :
    (setChains g n cs).fresh = g.fresh := Eq.refl _

theorem setDown_down (g : Graph) (n x : Ptr) (ds : List DownConnection) :
    ((setDown g n ds).cdata x).down = if x = n then ds else (g.cdata x).down := by
  unfold setDown setAt
  by_cases h : x = n <;> simp [h]

@[simp] theorem setDown_up (g : Graph) (n x : Ptr) (ds : List DownConnection) :
    ((setDown g n ds).cdata x).up = (g.cdata x).up := by
  unfold setDown setAt
  by_cases h : x = n <;> simp [h]

@[simp] theorem setDown_chains (g : Graph) (n x : Ptr) (ds : List DownConnection) :
    ((setDown g n ds).cdata x).chains = (g.cdata x).chains := by
  unfold setDown setAt
  by_cases h : x = n <;> simp [h]

@[simp] theorem setDown_comps (g : Graph) (n : Ptr) (ds : List DownConnection) :
    (setDown g n ds).comps = g.comps := Eq.refl _

@[simp] theorem setDown_stale (g : Graph) (n : Ptr) (ds : List DownConnection) :
    (setDown g n ds).stale = g.stale := Eq.refl _

@[simp] theorem setDown_fresh (g : Graph) (n : Ptr) (ds : List DownConnection) :
    (setDown g n ds).fresh = g.fresh := Eq.refl _

theorem setUp_up (g : Graph) (n x : Ptr) (us : List Ptr) :
    ((setUp g n us).cdata x).up = if x = n then us else (g.cdata x).up := by
  unfold setUp setAt
  by_cases h : x = n <;> simp [h]

@[simp] theorem setUp_down (g : Graph) (n x : Ptr) (us : List Ptr) :
    ((setUp g n us).cdata x).down = (g.cdata x).down := by
  unfold setUp setAt
  by_cases h : x = n <;> simp [h]

@[simp] theorem setUp_chains (g : Graph) (n x : Ptr) (us : List Ptr) :
    ((setUp g n us).cdata x).chains = (g.cdata x).chains := by
  unfold setUp setAt
  by_cases h : x = n <;> simp [h]

@[simp] theorem setUp_comps (g : Graph) (n : Ptr) (us : List Ptr) :
    (setUp g n us).comps = g.comps := Eq.refl _

@[simp] theorem setUp_stale (g : Graph) (n : Ptr) (us : List Ptr) :
    (setUp g n us).stale = g.stale := Eq.refl _

@[simp] theorem setUp_fresh (g : Graph) (n : Ptr) (us : List Ptr) :
    (setUp g n us).fresh = g.fresh := Eq.refl _

/-- A property kept by every successful step is kept by a successful fold. -/
theorem foldlM_invariant {α β : Type} (f : β → α → Except Fault β) (P : β → Prop)
    (l : List α) (hstep : ∀ b a b1, a ∈ l → P b → f b a = .ok b1 → P b1) :
    ∀ b r, P b → l.foldlM f b = .ok r → P r := by
  induction l with
  | nil =>
    intro b r hb h
    simp only [List.foldlM_nil, pure, Except.pure, Except.ok.injEq] at h
    exact h ▸ hb
  | cons a t ih =>
    intro b r hb h
    simp only [List.foldlM_cons, bind, Except.bind] at h
    cases hfa : f b a with
    | error e => rw [hfa] at h; simp at h
    | ok b1 =>
      rw [hfa] at h
      exact ih (fun b2 a2 b3 ha2 => hstep b2 a2 b3 (List.mem_cons_of_mem _ ha2)) b1 r
        (hstep b a b1 (List.mem_cons_self _ _) hb hfa) h

/-- A fold succeeds when every step does. -/
theorem foldlM_total {α β : Type} (f : β → α → Except Fault β) (l : List α)
    (hstep : ∀ b a, a ∈ l → ∃ b1, f b a = .ok b1) :
    ∀ b, ∃ r, l.foldlM f b = .ok r := by
  induction l with
  | nil => intro b; exact ⟨b, Eq.refl _⟩
  | cons a t ih =>
    intro b
    obtain ⟨b1, hb1⟩ := hstep b a (List.mem_cons_self _ _)
    obtain ⟨r, hr⟩ := ih (fun b2 a2 ha2 => hstep b2 a2 (List.mem_cons_of_mem _ ha2)) b1
    refine ⟨r, ?_⟩
    simp only [List.foldlM_cons, bind, Except.bind, hb1]
    exact hr

theorem fix_length_frame (m : Comp → PathComponent) (c : Comp) :
    SameButLength m (fix_length m c).1 := by
  intro x
  unfold fix_length
  split
  · exact ⟨Eq.refl _, Eq.refl _, Eq.refl _⟩
  · by_cases hx : x = c
    · subst hx; simp [setAt]
    · simp [setAt, hx]

theorem fix_chains_frame (l : List Comp) :
    ∀ m, SameButLength m (fix_chains m l).1 := by
  induction l with
  | nil => intro m; exact sameButLength_refl m
  | cons c cs ih =>
    intro m
    exact sameButLength_trans (fix_length_frame m c) (ih _)

theorem fix_chain_lengths_frame (cd : Ptr → CData) :
    ∀ fuel m n m1, fix_chain_lengths fuel cd m n = .ok m1 → SameButLength m m1 := by
  intro fuel
  induction fuel with
  | zero => intro m n m1 h; simp [fix_chain_lengths] at h
  | succ k ih =>
    intro m n m1 h
    unfold fix_chain_lengths at h
    simp only at h
    split at h
    · refine foldlM_invariant _ (fun x => SameButLength m x) _ ?_ _ _
        (fix_chains_frame _ m) h
      intro b a b1 _ hb hstep
      exact sameButLength_trans hb (ih b a.child b1 hstep)
    · simp only [Except.ok.injEq] at h
      exact h ▸ fix_chains_frame _ m

/-- On a graph whose children are strictly lower than their parents,
`fix_chain_lengths` returns as soon as the fuel exceeds the height of the
node. -/
theorem fix_chain_lengths_total (cd : Ptr → CData) (hgt : Ptr → Nat)
    (hr : ∀ n d, d ∈ (cd n).down → hgt d.child < hgt n) :
    ∀ fuel m n, hgt n < fuel → ∃ m1, fix_chain_lengths fuel cd m n = .ok m1 := by
  intro fuel
  induction fuel with
  | zero => intro m n h; omega
  | succ k ih =>
    intro m n h
    unfold fix_chain_lengths
    simp only
    split
    · apply foldlM_total
      intro b a ha
      exact ih b a.child (by have := hr n a ha; omega)
    · exact ⟨_, Eq.refl _⟩

/-- On a graph whose parents are strictly shallower than their children,
`mark_bound_stale` returns as soon as the fuel exceeds the depth of the node. -/
theorem mark_bound_stale_total (cd : Ptr → CData) (dpt : Ptr → Nat)
    (hr : ∀ n p, p ∈ (cd n).up → dpt p < dpt n) :
    ∀ fuel st n, dpt n < fuel → ∃ st1, mark_bound_stale fuel cd st n = .ok st1 := by
  intro fuel
  induction fuel with
  | zero => intro st n h; omega
  | succ k ih =>
    intro st n h
    unfold mark_bound_stale
    split
    · exact ⟨_, Eq.refl _⟩
    · apply foldlM_total
      intro b a ha
      exact ih b a (by have := hr n a ha; omega)

theorem force_bound_stale_total (cd : Ptr → CData) (dpt : Ptr → Nat)
    (hr : ∀ n p, p ∈ (cd n).up → dpt p < dpt n) (fuel : Nat) (st : Ptr → Bool) (n : Ptr)
    (h : dpt n ≤ fuel) : ∃ st1, force_bound_stale fuel cd st n = .ok st1 := by
  unfold force_bound_stale propagate_stale_bound
  apply foldlM_total
  intro b a ha
  exact mark_bound_stale_total cd dpt hr fuel b a (by have := hr n a ha; omega)

theorem sever_node (this : Ptr) (l : List Comp) :
    ∀ m chains collapsed c, ((sever this m chains collapsed l).1 c).node = (m c).node := by
  induction l with
  | nil => intro m chains collapsed c; rfl
  | cons ci rest ih =>
    intro m chains collapsed c
    unfold sever
    split
    · cases collapsed with
      | none =>
        simp only
        rw [ih]
        unfold set_top_node setAt
        by_cases h : c = ci
        · subst h; simp
        · simp [h]
      | some k =>
        simp only
        rw [ih]
        unfold collapse_with setAt
        by_cases h : c = ci
        · subst h; simp
        · simp [h]
    · exact ih _ _ _ _

theorem sever_chains_subset (this : Ptr) (l : List Comp) :
    ∀ m chains collapsed c, c ∈ (sever this m chains collapsed l).2 → c ∈ chains := by
  induction l with
  | nil => intro m chains collapsed c h; exact h
  | cons ci rest ih =>
    intro m chains collapsed c h
    unfold sever at h
    split at h
    · cases collapsed with
      | none => exact ih _ _ _ _ h
      | some k =>
        have := ih _ _ _ _ h
        exact ((mem_setErase _ _ _).mp this).1
    · exact ih _ _ _ _ h

theorem severAndFix_frame (fuel : Nat) (g g1 : Graph) (this child_node : Ptr)
    (h : severAndFix fuel g this child_node = .ok g1) :
    SameEdges g g1 ∧ g1.stale = g.stale ∧ g1.fresh = g.fresh ∧
      (∀ c, (g1.comps c).node = (g.comps c).node) ∧
      (∀ n c, c ∈ (g1.cdata n).chains → c ∈ (g.cdata n).chains) := by
  unfold severAndFix at h
  simp only at h
  split at h
  · simp at h
  · rename_i m hm
    simp only [Except.ok.injEq] at h
    subst h
    have hf := fix_chain_lengths_frame _ _ _ _ _ hm
    refine ⟨fun n => ⟨by simp, by simp⟩, Eq.refl _, Eq.refl _, ?_, ?_⟩
    · intro c
      rw [(hf c).1]
      simp only [setChains_comps]
      exact sever_node _ _ _ _ _ _
    · intro n c hc
      simp only [setChains_chains] at hc
      split at hc
      · rename_i hn
        subst hn
        exact sever_chains_subset _ _ _ _ _ _ hc
      · exact hc

theorem severAndFix_wf (fuel : Nat) (g g1 : Graph) (this child_node : Ptr)
    (h : severAndFix fuel g this child_node = .ok g1) (hwf : ChainsWF g) : ChainsWF g1 := by
  obtain ⟨_, _, hfresh, hnode, hsub⟩ := severAndFix_frame fuel g g1 this child_node h
  intro n c hc
  have := hwf n c (hsub n c hc)
  rw [hnode, hfresh]
  exact this

theorem severAndFix_total (fuel : Nat) (g : Graph) (this child_node : Ptr) (hgt : Ptr → Nat)
    (hr : ∀ n d, d ∈ (g.cdata n).down → hgt d.child < hgt n)
    (hf : hgt child_node < fuel) : ∃ g1, severAndFix fuel g this child_node = .ok g1 := by
  unfold severAndFix
  simp only
  obtain ⟨m1, hm1⟩ := fix_chain_lengths_total
    (setChains { g with comps := (sever this g.comps (g.cdata child_node).chains none
      (g.cdata child_node).chains).1 } child_node
      (sever this g.comps (g.cdata child_node).chains none (g.cdata child_node).chains).2).cdata
    hgt (by intro n d hd; simp only [setChains_down] at hd; exact hr n d hd) fuel
    (sever this g.comps (g.cdata child_node).chains none (g.cdata child_node).chains).1
    child_node hf
  simp only [setChains_comps] at hm1 ⊢
  rw [hm1]
  exact ⟨_, Eq.refl _⟩

theorem forceStale_frame (fuel : Nat) (g g1 : Graph) (this : Ptr)
    (h : forceStale fuel g this = .ok g1) :
    g1.cdata = g.cdata ∧ g1.comps = g.comps ∧ g1.fresh = g.fresh := by
  unfold forceStale at h
  split at h
  · simp at h
  · simp only [Except.ok.injEq] at h
    subst h
    exact ⟨Eq.refl _, Eq.refl _, Eq.refl _⟩

theorem forceStale_total (fuel : Nat) (g : Graph) (this : Ptr) (dpt : Ptr → Nat)
    (hr : ∀ n p, p ∈ (g.cdata n).up → dpt p < dpt n) (hf : dpt this ≤ fuel) :
    ∃ g1, forceStale fuel g this = .ok g1 := by
  unfold forceStale
  obtain ⟨st, hst⟩ := force_bound_stale_total g.cdata dpt hr fuel g.stale this hf
  rw [hst]
  exact ⟨_, Eq.refl _⟩

/-! ## Component lookup -/

theorem newComponent_cdata (g : Graph) (node : Ptr) (next : Option Comp) :
    (newComponent g node next).1.cdata = g.cdata := Eq.refl _

theorem get_top_component_edges (g : Graph) (c : Ptr) :
    SameEdges g (get_top_component g c).1 := by
  unfold get_top_component
  split
  · exact sameEdges_refl g
  · intro n
    simp [newComponent_cdata]

theorem get_top_component_wf (g : Graph) (c : Ptr) (hwf : ChainsWF g) :
    ChainsWF (get_top_component g c).1 ∧
      ((get_top_component g c).1.comps (get_top_component g c).2).node = c := by
  unfold get_top_component
  split
  · rename_i ci hci
    exact ⟨hwf, (hwf c ci (List.mem_of_find?_eq_some hci)).1⟩
  · constructor
    · intro n x hx
      simp only [setChains_chains, newComponent_cdata] at hx
      simp only [setChains_comps, setChains_fresh, newComponent]
      have hold : x ∈ (g.cdata n).chains → (setAt g.comps g.fresh
          { node := c, next := none, length := 0, collapsed := none } x).node = n
            ∧ x < g.fresh + 1 := by
        intro hm
        have := hwf n x hm
        rw [setAt_other _ _ _ _ (Nat.ne_of_lt this.2)]
        exact ⟨this.1, Nat.lt_succ_of_lt this.2⟩
      split at hx
      · rename_i hn
        subst hn
        rcases (mem_setInsert _ _ _).mp hx with h1 | h1
        · exact hold h1
        · simp only [newComponent] at h1
          subst h1
          rw [setAt_same]
          exact ⟨Eq.refl _, Nat.lt_succ_self _⟩
      · exact hold hx
    · simp [newComponent, setAt_same]

theorem find_parent_nonneg (g : Graph) (this node : Ptr) (h : node ∈ (g.cdata this).up) :
    find_parent g this node ≥ 0 := by
  unfold find_parent
  split
  · omega
  · rename_i hn
    rw [List.indexOf?, List.findIdx?_eq_none_iff] at hn
    have := hn node h
    simp at this

theorem get_component_edges (g : Graph) (parent : Option Comp) (c : Ptr)
    (r : Graph × Option Comp) (h : get_component g parent c = .ok r) : SameEdges g r.1 := by
  unfold get_component at h
  split at h
  · simp at h
  · split at h
    · simp only [Except.ok.injEq] at h
      subst h
      exact sameEdges_refl g
    · split at h
      · simp only [Except.ok.injEq] at h
        subst h
        intro n
        simp [newComponent_cdata]
      · simp only [Except.ok.injEq] at h
        subst h
        exact sameEdges_refl g

theorem get_component_wf (g : Graph) (p : Comp) (c : Ptr) (hwf : ChainsWF g)
    (hp : (g.comps p).node ∈ (g.cdata c).up) :
    ∃ g1 k, get_component g (some p) c = .ok (g1, some k) ∧ ChainsWF g1 ∧
      (g1.comps k).node = c := by
  unfold get_component
  simp only
  split
  · rename_i ci hci
    exact ⟨g, ci, Eq.refl _, hwf, (hwf c ci (List.mem_of_find?_eq_some hci)).1⟩
  · rw [if_pos (find_parent_nonneg g c _ hp)]
    refine ⟨_, _, Eq.refl _, ?_, ?_⟩
    · intro n x hx
      simp only [setChains_chains, newComponent_cdata] at hx
      simp only [setChains_comps, setChains_fresh, newComponent]
      have hold : x ∈ (g.cdata n).chains → (setAt g.comps g.fresh
          { node := c, next := some p, length := (g.comps p).length + 1,
            collapsed := none } x).node = n ∧ x < g.fresh + 1 := by
        intro hm
        have := hwf n x hm
        rw [setAt_other _ _ _ _ (Nat.ne_of_lt this.2)]
        exact ⟨this.1, Nat.lt_succ_of_lt this.2⟩
      split at hx
      · rename_i hn
        subst hn
        rcases (mem_setInsert _ _ _).mp hx with h1 | h1
        · exact hold h1
        · simp only [newComponent] at h1
          subst h1
          rw [setAt_same]
          exact ⟨Eq.refl _, Nat.lt_succ_self _⟩
      · exact hold hx
    · simp [newComponent, setAt_same]

theorem get_generic_component_edges :
    ∀ fuel g this r, get_generic_component fuel g this = .ok r → SameEdges g r.1 := by
  intro fuel
  induction fuel with
  | zero => intro g this r h; simp [get_generic_component] at h
  | succ k ih =>
    intro g this r h
    unfold get_generic_component at h
    split at h
    · simp only [Except.ok.injEq] at h
      subst h
      exact get_top_component_edges g this
    · split at h
      · simp at h
      · rename_i r1 hr1
        exact sameEdges_trans (ih _ _ _ hr1) (get_component_edges _ _ _ _ h)

theorem get_parent_mem (g : Graph) (this : Ptr) (h : get_num_parents g this ≠ 0) :
    get_parent g this 0 ∈ (g.cdata this).up := by
  unfold get_num_parents at h
  unfold get_parent
  cases hup : (g.cdata this).up with
  | nil => rw [hup] at h; simp at h
  | cons a t => simp

/-- On a graph whose parents are strictly shallower than their children and
whose chain sets are well formed, `get_generic_component` returns a non-null
component of the node as soon as the fuel exceeds the depth of the node. -/
theorem get_generic_component_total (dpt : Ptr → Nat) :
    ∀ fuel g this, (∀ n p, p ∈ (g.cdata n).up → dpt p < dpt n) → ChainsWF g →
      dpt this < fuel →
      ∃ g1 k, get_generic_component fuel g this = .ok (g1, some k) ∧ ChainsWF g1 ∧
        (g1.comps k).node = this ∧ SameEdges g g1 := by
  intro fuel
  induction fuel with
  | zero => intro g this _ _ h; omega
  | succ f ih =>
    intro g this hr hwf hf
    unfold get_generic_component
    split
    · exact ⟨_, _, Eq.refl _, (get_top_component_wf g this hwf).1,
        (get_top_component_wf g this hwf).2, get_top_component_edges g this⟩
    · rename_i hnp
      have hmem := get_parent_mem g this hnp
      obtain ⟨g1, k1, hk1, hwf1, hnode1, hse1⟩ :=
        ih g (get_parent g this 0) hr hwf (by have := hr _ _ hmem; omega)
      rw [hk1]
      simp only
      have hp : (g1.comps k1).node ∈ (g1.cdata this).up := by
        rw [hnode1, (hse1 this).2]
        exact hmem
      obtain ⟨g2, k2, hk2, hwf2, hnode2⟩ := get_component_wf g1 k1 this hwf1 hp
      exact ⟨g2, k2, hk2, hwf2, hnode2,
        sameEdges_trans hse1 (get_component_edges _ _ _ _ hk2)⟩

theorem anchorLoop_edges (fuel : Nat) (this : Ptr) (l : List Comp) :
    ∀ g g1, anchorLoop fuel this g l = .ok g1 → SameEdges g g1 := by
  induction l with
  | nil =>
    intro g g1 h
    simp only [anchorLoop, Except.ok.injEq] at h
    exact h ▸ sameEdges_refl g
  | cons ci rest ih =>
    intro g g1 h
    unfold anchorLoop at h
    split at h
    · split at h
      · simp at h
      · rename_i r hr
        have h1 := get_generic_component_edges _ _ _ _ hr
        have h2 := ih _ _ h
        exact sameEdges_trans h1 h2
    · exact ih _ _ h

theorem anchorLoop_total (fuel : Nat) (this : Ptr) (dpt : Ptr → Nat) (hf : dpt this < fuel)
    (l : List Comp) :
    ∀ g, (∀ n p, p ∈ (g.cdata n).up → dpt p < dpt n) → ChainsWF g →
      ∃ g1, anchorLoop fuel this g l = .ok g1 ∧ ChainsWF g1 := by
  induction l with
  | nil => intro g _ hwf; exact ⟨g, Eq.refl _, hwf⟩
  | cons ci rest ih =>
    intro g hr hwf
    unfold anchorLoop
    split
    · obtain ⟨g1, k, hk, hwf1, _, hse⟩ :=
        get_generic_component_total dpt fuel g this hr hwf hf
      rw [hk]
      simp only
      apply ih
      · intro n p hp
        have : p ∈ (g.cdata n).up := by rw [← (hse n).2]; exact hp
        exact hr n p this
      · intro n c hc
        have := hwf1 n c hc
        refine ⟨?_, this.2⟩
        rw [← this.1]
        unfold set_next setAt
        by_cases hci : c = ci
        · subst hci; simp
        · simp [hci]
    · exact ih g hr hwf

/-! ## The edges after `remove_child` and `add_child` -/

theorem eraseChild_subset (ds r : List DownConnection) (c : Ptr)
    (h : eraseChild ds c = some r) : ∀ d, d ∈ r → d ∈ ds := by
  induction ds generalizing r with
  | nil => simp [eraseChild] at h
  | cons a t ih =>
    unfold eraseChild at h
    by_cases ha : a.child = c
    · simp only [ha, if_true, Option.some.injEq] at h
      subst h
      intro d hd
      exact List.mem_cons_of_mem _ hd
    · simp only [ha, if_false] at h
      cases ht : eraseChild t c with
      | none => rw [ht] at h; simp at h
      | some r1 =>
        rw [ht] at h
        simp only [Option.some.injEq] at h
        subst h
        intro d hd
        rcases List.mem_cons.mp hd with e | e
        · subst e; exact List.mem_cons_self _ _
        · exact List.mem_cons_of_mem _ (ih r1 ht d e)

theorem mem_downInsert (ds : List DownConnection) (e d : DownConnection) :
    d ∈ downInsert ds e ↔ d = e ∨ d ∈ ds := by
  induction ds with
  | nil => simp [downInsert]
  | cons a t ih =>
    unfold downInsert
    split
    · simp
    · simp only [List.mem_cons, ih]
      tauto

theorem numErased_eq_zero (l : List Nat) (x : Nat) : numErased l x = 0 ↔ x ∉ l := by
  unfold numErased
  exact List.count_eq_zero

/-- When `this` is not in the up-set of the child, `remove_child` returns false
at once and the state is the one it started from. -/
theorem remove_child_false (fuel : Nat) (g : Graph) (this c : Ptr)
    (h : this ∉ (g.cdata c).up) : remove_child fuel g this c = .ok (false, g) := by
  unfold remove_child
  simp only
  rw [if_pos ((numErased_eq_zero _ _).mpr h)]

/-- The edges after a `remove_child` that ran to completion. -/
theorem remove_child_ok (fuel : Nat) (g : Graph) (this c : Ptr) (b : Bool) (g1 : Graph)
    (h : remove_child fuel g this c = .ok (b, g1)) :
    (b = false ∧ this ∉ (g.cdata c).up ∧ g1 = g) ∨
    (b = true ∧ this ∈ (g.cdata c).up ∧
      ∃ ds, eraseChild (g.cdata this).down c = some ds ∧
        ∀ n, (g1.cdata n).down = (if n = this then ds else (g.cdata n).down) ∧
          (g1.cdata n).up = (if n = c then setErase (g.cdata c).up this
            else (g.cdata n).up)) := by
  unfold remove_child at h
  simp only at h
  split at h
  · rename_i hz
    simp only [Except.ok.injEq, Prod.mk.injEq] at h
    exact Or.inl ⟨h.1.symm, (numErased_eq_zero _ _).mp hz, h.2.symm⟩
  · rename_i hz
    have hmem : this ∈ (g.cdata c).up := by
      by_contra hc
      exact hz ((numErased_eq_zero _ _).mpr hc)
    split at h
    · simp at h
    · rename_i g2 hg2
      split at h
      · simp at h
      · rename_i ds hds
        split at h
        · simp at h
        · rename_i g3 hg3
          simp only [Except.ok.injEq, Prod.mk.injEq] at h
          obtain ⟨hse, _⟩ := severAndFix_frame _ _ _ _ _ hg2
          obtain ⟨hcd, _⟩ := forceStale_frame _ _ _ _ hg3
          refine Or.inr ⟨h.1.symm, hmem, ds, ?_, ?_⟩
          · rw [← hds, (hse this).1]
            simp
          · intro n
            rw [← h.2, hcd]
            constructor
            · rw [setDown_down]
              split
              · rfl
              · rw [(hse n).1]; simp
            · rw [setDown_up, (hse n).2, setUp_up]

theorem remove_child_wf (fuel : Nat) (g : Graph) (this c : Ptr) (b : Bool) (g1 : Graph)
    (h : remove_child fuel g this c = .ok (b, g1)) (hwf : ChainsWF g) : ChainsWF g1 := by
  unfold remove_child at h
  simp only at h
  split at h
  · simp only [Except.ok.injEq, Prod.mk.injEq] at h
    exact h.2 ▸ hwf
  · split at h
    · simp at h
    · rename_i g2 hg2
      split at h
      · simp at h
      · split at h
        · simp at h
        · rename_i g3 hg3
          simp only [Except.ok.injEq, Prod.mk.injEq] at h
          have hwf2 : ChainsWF g2 := by
            apply severAndFix_wf _ _ _ _ _ hg2
            intro n x hx
            simp only [setUp_chains] at hx
            exact hwf n x hx
          obtain ⟨hcd, hcm, hfr⟩ := forceStale_frame _ _ _ _ hg3
          rw [← h.2]
          intro n x hx
          rw [hcd] at hx
          simp only [setDown_chains] at hx
          rw [hcm, hfr]
          exact hwf2 n x hx

/-- On a graph without cycle, `remove_child` of a child that is listed on both
sides runs to completion and returns true once the fuel exceeds the height of
the child and the depth of the parent. -/
theorem remove_child_total (fuel : Nat) (g : Graph) (this c : Ptr) (hgt dpt : Ptr → Nat)
    (hr : Ranked g hgt dpt) (hmem : this ∈ (g.cdata c).up)
    (hedge : 0 < edgeCount (g.cdata this).down c)
    (hf1 : hgt c < fuel) (hf2 : dpt this ≤ fuel) :
    ∃ g1, remove_child fuel g this c = .ok (true, g1) := by
  unfold remove_child
  simp only
  rw [if_neg (fun hz => ((numErased_eq_zero _ _).mp hz) hmem)]
  obtain ⟨g2, hg2⟩ := severAndFix_total fuel
    (setUp g c (setErase (g.cdata c).up this)) this c hgt
    (by intro n d hd; simp only [setUp_down] at hd; exact hr.down_lt n d hd) hf1
  rw [hg2]
  simp only
  obtain ⟨hse, _⟩ := severAndFix_frame _ _ _ _ _ hg2
  cases hds : eraseChild (g2.cdata this).down c with
  | none =>
    rw [eraseChild_none, (hse this).1] at hds
    simp only [setUp_down] at hds
    omega
  | some ds =>
    simp only
    obtain ⟨g3, hg3⟩ := forceStale_total fuel (setDown g2 this ds) this dpt
      (by
        intro n p hp
        simp only [setDown_up] at hp
        rw [(hse n).2, setUp_up] at hp
        split at hp
        · rename_i hn
          subst hn
          exact hr.up_lt _ p ((mem_setErase _ _ _).mp hp).1
        · exact hr.up_lt n p hp) hf2
    rw [hg3]
    exact ⟨g3, Eq.refl _⟩

/-- The edges after an `add_child` that ran to completion, in terms of the state
left by its initial `remove_child`. -/
theorem add_child_ok (fuel : Nat) (g : Graph) (this c : Ptr) (s : Int) (g2 : Graph)
    (h : add_child fuel g this c s = .ok g2) :
    ∃ b g1, remove_child fuel g this c = .ok (b, g1) ∧
      ∀ n, (g2.cdata n).down =
          (if n = this then downInsert (g1.cdata this).down ⟨c, s⟩ else (g1.cdata n).down) ∧
        (g2.cdata n).up =
          (if n = c then setInsert (g1.cdata c).up this else (g1.cdata n).up) := by
  unfold add_child at h
  split at h
  · simp at h
  · rename_i r hr
    simp only at h
    split at h
    · simp at h
    · rename_i g3 hg3
      split at h
      · simp at h
      · rename_i m hm
        obtain ⟨hcd, _⟩ := forceStale_frame _ _ _ _ h
        have hse := anchorLoop_edges _ _ _ _ _ hg3
        refine ⟨r.1, r.2, hr, ?_⟩
        intro n
        rw [hcd]
        simp only
        rw [(hse n).1, (hse n).2, setUp_down, setDown_down, setUp_up, setDown_up, setDown_up]
        exact ⟨Eq.refl _, Eq.refl _⟩

theorem remove_child_subset (fuel : Nat) (g : Graph) (this c : Ptr) (b : Bool) (g1 : Graph)
    (h : remove_child fuel g this c = .ok (b, g1)) :
    (∀ n d, d ∈ (g1.cdata n).down → d ∈ (g.cdata n).down) ∧
      (∀ n p, p ∈ (g1.cdata n).up → p ∈ (g.cdata n).up) := by
  rcases remove_child_ok fuel g this c b g1 h with ⟨_, _, he⟩ | ⟨_, _, ds, hds, hall⟩
  · subst he
    exact ⟨fun _ _ hd => hd, fun _ _ hp => hp⟩
  · constructor
    · intro n d hd
      rw [(hall n).1] at hd
      split at hd
      · rename_i hn
        subst hn
        exact eraseChild_subset _ _ _ hds d hd
      · exact hd
    · intro n p hp
      rw [(hall n).2] at hp
      split at hp
      · rename_i hn
        subst hn
        exact ((mem_setErase _ _ _).mp hp).1
      · exact hp

/-- On a graph that stays without cycle when the edge is added and whose chain
sets are well formed, `add_child` runs to completion once the fuel exceeds the
height of the child and the depth of the parent. -/
theorem add_child_total (fuel : Nat) (g : Graph) (this c : Ptr) (s : Int)
    (hgt dpt : Ptr → Nat) (hr : Ranked g hgt dpt) (h1 : hgt c < hgt this)
    (h2 : dpt this < dpt c) (hwf : ChainsWF g)
    (hpair : this ∈ (g.cdata c).up → 0 < edgeCount (g.cdata this).down c)
    (hf1 : hgt c < fuel) (hf2 : dpt this < fuel) :
    ∃ g2, add_child fuel g this c s = .ok g2 ∧ ChainsWF g2 := by
  have hrem : ∃ b g1, remove_child fuel g this c = .ok (b, g1) := by
    by_cases hm : this ∈ (g.cdata c).up
    · obtain ⟨g1, hg1⟩ := remove_child_total fuel g this c hgt dpt hr hm (hpair hm) hf1
        (Nat.le_of_lt hf2)
      exact ⟨true, g1, hg1⟩
    · exact ⟨false, g, remove_child_false fuel g this c hm⟩
  obtain ⟨b, g1, hg1⟩ := hrem
  obtain ⟨hsd, hsu⟩ := remove_child_subset fuel g this c b g1 hg1
  have hwf1 := remove_child_wf fuel g this c b g1 hg1 hwf
  unfold add_child
  rw [hg1]
  simp only
  have hup : ∀ n p, p ∈ ((setUp (setDown g1 this
      (downInsert (g1.cdata this).down ⟨c, s⟩)) c
      (setInsert ((setDown g1 this (downInsert (g1.cdata this).down ⟨c, s⟩)).cdata c).up
        this)).cdata n).up → dpt p < dpt n := by
    intro n p hp
    simp only [setUp_up, setDown_up] at hp
    split at hp
    · rename_i hn
      subst hn
      rcases (mem_setInsert _ _ _).mp hp with e | e
      · exact hr.up_lt _ p (hsu _ p e)
      · subst e; exact h2
    · exact hr.up_lt n p (hsu n p hp)
  have hdown : ∀ n d, d ∈ ((setUp (setDown g1 this
      (downInsert (g1.cdata this).down ⟨c, s⟩)) c
      (setInsert ((setDown g1 this (downInsert (g1.cdata this).down ⟨c, s⟩)).cdata c).up
        this)).cdata n).down → hgt d.child < hgt n := by
    intro n d hd
    rw [setUp_down, setDown_down] at hd
    split at hd
    · rename_i hn
      subst hn
      rcases (mem_downInsert _ _ _).mp hd with e | e
      · subst e; exact h1
      · exact hr.down_lt _ d (hsd _ d e)
    · exact hr.down_lt n d (hsd n d hd)
  obtain ⟨g3, hg3, hwf3⟩ := anchorLoop_total fuel this dpt hf2
    ((setUp (setDown g1 this (downInsert (g1.cdata this).down ⟨c, s⟩)) c
      (setInsert ((setDown g1 this (downInsert (g1.cdata this).down ⟨c, s⟩)).cdata c).up
        this)).cdata c).chains
    (setUp (setDown g1 this (downInsert (g1.cdata this).down ⟨c, s⟩)) c
      (setInsert ((setDown g1 this (downInsert (g1.cdata this).down ⟨c, s⟩)).cdata c).up
        this)) hup
    (by
      intro n x hx
      simp only [setUp_chains, setDown_chains] at hx
      simpa using hwf1 n x hx)
  rw [hg3]
  simp only
  have hse := anchorLoop_edges _ _ _ _ _ hg3
  obtain ⟨m, hm⟩ := fix_chain_lengths_total g3.cdata hgt
    (by intro n d hd; rw [(hse n).1] at hd; exact hdown n d hd) fuel g3.comps c hf1
  rw [hm]
  simp only
  obtain ⟨g4, hg4⟩ := forceStale_total fuel { g3 with comps := m } this dpt
    (by intro n p hp; rw [(hse n).2] at hp; exact hup n p hp) (Nat.le_of_lt hf2)
  refine ⟨g4, hg4, ?_⟩
  obtain ⟨hcd, hcm, hfr⟩ := forceStale_frame _ _ _ _ hg4
  have hsl := fix_chain_lengths_frame _ _ _ _ _ hm
  intro n x hx
  rw [hcd] at hx
  rw [hcm, hfr]
  have := hwf3 n x hx
  exact ⟨by rw [← this.1]; exact (hsl x).1, this.2⟩

/-- The edges after an `add_child` that ran to completion. -/
theorem add_child_edges (fuel : Nat) (g : Graph) (this c : Ptr) (s : Int) (g2 : Graph)
    (h : add_child fuel g this c s = .ok g2) :
    ∃ ds0, ((this ∉ (g.cdata c).up ∧ ds0 = (g.cdata this).down) ∨
        (this ∈ (g.cdata c).up ∧ eraseChild (g.cdata this).down c = some ds0)) ∧
      ∀ n, (g2.cdata n).down =
          (if n = this then downInsert ds0 ⟨c, s⟩ else (g.cdata n).down) ∧
        (g2.cdata n).up =
          (if n = c then setInsert (setErase (g.cdata c).up this) this
            else (g.cdata n).up) := by
  obtain ⟨b, g1, hg1, hall⟩ := add_child_ok fuel g this c s g2 h
  rcases remove_child_ok fuel g this c b g1 hg1 with ⟨_, hm, he⟩ | ⟨_, hm, ds, hds, hall1⟩
  · subst he
    refine ⟨_, Or.inl ⟨hm, Eq.refl _⟩, ?_⟩
    intro n
    rw [setErase_of_not_mem _ _ hm]
    exact hall n
  · refine ⟨ds, Or.inr ⟨hm, hds⟩, ?_⟩
    intro n
    rw [(hall n).1, (hall n).2, (hall1 this).1, (hall1 n).1, (hall1 c).2, (hall1 n).2]
    simp only [if_true]
    constructor
    · split <;> rfl
    · split <;> rfl

theorem add_child_ranked (fuel : Nat) (g : Graph) (this c : Ptr) (s : Int) (g2 : Graph)
    (h : add_child fuel g this c s = .ok g2) (hgt dpt : Ptr → Nat) (hr : Ranked g hgt dpt)
    (h1 : hgt c < hgt this) (h2 : dpt this < dpt c) : Ranked g2 hgt dpt := by
  obtain ⟨ds0, hds0, hall⟩ := add_child_edges fuel g this c s g2 h
  have hsub : ∀ d, d ∈ ds0 → d ∈ (g.cdata this).down := by
    rcases hds0 with ⟨_, e⟩ | ⟨_, e⟩
    · subst e; exact fun _ hd => hd
    · exact eraseChild_subset _ _ _ e
  constructor
  · intro n d hd
    rw [(hall n).1] at hd
    split at hd
    · rename_i hn
      subst hn
      rcases (mem_downInsert _ _ _).mp hd with e | e
      · subst e; exact h1
      · exact hr.down_lt _ d (hsub d e)
    · exact hr.down_lt n d hd
  · intro n p hp
    rw [(hall n).2] at hp
    split at hp
    · rename_i hn
      subst hn
      rcases (mem_setInsert _ _ _).mp hp with e | e
      · exact hr.up_lt _ p ((mem_setErase _ _ _).mp e).1
      · subst e; exact h2
    · exact hr.up_lt n p hp

theorem find_child_eq_neg_one (g : Graph) (this c : Ptr) :
    find_child g this c = -1 ↔ edgeCount (g.cdata this).down c = 0 := by
  unfold find_child
  constructor
  · intro h
    by_contra hne
    have hpos : 0 < edgeCount (g.cdata this).down c := Nat.pos_of_ne_zero hne
    obtain ⟨k, hk, _⟩ := findChildLoop_some _ c 0 ((edgeCount_pos _ _).mp hpos)
    rw [hk] at h
    omega
  · intro h
    exact findChildLoop_none _ c 0 ((edgeCount_eq_zero _ _).mp h)

/-- The edge counts after an `add_child` that ran to completion from a state
satisfying the pair invariant: exactly one connection to the child, exactly one
entry for the parent. -/
theorem add_child_counts (fuel : Nat) (g : Graph) (this c : Ptr) (s : Int) (g2 : Graph)
    (h : add_child fuel g this c s = .ok g2) (hpair : EdgePair g this c) :
    edgeCount (g2.cdata this).down c = 1 ∧ (g2.cdata c).up.count this = 1 := by
  obtain ⟨ds0, hds0, hall⟩ := add_child_edges fuel g this c s g2 h
  have hz : edgeCount ds0 c = 0 := by
    unfold EdgePair at hpair
    rcases hds0 with ⟨hm, e⟩ | ⟨hm, e⟩
    · subst e
      rw [if_neg hm] at hpair
      exact hpair
    · rw [if_pos hm] at hpair
      have := (eraseChild_some _ _ _ e).1
      omega
  constructor
  · rw [(hall this).1, if_pos (Eq.refl _), edgeCount_downInsert, hz]
    simp
  · rw [(hall c).2, if_pos (Eq.refl _)]
    exact count_setInsert_self _ _ (not_mem_setErase _ _)

/-- In a state satisfying the pair invariant for `P` and `C`: after
`P.add_child(C, s)` the child is found by `find_child` and the
up-set of `C` holds exactly one entry for `P`; a following `P.remove_child(C)`
returns true, after which `find_child` answers `-1` and the up-set of `C` holds
no entry for `P`.  The state before satisfies the pair invariant for `P` and
`C`.  Both calls run to completion on a graph that has no cycle once the edge
is added and whose chain sets are well formed. -/
theorem add_child_then_remove_child (g : Graph) (P C : Ptr) (s : Int)
    (hpair : EdgePair g P C) :
    (∀ fuel g1, add_child fuel g P C s = .ok g1 →
      find_child g1 P C ≠ -1 ∧ (g1.cdata C).up.count P = 1 ∧
      ∀ fuel2 b g2, remove_child fuel2 g1 P C = .ok (b, g2) →
        b = true ∧ find_child g2 P C = -1 ∧ (g2.cdata C).up.count P = 0) ∧
    (∀ hgt dpt, Ranked g hgt dpt → hgt C < hgt P → dpt P < dpt C → ChainsWF g →
      ∀ fuel, hgt C < fuel → dpt P < fuel →
        ∃ g1 g2, add_child fuel g P C s = .ok g1 ∧
          remove_child fuel g1 P C = .ok (true, g2)) := by
  constructor
  · intro fuel g1 h1
    obtain ⟨hc1, hu1⟩ := add_child_counts fuel g P C s g1 h1 hpair
    refine ⟨?_, hu1, ?_⟩
    · intro hf
      rw [find_child_eq_neg_one] at hf
      omega
    · intro fuel2 b g2 h2
      rcases remove_child_ok fuel2 g1 P C b g2 h2 with ⟨_, hm, _⟩ | ⟨hb, _, ds, hds, hall⟩
      · exfalso
        have := List.count_eq_zero_of_not_mem hm
        omega
      · refine ⟨hb, ?_, ?_⟩
        · rw [find_child_eq_neg_one, (hall P).1, if_pos (Eq.refl _)]
          have := (eraseChild_some _ _ _ hds).1
          omega
        · rw [(hall C).2, if_pos (Eq.refl _)]
          exact List.count_eq_zero_of_not_mem (not_mem_setErase _ _)
  · intro hgt dpt hr hh hd hwf fuel hf1 hf2
    have hp : P ∈ (g.cdata C).up → 0 < edgeCount (g.cdata P).down C := by
      intro hm
      unfold EdgePair at hpair
      rw [if_pos hm] at hpair
      omega
    obtain ⟨g1, hg1, _⟩ := add_child_total fuel g P C s hgt dpt hr hh hd hwf hp hf1 hf2
    obtain ⟨hc1, hu1⟩ := add_child_counts fuel g P C s g1 hg1 hpair
    have hr1 := add_child_ranked fuel g P C s g1 hg1 hgt dpt hr hh hd
    have hm1 : P ∈ (g1.cdata C).up := by
      by_contra hc
      have := List.count_eq_zero_of_not_mem hc
      omega
    obtain ⟨g2, hg2⟩ := remove_child_total fuel g1 P C hgt dpt hr1 hm1 (by omega) hf1
      (Nat.le_of_lt hf2)
    exact ⟨g1, g2, hg1, hg2⟩

theorem emptyGraph_edgePair (n c : Ptr) : EdgePair emptyGraph n c := by
  simp [EdgePair, emptyGraph, edgeCount]

theorem emptyGraph_ranked (hgt dpt : Ptr → Nat) : Ranked emptyGraph hgt dpt := by
  constructor
  · intro n d hd; simp [emptyGraph] at hd
  · intro n p hp; simp [emptyGraph] at hp

theorem emptyGraph_chainsWF : ChainsWF emptyGraph := by
  intro n c hc
  simp [emptyGraph] at hc

/-- The two calls at a concrete input: node 1 adopts node 2 in the empty graph
and drops it
again. -/
theorem add_child_then_remove_child_witness :
    EdgePair emptyGraph 1 2 ∧
    ∃ g1 g2, add_child 2 emptyGraph 1 2 0 = .ok g1 ∧
      remove_child 2 g1 1 2 = .ok (true, g2) ∧
      find_child g1 1 2 ≠ -1 ∧ (g1.cdata 2).up.count 1 = 1 ∧
      find_child g2 1 2 = -1 ∧ (g2.cdata 2).up.count 1 = 0 := by
  refine ⟨emptyGraph_edgePair 1 2, ?_⟩
  have hthm := add_child_then_remove_child emptyGraph 1 2 0 (emptyGraph_edgePair 1 2)
  obtain ⟨g1, g2, h1, h2⟩ := hthm.2 (fun n => if n = 1 then 1 else 0)
    (fun n => if n = 2 then 1 else 0) (emptyGraph_ranked _ _) (by decide) (by decide)
    emptyGraph_chainsWF 2 (by decide) (by decide)
  obtain ⟨ha, hb, hc⟩ := hthm.1 2 g1 h1
  obtain ⟨_, hd, he⟩ := hc 2 true g2 h2
  exact ⟨g1, g2, h1, h2, ha, hb, hd, he⟩

theorem length_downInsert (ds : List DownConnection) (e : DownConnection) :
    (downInsert ds e).length = ds.length + 1 := by
  induction ds with
  | nil => rfl
  | cons d t ih =>
    unfold downInsert
    split
    · rfl
    · simp [ih]

theorem length_eraseChild (ds r : List DownConnection) (c : Ptr)
    (h : eraseChild ds c = some r) : r.length + 1 = ds.length := by
  induction ds generalizing r with
  | nil => simp [eraseChild] at h
  | cons d t ih =>
    unfold eraseChild at h
    by_cases hd : d.child = c
    · simp only [hd, if_true, Option.some.injEq] at h
      subst h
      rfl
    · simp only [hd, if_false] at h
      cases ht : eraseChild t c with
      | none => rw [ht] at h; simp at h
      | some r1 =>
        rw [ht] at h
        simp only [Option.some.injEq] at h
        subst h
        simp [ih r1 ht]

/-- With both halves of the edge pair present: when `P` already has `C` as a
child (one connection in the down-list of
`P`, and the reciprocal entry in the up-set of `C`), `P.add_child(C, s2)` leaves
the number of children of `P` unchanged, `C` occurs exactly once in the
down-list and every connection to `C` carries the sort `s2`.  The call runs to
completion on a graph without cycle whose chain sets are well formed. -/
theorem add_child_existing_replaces (g : Graph) (P C : Ptr) (s2 : Int)
    (hone : edgeCount (g.cdata P).down C = 1) (hup : P ∈ (g.cdata C).up) :
    (∀ fuel g1, add_child fuel g P C s2 = .ok g1 →
      (g1.cdata P).down.length = (g.cdata P).down.length ∧
      edgeCount (g1.cdata P).down C = 1 ∧
      ∀ d, d ∈ (g1.cdata P).down → d.child = C → d.sort = s2) ∧
    (∀ hgt dpt, Ranked g hgt dpt → ChainsWF g →
      ∀ fuel, hgt C < fuel → dpt P < fuel → ∃ g1, add_child fuel g P C s2 = .ok g1) := by
  have hpair : EdgePair g P C := by
    unfold EdgePair
    rw [if_pos hup]
    exact hone
  constructor
  · intro fuel g1 h1
    obtain ⟨ds0, hds0, hall⟩ := add_child_edges fuel g P C s2 g1 h1
    have hc := (add_child_counts fuel g P C s2 g1 h1 hpair).1
    rcases hds0 with ⟨hm, _⟩ | ⟨_, he⟩
    · exact absurd hup hm
    · have hlen := length_eraseChild _ _ _ he
      have hz : edgeCount ds0 C = 0 := by
        have := (eraseChild_some _ _ _ he).1
        omega
      refine ⟨?_, hc, ?_⟩
      · rw [(hall P).1, if_pos (Eq.refl _), length_downInsert]
        exact hlen
      · intro d hd hdc
        rw [(hall P).1, if_pos (Eq.refl _)] at hd
        rcases (mem_downInsert _ _ _).mp hd with e | e
        · subst e; rfl
        · exact absurd hdc ((edgeCount_eq_zero _ _).mp hz d e)
  · intro hgt dpt hr hwf fuel hf1 hf2
    obtain ⟨d, hd, hdc⟩ := (edgeCount_pos (g.cdata P).down C).mp (by omega)
    have hh : hgt C < hgt P := by
      have := hr.down_lt P d hd
      rw [hdc] at this
      exact this
    obtain ⟨g1, hg1, _⟩ := add_child_total fuel g P C s2 hgt dpt hr hh (hr.up_lt C P hup) hwf
      (fun _ => by omega) hf1 hf2
    exact ⟨g1, hg1⟩

theorem oneChildGraph_spec :
    add_child 2 emptyGraph 1 2 0 = .ok oneChildGraph ∧ ChainsWF oneChildGraph := by
  obtain ⟨g1, hg1, hwf⟩ := add_child_total 2 emptyGraph 1 2 0
    (fun n => if n = 1 then 1 else 0)
    (fun n => if n = 2 then 1 else 0) (emptyGraph_ranked _ _) (by decide) (by decide)
    emptyGraph_chainsWF (fun h => by simp [emptyGraph] at h) (by decide) (by decide)
  unfold oneChildGraph
  rw [hg1]
  exact ⟨Eq.refl _, hwf⟩

theorem oneChildGraph_eq : add_child 2 emptyGraph 1 2 0 = .ok oneChildGraph :=
  oneChildGraph_spec.1

theorem oneChildGraph_chainsWF : ChainsWF oneChildGraph :=
  oneChildGraph_spec.2

theorem oneChildGraph_down (n : Ptr) :
    (oneChildGraph.cdata n).down = if n = 1 then [⟨2, 0⟩] else [] := by
  obtain ⟨ds0, hds0, hall⟩ := add_child_edges 2 emptyGraph 1 2 0 _ oneChildGraph_eq
  rcases hds0 with ⟨_, e⟩ | ⟨hm, _⟩
  · rw [(hall n).1, e]
    simp [emptyGraph, downInsert]
  · simp [emptyGraph] at hm

theorem oneChildGraph_up (n : Ptr) :
    (oneChildGraph.cdata n).up = if n = 2 then [1] else [] := by
  obtain ⟨ds0, _, hall⟩ := add_child_edges 2 emptyGraph 1 2 0 _ oneChildGraph_eq
  rw [(hall n).2]
  simp [emptyGraph, setErase, setInsert]

theorem oneChildGraph_ranked (hgt dpt : Ptr → Nat) (h1 : hgt 2 < hgt 1) (h2 : dpt 1 < dpt 2) :
    Ranked oneChildGraph hgt dpt := by
  constructor
  · intro n d hd
    rw [oneChildGraph_down] at hd
    split at hd
    · rename_i hn
      subst hn
      simp only [List.mem_singleton] at hd
      subst hd
      exact h1
    · simp at hd
  · intro n p hp
    rw [oneChildGraph_up] at hp
    split at hp
    · rename_i hn
      subst hn
      simp only [List.mem_singleton] at hp
      subst hp
      exact h2
    · simp at hp

/-- Re-adding at a concrete input: node 2, the child of node 1 at sort 0, is added
again at sort 7. -/
theorem add_child_existing_replaces_witness :
    edgeCount (oneChildGraph.cdata 1).down 2 = 1 ∧ 1 ∈ (oneChildGraph.cdata 2).up ∧
    ∃ g1, add_child 2 oneChildGraph 1 2 7 = .ok g1 ∧
      (g1.cdata 1).down.length = (oneChildGraph.cdata 1).down.length ∧
      edgeCount (g1.cdata 1).down 2 = 1 ∧
      ∀ d, d ∈ (g1.cdata 1).down → d.child = 2 → d.sort = 7 := by
  have h1 : edgeCount (oneChildGraph.cdata 1).down 2 = 1 := by
    rw [oneChildGraph_down]; decide
  have h2 : 1 ∈ (oneChildGraph.cdata 2).up := by
    rw [oneChildGraph_up]; decide
  have hthm := add_child_existing_replaces oneChildGraph 1 2 7 h1 h2
  obtain ⟨g1, hg1⟩ := hthm.2 (fun n => if n = 1 then 1 else 0)
    (fun n => if n = 2 then 1 else 0) (oneChildGraph_ranked _ _ (by decide) (by decide))
    oneChildGraph_chainsWF 2 (by decide) (by decide)
  exact ⟨h1, h2, g1, hg1, hthm.1 2 g1 hg1⟩

/-- C3: `P.remove_child(C)` returns false exactly when `P` is not in the up-set
of `C`; in that case it returns at once, whatever the fuel, and the whole state
(down-lists, up-sets, chain sets, components, stale flags) is the one it started
from.  When `P` is in the up-set and the down-list of `P` holds `C`, the call
returns true on a graph without cycle. -/
theorem remove_child_false_iff (fuel : Nat) (g : Graph) (P C : Ptr) :
    (P ∉ (g.cdata C).up → remove_child fuel g P C = .ok (false, g)) ∧
    (∀ b g1, remove_child fuel g P C = .ok (b, g1) → (b = false ↔ P ∉ (g.cdata C).up)) ∧
    (P ∈ (g.cdata C).up → 0 < edgeCount (g.cdata P).down C →
      ∀ hgt dpt, Ranked g hgt dpt → hgt C < fuel → dpt P ≤ fuel →
        ∃ g1, remove_child fuel g P C = .ok (true, g1)) := by
  refine ⟨remove_child_false fuel g P C, ?_, ?_⟩
  · intro b g1 h
    rcases remove_child_ok fuel g P C b g1 h with ⟨hb, hm, _⟩ | ⟨hb, hm, _⟩
    · exact ⟨fun _ => hm, fun _ => hb⟩
    · subst hb
      exact ⟨fun hf => by simp at hf, fun hn => absurd hm hn⟩
  · intro hm he hgt dpt hr hf1 hf2
    exact remove_child_total fuel g P C hgt dpt hr hm he hf1 hf2

theorem downInsert_split (ds : List DownConnection) (e : DownConnection)
    (hs : SortedDown ds) :
    ∃ l1 l2, ds = l1 ++ l2 ∧ downInsert ds e = l1 ++ e :: l2 ∧
      (∀ d, d ∈ l1 → d.sort ≤ e.sort) ∧ (∀ d, d ∈ l2 → e.sort < d.sort) := by
  induction ds with
  | nil => exact ⟨[], [], Eq.refl _, Eq.refl _, by simp, by simp⟩
  | cons a t ih =>
    unfold SortedDown at hs
    rw [List.pairwise_cons] at hs
    unfold downInsert
    split
    · rename_i hlt
      refine ⟨[], a :: t, Eq.refl _, Eq.refl _, by simp, ?_⟩
      intro d hd
      rcases List.mem_cons.mp hd with h | h
      · subst h; exact hlt
      · have := hs.1 d h
        omega
    · rename_i hge
      obtain ⟨l1, l2, h1, h2, h3, h4⟩ := ih hs.2
      refine ⟨a :: l1, l2, by rw [h1]; rfl, by rw [h2]; rfl, ?_, h4⟩
      intro d hd
      rcases List.mem_cons.mp hd with h | h
      · subst h; omega
      · exact h3 d h

theorem downInsert_sorted (ds : List DownConnection) (e : DownConnection)
    (hs : SortedDown ds) : SortedDown (downInsert ds e) := by
  obtain ⟨l1, l2, h1, h2, h3, h4⟩ := downInsert_split ds e hs
  unfold SortedDown at hs ⊢
  rw [h1, List.pairwise_append] at hs
  rw [h2, List.pairwise_append, List.pairwise_cons]
  refine ⟨hs.1, ⟨fun d hd => Int.le_of_lt (h4 d hd), hs.2.1⟩, ?_⟩
  intro a ha b hb
  rcases List.mem_cons.mp hb with h | h
  · subst h; exact h3 a ha
  · exact hs.2.2 a ha b h

/-- C4: when the down-list of `P` is ordered by non-decreasing sort and `C` is
not yet a child of `P`, `P.add_child(C, s)` leaves it ordered, puts the new
connection after every connection with sort at most `s` and before every
connection with a greater sort, keeps the earlier connections in their order,
and puts it last when every child has sort `s`.  The call runs to completion on
a graph that has no cycle once the edge is added. -/
theorem add_child_keeps_order (g : Graph) (P C : Ptr) (s : Int)
    (hsorted : SortedDown (g.cdata P).down) (hnew : edgeCount (g.cdata P).down C = 0) :
    (∀ fuel g1, add_child fuel g P C s = .ok g1 →
      SortedDown (g1.cdata P).down ∧
      (∃ l1 l2, (g.cdata P).down = l1 ++ l2 ∧ (g1.cdata P).down = l1 ++ ⟨C, s⟩ :: l2 ∧
        (∀ d, d ∈ l1 → d.sort ≤ s) ∧ (∀ d, d ∈ l2 → s < d.sort)) ∧
      ((∀ d, d ∈ (g.cdata P).down → d.sort = s) →
        (g1.cdata P).down = (g.cdata P).down ++ [⟨C, s⟩])) ∧
    (∀ hgt dpt, Ranked g hgt dpt → hgt C < hgt P → dpt P < dpt C → ChainsWF g →
      P ∉ (g.cdata C).up →
      ∀ fuel, hgt C < fuel → dpt P < fuel → ∃ g1, add_child fuel g P C s = .ok g1) := by
  constructor
  · intro fuel g1 h1
    obtain ⟨ds0, hds0, hall⟩ := add_child_edges fuel g P C s g1 h1
    have hd0 : ds0 = (g.cdata P).down := by
      rcases hds0 with ⟨_, e⟩ | ⟨_, e⟩
      · exact e
      · rw [(eraseChild_none _ _).mpr hnew] at e
        simp at e
    subst hd0
    have hdown : (g1.cdata P).down = downInsert (g.cdata P).down ⟨C, s⟩ := by
      rw [(hall P).1, if_pos (Eq.refl _)]
    obtain ⟨l1, l2, e1, e2, e3, e4⟩ := downInsert_split (g.cdata P).down ⟨C, s⟩ hsorted
    refine ⟨?_, ⟨l1, l2, e1, by rw [hdown, e2], e3, e4⟩, ?_⟩
    · rw [hdown]
      exact downInsert_sorted _ _ hsorted
    · intro hsame
      have hl2 : l2 = [] := by
        cases l2 with
        | nil => rfl
        | cons a t =>
          exfalso
          have ha : a ∈ (g.cdata P).down := by rw [e1]; simp
          have := hsame a ha
          have := e4 a (List.mem_cons_self _ _)
          simp only at this
          omega
      subst hl2
      rw [hdown, e2, e1]
      simp
  · intro hgt dpt hr hh hd hwf hm fuel hf1 hf2
    obtain ⟨g1, hg1, _⟩ := add_child_total fuel g P C s hgt dpt hr hh hd hwf
      (fun h => absurd h hm) hf1 hf2
    exact ⟨g1, hg1⟩

/-- C4 at a concrete input: node 3 is added at sort 0 under node 1, which has
the child 2 at sort 0. -/
theorem add_child_keeps_order_witness :
    SortedDown (oneChildGraph.cdata 1).down ∧ edgeCount (oneChildGraph.cdata 1).down 3 = 0 ∧
    ∃ g1, add_child 2 oneChildGraph 1 3 0 = .ok g1 ∧
      (g1.cdata 1).down = [⟨2, 0⟩, ⟨3, 0⟩] := by
  have h1 : SortedDown (oneChildGraph.cdata 1).down := by
    rw [oneChildGraph_down]; simp [SortedDown]
  have h2 : edgeCount (oneChildGraph.cdata 1).down 3 = 0 := by
    rw [oneChildGraph_down]; decide
  have hthm := add_child_keeps_order oneChildGraph 1 3 0 h1 h2
  obtain ⟨g1, hg1⟩ := hthm.2 (fun n => if n = 1 then 1 else 0)
    (fun n => if n = 1 then 0 else 1) (oneChildGraph_ranked _ _ (by decide) (by decide))
    (by decide) (by decide) oneChildGraph_chainsWF (by rw [oneChildGraph_up]; decide) 2
    (by decide) (by decide)
  refine ⟨h1, h2, g1, hg1, ?_⟩
  have h3 := (hthm.1 2 g1 hg1).2.2 (by
    intro d hd
    rw [oneChildGraph_down] at hd
    simp only [if_true, List.mem_singleton] at hd
    subst hd
    rfl)
  rw [h3, oneChildGraph_down]
  rfl

/-! ## The edge-pair invariant over reachable states -/

theorem nodup_setErase (l : List Nat) (x : Nat) (h : l.Nodup) : (setErase l x).Nodup :=
  List.Nodup.filter _ h

theorem nodup_setInsert (l : List Nat) (x : Nat) (h : l.Nodup) : (setInsert l x).Nodup := by
  unfold setInsert
  split
  · exact h
  · rename_i hx
    rw [List.nodup_append]
    refine ⟨h, List.nodup_singleton x, ?_⟩
    intro a ha hb
    simp only [List.mem_singleton] at hb
    subst hb
    exact hx ha

theorem edgeCount_eraseIdx (ds : List DownConnection) (i : Nat) (x : Ptr) (dflt : DownConnection)
    (hi : i < ds.length) :
    edgeCount (ds.eraseIdx i) x + (if (ds.getD i dflt).child = x then 1 else 0)
      = edgeCount ds x := by
  induction ds generalizing i with
  | nil => simp at hi
  | cons d t ih =>
    cases i with
    | zero =>
      simp only [List.eraseIdx_cons_zero, List.getD_cons_zero, edgeCount, List.countP_cons,
        decide_eq_true_eq]
    | succ j =>
      have hj : j < t.length := by simpa using hi
      have := ih j hj
      simp only [List.eraseIdx_cons_succ, List.getD_cons_succ, edgeCount, List.countP_cons,
        decide_eq_true_eq] at this ⊢
      omega

/-- The edges after a `remove_child(int)` that ran to completion. -/
theorem remove_child_at_ok (fuel : Nat) (g g1 : Graph) (P : Ptr) (n : Int)
    (h : remove_child_at fuel g P n = .ok g1) :
    0 ≤ n ∧ n < ((g.cdata P).down.length : Int) ∧
    (g.cdata ((g.cdata P).down.getD n.toNat ⟨NULL, 0⟩).child).up.count P = 1 ∧
    ∀ x, (g1.cdata x).down =
        (if x = P then (g.cdata P).down.eraseIdx n.toNat else (g.cdata x).down) ∧
      (g1.cdata x).up =
        (if x = ((g.cdata P).down.getD n.toNat ⟨NULL, 0⟩).child
          then setErase (g.cdata ((g.cdata P).down.getD n.toNat ⟨NULL, 0⟩).child).up P
          else (g.cdata x).up) := by
  unfold remove_child_at at h
  split at h
  · rename_i hn
    simp only at h
    split at h
    · rename_i hone
      split at h
      · simp at h
      · rename_i g3 hg3
        obtain ⟨hse, _⟩ := severAndFix_frame _ _ _ _ _ hg3
        obtain ⟨hcd, _⟩ := forceStale_frame _ _ _ _ h
        refine ⟨hn.1, hn.2, ?_, ?_⟩
        · simpa [numErased] using hone
        · intro x
          rw [hcd, (hse x).1, (hse x).2]
          simp only [setUp_down, setDown_down, setUp_up, setDown_up]
          trivial
    · simp at h
  · simp at h

theorem edgePair_mem (g : Graph) (n c : Ptr) (h : EdgePair g n c)
    (hm : n ∈ (g.cdata c).up) : edgeCount (g.cdata n).down c = 1 := by
  unfold EdgePair at h
  rw [if_pos hm] at h
  exact h

theorem add_child_inv (fuel : Nat) (g g2 : Graph) (P C : Ptr) (s : Int)
    (h : add_child fuel g P C s = .ok g2) (hinv : EdgeInv g) : EdgeInv g2 := by
  obtain ⟨ds0, hds0, hall⟩ := add_child_edges fuel g P C s g2 h
  have hcnt := add_child_counts fuel g P C s g2 h (hinv.1 P C)
  have hother : ∀ x, x ≠ C → edgeCount ds0 x = edgeCount (g.cdata P).down x := by
    intro x hx
    rcases hds0 with ⟨_, e⟩ | ⟨_, e⟩
    · rw [e]
    · exact (eraseChild_some _ _ _ e).2 x hx
  constructor
  · intro N X
    unfold EdgePair
    rw [(hall N).1, (hall X).2]
    by_cases hN : N = P
    · subst hN
      by_cases hX : X = C
      · subst hX
        rw [← (hall N).1]
        simp only [if_true]
        rw [hcnt.1, if_pos ((mem_setInsert _ _ _).mpr (Or.inr (Eq.refl _)))]
      · rw [if_pos (Eq.refl _), if_neg hX, edgeCount_downInsert, hother X hX]
        have hCX : ¬ C = X := fun e => hX e.symm
        simp only [hCX, if_false, Nat.add_zero]
        exact hinv.1 N X
    · rw [if_neg hN]
      by_cases hX : X = C
      · subst hX
        rw [if_pos (Eq.refl _)]
        have hiff : N ∈ setInsert (setErase (g.cdata X).up P) P ↔ N ∈ (g.cdata X).up := by
          rw [mem_setInsert, mem_setErase]
          constructor
          · rintro (⟨h1, _⟩ | h1)
            · exact h1
            · exact absurd h1 hN
          · intro h1
            exact Or.inl ⟨h1, hN⟩
        have := hinv.1 N X
        unfold EdgePair at this
        rw [this]
        by_cases hm : N ∈ (g.cdata X).up
        · rw [if_pos hm, if_pos (hiff.mpr hm)]
        · rw [if_neg hm, if_neg (fun hc => hm (hiff.mp hc))]
      · rw [if_neg hX]
        exact hinv.1 N X
  · intro X
    rw [(hall X).2]
    split
    · exact nodup_setInsert _ _ (nodup_setErase _ _ (hinv.2 C))
    · exact hinv.2 X

theorem mem_setErase_other (l : List Nat) (P N : Nat) (hN : N ≠ P) :
    N ∈ setErase l P ↔ N ∈ l := by
  rw [mem_setErase]
  exact ⟨fun h => h.1, fun h => ⟨h, hN⟩⟩

theorem remove_child_inv (fuel : Nat) (g g1 : Graph) (P C : Ptr) (b : Bool)
    (h : remove_child fuel g P C = .ok (b, g1)) (hinv : EdgeInv g) : EdgeInv g1 := by
  rcases remove_child_ok fuel g P C b g1 h with ⟨_, _, he⟩ | ⟨_, hm, ds, hds, hall⟩
  · exact he ▸ hinv
  · obtain ⟨hc1, hc2⟩ := eraseChild_some _ _ _ hds
    have hone := edgePair_mem g P C (hinv.1 P C) hm
    constructor
    · intro N X
      unfold EdgePair
      rw [(hall N).1, (hall X).2]
      by_cases hN : N = P
      · subst hN
        rw [if_pos (Eq.refl _)]
        by_cases hX : X = C
        · subst hX
          rw [if_pos (Eq.refl _), if_neg (not_mem_setErase _ _)]
          omega
        · rw [if_neg hX, hc2 X hX]
          exact hinv.1 N X
      · rw [if_neg hN]
        by_cases hX : X = C
        · subst hX
          rw [if_pos (Eq.refl _)]
          have := hinv.1 N X
          unfold EdgePair at this
          rw [this]
          by_cases hm1 : N ∈ (g.cdata X).up
          · rw [if_pos hm1, if_pos ((mem_setErase_other _ _ _ hN).mpr hm1)]
          · rw [if_neg hm1, if_neg (fun hc => hm1 ((mem_setErase_other _ _ _ hN).mp hc))]
        · rw [if_neg hX]
          exact hinv.1 N X
    · intro X
      rw [(hall X).2]
      split
      · exact nodup_setErase _ _ (hinv.2 C)
      · exact hinv.2 X

theorem remove_child_at_inv (fuel : Nat) (g g1 : Graph) (P : Ptr) (n : Int)
    (h : remove_child_at fuel g P n = .ok g1) (hinv : EdgeInv g) : EdgeInv g1 := by
  obtain ⟨hn0, hn1, hcount, hall⟩ := remove_child_at_ok fuel g g1 P n h
  generalize hC : ((g.cdata P).down.getD n.toNat ⟨NULL, 0⟩).child = C at hcount hall
  have hi : n.toNat < (g.cdata P).down.length := by omega
  have herase := fun x => edgeCount_eraseIdx (g.cdata P).down n.toNat x ⟨NULL, 0⟩ hi
  rw [hC] at herase
  have hm : P ∈ (g.cdata C).up := by
    by_contra hc
    have := List.count_eq_zero_of_not_mem hc
    omega
  have hone := edgePair_mem g P C (hinv.1 P C) hm
  constructor
  · intro N X
    unfold EdgePair
    rw [(hall N).1, (hall X).2]
    by_cases hN : N = P
    · subst hN
      rw [if_pos (Eq.refl _)]
      by_cases hX : X = C
      · subst hX
        rw [if_pos (Eq.refl _), if_neg (not_mem_setErase _ _)]
        have := herase X
        simp only [if_true] at this
        omega
      · rw [if_neg hX]
        have := herase X
        have hCX : ¬ C = X := fun e => hX e.symm
        simp only [hCX, if_false, Nat.add_zero] at this
        rw [this]
        exact hinv.1 N X
    · rw [if_neg hN]
      by_cases hX : X = C
      · subst hX
        rw [if_pos (Eq.refl _)]
        have := hinv.1 N X
        unfold EdgePair at this
        rw [this]
        by_cases hm1 : N ∈ (g.cdata X).up
        · rw [if_pos hm1, if_pos ((mem_setErase_other _ _ _ hN).mpr hm1)]
        · rw [if_neg hm1, if_neg (fun hc => hm1 ((mem_setErase_other _ _ _ hN).mp hc))]
      · rw [if_neg hX]
        exact hinv.1 N X
  · intro X
    rw [(hall X).2]
    split
    · exact nodup_setErase _ _ (hinv.2 C)
    · exact hinv.2 X

theorem reachable_inv (g : Graph) (h : Reachable g) : EdgeInv g := by
  induction h with
  | init g h =>
    constructor
    · intro n c
      simp [EdgePair, (h n).1, (h c).2, edgeCount]
    · intro c
      rw [(h c).2]
      exact List.nodup_nil
  | byAdd g g1 fuel P C s _ _ h ih => exact add_child_inv fuel g g1 P C s h ih
  | byRemoveAt g g1 fuel P n _ _ h ih => exact remove_child_at_inv fuel g g1 P n h ih
  | byRemove g g1 fuel P C b _ _ h ih => exact remove_child_inv fuel g g1 P C b h ih

/-- C5: in every state reached from a graph without edges by `add_child`,
`remove_child(int)` and `remove_child(PandaNode *)` calls on pairs of different
nodes, a node `N` has a connection to `C` in its down-list if and only if the
up-set of `C` holds exactly one entry for `N`. -/
theorem reachable_edge_pair (g : Graph) (h : Reachable g) (N C : Ptr) :
    (∃ d, d ∈ (g.cdata N).down ∧ d.child = C) ↔ (g.cdata C).up.count N = 1 := by
  have hinv := reachable_inv g h
  have hp := hinv.1 N C
  unfold EdgePair at hp
  constructor
  · intro hd
    have hpos := (edgeCount_pos _ _).mpr hd
    have hm : N ∈ (g.cdata C).up := by
      by_contra hc
      rw [if_neg hc] at hp
      omega
    exact List.count_eq_one_of_mem (hinv.2 C) hm
  · intro hc
    have hm : N ∈ (g.cdata C).up := by
      by_contra hn
      have := List.count_eq_zero_of_not_mem hn
      omega
    rw [if_pos hm] at hp
    exact (edgeCount_pos _ _).mp (by omega)

theorem oneChildGraph_reachable : Reachable oneChildGraph :=
  Reachable.byAdd emptyGraph oneChildGraph 2 1 2 0
    (Reachable.init emptyGraph (fun _ => ⟨Eq.refl _, Eq.refl _⟩)) (by decide) oneChildGraph_eq

/-- C5 at a concrete input: the state in which node 1 has the single child 2. -/
theorem reachable_edge_pair_witness :
    Reachable oneChildGraph ∧
    ((∃ d, d ∈ (oneChildGraph.cdata 1).down ∧ d.child = 2) ↔
      (oneChildGraph.cdata 2).up.count 1 = 1) ∧
    (oneChildGraph.cdata 2).up.count 1 = 1 :=
  ⟨oneChildGraph_reachable, reachable_edge_pair oneChildGraph oneChildGraph_reachable 1 2,
    by rw [oneChildGraph_up]; decide⟩

/-! ## `remove_all_children` -/

theorem setErase_idem (l : List Nat) (x : Nat) : setErase (setErase l x) x = setErase l x :=
  setErase_of_not_mem _ _ (not_mem_setErase l x)

/-- The edges after the loop of `remove_all_children`: no down-list changes,
and the up-set of every node listed as a child loses `this`. -/
theorem removeAllLoop_ok (fuel : Nat) (this : Ptr) (l : List DownConnection) :
    ∀ g g1, removeAllLoop fuel this g l = .ok g1 →
      ∀ n, (g1.cdata n).down = (g.cdata n).down ∧
        (g1.cdata n).up =
          (if n ∈ l.map (fun d => d.child) then setErase (g.cdata n).up this
            else (g.cdata n).up) := by
  induction l with
  | nil =>
    intro g g1 h n
    simp only [removeAllLoop, Except.ok.injEq] at h
    subst h
    simp
  | cons d rest ih =>
    intro g g1 h n
    unfold removeAllLoop at h
    simp only at h
    split at h
    · simp at h
    · rename_i g2 hg2
      obtain ⟨hse, _⟩ := severAndFix_frame _ _ _ _ _ hg2
      obtain ⟨h1, h2⟩ := ih g2 g1 h n
      constructor
      · rw [h1, (hse n).1, setUp_down]
      · rw [h2, (hse n).2, setUp_up]
        by_cases hn : n = d.child
        · subst hn
          simp only [if_true, List.map_cons, List.mem_cons, true_or, setErase_idem]
          split <;> rfl
        · simp only [hn, if_false, List.map_cons, List.mem_cons, false_or]

theorem removeAllLoop_total (fuel : Nat) (this : Ptr) (hgt : Ptr → Nat)
    (l : List DownConnection) (hl : ∀ d, d ∈ l → hgt d.child < fuel) :
    ∀ g, (∀ n d, d ∈ (g.cdata n).down → hgt d.child < hgt n) →
      ∃ g1, removeAllLoop fuel this g l = .ok g1 := by
  induction l with
  | nil => intro g _; exact ⟨g, Eq.refl _⟩
  | cons d rest ih =>
    intro g hr
    unfold removeAllLoop
    simp only
    obtain ⟨g2, hg2⟩ := severAndFix_total fuel
      (setUp g d.child (setErase (g.cdata d.child).up this)) this d.child hgt
      (by intro n x hx; simp only [setUp_down] at hx; exact hr n x hx)
      (hl d (List.mem_cons_self _ _))
    rw [hg2]
    simp only
    obtain ⟨hse, _⟩ := severAndFix_frame _ _ _ _ _ hg2
    apply ih (fun x hx => hl x (List.mem_cons_of_mem _ hx))
    intro n x hx
    rw [(hse n).1, setUp_down] at hx
    exact hr n x hx

/-- The edges after a `remove_all_children` that ran to completion. -/
theorem remove_all_children_ok (fuel : Nat) (g g1 : Graph) (this : Ptr)
    (h : remove_all_children fuel g this = .ok g1) :
    ∀ n, (g1.cdata n).down = (g.cdata n).down ∧
      (g1.cdata n).up =
        (if n ∈ (g.cdata this).down.map (fun d => d.child) then setErase (g.cdata n).up this
          else (g.cdata n).up) := by
  unfold remove_all_children at h
  split at h
  · simp at h
  · rename_i g2 hg2
    obtain ⟨hcd, _⟩ := forceStale_frame _ _ _ _ h
    intro n
    rw [hcd]
    exact removeAllLoop_ok fuel this _ g g2 hg2 n

theorem remove_all_children_total (fuel : Nat) (g : Graph) (this : Ptr) (hgt dpt : Ptr → Nat)
    (hr : Ranked g hgt dpt) (hf1 : hgt this ≤ fuel) (hf2 : dpt this ≤ fuel) :
    ∃ g1, remove_all_children fuel g this = .ok g1 := by
  unfold remove_all_children
  obtain ⟨g2, hg2⟩ := removeAllLoop_total fuel this hgt (g.cdata this).down
    (by intro d hd; have := hr.down_lt this d hd; omega) g hr.down_lt
  rw [hg2]
  simp only
  apply forceStale_total fuel g2 this dpt _ hf2
  intro n p hp
  rw [(removeAllLoop_ok fuel this _ g g2 hg2 n).2] at hp
  split at hp
  · exact hr.up_lt n p ((mem_setErase _ _ _).mp hp).1
  · exact hr.up_lt n p hp

/-- C6, the code at a failing input: `remove_all_children` on node 1, whose
only child is node 2, runs to completion and removes node 1 from the up-set of
node 2, but the down-list of node 1 still holds the connection to node 2 and
`find_child` still answers index 0. -/
theorem remove_all_children_keeps_down_list :
    ∃ g1, remove_all_children 2 oneChildGraph 1 = .ok g1 ∧
      (g1.cdata 1).down = [⟨2, 0⟩] ∧ find_child g1 1 2 = 0 ∧ (g1.cdata 2).up = [] := by
  obtain ⟨g1, hg1⟩ := remove_all_children_total 2 oneChildGraph 1
    (fun n => if n = 1 then 1 else 0) (fun n => if n = 2 then 1 else 0)
    (oneChildGraph_ranked _ _ (by decide) (by decide)) (by decide) (by decide)
  have hall := remove_all_children_ok 2 oneChildGraph g1 1 hg1
  have hd : (g1.cdata 1).down = [⟨2, 0⟩] := by
    rw [(hall 1).1, oneChildGraph_down]
    rfl
  refine ⟨g1, hg1, hd, ?_, ?_⟩
  · unfold find_child
    rw [hd]
    rfl
  · rw [(hall 2).2, oneChildGraph_down, oneChildGraph_up]
    decide

/-- C7: `find_child` answers `-1` when no connection of the down-list has the
node as its child, and otherwise the smallest index at which the node is the
child; being a function of the state that returns only the index, it modifies
nothing. -/
theorem find_child_spec (g : Graph) (P X : Ptr) :
    ((∀ d, d ∈ (g.cdata P).down → d.child ≠ X) → find_child g P X = -1) ∧
    ((∃ d, d ∈ (g.cdata P).down ∧ d.child = X) →
      ∃ i : Nat, find_child g P X = (i : Int) ∧ i < (g.cdata P).down.length ∧
        (∃ d, (g.cdata P).down[i]? = some d ∧ d.child = X) ∧
        ∀ j d, j < i → (g.cdata P).down[j]? = some d → d.child ≠ X) := by
  constructor
  · intro h
    exact findChildLoop_none _ X 0 h
  · intro h
    obtain ⟨k, hk1, hk2, hk3, hk4⟩ := findChildLoop_some (g.cdata P).down X 0 h
    refine ⟨k, ?_, hk2, hk3, hk4⟩
    unfold find_child
    rw [hk1]
    simp

/-! ## Bam records -/

theorem countParents_eq (manager : BamWriter) (ps : List Ptr) :
    ∀ k, countParents manager ps k = k + (ps.filter manager.has_object).length := by
  induction ps with
  | nil => intro k; rfl
  | cons p t ih =>
    intro k
    unfold countParents
    by_cases h : manager.has_object p = true
    · rw [if_pos h, ih, List.filter_cons_of_pos h]
      simp only [List.length_cons]
      omega
    · rw [if_neg h, ih, List.filter_cons_of_neg h]

theorem writeParents_eq (manager : BamWriter) (ps : List Ptr) :
    ∀ dg, writeParents manager ps dg =
      dg ++ (ps.filter manager.has_object).map (fun p => Field.pointer (manager.token p)) := by
  induction ps with
  | nil => intro dg; simp [writeParents]
  | cons p t ih =>
    intro dg
    unfold writeParents
    by_cases h : manager.has_object p = true
    · rw [if_pos h, ih, List.filter_cons_of_pos h]
      simp [BamWriter.write_pointer]
    · rw [if_neg h, ih, List.filter_cons_of_neg h]

theorem writeChildren_eq (manager : BamWriter) (ds : List DownConnection) :
    ∀ dg, writeChildren manager ds dg = dg ++ childFields manager ds := by
  induction ds with
  | nil => intro dg; simp [writeChildren, childFields]
  | cons d t ih =>
    intro dg
    unfold writeChildren
    rw [ih]
    simp [BamWriter.write_pointer, add_int32, childFields]

/-- The record written when both counts fit 16 bits, and the fault otherwise. -/
theorem write_datagram_eq (cd : CData) (manager : BamWriter) (dg : Datagram) :
    CData.write_datagram cd manager dg =
      if (registeredParents manager cd).length ≤ 65535 ∧ cd.down.length ≤ 65535
        then .ok (dg ++ recordLayout manager cd) else .error .assertion := by
  unfold CData.write_datagram
  simp only [countParents_eq, Nat.zero_add]
  by_cases h1 : (registeredParents manager cd).length ≤ 65535
  · have e1 : (List.filter manager.has_object cd.up).length =
        (List.filter manager.has_object cd.up).length % 65536 := by
      unfold registeredParents at h1
      omega
    rw [if_pos e1]
    by_cases h2 : cd.down.length ≤ 65535
    · have e2 : cd.down.length = cd.down.length % 65536 := by omega
      rw [if_pos e2, if_pos ⟨h1, h2⟩, writeChildren_eq, writeParents_eq]
      simp only [add_uint16, BamWriter.write_pointer, recordLayout, registeredParents, ← e1,
        ← e2, List.append_assoc, List.singleton_append, List.cons_append, List.nil_append]
    · have e2 : ¬ cd.down.length = cd.down.length % 65536 := by omega
      rw [if_neg e2, if_neg (fun h => h2 h.2)]
  · have e1 : ¬ (List.filter manager.has_object cd.up).length =
        (List.filter manager.has_object cd.up).length % 65536 := by
      unfold registeredParents at h1
      omega
    rw [if_neg e1, if_neg (fun h => h1 h.1)]

theorem fillinParents_eq (toks : List Nat) :
    ∀ (n : Nat) (cd : CData) (manager : BamReader) (rest : Datagram), n = toks.length →
      fillinParents n cd manager (toks.map Field.pointer ++ rest) =
        .ok ({ cd with up := cd.up ++ List.replicate n NULL },
          { requested := manager.requested ++ toks }, rest) := by
  induction toks with
  | nil =>
    intro n cd manager rest hn
    subst hn
    simp [fillinParents]
  | cons t ts ih =>
    intro n cd manager rest hn
    subst hn
    simp only [List.length_cons, List.map_cons, List.cons_append, fillinParents,
      BamReader.read_pointer]
    rw [ih _ _ _ _ (Eq.refl _)]
    simp [List.replicate_succ]

theorem fillinChildren_eq (w : BamWriter) (ds : List DownConnection) :
    ∀ (cd : CData) (manager : BamReader) (rest : Datagram),
      fillinChildren ds.length cd manager (childFields w ds ++ rest) =
        .ok ({ cd with down := cd.down ++ ds.map (fun d => ⟨NULL, wrapInt32 d.sort⟩) },
          { requested := manager.requested ++ ds.map (fun d => w.token d.child) }, rest) := by
  induction ds with
  | nil => intro cd manager rest; simp [fillinChildren, childFields]
  | cons d t ih =>
    intro cd manager rest
    simp only [List.length_cons, childFields, List.cons_append, fillinChildren,
      BamReader.read_pointer, get_int32]
    rw [ih]
    simp

/-- What `fillin` makes of a record laid out by `write_datagram`. -/
theorem fillin_recordLayout (w : BamWriter) (cd cd0 : CData) (manager : BamReader)
    (rest : Datagram) :
    CData.fillin cd0 (recordLayout w cd ++ rest) manager =
      .ok ({ cd0 with
              up := cd0.up ++ List.replicate (registeredParents w cd).length NULL,
              down := cd0.down ++ cd.down.map (fun d => ⟨NULL, wrapInt32 d.sort⟩) },
        { requested := manager.requested ++ [w.token cd.state, w.token cd.transform] ++
            (registeredParents w cd).map w.token ++ cd.down.map (fun d => w.token d.child) },
        rest) := by
  unfold CData.fillin recordLayout
  simp only [List.cons_append, List.nil_append, List.append_assoc, BamReader.read_pointer,
    get_uint16]
  have hmap : List.map (fun p => Field.pointer (w.token p)) (registeredParents w cd) =
      ((registeredParents w cd).map w.token).map Field.pointer := by
    rw [List.map_map]
    rfl
  rw [hmap, fillinParents_eq _ _ _ _ _ (by simp)]
  simp only [get_uint16]
  rw [fillinChildren_eq]
  simp

theorem getD_mid (A xt : List Ptr) (x d : Ptr) : (A ++ x :: xt).getD A.length d = x := by
  rw [List.getD_eq_getElem?_getD, List.getElem?_append_right (Nat.le_refl _)]
  simp

theorem completeUp_eq (us : List Ptr) :
    ∀ (p_list A xs B : List Ptr) (i : Nat), p_list = A ++ (xs ++ B) → i = A.length →
      us.length = xs.length → completeUp us p_list i = (xs, i + xs.length) := by
  induction us with
  | nil =>
    intro p_list A xs B i _ _ h
    have : xs = [] := List.length_eq_zero.mp h.symm
    subst this
    rfl
  | cons u t ih =>
    intro p_list A xs B i hp hi h
    cases xs with
    | nil => simp at h
    | cons x xt =>
      have ht : t.length = xt.length := by simpa using h
      have hih := ih p_list (A ++ [x]) xt B (i + 1) (by rw [hp]; simp) (by simp [hi]) ht
      unfold completeUp
      simp only [hih]
      have hg : p_list.getD i NULL = x := by
        rw [hp, hi]
        exact getD_mid A (xt ++ B) x NULL
      rw [hg]
      simp only [List.length_cons, Prod.mk.injEq, true_and]
      omega

theorem completeDown_eq (ds : List DownConnection) :
    ∀ (p_list A xs B : List Ptr) (i : Nat), p_list = A ++ (xs ++ B) → i = A.length →
      ds.length = xs.length →
      completeDown ds p_list i =
        (List.zipWith (fun d x => (⟨x, d.sort⟩ : DownConnection)) ds xs, i + xs.length) := by
  induction ds with
  | nil =>
    intro p_list A xs B i _ _ h
    have : xs = [] := List.length_eq_zero.mp h.symm
    subst this
    rfl
  | cons d t ih =>
    intro p_list A xs B i hp hi h
    cases xs with
    | nil => simp at h
    | cons x xt =>
      have ht : t.length = xt.length := by simpa using h
      have hih := ih p_list (A ++ [x]) xt B (i + 1) (by rw [hp]; simp) (by simp [hi]) ht
      unfold completeDown
      simp only [hih]
      have hg : p_list.getD i NULL = x := by
        rw [hp, hi]
        exact getD_mid A (xt ++ B) x NULL
      rw [hg]
      simp only [List.length_cons, List.zipWith_cons_cons, Prod.mk.injEq, true_and]
      omega

theorem zipWith_restore (ds : List DownConnection) :
    List.zipWith (fun d x => (⟨x, d.sort⟩ : DownConnection))
      (ds.map (fun d => (⟨NULL, wrapInt32 d.sort⟩ : DownConnection)))
      (ds.map (fun d => d.child)) = ds.map (fun d => ⟨d.child, wrapInt32 d.sort⟩) := by
  induction ds with
  | nil => rfl
  | cons d t ih =>
    simp only [List.map_cons, List.zipWith_cons_cons]
    rw [ih]

/-- The snapshot obtained by `fillin` on a fresh snapshot followed by
`complete_pointers` on the requested pointers resolved in request order, for a
record laid out by `write_datagram`. -/
theorem read_back (w : BamWriter) (cd cd0 : CData) (resolve : Nat → Ptr) (pre : List Ptr)
    (hres : ∀ p, resolve (w.token p) = p) (hup0 : cd0.up = []) (hdown0 : cd0.down = []) :
    ∃ cd1 rd, CData.fillin cd0 (recordLayout w cd) ⟨[]⟩ = .ok (cd1, rd, []) ∧
      (CData.complete_pointers cd1 (pre ++ rd.requested.map resolve) pre.length).1.up
        = registeredParents w cd ∧
      (CData.complete_pointers cd1 (pre ++ rd.requested.map resolve) pre.length).1.down
        = cd.down.map (fun d => ⟨d.child, wrapInt32 d.sort⟩) := by
  have hfill := fillin_recordLayout w cd cd0 ⟨[]⟩ []
  rw [List.append_nil] at hfill
  refine ⟨_, _, hfill, ?_⟩
  have hid : ∀ l : List Ptr, (l.map w.token).map resolve = l := by
    intro l
    rw [List.map_map]
    conv => rhs; rw [← List.map_id l]
    apply List.map_congr_left
    intro p _
    exact hres p
  have hplist : pre ++ List.map resolve ([] ++ [w.token cd.state, w.token cd.transform] ++
      (registeredParents w cd).map w.token ++ cd.down.map (fun d => w.token d.child)) =
      (pre ++ [cd.state, cd.transform]) ++
        (registeredParents w cd ++ cd.down.map (fun d => d.child)) := by
    have h2 : cd.down.map (fun d => w.token d.child) =
        (cd.down.map (fun d => d.child)).map w.token := by
      rw [List.map_map]
      rfl
    rw [h2]
    simp only [List.nil_append, List.map_append, hid, List.map_cons, List.map_nil, hres,
      List.append_assoc, List.cons_append]
  simp only
  rw [hplist, hup0, hdown0]
  simp only [List.nil_append]
  have hup := completeUp_eq (List.replicate (registeredParents w cd).length NULL)
    ((pre ++ [cd.state, cd.transform]) ++
      (registeredParents w cd ++ cd.down.map (fun d => d.child)))
    (pre ++ [cd.state, cd.transform]) (registeredParents w cd)
    (cd.down.map (fun d => d.child)) (pre.length + 2) (Eq.refl _) (by simp) (by simp)
  have hdn := completeDown_eq (cd.down.map (fun d => (⟨NULL, wrapInt32 d.sort⟩ : DownConnection)))
    ((pre ++ [cd.state, cd.transform]) ++
      (registeredParents w cd ++ cd.down.map (fun d => d.child)))
    (pre ++ [cd.state, cd.transform] ++ registeredParents w cd)
    (cd.down.map (fun d => d.child)) [] (pre.length + 2 + (registeredParents w cd).length)
    (by simp) (by simp; omega) (by simp)
  unfold CData.complete_pointers
  simp only [hup, hdn]
  exact ⟨trivial, zipWith_restore cd.down⟩

/-- C9 as stated fails: a snapshot whose 65536 parents are all in the object
table makes `write_datagram` stop at its assertion, so that no parent count is
written (and a 16-bit field given 65536 would hold 0); a snapshot with one
parent in the object table and 65536 children stops at the second assertion, so
that there is no record to deserialize parents from. -/
theorem write_datagram_count_overflow :
    (registeredParents registerAll manyParents).length = 65536 ∧
    CData.write_datagram manyParents registerAll [] = .error .assertion ∧
    add_uint16 [] 65536 = [Field.uint16 0] ∧
    registeredParents registerAll manyChildren = [9] ∧
    CData.write_datagram manyChildren registerAll [] = .error .assertion := by
  have hlen : (registeredParents registerAll manyParents).length = 65536 := by
    simp [registeredParents, registerAll, manyParents]
  have hlen2 : manyChildren.down.length = 65536 := by
    simp [manyChildren]
  refine ⟨hlen, ?_, by decide, by decide, ?_⟩
  · rw [write_datagram_eq, if_neg]
    rw [hlen]
    intro h
    omega
  · rw [write_datagram_eq, if_neg]
    rw [hlen2]
    intro h
    omega

/-- C9, amended: for a snapshot with at most 65535 parents in the object table
of the writer and at most 65535 children, `write_datagram` produces a record
whose third field is the number of parents that are in the object table,
followed by a pointer for each of those parents, in up-set order, and then by
the child count; `fillin` on a fresh snapshot and `complete_pointers` on the
requested pointers resolved in request order yield exactly those parents, and no
parent at all when no parent is in the object table. -/
theorem parent_round_trip (cd cd0 : CData) (manager : BamWriter) (resolve : Nat → Ptr)
    (pre : List Ptr) (hk : (registeredParents manager cd).length ≤ 65535)
    (hn : cd.down.length ≤ 65535) (hres : ∀ p, resolve (manager.token p) = p)
    (hup0 : cd0.up = []) (hdown0 : cd0.down = []) :
    ∃ dg, CData.write_datagram cd manager [] = .ok dg ∧
      dg[2]? = some (Field.uint16 (cd.up.filter manager.has_object).length) ∧
      (dg.drop 3).take (cd.up.filter manager.has_object).length =
        (cd.up.filter manager.has_object).map (fun p => Field.pointer (manager.token p)) ∧
      dg[3 + (cd.up.filter manager.has_object).length]? = some (Field.uint16 cd.down.length) ∧
      ∃ cd1 rd, CData.fillin cd0 dg ⟨[]⟩ = .ok (cd1, rd, []) ∧
        (CData.complete_pointers cd1 (pre ++ rd.requested.map resolve) pre.length).1.up
          = cd.up.filter manager.has_object ∧
        ((∀ p, p ∈ cd.up → manager.has_object p = false) →
          (CData.complete_pointers cd1 (pre ++ rd.requested.map resolve) pre.length).1.up
            = []) := by
  refine ⟨recordLayout manager cd, ?_, ?_, ?_, ?_, ?_⟩
  · rw [write_datagram_eq, if_pos ⟨hk, hn⟩]
    rfl
  · simp [recordLayout, registeredParents]
  · unfold recordLayout registeredParents
    simp only [List.cons_append, List.nil_append, List.append_assoc, List.drop_succ_cons,
      List.drop_zero]
    rw [← List.length_map (List.filter manager.has_object cd.up)
      (fun p => Field.pointer (manager.token p))]
    exact List.take_left _ _
  · unfold recordLayout registeredParents
    simp only [List.cons_append, List.nil_append, List.append_assoc]
    rw [show 3 + (List.filter manager.has_object cd.up).length =
      (List.filter manager.has_object cd.up).length + 1 + 1 + 1 by omega]
    simp only [List.getElem?_cons_succ]
    rw [List.getElem?_append_right (by simp)]
    simp
  · obtain ⟨cd1, rd, h1, h2, _⟩ := read_back manager cd cd0 resolve pre hres hup0 hdown0
    refine ⟨cd1, rd, h1, h2, ?_⟩
    intro hnone
    rw [h2]
    unfold registeredParents
    rw [List.filter_eq_nil_iff]
    intro p hp
    simp [hnone p hp]

/-- C9 (amended) at a concrete input: parent 9 is in the object table, and the
deserialized snapshot has the single parent 9. -/
theorem parent_round_trip_witness :
    (registeredParents sampleWriter sampleCData).length ≤ 65535 ∧
    sampleCData.down.length ≤ 65535 ∧
    (∀ p, (fun t => t) (sampleWriter.token p) = p) ∧
    ∃ dg cd1 rd, CData.write_datagram sampleCData sampleWriter [] = .ok dg ∧
      dg[2]? = some (Field.uint16 1) ∧
      CData.fillin freshCData dg ⟨[]⟩ = .ok (cd1, rd, []) ∧
      (CData.complete_pointers cd1 ([] ++ rd.requested.map (fun t => t)) 0).1.up = [9] := by
  have h1 : (registeredParents sampleWriter sampleCData).length ≤ 65535 := by decide
  have h2 : sampleCData.down.length ≤ 65535 := by decide
  have h3 : ∀ p, (fun t => t) (sampleWriter.token p) = p := fun _ => Eq.refl _
  obtain ⟨dg, hdg, hc, _, _, cd1, rd, hf, hu, _⟩ :=
    parent_round_trip sampleCData freshCData sampleWriter (fun t => t) [] h1 h2 h3
      (Eq.refl _) (Eq.refl _)
  exact ⟨h1, h2, h3, dg, cd1, rd, hdg, hc, hf, hu⟩

/-- C10: for a snapshot with at most 65535 parents in the object table and at
most 65535 children, `write_datagram` appends to the datagram, in this order and
nothing else: the pointer of the render state, the pointer of the transform, the
16-bit count of the parents that are in the object table, a pointer for each of
them, the 16-bit number of children, and for each child in down-list order its
pointer and its 32-bit sort, whether or not the child is in the object table. -/
theorem write_datagram_layout (cd : CData) (manager : BamWriter) (dg0 : Datagram)
    (hk : (cd.up.filter manager.has_object).length ≤ 65535) (hn : cd.down.length ≤ 65535) :
    CData.write_datagram cd manager dg0 = .ok (dg0 ++
      ([Field.pointer (manager.token cd.state), Field.pointer (manager.token cd.transform),
        Field.uint16 (cd.up.filter manager.has_object).length] ++
      (cd.up.filter manager.has_object).map (fun p => Field.pointer (manager.token p)) ++
      [Field.uint16 cd.down.length] ++
      (cd.down.map (fun d =>
        [Field.pointer (manager.token d.child), Field.int32 (wrapInt32 d.sort)])).flatten)) := by
  rw [write_datagram_eq, if_pos ⟨hk, hn⟩]
  have hc : ∀ ds : List DownConnection, childFields manager ds =
      (ds.map (fun d =>
        [Field.pointer (manager.token d.child), Field.int32 (wrapInt32 d.sort)])).flatten := by
    intro ds
    induction ds with
    | nil => rfl
    | cons d t ih => simp [childFields, ih]
  unfold recordLayout registeredParents
  rw [hc]

/-- C10 at a concrete input: the record of the snapshot with children 2 at sort
0 and 3 at sort 5, of which neither is in the object table. -/
theorem write_datagram_layout_witness :
    (sampleCData.up.filter sampleWriter.has_object).length ≤ 65535 ∧
    sampleCData.down.length ≤ 65535 ∧
    CData.write_datagram sampleCData sampleWriter [] = .ok
      [Field.pointer 7, Field.pointer 8, Field.uint16 1, Field.pointer 9, Field.uint16 2,
        Field.pointer 2, Field.int32 0, Field.pointer 3, Field.int32 5] :=
  ⟨by decide, by decide,
    write_datagram_layout sampleCData sampleWriter [] (by decide) (by decide)⟩

/-! ## Pointer consumption of `complete_pointers` -/

theorem read_pointer_inv (m m1 : BamReader) (scan rest : Datagram)
    (h : m.read_pointer scan = .ok (m1, rest)) :
    ∃ t, scan = Field.pointer t :: rest ∧ m1.requested = m.requested ++ [t] := by
  unfold BamReader.read_pointer at h
  split at h
  · rename_i t rest1
    simp only [Except.ok.injEq, Prod.mk.injEq] at h
    exact ⟨t, by rw [h.2], by rw [← h.1]⟩
  · simp at h

theorem get_uint16_inv (scan rest : Datagram) (v : Nat)
    (h : get_uint16 scan = .ok (v, rest)) : scan = Field.uint16 v :: rest := by
  unfold get_uint16 at h
  split at h
  · simp only [Except.ok.injEq, Prod.mk.injEq] at h
    rw [h.1, h.2]
  · simp at h

theorem get_int32_inv (scan rest : Datagram) (v : Int)
    (h : get_int32 scan = .ok (v, rest)) : scan = Field.int32 v :: rest := by
  unfold get_int32 at h
  split at h
  · simp only [Except.ok.injEq, Prod.mk.injEq] at h
    rw [h.1, h.2]
  · simp at h

theorem fillinParents_inv :
    ∀ (i : Nat) (cd cd1 : CData) (m m1 : BamReader) (scan rest : Datagram),
      fillinParents i cd m scan = .ok (cd1, m1, rest) →
      ∃ toks : List Nat, toks.length = i ∧ scan = toks.map Field.pointer ++ rest ∧
        m1.requested = m.requested ++ toks ∧
        cd1 = { cd with up := cd.up ++ List.replicate i NULL } := by
  intro i
  induction i with
  | zero =>
    intro cd cd1 m m1 scan rest h
    simp only [fillinParents, Except.ok.injEq, Prod.mk.injEq] at h
    refine ⟨[], Eq.refl _, by simp [h.2.2], by simp [h.2.1], ?_⟩
    rw [← h.1]
    simp
  | succ k ih =>
    intro cd cd1 m m1 scan rest h
    unfold fillinParents at h
    split at h
    · simp at h
    · rename_i r hr
      obtain ⟨t, hs, hq⟩ := read_pointer_inv m r.1 scan r.2 hr
      obtain ⟨toks, h1, h2, h3, h4⟩ := ih _ _ _ _ _ _ h
      refine ⟨t :: toks, by simp [h1], ?_, ?_, ?_⟩
      · rw [hs, h2]
        rfl
      · rw [h3, hq]
        simp
      · rw [h4]
        simp [List.replicate_succ]

theorem fillinChildren_inv :
    ∀ (i : Nat) (cd cd1 : CData) (m m1 : BamReader) (scan rest : Datagram),
      fillinChildren i cd m scan = .ok (cd1, m1, rest) →
      ∃ cs : List (Nat × Int), cs.length = i ∧ scan = pairFields cs ++ rest ∧
        m1.requested = m.requested ++ cs.map (fun c => c.1) ∧
        cd1 = { cd with down := cd.down ++ cs.map (fun c => ⟨NULL, c.2⟩) } := by
  intro i
  induction i with
  | zero =>
    intro cd cd1 m m1 scan rest h
    simp only [fillinChildren, Except.ok.injEq, Prod.mk.injEq] at h
    refine ⟨[], Eq.refl _, by simp [pairFields, h.2.2], by simp [h.2.1], ?_⟩
    rw [← h.1]
    simp
  | succ k ih =>
    intro cd cd1 m m1 scan rest h
    unfold fillinChildren at h
    split at h
    · simp at h
    · rename_i r hr
      split at h
      · simp at h
      · rename_i q hq
        obtain ⟨t, hs, hreq⟩ := read_pointer_inv m r.1 scan r.2 hr
        have hs2 := get_int32_inv r.2 q.2 q.1 hq
        obtain ⟨cs, h1, h2, h3, h4⟩ := ih _ _ _ _ _ _ h
        refine ⟨(t, q.1) :: cs, by simp [h1], ?_, ?_, ?_⟩
        · rw [hs, hs2, h2]
          rfl
        · rw [h3, hreq]
          simp
        · rw [h4]
          simp

/-- What a completed `fillin` has read and stored. -/
theorem fillin_inv (cd0 cd1 : CData) (m m1 : BamReader) (scan rest : Datagram)
    (h : CData.fillin cd0 scan m = .ok (cd1, m1, rest)) :
    ∃ t1 t2 ps cs, scan = recordOf t1 t2 ps cs rest ∧
      m1.requested = m.requested ++ t1 :: t2 :: (ps ++ cs.map (fun c => c.1)) ∧
      cd1 = { cd0 with up := cd0.up ++ List.replicate ps.length NULL,
                       down := cd0.down ++ cs.map (fun c => ⟨NULL, c.2⟩) } := by
  unfold CData.fillin at h
  split at h
  · simp at h
  · rename_i r1 hr1
    split at h
    · simp at h
    · rename_i r2 hr2
      split at h
      · simp at h
      · rename_i np hnp
        split at h
        · simp at h
        · rename_i r3 hr3
          split at h
          · simp at h
          · rename_i nc hnc
            obtain ⟨t1, hs1, hq1⟩ := read_pointer_inv m r1.1 scan r1.2 hr1
            obtain ⟨t2, hs2, hq2⟩ := read_pointer_inv r1.1 r2.1 r1.2 r2.2 hr2
            have hs3 := get_uint16_inv r2.2 np.2 np.1 hnp
            obtain ⟨ps, hp1, hp2, hp3, hp4⟩ := fillinParents_inv _ _ _ _ _ _ _ hr3
            have hs4 := get_uint16_inv r3.2.2 nc.2 nc.1 hnc
            obtain ⟨cs, hc1, hc2, hc3, hc4⟩ := fillinChildren_inv _ _ _ _ _ _ _ h
            refine ⟨t1, t2, ps, cs, ?_, ?_, ?_⟩
            · unfold recordOf
              rw [hs1, hs2, hs3, hp2, hs4, hc2, hp1, hc1]
            · rw [hc3, hp3, hq2, hq1]
              simp
            · rw [hc4, hp4, hp1]

theorem completeUp_spec (us : List Ptr) (p_list : List Ptr) :
    ∀ i, (completeUp us p_list i).2 = i + us.length ∧
      (completeUp us p_list i).1.length = us.length ∧
      ∀ j, j < us.length →
        (completeUp us p_list i).1[j]? = some (p_list.getD (i + j) NULL) := by
  induction us with
  | nil => intro i; simp [completeUp]
  | cons u t ih =>
    intro i
    obtain ⟨h1, h2, h3⟩ := ih (i + 1)
    unfold completeUp
    simp only [List.length_cons]
    refine ⟨by rw [h1]; omega, by rw [h2], ?_⟩
    intro j hj
    cases j with
    | zero => simp
    | succ j =>
      simp only [List.getElem?_cons_succ]
      rw [h3 j (by omega)]
      congr 2
      omega

theorem completeDown_spec (ds : List DownConnection) (p_list : List Ptr) :
    ∀ i, (completeDown ds p_list i).2 = i + ds.length ∧
      (completeDown ds p_list i).1.length = ds.length ∧
      ∀ (j : Nat) (d : DownConnection), ds[j]? = some d →
        (completeDown ds p_list i).1[j]? =
          some (⟨p_list.getD (i + j) NULL, d.sort⟩ : DownConnection) := by
  induction ds with
  | nil => intro i; simp [completeDown]
  | cons u t ih =>
    intro i
    obtain ⟨h1, h2, h3⟩ := ih (i + 1)
    unfold completeDown
    simp only [List.length_cons]
    refine ⟨by rw [h1]; omega, by rw [h2], ?_⟩
    intro j d hj
    cases j with
    | zero =>
      simp only [List.getElem?_cons_zero, Option.some.injEq] at hj
      subst hj
      simp
    | succ j =>
      simp only [List.getElem?_cons_succ] at hj ⊢
      rw [h3 j d hj]
      congr 3
      omega

/-- C11: when `fillin` has filled a fresh snapshot from a record with `k` parent
tokens `ps` and `n` (child token, sort) pairs `cs`, it has made `2 + k + n`
`read_pointer` calls, in the order state, transform, parents, children, and
`complete_pointers` started at the count `base` of the base class returns
`base + 2 + k + n`: it takes the state from `p_list[base]`, the transform from
`p_list[base + 1]`, the `i`-th parent from `p_list[base + 2 + i]` and the `j`-th
child from `p_list[base + 2 + k + j]`, keeping the sort read for it. -/
theorem complete_pointers_consumes (cd0 cd1 : CData) (m m1 : BamReader)
    (scan rest : Datagram) (p_list : List Ptr) (base : Nat)
    (hup0 : cd0.up = []) (hdown0 : cd0.down = [])
    (h : CData.fillin cd0 scan m = .ok (cd1, m1, rest)) :
    ∃ t1 t2 ps cs, scan = recordOf t1 t2 ps cs rest ∧
      m1.requested = m.requested ++ t1 :: t2 :: (ps ++ cs.map (fun c => c.1)) ∧
      m1.requested.length = m.requested.length + (2 + ps.length + cs.length) ∧
      (CData.complete_pointers cd1 p_list base).2 = base + 2 + ps.length + cs.length ∧
      (CData.complete_pointers cd1 p_list base).1.state = p_list.getD base NULL ∧
      (CData.complete_pointers cd1 p_list base).1.transform = p_list.getD (base + 1) NULL ∧
      (CData.complete_pointers cd1 p_list base).1.up.length = ps.length ∧
      (CData.complete_pointers cd1 p_list base).1.down.length = cs.length ∧
      (∀ i, i < ps.length →
        (CData.complete_pointers cd1 p_list base).1.up[i]? =
          some (p_list.getD (base + 2 + i) NULL)) ∧
      (∀ (j : Nat) (c : Nat × Int), cs[j]? = some c →
        (CData.complete_pointers cd1 p_list base).1.down[j]? =
          some (⟨p_list.getD (base + 2 + ps.length + j) NULL, c.2⟩ : DownConnection)) := by
  obtain ⟨t1, t2, ps, cs, hs, hq, hcd⟩ := fillin_inv cd0 cd1 m m1 scan rest h
  refine ⟨t1, t2, ps, cs, hs, hq, ?_, ?_⟩
  · rw [hq]
    simp only [List.length_append, List.length_cons, List.length_map]
    omega
  · have hup : cd1.up = List.replicate ps.length NULL := by rw [hcd, hup0]; rfl
    have hdown : cd1.down = cs.map (fun c => (⟨NULL, c.2⟩ : DownConnection)) := by
      rw [hcd, hdown0]; rfl
    obtain ⟨u1, u2, u3⟩ := completeUp_spec cd1.up p_list (base + 2)
    obtain ⟨d1, d2, d3⟩ := completeDown_spec cd1.down p_list
      (completeUp cd1.up p_list (base + 2)).2
    have hul : cd1.up.length = ps.length := by rw [hup]; simp
    have hdl : cd1.down.length = cs.length := by rw [hdown]; simp
    unfold CData.complete_pointers
    simp only
    refine ⟨?_, trivial, trivial, ?_, ?_, ?_, ?_⟩
    · rw [d1, u1, hul, hdl]
    · rw [u2, hul]
    · rw [d2, hdl]
    · intro i hi
      exact u3 i (by omega)
    · intro j c hj
      have hdj : cd1.down[j]? = some (⟨NULL, c.2⟩ : DownConnection) := by
        rw [hdown, List.getElem?_map, hj]
        rfl
      rw [d3 j _ hdj, u1, hul]

/-- C11 at a concrete input: the record with one parent and two children makes
`complete_pointers` return 5 for the base count 0. -/
theorem complete_pointers_consumes_witness :
    freshCData.up = [] ∧ freshCData.down = [] ∧
    CData.fillin freshCData sampleRecord ⟨[]⟩ = .ok (sampleFilled, ⟨[7, 8, 9, 2, 3]⟩, []) ∧
    (CData.complete_pointers sampleFilled [17, 18, 19, 12, 13] 0).2 = 5 ∧
    (CData.complete_pointers sampleFilled [17, 18, 19, 12, 13] 0).1 =
      { down := [⟨12, 0⟩, ⟨13, 5⟩], up := [19], chains := [], state := 17,
        transform := 18 } := by
  have hfill : CData.fillin freshCData sampleRecord ⟨[]⟩ =
      .ok (sampleFilled, ⟨[7, 8, 9, 2, 3]⟩, []) := by rfl
  obtain ⟨_, _, _, _, _, _, _, _, _⟩ := complete_pointers_consumes freshCData sampleFilled
    ⟨[]⟩ ⟨[7, 8, 9, 2, 3]⟩ sampleRecord [] [17, 18, 19, 12, 13] 0 (Eq.refl _) (Eq.refl _) hfill
  exact ⟨Eq.refl _, Eq.refl _, hfill, by decide, by decide⟩

/-! ## Looking up path components -/

theorem find_parent_neg (g : Graph) (this node : Ptr) (h : node ∉ (g.cdata this).up) :
    ¬ find_parent g this node ≥ 0 := by
  unfold find_parent
  split
  · rename_i i hi
    exfalso
    rw [List.indexOf?, List.findIdx?_eq_some_iff_getElem] at hi
    obtain ⟨hlt, hp, _⟩ := hi
    apply h
    have : (g.cdata this).up[i] = node := by simpa using hp
    rw [← this]
    exact List.getElem_mem _
  · omega

theorem newComponent_comps_old (g : Graph) (C : Ptr) (next : Option Comp) (c : Comp)
    (h : c ≠ g.fresh) : (newComponent g C next).1.comps c = g.comps c := by
  simp only [newComponent]
  exact setAt_other _ _ _ _ h

theorem newComponent_comps_new (g : Graph) (C : Ptr) (next : Option Comp) :
    ((newComponent g C next).1.comps g.fresh).node = C ∧
    ((newComponent g C next).1.comps g.fresh).next = next ∧
    ((newComponent g C next).1.comps g.fresh).collapsed = none := by
  simp only [newComponent, setAt_same]
  exact ⟨trivial, trivial, trivial⟩

theorem newComponent_chains_wf (g : Graph) (C : Ptr) (next : Option Comp) (hwf : ChainsWF g) :
    ChainsWF (setChains (newComponent g C next).1 C
      (setInsert ((newComponent g C next).1.cdata C).chains (newComponent g C next).2)) := by
  intro n x hx
  simp only [setChains_chains, newComponent_cdata] at hx
  simp only [setChains_comps, setChains_fresh]
  have hfr : (newComponent g C next).1.fresh = g.fresh + 1 := Eq.refl _
  have hold : x ∈ (g.cdata n).chains →
      ((newComponent g C next).1.comps x).node = n ∧ x < (newComponent g C next).1.fresh := by
    intro hm
    have := hwf n x hm
    rw [newComponent_comps_old _ _ _ _ (Nat.ne_of_lt this.2), hfr]
    exact ⟨this.1, Nat.lt_succ_of_lt this.2⟩
  split at hx
  · rename_i hn
    subst hn
    rcases (mem_setInsert _ _ _).mp hx with h1 | h1
    · exact hold h1
    · have h2 : x = g.fresh := h1
      subst h2
      rw [hfr]
      exact ⟨(newComponent_comps_new g n next).1, Nat.lt_succ_self _⟩
  · exact hold hx

theorem is_top_node_iff (m : Comp → PathComponent) (c : Comp) :
    is_top_node m c = true ↔ (m c).next = none := by
  unfold is_top_node
  cases (m c).next <;> simp

theorem is_top_node_false_iff (m : Comp → PathComponent) (c : Comp) :
    is_top_node m c = false ↔ ∃ nx, (m c).next = some nx := by
  unfold is_top_node
  cases (m c).next <;> simp

theorem fresh_not_mem (g : Graph) (n : Ptr) (hwf : ChainsWF g) :
    g.fresh ∉ (g.cdata n).chains := by
  intro h
  exact Nat.lt_irrefl _ (hwf n _ h).2

theorem setInsert_of_not_mem (l : List Nat) (x : Nat) (h : x ∉ l) :
    setInsert l x = l ++ [x] := by
  unfold setInsert
  rw [if_neg h]

theorem get_top_component_facts (g : Graph) (N : Ptr) (hwf : ChainsWF g) :
    is_top_node (get_top_component g N).1.comps (get_top_component g N).2 = true ∧
    ((get_top_component g N).1.comps (get_top_component g N).2).node = N ∧
    (get_top_component g N).2 ∈ ((get_top_component g N).1.cdata N).chains ∧
    ((∃ c, c ∈ (g.cdata N).chains ∧ is_top_node g.comps c = true) →
      (get_top_component g N).2 ∈ (g.cdata N).chains ∧
      is_top_node g.comps (get_top_component g N).2 = true ∧
      (get_top_component g N).1 = g) ∧
    ((∀ c, c ∈ (g.cdata N).chains → is_top_node g.comps c = false) →
      (get_top_component g N).2 ∉ (g.cdata N).chains ∧
      ((get_top_component g N).1.cdata N).chains =
        (g.cdata N).chains ++ [(get_top_component g N).2] ∧
      ∀ n, n ≠ N → ((get_top_component g N).1.cdata n).chains = (g.cdata n).chains) ∧
    get_top_component (get_top_component g N).1 N =
      ((get_top_component g N).1, (get_top_component g N).2) := by
  cases hfind : (g.cdata N).chains.find? (fun ci => is_top_node g.comps ci) with
  | some ci =>
    have hres : get_top_component g N = (g, ci) := by
      unfold get_top_component
      rw [hfind]
    have hmem := List.mem_of_find?_eq_some hfind
    have htop : is_top_node g.comps ci = true := List.find?_some hfind
    rw [hres]
    refine ⟨htop, (hwf N ci hmem).1, hmem, fun _ => ⟨hmem, htop, Eq.refl _⟩, ?_, hres⟩
    intro hnone
    rw [hnone ci hmem] at htop
    simp at htop
  | none =>
    have hres : get_top_component g N =
        (setChains (newComponent g N none).1 N
          (setInsert ((newComponent g N none).1.cdata N).chains (newComponent g N none).2),
         (newComponent g N none).2) := by
      unfold get_top_component
      rw [hfind]
    have hfr : (newComponent g N none).2 = g.fresh := Eq.refl _
    have hnot := fresh_not_mem g N hwf
    have hchains : ((setChains (newComponent g N none).1 N
          (setInsert ((newComponent g N none).1.cdata N).chains
            (newComponent g N none).2)).cdata N).chains = (g.cdata N).chains ++ [g.fresh] := by
      rw [setChains_chains, if_pos (Eq.refl _), newComponent_cdata, hfr,
        setInsert_of_not_mem _ _ hnot]
    have hcomp : (setChains (newComponent g N none).1 N
          (setInsert ((newComponent g N none).1.cdata N).chains
            (newComponent g N none).2)).comps =
        setAt g.comps g.fresh { node := N, next := none, length := 0, collapsed := none } :=
      Eq.refl _
    have hnone : ∀ c, c ∈ (g.cdata N).chains → is_top_node g.comps c = false := by
      intro c hc
      have := (List.find?_eq_none.mp hfind) c hc
      cases hb : is_top_node g.comps c with
      | false => rfl
      | true => exact absurd hb this
    rw [hres]
    refine ⟨?_, ?_, ?_, ?_, ?_, ?_⟩
    · rw [hcomp, hfr]
      simp [is_top_node, setAt_same]
    · rw [hcomp, hfr]
      simp [setAt_same]
    · rw [hchains, hfr]
      simp
    · rintro ⟨c, hc, ht⟩
      rw [hnone c hc] at ht
      simp at ht
    · intro _
      refine ⟨by rw [hfr]; exact hnot, by rw [hchains, hfr], ?_⟩
      intro n hn
      rw [setChains_chains, if_neg hn, newComponent_cdata]
    · unfold get_top_component
      rw [hchains, hcomp]
      have hf2 : List.find? (fun ci => is_top_node
          (setAt g.comps g.fresh { node := N, next := none, length := 0, collapsed := none })
            ci) ((g.cdata N).chains ++ [g.fresh]) = some g.fresh := by
        rw [List.find?_append]
        have h1 : List.find? (fun ci => is_top_node
            (setAt g.comps g.fresh { node := N, next := none, length := 0, collapsed := none })
              ci) (g.cdata N).chains = none := by
          rw [List.find?_eq_none]
          intro x hx
          have hlt := (hwf N x hx).2
          have hx2 : is_top_node (setAt g.comps g.fresh
              { node := N, next := none, length := 0, collapsed := none }) x
              = is_top_node g.comps x := by
            unfold is_top_node
            rw [setAt_other _ _ _ _ (Nat.ne_of_lt hlt)]
          rw [hx2, hnone x hx]
          simp
        rw [h1]
        simp [is_top_node, setAt_same]
      rw [hf2]
      rfl

/-- C18: `get_top_component(N)` returns a TOP component naming `N` that is in
the chain set of `N` after the call; when the chain set already held a TOP
component the result is one of them and the state is unchanged, otherwise the
chain set of `N` grows by exactly the component returned and no other chain set
changes; a second call returns the same component and changes nothing.  The
chain sets of the state are well formed. -/
theorem get_top_component_spec (g : Graph) (N : Ptr) (hwf : ChainsWF g) :
    is_top_node (get_top_component g N).1.comps (get_top_component g N).2 = true ∧
    ((get_top_component g N).1.comps (get_top_component g N).2).node = N ∧
    (get_top_component g N).2 ∈ ((get_top_component g N).1.cdata N).chains ∧
    ((∃ c, c ∈ (g.cdata N).chains ∧ is_top_node g.comps c = true) →
      (get_top_component g N).2 ∈ (g.cdata N).chains ∧
      is_top_node g.comps (get_top_component g N).2 = true ∧
      (get_top_component g N).1 = g) ∧
    ((∀ c, c ∈ (g.cdata N).chains → is_top_node g.comps c = false) →
      (get_top_component g N).2 ∉ (g.cdata N).chains ∧
      ((get_top_component g N).1.cdata N).chains =
        (g.cdata N).chains ++ [(get_top_component g N).2] ∧
      ∀ n, n ≠ N → ((get_top_component g N).1.cdata n).chains = (g.cdata n).chains) ∧
    get_top_component (get_top_component g N).1 N =
      ((get_top_component g N).1, (get_top_component g N).2) :=
  get_top_component_facts g N hwf

/-- C18 at a concrete input: node 1 of the empty graph gets the new TOP
component 1, and a second call returns it again. -/
theorem get_top_component_spec_witness :
    ChainsWF emptyGraph ∧ (get_top_component emptyGraph 1).2 = 1 ∧
    ((get_top_component emptyGraph 1).1.cdata 1).chains = [1] ∧
    get_top_component (get_top_component emptyGraph 1).1 1 =
      ((get_top_component emptyGraph 1).1, 1) := by
  have h := get_top_component_spec emptyGraph 1 emptyGraph_chainsWF
  have h2 : (get_top_component emptyGraph 1).2 = 1 := by decide
  refine ⟨emptyGraph_chainsWF, h2, by decide, ?_⟩
  have h6 := h.2.2.2.2.2
  rw [h2] at h6
  exact h6

theorem get_component_found (g : Graph) (p : Comp) (C : Ptr) (ci : Comp)
    (h : (g.cdata C).chains.find? (fun ci => decide ((g.comps ci).next = some p)) = some ci) :
    get_component g (some p) C = .ok (g, some ci) := by
  unfold get_component
  simp only [h]

theorem get_component_new (g : Graph) (p : Comp) (C : Ptr)
    (h : (g.cdata C).chains.find? (fun ci => decide ((g.comps ci).next = some p)) = none)
    (hm : (g.comps p).node ∈ (g.cdata C).up) :
    get_component g (some p) C =
      .ok (setChains (newComponent g C (some p)).1 C
        (setInsert ((newComponent g C (some p)).1.cdata C).chains g.fresh), some g.fresh) := by
  unfold get_component
  simp only [h]
  rw [if_pos (find_parent_nonneg g C _ hm)]
  rfl

theorem get_component_unrelated (g : Graph) (p : Comp) (C : Ptr)
    (h : (g.cdata C).chains.find? (fun ci => decide ((g.comps ci).next = some p)) = none)
    (hm : (g.comps p).node ∉ (g.cdata C).up) :
    get_component g (some p) C = .ok (g, none) := by
  unfold get_component
  simp only [h]
  rw [if_neg (find_parent_neg g C _ hm)]

theorem get_component_facts (g : Graph) (p : Comp) (C : Ptr) (hwf : ChainsWF g) :
    ∃ g1 r, get_component g (some p) C = .ok (g1, r) ∧
      (r = none ↔ ((∀ c, c ∈ (g.cdata C).chains → (g.comps c).next ≠ some p) ∧
        (g.comps p).node ∉ (g.cdata C).up)) ∧
      (∀ k, r = some k →
        (g1.comps k).node = C ∧ (g1.comps k).next = some p ∧ k ∈ (g1.cdata C).chains ∧
        ((∃ c, c ∈ (g.cdata C).chains ∧ (g.comps c).next = some p) →
          k ∈ (g.cdata C).chains ∧ (g.comps k).next = some p ∧ g1 = g)) := by
  cases hfind : (g.cdata C).chains.find? (fun ci => decide ((g.comps ci).next = some p)) with
  | some ci =>
    have hmem := List.mem_of_find?_eq_some hfind
    have hnext : (g.comps ci).next = some p := by
      have := List.find?_some hfind
      simpa using this
    refine ⟨g, some ci, get_component_found g p C ci hfind, ?_, ?_⟩
    · constructor
      · intro h; simp at h
      · intro h
        exact absurd hnext (h.1 ci hmem)
    · intro k hk
      simp only [Option.some.injEq] at hk
      subst hk
      exact ⟨(hwf C ci hmem).1, hnext, hmem, fun _ => ⟨hmem, hnext, Eq.refl _⟩⟩
  | none =>
    have hnone : ∀ c, c ∈ (g.cdata C).chains → (g.comps c).next ≠ some p := by
      intro c hc
      have := (List.find?_eq_none.mp hfind) c hc
      simpa using this
    by_cases hm : (g.comps p).node ∈ (g.cdata C).up
    · refine ⟨_, some g.fresh, get_component_new g p C hfind hm, ?_, ?_⟩
      · constructor
        · intro h; simp at h
        · intro h
          exact absurd hm h.2
      · intro k hk
        simp only [Option.some.injEq] at hk
        subst hk
        refine ⟨?_, ?_, ?_, ?_⟩
        · rw [setChains_comps]
          exact (newComponent_comps_new g C (some p)).1
        · rw [setChains_comps]
          exact (newComponent_comps_new g C (some p)).2.1
        · rw [setChains_chains, if_pos (Eq.refl _)]
          exact (mem_setInsert _ _ _).mpr (Or.inr (Eq.refl _))
        · rintro ⟨c, hc, hn⟩
          exact absurd hn (hnone c hc)
    · refine ⟨g, none, get_component_unrelated g p C hfind hm, ?_, ?_⟩
      · exact ⟨fun _ => ⟨hnone, hm⟩, fun _ => Eq.refl _⟩
      · intro k hk
        simp at hk

/-- C15: `get_component(p, C)` returns the null component exactly when no
component of the chain set of `C` has `p` as its next and the node of `p` is not
in the up-set of `C`; a component it returns names `C`, has `p` as its next and
is in the chain set of `C` after the call, and when the chain set already held a
component with next `p` the result is such a component and the state is
unchanged.  The chain sets of the state are well formed. -/
theorem get_component_spec (g : Graph) (p : Comp) (C : Ptr) (hwf : ChainsWF g) :
    ∃ g1 r, get_component g (some p) C = .ok (g1, r) ∧
      (r = none ↔ ((∀ c, c ∈ (g.cdata C).chains → (g.comps c).next ≠ some p) ∧
        (g.comps p).node ∉ (g.cdata C).up)) ∧
      (∀ k, r = some k →
        (g1.comps k).node = C ∧ (g1.comps k).next = some p ∧ k ∈ (g1.cdata C).chains ∧
        ((∃ c, c ∈ (g.cdata C).chains ∧ (g.comps c).next = some p) →
          k ∈ (g.cdata C).chains ∧ (g.comps k).next = some p ∧ g1 = g)) :=
  get_component_facts g p C hwf

/-- What a successful `get_component` leaves of the state around the component
it returns. -/
theorem get_component_some (g : Graph) (p : Comp) (C : Ptr) (hwf : ChainsWF g)
    (hp : (g.comps p).node ∈ (g.cdata C).up) :
    ∃ g1 k, get_component g (some p) C = .ok (g1, some k) ∧ ChainsWF g1 ∧
      (g1.comps k).node = C ∧ (g1.comps k).next = some p ∧ k ∈ (g1.cdata C).chains ∧
      SameEdges g g1 ∧ (∀ c, c < g.fresh → g1.comps c = g.comps c) ∧ g.fresh ≤ g1.fresh ∧
      (∀ n c, c ∈ (g.cdata n).chains → c ∈ (g1.cdata n).chains) ∧ g1.stale = g.stale := by
  cases hfind : (g.cdata C).chains.find? (fun ci => decide ((g.comps ci).next = some p)) with
  | some ci =>
    have hmem := List.mem_of_find?_eq_some hfind
    have hnext : (g.comps ci).next = some p := by
      have := List.find?_some hfind
      simpa using this
    exact ⟨g, ci, get_component_found g p C ci hfind, hwf, (hwf C ci hmem).1, hnext, hmem,
      sameEdges_refl g, fun _ _ => Eq.refl _, Nat.le_refl _, fun _ _ h => h, Eq.refl _⟩
  | none =>
    refine ⟨_, g.fresh, get_component_new g p C hfind hp, newComponent_chains_wf g C (some p) hwf,
      ?_, ?_, ?_, ?_, ?_, ?_, ?_, Eq.refl _⟩
    · rw [setChains_comps]
      exact (newComponent_comps_new g C (some p)).1
    · rw [setChains_comps]
      exact (newComponent_comps_new g C (some p)).2.1
    · rw [setChains_chains, if_pos (Eq.refl _)]
      exact (mem_setInsert _ _ _).mpr (Or.inr (Eq.refl _))
    · intro n
      simp [newComponent_cdata]
    · intro c hc
      rw [setChains_comps]
      exact newComponent_comps_old g C (some p) c (Nat.ne_of_lt hc)
    · exact Nat.le_succ _
    · intro n c hc
      rw [setChains_chains, newComponent_cdata]
      split
      · rename_i hn
        subst hn
        exact (mem_setInsert _ _ _).mpr (Or.inl hc)
      · exact hc

/-- C16: when `C` is instanced under the two different parents `P1` and `P2`,
`p1` being a component of `P1` and `p2` one of `P2`, `get_component(p1, C)`
followed by `get_component(p2, C)` both return a component, the two are
different, and afterwards both are in the chain set of `C` with `p1` and `p2` as
their next. -/
theorem get_component_instanced (g : Graph) (P1 P2 C : Ptr) (p1 p2 : Comp)
    (hwf : ChainsWF g) (hne : P1 ≠ P2)
    (h1 : P1 ∈ (g.cdata C).up) (h2 : P2 ∈ (g.cdata C).up)
    (hp1 : p1 ∈ (g.cdata P1).chains) (hp2 : p2 ∈ (g.cdata P2).chains) :
    ∃ g1 r1 g2 r2, get_component g (some p1) C = .ok (g1, some r1) ∧
      get_component g1 (some p2) C = .ok (g2, some r2) ∧ r1 ≠ r2 ∧
      r1 ∈ (g2.cdata C).chains ∧ r2 ∈ (g2.cdata C).chains ∧
      (g2.comps r1).next = some p1 ∧ (g2.comps r2).next = some p2 := by
  have hn1 := hwf P1 p1 hp1
  have hn2 := hwf P2 p2 hp2
  obtain ⟨g1, r1, hr1, hwf1, _, hnx1, hm1, hse1, hold1, _, _, _⟩ :=
    get_component_some g p1 C hwf (by rw [hn1.1]; exact h1)
  have hp2' : (g1.comps p2).node ∈ (g1.cdata C).up := by
    rw [hold1 p2 hn2.2, hn2.1, (hse1 C).2]
    exact h2
  obtain ⟨g2, r2, hr2, _, _, hnx2, hm2, _, hold2, _, hsub2, _⟩ :=
    get_component_some g1 p2 C hwf1 hp2'
  have hnx1' : (g2.comps r1).next = some p1 := by
    rw [hold2 r1 (hwf1 C r1 hm1).2]
    exact hnx1
  refine ⟨g1, r1, g2, r2, hr1, hr2, ?_, hsub2 C r1 hm1, hm2, hnx1', hnx2⟩
  intro he
  rw [he, hnx2] at hnx1'
  simp only [Option.some.injEq] at hnx1'
  apply hne
  rw [← hn1.1, ← hn2.1, hnx1']

theorem twoParentsGraph_chainsWF : ChainsWF twoParentsGraph := by
  intro n c hc
  by_cases h1 : n = 1
  · subst h1
    simp only [twoParentsGraph, if_true, List.mem_singleton] at hc
    subst hc
    decide
  · by_cases h2 : n = 2
    · subst h2
      simp only [twoParentsGraph, List.mem_singleton] at hc
      have hc2 : c = 2 := by simpa using hc
      subst hc2
      decide
    · by_cases h3 : n = 3
      · subst h3
        simp [twoParentsGraph] at hc
      · simp [twoParentsGraph, h1, h2, h3] at hc

theorem instancedGraph_chainsWF : ChainsWF instancedGraph := by
  intro n c hc
  by_cases h1 : n = 1
  · subst h1
    simp only [instancedGraph, if_true, List.mem_singleton] at hc
    subst hc
    decide
  · by_cases h2 : n = 2
    · subst h2
      have hc2 : c = 2 := by simpa [instancedGraph] using hc
      subst hc2
      decide
    · by_cases h3 : n = 3
      · subst h3
        have hc3 : c = 3 ∨ c = 4 := by simpa [instancedGraph] using hc
        rcases hc3 with e | e <;> subst e <;> decide
      · simp [instancedGraph, h1, h2, h3] at hc

/-- C15 at a concrete input: in `instancedGraph` the lookup of the component of
node 3 under component 1 returns the existing component 3. -/
theorem get_component_spec_witness :
    ChainsWF instancedGraph ∧
    ∃ g1, get_component instancedGraph (some 1) 3 = .ok (g1, some 3) ∧
      (g1.comps 3).node = 3 ∧ (g1.comps 3).next = some 1 ∧ 3 ∈ (g1.cdata 3).chains := by
  obtain ⟨g1, r, hr, _, hk⟩ := get_component_spec instancedGraph 1 3 instancedGraph_chainsWF
  have hfound : get_component instancedGraph (some 1) 3 = .ok (instancedGraph, some 3) := by
    rfl
  rw [hfound] at hr
  simp only [Except.ok.injEq, Prod.mk.injEq] at hr
  obtain ⟨hg, hr3⟩ := hr
  obtain ⟨ha, hb, hc, _⟩ := hk 3 hr3.symm
  exact ⟨instancedGraph_chainsWF, g1, by rw [← hg]; exact hfound, ha, hb, hc⟩

/-- C16 at a concrete input: node 3 of `twoParentsGraph`, looked up under the
components 1 and 2 of its two parents, gets two different components. -/
theorem get_component_instanced_witness :
    ChainsWF twoParentsGraph ∧ (1 : Ptr) ≠ 2 ∧
    1 ∈ (twoParentsGraph.cdata 3).up ∧ 2 ∈ (twoParentsGraph.cdata 3).up ∧
    1 ∈ (twoParentsGraph.cdata 1).chains ∧ 2 ∈ (twoParentsGraph.cdata 2).chains ∧
    ∃ g1 r1 g2 r2, get_component twoParentsGraph (some 1) 3 = .ok (g1, some r1) ∧
      get_component g1 (some 2) 3 = .ok (g2, some r2) ∧ r1 ≠ r2 := by
  have h1 : 1 ∈ (twoParentsGraph.cdata 3).up := by decide
  have h2 : 2 ∈ (twoParentsGraph.cdata 3).up := by decide
  have h3 : 1 ∈ (twoParentsGraph.cdata 1).chains := by decide
  have h4 : 2 ∈ (twoParentsGraph.cdata 2).chains := by decide
  obtain ⟨g1, r1, g2, r2, ha, hb, hc, _⟩ :=
    get_component_instanced twoParentsGraph 1 2 3 1 2 twoParentsGraph_chainsWF (by decide)
      h1 h2 h3 h4
  exact ⟨twoParentsGraph_chainsWF, by decide, h1, h2, h3, h4, g1, r1, g2, r2, ha, hb, hc⟩

/-! ## The generic component -/

theorem find?_congr_mem {α : Type} (l : List α) (p q : α → Bool)
    (h : ∀ x, x ∈ l → p x = q x) : l.find? p = l.find? q := by
  induction l with
  | nil => rfl
  | cons a t ih =>
    rw [List.find?_cons, List.find?_cons, h a (List.mem_cons_self _ _),
      ih (fun x hx => h x (List.mem_cons_of_mem _ hx))]

theorem isGeneric_mem (g : Graph) (n : Ptr) (r : Comp) (h : IsGeneric g n r) :
    r ∈ (g.cdata n).chains := by
  cases h with
  | top _ _ _ hf => exact List.mem_of_find?_eq_some hf
  | step _ _ _ _ _ hf => exact List.mem_of_find?_eq_some hf

/-- A generic component that is already there is returned by
`get_generic_component` without any change of the state. -/
theorem isGeneric_run (g : Graph) (dpt : Ptr → Nat)
    (hr : ∀ n p, p ∈ (g.cdata n).up → dpt p < dpt n) (n : Ptr) (r : Comp)
    (h : IsGeneric g n r) :
    ∀ fuel, dpt n < fuel → get_generic_component fuel g n = .ok (g, some r) := by
  induction h with
  | top n r h0 hf =>
    intro fuel hfuel
    cases fuel with
    | zero => omega
    | succ f =>
      unfold get_generic_component
      rw [if_pos h0]
      have : get_top_component g n = (g, r) := by
        unfold get_top_component
        rw [hf]
      rw [this]
  | step n q r h0 _ hf ih =>
    intro fuel hfuel
    cases fuel with
    | zero => omega
    | succ f =>
      unfold get_generic_component
      rw [if_neg h0]
      have hlt := hr n _ (get_parent_mem g n h0)
      rw [ih f (by omega)]
      exact get_component_found g q n r hf

/-- A generic component stays one when the state changes only at nodes that are
not above the bound and at handles that were not yet allocated. -/
theorem isGeneric_congr (g g1 : Graph) (dpt : Ptr → Nat) (bound : Nat)
    (hr : ∀ n p, p ∈ (g.cdata n).up → dpt p < dpt n) (hwf : ChainsWF g)
    (hcd : ∀ x, dpt x < bound → g1.cdata x = g.cdata x)
    (hcm : ∀ c, c < g.fresh → g1.comps c = g.comps c) (n : Ptr) (r : Comp)
    (h : IsGeneric g n r) : dpt n < bound → IsGeneric g1 n r := by
  induction h with
  | top n r h0 hf =>
    intro hb
    apply IsGeneric.top
    · unfold get_num_parents at h0 ⊢
      rw [hcd n hb]
      exact h0
    · rw [hcd n hb, ← hf]
      apply find?_congr_mem
      intro x hx
      unfold is_top_node
      rw [hcm x (hwf n x hx).2]
  | step n q r h0 _ hf ih =>
    intro hb
    have hlt := hr n _ (get_parent_mem g n h0)
    have hpar : get_parent g1 n 0 = get_parent g n 0 := by
      unfold get_parent
      rw [hcd n hb]
    apply IsGeneric.step n q r
    · unfold get_num_parents at h0 ⊢
      rw [hcd n hb]
      exact h0
    · rw [hpar]
      exact ih (by omega)
    · rw [hcd n hb, ← hf]
      apply find?_congr_mem
      intro x hx
      rw [hcm x (hwf n x hx).2]

theorem get_top_component_refind (g : Graph) (N : Ptr) (hwf : ChainsWF g) :
    ((get_top_component g N).1.cdata N).chains.find?
      (fun ci => is_top_node (get_top_component g N).1.comps ci)
        = some (get_top_component g N).2 := by
  have h := (get_top_component_facts g N hwf).2.2.2.2.2
  generalize (get_top_component g N).1 = g1 at h ⊢
  generalize (get_top_component g N).2 = r at h ⊢
  unfold get_top_component at h
  split at h
  · rename_i ci hci
    simp only [Prod.mk.injEq, true_and] at h
    rw [← h]
    exact hci
  · exfalso
    have h2 : g1.fresh + 1 = g1.fresh := congrArg (fun x => x.1.fresh) h
    exact absurd h2 (Nat.succ_ne_self _)

theorem get_top_component_frame (g : Graph) (N : Ptr) :
    (∀ x, x ≠ N → (get_top_component g N).1.cdata x = g.cdata x) ∧
    (∀ c, c < g.fresh → (get_top_component g N).1.comps c = g.comps c) ∧
    g.fresh ≤ (get_top_component g N).1.fresh ∧
    (get_top_component g N).1.stale = g.stale := by
  unfold get_top_component
  split
  · exact ⟨fun _ _ => Eq.refl _, fun _ _ => Eq.refl _, Nat.le_refl _, Eq.refl _⟩
  · refine ⟨?_, ?_, Nat.le_succ _, Eq.refl _⟩
    · intro x hx
      simp only [setChains, newComponent]
      exact setAt_other _ _ _ _ hx
    · intro c hc
      rw [setChains_comps]
      exact newComponent_comps_old g N none c (Nat.ne_of_lt hc)

/-- After a successful `get_component` the component returned is the first one
of the chain set with the requested next, and only the chain set of the child
and not yet allocated handles have changed. -/
theorem get_component_refind (g : Graph) (p : Comp) (C : Ptr) (hwf : ChainsWF g)
    (hp : (g.comps p).node ∈ (g.cdata C).up) :
    ∃ g1 k, get_component g (some p) C = .ok (g1, some k) ∧
      (g1.cdata C).chains.find? (fun ci => decide ((g1.comps ci).next = some p)) = some k ∧
      (∀ x, x ≠ C → g1.cdata x = g.cdata x) := by
  cases hfind : (g.cdata C).chains.find? (fun ci => decide ((g.comps ci).next = some p)) with
  | some ci =>
    exact ⟨g, ci, get_component_found g p C ci hfind, hfind, fun _ _ => Eq.refl _⟩
  | none =>
    refine ⟨_, g.fresh, get_component_new g p C hfind hp, ?_, ?_⟩
    · rw [setChains_chains, if_pos (Eq.refl _), newComponent_cdata, setChains_comps,
        setInsert_of_not_mem _ _ (fresh_not_mem g C hwf), List.find?_append]
      have h1 : List.find?
          (fun ci => decide (((newComponent g C (some p)).1.comps ci).next = some p))
          (g.cdata C).chains = none := by
        rw [← hfind]
        apply find?_congr_mem
        intro x hx
        rw [newComponent_comps_old g C (some p) x (Nat.ne_of_lt (hwf C x hx).2)]
      rw [h1]
      simp [(newComponent_comps_new g C (some p)).2.1]
    · intro x hx
      simp only [setChains, newComponent]
      exact setAt_other _ _ _ _ hx

/-- On a graph without cycle whose chain sets are well formed,
`get_generic_component` returns a component that a further call finds again. -/
theorem get_generic_component_isGeneric (dpt : Ptr → Nat) :
    ∀ fuel g n, (∀ x p, p ∈ (g.cdata x).up → dpt p < dpt x) → ChainsWF g → dpt n < fuel →
      ∃ g1 r, get_generic_component fuel g n = .ok (g1, some r) ∧ ChainsWF g1 ∧
        IsGeneric g1 n r ∧ SameEdges g g1 ∧
        (∀ x, dpt n < dpt x → g1.cdata x = g.cdata x) ∧
        (∀ c, c < g.fresh → g1.comps c = g.comps c) ∧ g.fresh ≤ g1.fresh := by
  intro fuel
  induction fuel with
  | zero => intro g n _ _ h; omega
  | succ f ih =>
    intro g n hr hwf hf
    unfold get_generic_component
    split
    · rename_i h0
      have hfr := get_top_component_frame g n
      refine ⟨_, _, Eq.refl _, (get_top_component_wf g n hwf).1, ?_,
        get_top_component_edges g n, ?_, hfr.2.1, hfr.2.2.1⟩
      · apply IsGeneric.top
        · unfold get_num_parents at h0 ⊢
          rw [(get_top_component_edges g n n).2]
          exact h0
        · exact get_top_component_refind g n hwf
      · intro x hx
        exact hfr.1 x (by intro e; subst e; omega)
    · rename_i h0
      have hmem := get_parent_mem g n h0
      have hlt := hr n _ hmem
      obtain ⟨g1, q, hq, hwf1, hgen1, hse1, hcd1, hcm1, hfr1⟩ :=
        ih g (get_parent g n 0) hr hwf (by omega)
      rw [hq]
      simp only
      have hnode1 : (g1.comps q).node = get_parent g n 0 :=
        (hwf1 _ q (isGeneric_mem g1 _ q hgen1)).1
      have hp : (g1.comps q).node ∈ (g1.cdata n).up := by
        rw [hnode1, (hse1 n).2]
        exact hmem
      obtain ⟨g2, r, hr2, hwf2, _, _, _, hse2, hcm2, hfr2, _, _⟩ :=
        get_component_some g1 q n hwf1 hp
      obtain ⟨g2', r', hr2', hfind2, hcd2⟩ := get_component_refind g1 q n hwf1 hp
      rw [hr2] at hr2'
      simp only [Except.ok.injEq, Prod.mk.injEq, Option.some.injEq] at hr2'
      obtain ⟨hg, hrr⟩ := hr2'
      subst hg
      subst hrr
      have hr1 : ∀ x p, p ∈ (g1.cdata x).up → dpt p < dpt x := by
        intro x p hxp
        rw [(hse1 x).2] at hxp
        exact hr x p hxp
      have hup2 : (g2.cdata n).up = (g.cdata n).up := by
        rw [(hse2 n).2, (hse1 n).2]
      refine ⟨g2, r, hr2, hwf2, ?_, sameEdges_trans hse1 hse2, ?_, ?_, Nat.le_trans hfr1 hfr2⟩
      · apply IsGeneric.step n q r
        · unfold get_num_parents at h0 ⊢
          rw [hup2]
          exact h0
        · have hpar : get_parent g2 n 0 = get_parent g n 0 := by
            unfold get_parent
            rw [hup2]
          rw [hpar]
          apply isGeneric_congr g1 g2 dpt (dpt n) hr1 hwf1 _ hcm2 _ q hgen1 hlt
          intro x hx
          exact hcd2 x (by intro e; subst e; omega)
        · exact hfind2
      · intro x hx
        rw [hcd2 x (by intro e; subst e; omega)]
        exact hcd1 x (by omega)
      · intro c hc
        rw [hcm2 c (Nat.lt_of_lt_of_le hc hfr1), hcm1 c hc]

/-- C17: on a graph without cycle whose chain sets are well formed, for a node
`N` with at least one parent `get_generic_component` runs to completion as soon
as the fuel exceeds the depth of `N` and returns a non-null component of `N`, in
the chain set of `N`, whose next is a component naming the first parent of `N`
in up-set order; a second call, in the state left by the first, returns the
same component and leaves the state as it is. -/
theorem get_generic_component_spec (g : Graph) (N : Ptr) (hgt dpt : Ptr → Nat)
    (hr : Ranked g hgt dpt) (hwf : ChainsWF g) (hpar : get_num_parents g N ≠ 0)
    (fuel : Nat) (hf : dpt N < fuel) :
    ∃ g1 r q, get_generic_component fuel g N = .ok (g1, some r) ∧
      (g1.comps r).node = N ∧ r ∈ (g1.cdata N).chains ∧ (g1.comps r).next = some q ∧
      (g1.comps q).node = get_parent g N 0 ∧
      get_generic_component fuel g1 N = .ok (g1, some r) := by
  obtain ⟨g1, r, hrun, hwf1, hgen, hse, _, _, _⟩ :=
    get_generic_component_isGeneric dpt fuel g N hr.up_lt hwf hf
  have hr1 : ∀ x p, p ∈ (g1.cdata x).up → dpt p < dpt x := by
    intro x p hxp
    rw [(hse x).2] at hxp
    exact hr.up_lt x p hxp
  have hmem := isGeneric_mem g1 N r hgen
  have hpar1 : get_num_parents g1 N ≠ 0 := by
    unfold get_num_parents at hpar ⊢
    rw [(hse N).2]
    exact hpar
  have hp0 : get_parent g1 N 0 = get_parent g N 0 := by
    unfold get_parent
    rw [(hse N).2]
  cases hgen with
  | top _ _ h0 _ => exact absurd h0 hpar1
  | step _ q _ _ hq hfind =>
    refine ⟨g1, r, q, hrun, (hwf1 N r hmem).1, hmem, ?_, ?_, ?_⟩
    · have := List.find?_some hfind
      simpa using this
    · rw [← hp0]
      exact (hwf1 _ q (isGeneric_mem g1 _ q hq)).1
    · exact isGeneric_run g1 dpt hr1 N r (IsGeneric.step N q r hpar1 hq hfind) fuel hf

theorem twoParentsGraph_ranked (hgt dpt : Ptr → Nat) (h1 : hgt 3 < hgt 1) (h2 : hgt 3 < hgt 2)
    (h3 : dpt 1 < dpt 3) (h4 : dpt 2 < dpt 3) : Ranked twoParentsGraph hgt dpt := by
  constructor
  · intro n d hd
    by_cases e1 : n = 1
    · subst e1
      have : d = ⟨3, 0⟩ := by simpa [twoParentsGraph] using hd
      subst this
      exact h1
    · by_cases e2 : n = 2
      · subst e2
        have : d = ⟨3, 0⟩ := by simpa [twoParentsGraph] using hd
        subst this
        exact h2
      · by_cases e3 : n = 3
        · subst e3
          simp [twoParentsGraph] at hd
        · simp [twoParentsGraph, e1, e2, e3] at hd
  · intro n p hp
    by_cases e3 : n = 3
    · subst e3
      have : p = 1 ∨ p = 2 := by simpa [twoParentsGraph] using hp
      rcases this with e | e <;> subst e
      · exact h3
      · exact h4
    · by_cases e1 : n = 1
      · subst e1
        simp [twoParentsGraph] at hp
      · by_cases e2 : n = 2
        · subst e2
          simp [twoParentsGraph] at hp
        · simp [twoParentsGraph, e1, e2, e3] at hp

/-- C17 at a concrete input: node 3 of `twoParentsGraph` has the parents 1 and
2; its generic component is a new component whose next is the TOP component of
node 1. -/
theorem get_generic_component_spec_witness :
    Ranked twoParentsGraph (fun n => if n = 3 then 0 else 1) (fun n => if n = 3 then 1 else 0) ∧
    ChainsWF twoParentsGraph ∧ get_num_parents twoParentsGraph 3 ≠ 0 ∧
    ∃ g1 r q, get_generic_component 2 twoParentsGraph 3 = .ok (g1, some r) ∧
      (g1.comps r).next = some q ∧ (g1.comps q).node = 1 ∧
      get_generic_component 2 g1 3 = .ok (g1, some r) := by
  have hr := twoParentsGraph_ranked (fun n => if n = 3 then 0 else 1)
    (fun n => if n = 3 then 1 else 0) (by decide) (by decide) (by decide) (by decide)
  have hp : get_num_parents twoParentsGraph 3 ≠ 0 := by decide
  obtain ⟨g1, r, q, h1, _, _, h4, h5, h6⟩ :=
    get_generic_component_spec twoParentsGraph 3 _ _ hr twoParentsGraph_chainsWF hp 2
      (by decide)
  exact ⟨hr, twoParentsGraph_chainsWF, hp, g1, r, q, h1, h4, h5, h6⟩

/-! ## The severing loop -/

theorem ok_of_completes {α : Type} (r : Except Fault α) (d : α) (h : completes r = true) :
    r = .ok (valueOr r d) := by
  cases r with
  | ok a => rfl
  | error e => simp [completes] at h

theorem references_collapse_with (m : Comp → PathComponent) (ci k c : Comp) (this : Ptr) :
    references (collapse_with m ci k) c this = references m c this := by
  have hnext : ∀ x, ((collapse_with m ci k) x).next = (m x).next := by
    intro x
    unfold collapse_with setAt
    by_cases h : x = ci
    · subst h; simp
    · simp [h]
  have hnode : ∀ x, ((collapse_with m ci k) x).node = (m x).node := by
    intro x
    unfold collapse_with setAt
    by_cases h : x = ci
    · subst h; simp
    · simp [h]
  unfold references
  rw [hnext c]
  cases (m c).next with
  | none => rfl
  | some nx => simp only [hnode nx]

theorem references_set_top_node_self (m : Comp → PathComponent) (f : Comp) (this : Ptr) :
    references (set_top_node m f) f this = false := by
  unfold references set_top_node
  rw [setAt_same]

theorem references_set_top_node_other (m : Comp → PathComponent) (f c : Comp) (this : Ptr)
    (h : c ≠ f) : references (set_top_node m f) c this = references m c this := by
  have hnode : ∀ x, ((set_top_node m f) x).node = (m x).node := by
    intro x
    unfold set_top_node setAt
    by_cases hx : x = f
    · subst hx; simp
    · simp [hx]
  unfold references
  have hc : (set_top_node m f) c = m c := by
    unfold set_top_node
    exact setAt_other _ _ _ _ h
  rw [hc]
  cases (m c).next with
  | none => rfl
  | some nx => simp only [hnode nx]

/-- The severing loop once the first component has been found: every later
component whose next names `this` is collapsed into `k` and erased. -/
theorem sever_some (this : Ptr) (k : Comp) (rest : List Comp) :
    ∀ (m : Comp → PathComponent) (chains : List Comp),
      (sever this m chains (some k) rest).2 =
        chains.filter (fun c => !(decide (c ∈ rest) && references m c this)) ∧
      ∀ c, (sever this m chains (some k) rest).1 c =
        if c ∈ rest ∧ references m c this = true then { m c with collapsed := some k }
        else m c := by
  induction rest with
  | nil =>
    intro m chains
    constructor
    · simp [sever]
    · intro c
      simp [sever]
  | cons ci rest ih =>
    intro m chains
    unfold sever
    by_cases href : references m ci this = true
    · rw [if_pos href]
      simp only
      obtain ⟨ih1, ih2⟩ := ih (collapse_with m ci k) (setErase chains ci)
      constructor
      · rw [ih1]
        unfold setErase
        rw [List.filter_filter]
        apply List.filter_congr
        intro c _
        simp only [references_collapse_with, List.mem_cons]
        by_cases hc : c = ci
        · subst hc
          simp [href]
        · simp [hc]
      · intro c
        rw [ih2 c]
        simp only [references_collapse_with, List.mem_cons]
        by_cases hc : c = ci
        · subst hc
          simp only [href, and_true, true_or, if_true]
          have hcw : collapse_with m c k c = { m c with collapsed := some k } := by
            unfold collapse_with
            exact setAt_same _ _ _
          rw [hcw]
          split <;> rfl
        · have hcw : collapse_with m ci k c = m c := by
            unfold collapse_with
            exact setAt_other _ _ _ _ hc
          rw [hcw]
          simp only [hc, false_or]
    · rw [if_neg href]
      obtain ⟨ih1, ih2⟩ := ih m chains
      constructor
      · rw [ih1]
        apply List.filter_congr
        intro c _
        simp only [List.mem_cons]
        by_cases hc : c = ci
        · subst hc
          have : references m c this = false := by
            cases hb : references m c this with
            | false => rfl
            | true => exact absurd hb href
          simp [this]
        · simp [hc]
      · intro c
        rw [ih2 c]
        simp only [List.mem_cons]
        by_cases hc : c = ci
        · subst hc
          have : ¬ references m c this = true := href
          simp [this]
        · simp only [hc, false_or]

theorem sever_none (this : Ptr) (rest : List Comp) :
    ∀ (m : Comp → PathComponent) (chains : List Comp),
      (∀ c, c ∈ rest → references m c this = false) →
      sever this m chains none rest = (m, chains) := by
  induction rest with
  | nil => intro m chains _; rfl
  | cons ci rest ih =>
    intro m chains h
    unfold sever
    rw [if_neg (by rw [h ci (List.mem_cons_self _ _)]; simp)]
    exact ih m chains (fun c hc => h c (List.mem_cons_of_mem _ hc))

theorem sever_first (this : Ptr) (f : Comp) (post : List Comp) (pre : List Comp) :
    ∀ (m : Comp → PathComponent) (chains : List Comp),
      (∀ c, c ∈ pre → references m c this = false) → references m f this = true →
      sever this m chains none (pre ++ f :: post) =
        sever this (set_top_node m f) chains (some f) post := by
  induction pre with
  | nil =>
    intro m chains _ hf
    simp only [List.nil_append]
    conv_lhs => unfold sever
    rw [if_pos hf]
  | cons ci pre ih =>
    intro m chains h hf
    simp only [List.cons_append]
    conv_lhs => unfold sever
    rw [if_neg (by rw [h ci (List.mem_cons_self _ _)]; simp)]
    exact ih m chains (fun c hc => h c (List.mem_cons_of_mem _ hc)) hf

theorem sever_post (P : Ptr) (m : Comp → PathComponent) (ch : List Comp) :
    SeverPost m ch (sever P m ch none ch).1 (sever P m ch none ch).2 P := by
  cases hfind : ch.find? (fun c => references m c P) with
  | none =>
    have hall : ∀ c, c ∈ ch → references m c P = false := by
      intro c hc
      have := (List.find?_eq_none.mp hfind) c hc
      cases hb : references m c P with
      | false => rfl
      | true => exact absurd hb this
    rw [sever_none P ch m ch hall]
    constructor
    · intro f hf
      rw [hfind] at hf
      simp at hf
    · intro c hc _
      exact ⟨hc, Eq.refl _⟩
  | some f =>
    obtain ⟨hpf, pre, post, hsplit, hpre⟩ := List.find?_eq_some.mp hfind
    have hpre' : ∀ c, c ∈ pre → references m c P = false := by
      intro c hc
      have := hpre c hc
      simpa using this
    have hrun : sever P m ch none ch = sever P (set_top_node m f) ch (some f) post := by
      conv_lhs => rw [hsplit]
      conv_rhs => rw [hsplit]
      exact sever_first P f post pre m (pre ++ f :: post) hpre' hpf
    obtain ⟨h2, h1⟩ := sever_some P f post (set_top_node m f) ch
    rw [hrun]
    have hfmem : f ∈ ch := by rw [hsplit]; simp
    constructor
    · intro f' hf'
      rw [hfind] at hf'
      simp only [Option.some.injEq] at hf'
      subst hf'
      refine ⟨?_, ?_, ?_⟩
      · rw [h2, List.mem_filter]
        refine ⟨hfmem, ?_⟩
        rw [references_set_top_node_self]
        simp
      · rw [h1 f, references_set_top_node_self]
        simp only [Bool.false_eq_true, and_false, if_false]
        unfold set_top_node
        rw [setAt_same]
      · intro c hc href hne
        have hcpost : c ∈ post := by
          rw [hsplit] at hc
          rcases List.mem_append.mp hc with e | e
          · rw [hpre' c e] at href
            simp at href
          · rcases List.mem_cons.mp e with e2 | e2
            · exact absurd e2 hne
            · exact e2
        have href' : references (set_top_node m f) c P = true := by
          rw [references_set_top_node_other m f c P hne]
          exact href
        constructor
        · rw [h2, List.mem_filter]
          intro hmem
          have := hmem.2
          simp [hcpost, href'] at this
        · rw [h1 c, if_pos ⟨hcpost, href'⟩]
    · intro c hc href
      have hne : c ≠ f := by
        intro e
        subst e
        rw [href] at hpf
        simp at hpf
      have href' : references (set_top_node m f) c P = false := by
        rw [references_set_top_node_other m f c P hne]
        exact href
      constructor
      · rw [h2, List.mem_filter]
        refine ⟨hc, ?_⟩
        rw [href']
        simp
      · rw [h1 c, href']
        simp only [Bool.false_eq_true, and_false, if_false]
        unfold set_top_node
        rw [setAt_other _ _ _ _ hne]

theorem severPost_sameButLength (m : Comp → PathComponent) (ch : List Comp)
    (m1 m2 : Comp → PathComponent) (ch1 : List Comp) (P : Ptr)
    (h : SeverPost m ch m1 ch1 P) (hs : SameButLength m1 m2) : SeverPost m ch m2 ch1 P := by
  constructor
  · intro f hf
    obtain ⟨h1, h2, h3⟩ := h.1 f hf
    refine ⟨h1, by rw [(hs f).2.1]; exact h2, ?_⟩
    intro c hc href hne
    obtain ⟨h4, h5⟩ := h3 c hc href hne
    exact ⟨h4, by rw [(hs c).2.2]; exact h5⟩
  · intro c hc href
    obtain ⟨h1, h2⟩ := h.2 c hc href
    exact ⟨h1, by rw [(hs c).2.1]; exact h2⟩

/-- The chain sets and the components after the severing loop and the depth
repair. -/
theorem severAndFix_chains (fuel : Nat) (g g1 : Graph) (this c : Ptr)
    (h : severAndFix fuel g this c = .ok g1) :
    (g1.cdata c).chains = (sever this g.comps (g.cdata c).chains none (g.cdata c).chains).2 ∧
    SameButLength (sever this g.comps (g.cdata c).chains none (g.cdata c).chains).1 g1.comps ∧
    ∀ n, n ≠ c → (g1.cdata n).chains = (g.cdata n).chains := by
  unfold severAndFix at h
  simp only at h
  split at h
  · simp at h
  · rename_i m hm
    simp only [Except.ok.injEq] at h
    subst h
    have hf := fix_chain_lengths_frame _ _ _ _ _ hm
    refine ⟨?_, ?_, ?_⟩
    · simp only [setChains_chains, if_true]
    · simpa using hf
    · intro n hn
      simp only [setChains_chains, if_neg hn]

theorem severAndFix_severed (fuel : Nat) (g g1 : Graph) (P C : Ptr)
    (h : severAndFix fuel g P C = .ok g1) : Severed g g1 P C := by
  obtain ⟨h1, h2, _⟩ := severAndFix_chains fuel g g1 P C h
  unfold Severed
  rw [h1]
  exact severPost_sameButLength _ _ _ _ _ _ (sever_post P g.comps (g.cdata C).chains) h2

theorem remove_child_severed (fuel : Nat) (g g1 : Graph) (P C : Ptr)
    (h : remove_child fuel g P C = .ok (true, g1)) : Severed g g1 P C := by
  unfold remove_child at h
  simp only at h
  split at h
  · simp at h
  · split at h
    · simp at h
    · rename_i g2 hg2
      split at h
      · simp at h
      · rename_i ds _
        split at h
        · simp at h
        · rename_i g3 hg3
          simp only [Except.ok.injEq, Prod.mk.injEq, true_and] at h
          subst h
          have hs := severAndFix_severed _ _ _ _ _ hg2
          obtain ⟨hcd, hcm, _⟩ := forceStale_frame _ _ _ _ hg3
          unfold Severed at hs ⊢
          rw [hcd, hcm]
          simpa using hs

theorem remove_child_at_severed (fuel : Nat) (g g1 : Graph) (P : Ptr) (n : Int)
    (h : remove_child_at fuel g P n = .ok g1) :
    Severed g g1 P ((g.cdata P).down.getD n.toNat ⟨NULL, 0⟩).child := by
  unfold remove_child_at at h
  split at h
  · simp only at h
    split at h
    · split at h
      · simp at h
      · rename_i g3 hg3
        have hs := severAndFix_severed _ _ _ _ _ hg3
        obtain ⟨hcd, hcm, _⟩ := forceStale_frame _ _ _ _ h
        unfold Severed at hs ⊢
        rw [hcd, hcm]
        simpa using hs
    · simp at h
  · simp at h

/-- C12: after a `P.remove_child(C)` that returned true, in either form, the
components of the chain set of `C` whose next named `P` are reduced to one: the
first of them in iteration order is in the chain set and TOP, every other one is
collapsed into it and no longer in the chain set, and the components whose next
did not name `P` (or that were TOP) are still in the chain set with their next
unchanged.  The call returns true on a graph without cycle when `P` is in the
up-set of `C` and `C` in the down-list of `P`. -/
theorem remove_child_collapses (g : Graph) (P C : Ptr) :
    (∀ fuel g1, remove_child fuel g P C = .ok (true, g1) → Severed g g1 P C) ∧
    (∀ fuel n g1, remove_child_at fuel g P n = .ok g1 →
      ((g.cdata P).down.getD n.toNat ⟨NULL, 0⟩).child = C → Severed g g1 P C) ∧
    (P ∈ (g.cdata C).up → 0 < edgeCount (g.cdata P).down C →
      ∀ hgt dpt, Ranked g hgt dpt → ∀ fuel, hgt C < fuel → dpt P ≤ fuel →
        ∃ g1, remove_child fuel g P C = .ok (true, g1)) := by
  refine ⟨fun fuel g1 h => remove_child_severed fuel g g1 P C h, ?_, ?_⟩
  · intro fuel n g1 h hc
    rw [← hc]
    exact remove_child_at_severed fuel g g1 P n h
  · intro hm he hgt dpt hr fuel hf1 hf2
    exact remove_child_total fuel g P C hgt dpt hr hm he hf1 hf2

/-- C12 at a concrete input: node 3 of `collapseGraph` has the two components 5
and 6 through its parent 1; after `remove_child` component 5 is TOP and in the
chain set, component 6 is collapsed into it and out of the chain set. -/
theorem remove_child_collapses_witness :
    ∃ g1, remove_child 3 collapseGraph 1 3 = .ok (true, g1) ∧
      5 ∈ (g1.cdata 3).chains ∧ (g1.comps 5).next = none ∧
      6 ∉ (g1.cdata 3).chains ∧ (g1.comps 6).collapsed = some 5 := by
  have hrun := ok_of_completes (remove_child 3 collapseGraph 1 3) (false, collapseGraph)
    (by decide)
  have hb : (valueOr (remove_child 3 collapseGraph 1 3) (false, collapseGraph)).1 = true := by
    decide
  have hrun2 : remove_child 3 collapseGraph 1 3 =
      .ok (true, (valueOr (remove_child 3 collapseGraph 1 3) (false, collapseGraph)).2) := by
    rw [← hb]
    exact hrun
  have hs := (remove_child_collapses collapseGraph 1 3).1 3 _ hrun2
  obtain ⟨h1, h2, h3⟩ := hs.1 5 (by decide)
  obtain ⟨h4, h5⟩ := h3 6 (by decide) (by decide) (by decide)
  exact ⟨_, hrun2, h1, h2, h4, h5⟩

/-! ## `detach` -/

/-- The collapsing loop of `detach`: every component still to visit, other than
`child`, whose next names `pn` is collapsed into `child` and erased. -/
theorem detachLoop_spec (child : Comp) (pn : Ptr) (rest : List Comp) :
    ∀ (m : Comp → PathComponent) (chains : List Comp),
      (detachLoop child pn m chains rest).2 =
        chains.filter (fun c =>
          !(decide (c ∈ rest) && (decide (c ≠ child) && references m c pn))) ∧
      ∀ c, (detachLoop child pn m chains rest).1 c =
        if c ∈ rest ∧ c ≠ child ∧ references m c pn = true
          then { m c with collapsed := some child }
        else m c := by
  induction rest with
  | nil =>
    intro m chains
    constructor
    · simp [detachLoop]
    · intro c
      simp [detachLoop]
  | cons ci rest ih =>
    intro m chains
    unfold detachLoop
    by_cases href : ci ≠ child ∧ references m ci pn = true
    · rw [if_pos href]
      obtain ⟨ih1, ih2⟩ := ih (collapse_with m ci child) (setErase chains ci)
      constructor
      · rw [ih1]
        unfold setErase
        rw [List.filter_filter]
        apply List.filter_congr
        intro c _
        simp only [references_collapse_with, List.mem_cons]
        by_cases hc : c = ci
        · subst hc
          simp [href.1, href.2]
        · simp [hc]
      · intro c
        rw [ih2 c]
        simp only [references_collapse_with, List.mem_cons]
        by_cases hc : c = ci
        · subst hc
          have hcw : collapse_with m c child c = { m c with collapsed := some child } := by
            unfold collapse_with
            exact setAt_same _ _ _
          rw [hcw]
          simp only [href.1, href.2, true_or, ne_eq, not_false_eq_true, and_self, and_true,
            if_true]
          split <;> rfl
        · have hcw : collapse_with m ci child c = m c := by
            unfold collapse_with
            exact setAt_other _ _ _ _ hc
          rw [hcw]
          simp only [hc, false_or]
    · rw [if_neg href]
      obtain ⟨ih1, ih2⟩ := ih m chains
      constructor
      · rw [ih1]
        apply List.filter_congr
        intro c _
        simp only [List.mem_cons]
        by_cases hc : c = ci
        · subst hc
          have : (decide (c ≠ child) && references m c pn) = false := by
            cases hb : (decide (c ≠ child) && references m c pn) with
            | false => rfl
            | true =>
              exfalso
              apply href
              simpa using hb
          simp only [this, Bool.and_false]
        · simp [hc]
      · intro c
        rw [ih2 c]
        simp only [List.mem_cons]
        by_cases hc : c = ci
        · subst hc
          have h1 : ¬ (c ≠ child ∧ references m c pn = true) := href
          have h2 : ¬ ((c = c ∨ c ∈ rest) ∧ c ≠ child ∧ references m c pn = true) :=
            fun h => h1 h.2
          have h3 : ¬ (c ∈ rest ∧ c ≠ child ∧ references m c pn = true) :=
            fun h => h1 h.2
          rw [if_neg h2, if_neg h3]
        · simp only [hc, false_or]

theorem detachLoop_next_node (child : Comp) (pn : Ptr) (rest : List Comp)
    (m : Comp → PathComponent) (chains : List Comp) (y : Comp) :
    ((detachLoop child pn m chains rest).1 y).next = (m y).next ∧
    ((detachLoop child pn m chains rest).1 y).node = (m y).node := by
  rw [(detachLoop_spec child pn rest m chains).2 y]
  split <;> exact ⟨Eq.refl _, Eq.refl _⟩

/-- The state after a `detach` that ran to completion. -/
theorem detach_ok (fuel : Nat) (g g1 : Graph) (c : Comp)
    (h : detach fuel g (some c) = .ok g1) :
    ∃ nx, (g.comps c).next = some nx ∧
      (g.cdata (g.comps c).node).up.count (g.comps nx).node = 1 ∧
      ∃ ds, eraseChild (g.cdata (g.comps nx).node).down (g.comps c).node = some ds ∧
        (∀ x, (g1.cdata x).down =
            (if x = (g.comps nx).node then ds else (g.cdata x).down) ∧
          (g1.cdata x).up =
            (if x = (g.comps c).node
              then setErase (g.cdata (g.comps c).node).up (g.comps nx).node
              else (g.cdata x).up)) ∧
        (g1.cdata (g.comps c).node).chains =
          (detachLoop c (g.comps nx).node (set_top_node g.comps c)
            (g.cdata (g.comps c).node).chains (g.cdata (g.comps c).node).chains).2 ∧
        (∀ x, x ≠ (g.comps c).node → (g1.cdata x).chains = (g.cdata x).chains) ∧
        SameButLength (detachLoop c (g.comps nx).node (set_top_node g.comps c)
            (g.cdata (g.comps c).node).chains (g.cdata (g.comps c).node).chains).1 g1.comps ∧
        g1.fresh = g.fresh := by
  unfold detach at h
  simp only at h
  split at h
  · simp at h
  · rename_i nx hnx
    split at h
    · rename_i hone
      split at h
      · simp at h
      · rename_i m hm
        split at h
        · simp at h
        · rename_i ds hds
          obtain ⟨hcd, hcm, hfr⟩ := forceStale_frame _ _ _ _ h
          have hsl := fix_chain_lengths_frame _ _ _ _ _ hm
          refine ⟨nx, hnx, ?_, ds, ?_, ?_, ?_, ?_, ?_, ?_⟩
          · simpa [numErased] using hone
          · rw [← hds]
            simp
          · intro x
            rw [hcd]
            simp only [setDown_down, setDown_up, setUp_up, setUp_down, setChains_down,
              setChains_up]
            exact ⟨trivial, trivial⟩
          · rw [hcd]
            simp only [setDown_chains, setUp_chains, setChains_chains, if_true]
          · intro x hx
            rw [hcd]
            simp only [setDown_chains, setUp_chains, setChains_chains, if_neg hx]
          · rw [hcm]
            simpa using hsl
          · rw [hfr]
            rfl
    · simp at h

theorem detach_total (fuel : Nat) (g : Graph) (c nx : Comp) (hgt dpt : Ptr → Nat)
    (hr : Ranked g hgt dpt) (hnext : (g.comps c).next = some nx)
    (hup : (g.cdata (g.comps c).node).up.count (g.comps nx).node = 1)
    (hdown : 0 < edgeCount (g.cdata (g.comps nx).node).down (g.comps c).node)
    (hf1 : hgt (g.comps c).node < fuel) (hf2 : dpt (g.comps nx).node ≤ fuel) :
    ∃ g1, detach fuel g (some c) = .ok g1 := by
  unfold detach
  simp only [hnext]
  have hone : numErased ((setChains { g with comps := (detachLoop c (g.comps nx).node
      (set_top_node g.comps c) (g.cdata (g.comps c).node).chains
      (g.cdata (g.comps c).node).chains).1 } (g.comps c).node (detachLoop c (g.comps nx).node
      (set_top_node g.comps c) (g.cdata (g.comps c).node).chains
      (g.cdata (g.comps c).node).chains).2).cdata (g.comps c).node).up (g.comps nx).node
      = 1 := by
    simpa [numErased] using hup
  rw [if_pos hone]
  obtain ⟨m, hm⟩ := fix_chain_lengths_total
    (setUp (setChains { g with comps := (detachLoop c (g.comps nx).node
      (set_top_node g.comps c) (g.cdata (g.comps c).node).chains
      (g.cdata (g.comps c).node).chains).1 } (g.comps c).node (detachLoop c (g.comps nx).node
      (set_top_node g.comps c) (g.cdata (g.comps c).node).chains
      (g.cdata (g.comps c).node).chains).2) (g.comps c).node
      (setErase ((setChains { g with comps := (detachLoop c (g.comps nx).node
      (set_top_node g.comps c) (g.cdata (g.comps c).node).chains
      (g.cdata (g.comps c).node).chains).1 } (g.comps c).node (detachLoop c (g.comps nx).node
      (set_top_node g.comps c) (g.cdata (g.comps c).node).chains
      (g.cdata (g.comps c).node).chains).2).cdata (g.comps c).node).up
        (g.comps nx).node)).cdata hgt
    (by
      intro n d hd
      simp only [setUp_down, setChains_down] at hd
      exact hr.down_lt n d hd) fuel
    (detachLoop c (g.comps nx).node
      (set_top_node g.comps c) (g.cdata (g.comps c).node).chains
      (g.cdata (g.comps c).node).chains).1 (g.comps c).node hf1
  simp only [setUp_comps, setChains_comps] at hm ⊢
  rw [hm]
  simp only [setUp_down, setChains_down]
  cases hds : eraseChild (g.cdata (g.comps nx).node).down (g.comps c).node with
  | none =>
    rw [eraseChild_none] at hds
    omega
  | some ds =>
    simp only
    apply forceStale_total fuel _ _ dpt _ hf2
    intro n p hp
    simp only [setDown_up, setUp_up, setChains_up] at hp
    split at hp
    · exact hr.up_lt n p (by
        rename_i hn
        rw [hn]
        exact ((mem_setErase _ _ _).mp hp).1)
    · exact hr.up_lt n p hp

theorem set_next_node (m : Comp → PathComponent) (c x : Comp) (n : Option Comp) :
    ((set_next m c n) x).node = (m x).node := by
  unfold set_next setAt
  by_cases h : x = c
  · subst h; simp
  · simp [h]

theorem set_next_self (m : Comp → PathComponent) (c : Comp) (n : Option Comp) :
    ((set_next m c n) c).next = n := by
  unfold set_next
  rw [setAt_same]

/-- The state after the second half of `reparent` when it ran to completion. -/
theorem reattach_ok (fuel : Nat) (g1 g2 : Graph) (np c : Comp) (s : Int)
    (h : reattach fuel g1 np c s = .ok g2) :
    (∀ x, (g2.cdata x).down =
        (if x = (g1.comps np).node
          then downInsert (g1.cdata (g1.comps np).node).down ⟨(g1.comps c).node, s⟩
          else (g1.cdata x).down) ∧
      (g2.cdata x).up =
        (if x = (g1.comps c).node
          then setInsert (g1.cdata (g1.comps c).node).up (g1.comps np).node
          else (g1.cdata x).up) ∧
      (g2.cdata x).chains =
        (if x = (g1.comps c).node then setInsert (g1.cdata (g1.comps c).node).chains c
          else (g1.cdata x).chains)) ∧
    SameButLength (set_next g1.comps c (some np)) g2.comps ∧ g2.fresh = g1.fresh := by
  unfold reattach at h
  simp only [set_next_node] at h
  split at h
  · simp at h
  · rename_i m hm
    obtain ⟨hcd, hcm, hfr⟩ := forceStale_frame _ _ _ _ h
    have hsl := fix_chain_lengths_frame _ _ _ _ _ hm
    refine ⟨?_, ?_, ?_⟩
    · intro x
      rw [hcd]
      simp only [setChains_down, setUp_down, setDown_down, setChains_up, setUp_up, setDown_up,
        setChains_chains, setUp_chains, setDown_chains]
      exact ⟨trivial, trivial, trivial⟩
    · rw [hcm]
      simpa using hsl
    · rw [hfr]
      rfl

theorem reattach_total (fuel : Nat) (g1 : Graph) (np c : Comp) (s : Int) (hgt dpt : Ptr → Nat)
    (hr : Ranked g1 hgt dpt) (h1 : hgt (g1.comps c).node < hgt (g1.comps np).node)
    (h2 : dpt (g1.comps np).node < dpt (g1.comps c).node)
    (hf1 : hgt (g1.comps c).node < fuel) (hf2 : dpt (g1.comps np).node ≤ fuel) :
    ∃ g2, reattach fuel g1 np c s = .ok g2 := by
  unfold reattach
  simp only [set_next_node]
  obtain ⟨m, hm⟩ := fix_chain_lengths_total
    (setChains (setUp (setDown { g1 with comps := set_next g1.comps c (some np) }
      (g1.comps np).node (downInsert (g1.cdata (g1.comps np).node).down
        ⟨(g1.comps c).node, s⟩)) (g1.comps c).node
      (setInsert ((setDown { g1 with comps := set_next g1.comps c (some np) }
        (g1.comps np).node (downInsert (g1.cdata (g1.comps np).node).down
          ⟨(g1.comps c).node, s⟩)).cdata (g1.comps c).node).up (g1.comps np).node))
      (g1.comps c).node
      (setInsert ((setUp (setDown { g1 with comps := set_next g1.comps c (some np) }
      (g1.comps np).node (downInsert (g1.cdata (g1.comps np).node).down
        ⟨(g1.comps c).node, s⟩)) (g1.comps c).node
      (setInsert ((setDown { g1 with comps := set_next g1.comps c (some np) }
        (g1.comps np).node (downInsert (g1.cdata (g1.comps np).node).down
          ⟨(g1.comps c).node, s⟩)).cdata (g1.comps c).node).up
            (g1.comps np).node)).cdata (g1.comps c).node).chains c)).cdata hgt
    (by
      intro n d hd
      simp only [setChains_down, setUp_down, setDown_down] at hd
      split at hd
      · rename_i hn
        rcases (mem_downInsert _ _ _).mp hd with e | e
        · rw [e, hn]
          exact h1
        · rw [hn]
          exact hr.down_lt _ d e
      · exact hr.down_lt n d hd) fuel
    (set_next g1.comps c (some np)) (g1.comps c).node hf1
  simp only [setChains_comps, setUp_comps, setDown_comps] at hm ⊢
  rw [hm]
  simp only
  apply forceStale_total fuel _ _ dpt _ hf2
  intro n p hp
  simp only [setChains_up, setUp_up, setDown_up] at hp
  split at hp
  · rename_i hn
    rcases (mem_setInsert _ _ _).mp hp with e | e
    · rw [hn]
      exact hr.up_lt _ p e
    · rw [e, hn]
      exact h2
  · exact hr.up_lt n p hp

theorem set_top_node_node (m : Comp → PathComponent) (c x : Comp) :
    ((set_top_node m c) x).node = (m x).node := by
  unfold set_top_node setAt
  by_cases h : x = c
  · subst h; simp
  · simp [h]

theorem detach_node (fuel : Nat) (g g1 : Graph) (c : Comp)
    (h : detach fuel g (some c) = .ok g1) : ∀ y, (g1.comps y).node = (g.comps y).node := by
  obtain ⟨nx, _, _, ds, _, _, _, _, hsl, _⟩ := detach_ok fuel g g1 c h
  intro y
  rw [(hsl y).1, (detachLoop_next_node _ _ _ _ _ y).2, set_top_node_node]

theorem detach_ranked (fuel : Nat) (g g1 : Graph) (c : Comp) (hgt dpt : Ptr → Nat)
    (h : detach fuel g (some c) = .ok g1) (hr : Ranked g hgt dpt) : Ranked g1 hgt dpt := by
  obtain ⟨nx, _, _, ds, hds, hedges, _⟩ := detach_ok fuel g g1 c h
  constructor
  · intro n d hd
    rw [(hedges n).1] at hd
    split at hd
    · rename_i hn
      rw [hn]
      exact hr.down_lt _ d (eraseChild_subset _ _ _ hds d hd)
    · exact hr.down_lt n d hd
  · intro n p hp
    rw [(hedges n).2] at hp
    split at hp
    · rename_i hn
      rw [hn]
      exact hr.up_lt _ p ((mem_setErase _ _ _).mp hp).1
    · exact hr.up_lt n p hp

/-- The two halves of a `reparent` that ran to completion. -/
theorem reparent_ok (fuel : Nat) (g g2 : Graph) (np c : Comp) (s : Int)
    (h : reparent fuel g (some np) (some c) s = .ok g2) :
    ∃ g1, ((is_top_node g.comps c = true ∧ g1 = g) ∨
        (is_top_node g.comps c = false ∧ detach fuel g (some c) = .ok g1)) ∧
      reattach fuel g1 np c s = .ok g2 := by
  unfold reparent at h
  simp only at h
  split at h
  · simp at h
  · rename_i g1 hg1
    refine ⟨g1, ?_, h⟩
    by_cases ht : is_top_node g.comps c = true
    · rw [if_pos ht] at hg1
      simp only [Except.ok.injEq] at hg1
      exact Or.inl ⟨ht, hg1.symm⟩
    · rw [if_neg ht] at hg1
      refine Or.inr ⟨?_, hg1⟩
      cases hb : is_top_node g.comps c with
      | false => rfl
      | true => exact absurd hb ht

theorem ranked_of_sameEdges (g g1 : Graph) (hgt dpt : Ptr → Nat) (hse : SameEdges g g1)
    (hr : Ranked g hgt dpt) : Ranked g1 hgt dpt := by
  constructor
  · intro n d hd
    rw [(hse n).1] at hd
    exact hr.down_lt n d hd
  · intro n p hp
    rw [(hse n).2] at hp
    exact hr.up_lt n p hp

theorem edgePair_of_sameEdges (g g1 : Graph) (n c : Ptr) (hse : SameEdges g g1)
    (h : EdgePair g n c) : EdgePair g1 n c := by
  unfold EdgePair at h ⊢
  rw [(hse n).1, (hse c).2]
  exact h

/-- What a `get_component` that returned a component leaves of the state. -/
theorem get_component_result (g ga : Graph) (p k : Comp) (C : Ptr) (hwf : ChainsWF g)
    (hpa : p < g.fresh) (h : get_component g (some p) C = .ok (ga, some k)) :
    (ga.comps k).node = C ∧ (ga.comps k).next = some p ∧ ga.comps p = g.comps p ∧
    SameEdges g ga ∧ (g.comps p).node ∈ (g.cdata C).up ∧
    (∀ k0, k0 ∈ (g.cdata C).chains → (g.comps k0).next ≠ some p) ∨
    (ga.comps k).node = C ∧ (ga.comps k).next = some p ∧ ga = g ∧ k ∈ (g.cdata C).chains := by
  cases hfind : (g.cdata C).chains.find? (fun ci => decide ((g.comps ci).next = some p)) with
  | some ci =>
    rw [get_component_found g p C ci hfind] at h
    simp only [Except.ok.injEq, Prod.mk.injEq, Option.some.injEq] at h
    obtain ⟨hg, hk⟩ := h
    subst hg
    subst hk
    have hmem := List.mem_of_find?_eq_some hfind
    have hnext : (g.comps ci).next = some p := by
      have := List.find?_some hfind
      simpa using this
    exact Or.inr ⟨(hwf C ci hmem).1, hnext, Eq.refl _, hmem⟩
  | none =>
    by_cases hm : (g.comps p).node ∈ (g.cdata C).up
    · rw [get_component_new g p C hfind hm] at h
      simp only [Except.ok.injEq, Prod.mk.injEq, Option.some.injEq] at h
      obtain ⟨hg, hk⟩ := h
      subst hg
      subst hk
      refine Or.inl ⟨?_, ?_, ?_, ?_, hm, ?_⟩
      rotate_left 4
      · intro k0 hk0
        have := (List.find?_eq_none.mp hfind) k0 hk0
        simpa using this
      · rw [setChains_comps]
        exact (newComponent_comps_new g C (some p)).1
      · rw [setChains_comps]
        exact (newComponent_comps_new g C (some p)).2.1
      · rw [setChains_comps]
        exact newComponent_comps_old g C (some p) p (Nat.ne_of_lt hpa)
      · intro n
        simp [newComponent_cdata]
    · rw [get_component_unrelated g p C hfind hm] at h
      simp at h

/-- A `reparent` of a component of `C` whose next is already `p`: the pair is
removed and inserted again at the new sort. -/
theorem reparent_same_parent (fuel : Nat) (ga g2 : Graph) (p k : Comp) (P C : Ptr) (s : Int)
    (hk : (ga.comps k).node = C) (hnext : (ga.comps k).next = some p)
    (hP : (ga.comps p).node = P) (hpair : EdgePair ga P C)
    (h : reparent fuel ga (some p) (some k) s = .ok g2) :
    (g2.comps k).node = C ∧ (g2.comps k).next = some p ∧ k ∈ (g2.cdata C).chains ∧
    edgeCount (g2.cdata P).down C = 1 ∧
    (∀ d, d ∈ (g2.cdata P).down → d.child = C → d.sort = s) ∧ P ∈ (g2.cdata C).up := by
  obtain ⟨g1, hcase, hre⟩ := reparent_ok fuel ga g2 p k s h
  rcases hcase with ⟨ht, _⟩ | ⟨_, hdet⟩
  · rw [(is_top_node_false_iff _ _).mpr ⟨p, hnext⟩] at ht
    simp at ht
  · obtain ⟨nx, hnx, hcount, ds, hds, hedges, _, _, _, _⟩ := detach_ok fuel ga g1 k hdet
    have hnxe : nx = p := by
      rw [hnext] at hnx
      simpa using hnx.symm
    subst hnxe
    rw [hk, hP] at hds hedges hcount
    have hmem : P ∈ (ga.cdata C).up := by
      by_contra hc
      have := List.count_eq_zero_of_not_mem hc
      omega
    have hone := edgePair_mem ga P C hpair hmem
    have hz : edgeCount ds C = 0 := by
      have := (eraseChild_some _ _ _ hds).1
      omega
    have hnode := detach_node fuel ga g1 k hdet
    obtain ⟨hall, hsl, _⟩ := reattach_ok fuel g1 g2 nx k s hre
    rw [hnode k, hnode nx, hk, hP] at hall
    have hdown : (g2.cdata P).down = downInsert ds ⟨C, s⟩ := by
      rw [(hall P).1, if_pos (Eq.refl _), (hedges P).1, if_pos (Eq.refl _)]
    refine ⟨?_, ?_, ?_, ?_, ?_, ?_⟩
    · rw [(hsl k).1, set_next_node, hnode k, hk]
    · rw [(hsl k).2.1]
      exact set_next_self _ _ _
    · rw [(hall C).2.2, if_pos (Eq.refl _)]
      exact (mem_setInsert _ _ _).mpr (Or.inr (Eq.refl _))
    · rw [hdown, edgeCount_downInsert, hz]
      simp
    · intro d hd hdc
      rw [hdown] at hd
      rcases (mem_downInsert _ _ _).mp hd with e | e
      · rw [e]
      · exact absurd hdc ((edgeCount_eq_zero _ _).mp hz d e)
    · rw [(hall C).2.1, if_pos (Eq.refl _)]
      exact (mem_setInsert _ _ _).mpr (Or.inr (Eq.refl _))

/-- A `reparent` of a TOP component of `C` under a node that is not yet a parent
of `C`. -/
theorem reparent_top (fuel : Nat) (gb g2 : Graph) (p k : Comp) (P C : Ptr) (s : Int)
    (hk : (gb.comps k).node = C) (htop : is_top_node gb.comps k = true)
    (hP : (gb.comps p).node = P) (hpair : EdgePair gb P C) (hnp : P ∉ (gb.cdata C).up)
    (h : reparent fuel gb (some p) (some k) s = .ok g2) :
    (g2.comps k).node = C ∧ (g2.comps k).next = some p ∧ k ∈ (g2.cdata C).chains ∧
    edgeCount (g2.cdata P).down C = 1 ∧
    (∀ d, d ∈ (g2.cdata P).down → d.child = C → d.sort = s) ∧ P ∈ (g2.cdata C).up := by
  obtain ⟨g1, hcase, hre⟩ := reparent_ok fuel gb g2 p k s h
  rcases hcase with ⟨_, hg1⟩ | ⟨ht, _⟩
  · subst hg1
    have hz : edgeCount (g1.cdata P).down C = 0 := by
      unfold EdgePair at hpair
      rw [if_neg hnp] at hpair
      exact hpair
    obtain ⟨hall, hsl, _⟩ := reattach_ok fuel g1 g2 p k s hre
    rw [hk, hP] at hall
    have hdown : (g2.cdata P).down = downInsert (g1.cdata P).down ⟨C, s⟩ := by
      rw [(hall P).1, if_pos (Eq.refl _)]
    refine ⟨?_, ?_, ?_, ?_, ?_, ?_⟩
    · rw [(hsl k).1, set_next_node, hk]
    · rw [(hsl k).2.1]
      exact set_next_self _ _ _
    · rw [(hall C).2.2, if_pos (Eq.refl _)]
      exact (mem_setInsert _ _ _).mpr (Or.inr (Eq.refl _))
    · rw [hdown, edgeCount_downInsert, hz]
      simp
    · intro d hd hdc
      rw [hdown] at hd
      rcases (mem_downInsert _ _ _).mp hd with e | e
      · rw [e]
      · exact absurd hdc ((edgeCount_eq_zero _ _).mp hz d e)
    · rw [(hall C).2.1, if_pos (Eq.refl _)]
      exact (mem_setInsert _ _ _).mpr (Or.inr (Eq.refl _))
  · rw [htop] at ht
    simp at ht

/-- The lookup and the `reparent` of an `attach` that ran to completion. -/
theorem attach_ok (fuel : Nat) (g g2 : Graph) (p : Comp) (C : Ptr) (s : Int)
    (r : Option Comp) (h : attach fuel g (some p) C s = .ok (g2, r)) :
    ∃ ga ra, get_component g (some p) C = .ok (ga, ra) ∧
      ((∃ k, ra = some k ∧ r = some k ∧ reparent fuel ga (some p) (some k) s = .ok g2) ∨
       (ra = none ∧ r = some (get_top_component ga C).2 ∧
        reparent fuel (get_top_component ga C).1 (some p)
          (some (get_top_component ga C).2) s = .ok g2)) := by
  unfold attach at h
  simp only at h
  split at h
  · simp at h
  · rename_i ra hra
    split at h
    · simp at h
    · rename_i g3 hg3
      simp only [Except.ok.injEq, Prod.mk.injEq] at h
      obtain ⟨hg, hr⟩ := h
      subst hg
      refine ⟨ra.1, ra.2, hra, ?_⟩
      cases hra2 : ra.2 with
      | some k =>
        rw [hra2] at hg3 hr
        exact Or.inl ⟨k, Eq.refl _, hr.symm, hg3⟩
      | none =>
        rw [hra2] at hg3 hr
        exact Or.inr ⟨Eq.refl _, hr.symm, hg3⟩

theorem reparent_total (fuel : Nat) (ga : Graph) (p k : Comp) (P C : Ptr) (s : Int)
    (hgt dpt : Ptr → Nat) (hr : Ranked ga hgt dpt) (hk : (ga.comps k).node = C)
    (hP : (ga.comps p).node = P) (hh : hgt C < hgt P) (hd : dpt P < dpt C)
    (hf1 : hgt C < fuel) (hf2 : dpt P ≤ fuel)
    (hcase : is_top_node ga.comps k = true ∨
      ((ga.comps k).next = some p ∧ (ga.cdata C).up.count P = 1 ∧
        0 < edgeCount (ga.cdata P).down C)) :
    ∃ g2, reparent fuel ga (some p) (some k) s = .ok g2 := by
  rcases hcase with ht | ⟨hnext, hup, hdown⟩
  · obtain ⟨g2, hg2⟩ := reattach_total fuel ga p k s hgt dpt hr
      (by rw [hk, hP]; exact hh) (by rw [hk, hP]; exact hd)
      (by rw [hk]; exact hf1) (by rw [hP]; exact hf2)
    refine ⟨g2, ?_⟩
    unfold reparent
    simp only
    rw [if_pos ht]
    exact hg2
  · have hnt : is_top_node ga.comps k = false := (is_top_node_false_iff _ _).mpr ⟨p, hnext⟩
    obtain ⟨g1, hg1⟩ := detach_total fuel ga k p hgt dpt hr hnext (by rw [hk, hP]; exact hup)
      (by rw [hk, hP]; exact hdown) (by rw [hk]; exact hf1) (by rw [hP]; exact hf2)
    have hnode := detach_node fuel ga g1 k hg1
    have hr1 := detach_ranked fuel ga g1 k hgt dpt hg1 hr
    obtain ⟨g2, hg2⟩ := reattach_total fuel g1 p k s hgt dpt hr1
      (by rw [hnode k, hnode p, hk, hP]; exact hh)
      (by rw [hnode k, hnode p, hk, hP]; exact hd)
      (by rw [hnode k, hk]; exact hf1) (by rw [hnode p, hP]; exact hf2)
    refine ⟨g2, ?_⟩
    unfold reparent
    simp only
    rw [if_neg (by rw [hnt]; simp), hg1]
    exact hg2

/-- The call `attach(p, C, s)` runs to completion on a graph that has no cycle
once the edge is added. -/
theorem attach_total (g : Graph) (p : Comp) (P C : Ptr) (s : Int) (hwf : ChainsWF g)
    (hP : (g.comps p).node = P) (hpa : p < g.fresh) (hpair : EdgePair g P C)
    (hgt dpt : Ptr → Nat) (hr : Ranked g hgt dpt) (hh : hgt C < hgt P) (hd : dpt P < dpt C)
    (hnd : (g.cdata C).up.Nodup)
    (hanchor : ∀ k0, k0 ∈ (g.cdata C).chains → (g.comps k0).next = some p →
      P ∈ (g.cdata C).up)
    (fuel : Nat) (hf1 : hgt C < fuel) (hf2 : dpt P ≤ fuel) :
    ∃ g2 k, attach fuel g (some p) C s = .ok (g2, some k) := by
  obtain ⟨ga, ra, hget, _, _⟩ := get_component_facts g p C hwf
  have hcount : P ∈ (g.cdata C).up → (g.cdata C).up.count P = 1 ∧
      0 < edgeCount (g.cdata P).down C := by
    intro hm
    refine ⟨List.count_eq_one_of_mem hnd hm, ?_⟩
    rw [edgePair_mem g P C hpair hm]
    exact Nat.one_pos
  cases ra with
  | some k =>
    have hrep : ∃ g2, reparent fuel ga (some p) (some k) s = .ok g2 := by
      rcases get_component_result g ga p k C hwf hpa hget with
        ⟨hk, hnext, hcp, hse, hm, _⟩ | ⟨hk, hnext, hga, hmem⟩
      · rw [hP] at hm
        obtain ⟨c1, c2⟩ := hcount hm
        exact reparent_total fuel ga p k P C s hgt dpt (ranked_of_sameEdges g ga _ _ hse hr)
          hk (by rw [hcp]; exact hP) hh hd hf1 hf2
          (Or.inr ⟨hnext, by rw [(hse C).2]; exact c1, by rw [(hse P).1]; exact c2⟩)
      · subst hga
        obtain ⟨c1, c2⟩ := hcount (hanchor k hmem hnext)
        exact reparent_total fuel ga p k P C s hgt dpt hr hk hP hh hd hf1 hf2
          (Or.inr ⟨hnext, c1, c2⟩)
    obtain ⟨g2, hg2⟩ := hrep
    refine ⟨g2, k, ?_⟩
    unfold attach
    simp only [hget, hg2]
  | none =>
    have hspec := get_top_component_facts ga C
    have hga : ga = g := by
      obtain ⟨g1, r1, hget1, hiff, _⟩ := get_component_facts g p C hwf
      rw [hget] at hget1
      simp only [Except.ok.injEq, Prod.mk.injEq] at hget1
      have hnone := hiff.mp hget1.2.symm
      have hfind : (g.cdata C).chains.find?
          (fun ci => decide ((g.comps ci).next = some p)) = none := by
        rw [List.find?_eq_none]
        intro x hx
        simpa using hnone.1 x hx
      rw [get_component_unrelated g p C hfind hnone.2] at hget
      simp only [Except.ok.injEq, Prod.mk.injEq, and_true] at hget
      exact hget.symm
    subst hga
    have hfr := get_top_component_frame ga C
    have hse := get_top_component_edges ga C
    obtain ⟨g2, hg2⟩ := reparent_total fuel (get_top_component ga C).1 p
      (get_top_component ga C).2 P C s hgt dpt (ranked_of_sameEdges ga _ _ _ hse hr)
      (hspec hwf).2.1 (by rw [hfr.2.1 p hpa]; exact hP) hh hd hf1 hf2 (Or.inl (hspec hwf).1)
    refine ⟨g2, (get_top_component ga C).2, ?_⟩
    unfold attach
    simp only [hget, hg2]

/-- Under the pair invariant: for a component `p` naming the node `P`, in a
state whose chain sets
are well formed and in which `P` and `C` satisfy the pair invariant,
`attach(p, C, s)` returns a component that names `C`, has `p` as its next and is
in the chain set of `C`; afterwards `C` occurs exactly once in the down-list of
`P`, with sort `s`, and `P` is in the up-set of `C`; and when the chain set of
`C` already held a component whose next was `p`, the component returned is one
of the original chain set with next `p`.  The call runs to completion on a graph
that has no cycle once the edge is added, when the up-set of `C` lists no parent
twice and a component of `C` with next `p` implies that `P` is a parent. -/
theorem attach_spec (g : Graph) (p : Comp) (P C : Ptr) (s : Int) (hwf : ChainsWF g)
    (hP : (g.comps p).node = P) (hpa : p < g.fresh) (hpair : EdgePair g P C) :
    (∀ fuel g2 r, attach fuel g (some p) C s = .ok (g2, r) →
      ∃ k, r = some k ∧ (g2.comps k).node = C ∧ (g2.comps k).next = some p ∧
        k ∈ (g2.cdata C).chains ∧ edgeCount (g2.cdata P).down C = 1 ∧
        (∀ d, d ∈ (g2.cdata P).down → d.child = C → d.sort = s) ∧ P ∈ (g2.cdata C).up ∧
        ((∃ k0, k0 ∈ (g.cdata C).chains ∧ (g.comps k0).next = some p) →
          k ∈ (g.cdata C).chains ∧ (g.comps k).next = some p)) ∧
    (∀ hgt dpt, Ranked g hgt dpt → hgt C < hgt P → dpt P < dpt C → (g.cdata C).up.Nodup →
      (∀ k0, k0 ∈ (g.cdata C).chains → (g.comps k0).next = some p → P ∈ (g.cdata C).up) →
      ∀ fuel, hgt C < fuel → dpt P ≤ fuel →
        ∃ g2 k, attach fuel g (some p) C s = .ok (g2, some k)) := by
  constructor
  · intro fuel g2 r h
    obtain ⟨ga, ra, hget, hcase⟩ := attach_ok fuel g g2 p C s r h
    rcases hcase with ⟨k, hra, hr, hrep⟩ | ⟨hra, hr, hrep⟩
    · subst hra
      rcases get_component_result g ga p k C hwf hpa hget with
        ⟨hk, hnext, hcp, hse, _, hno⟩ | ⟨hk, hnext, hga, hmem⟩
      · obtain ⟨a1, a2, a3, a4, a5, a6⟩ := reparent_same_parent fuel ga g2 p k P C s hk hnext
          (by rw [hcp]; exact hP) (edgePair_of_sameEdges g ga P C hse hpair) hrep
        refine ⟨k, hr, a1, a2, a3, a4, a5, a6, ?_⟩
        rintro ⟨k0, hk0, hn0⟩
        exact absurd hn0 (hno k0 hk0)
      · subst hga
        obtain ⟨a1, a2, a3, a4, a5, a6⟩ := reparent_same_parent fuel ga g2 p k P C s hk hnext
          hP hpair hrep
        exact ⟨k, hr, a1, a2, a3, a4, a5, a6, fun _ => ⟨hmem, hnext⟩⟩
    · subst hra
      obtain ⟨g1, r1, hget1, hiff, _⟩ := get_component_facts g p C hwf
      rw [hget] at hget1
      simp only [Except.ok.injEq, Prod.mk.injEq] at hget1
      obtain ⟨hg, hr1⟩ := hget1
      have hnone := hiff.mp hr1.symm
      have hga : ga = g := by
        by_cases hm : (g.comps p).node ∈ (g.cdata C).up
        · exact absurd hm hnone.2
        · have hfind : (g.cdata C).chains.find?
              (fun ci => decide ((g.comps ci).next = some p)) = none := by
            rw [List.find?_eq_none]
            intro x hx
            simpa using hnone.1 x hx
          rw [get_component_unrelated g p C hfind hm] at hget
          simp only [Except.ok.injEq, Prod.mk.injEq, and_true] at hget
          exact hget.symm
      subst hga
      have hspec := get_top_component_facts ga C hwf
      have hfr := get_top_component_frame ga C
      have hse := get_top_component_edges ga C
      obtain ⟨a1, a2, a3, a4, a5, a6⟩ := reparent_top fuel (get_top_component ga C).1 g2 p
        (get_top_component ga C).2 P C s hspec.2.1 hspec.1
        (by rw [hfr.2.1 p hpa]; exact hP) (edgePair_of_sameEdges ga _ P C hse hpair)
        (by rw [(hse C).2, ← hP]; exact hnone.2) hrep
      refine ⟨_, hr, a1, a2, a3, a4, a5, a6, ?_⟩
      rintro ⟨k0, hk0, hn0⟩
      exact absurd hn0 (hnone.1 k0 hk0)
  · intro hgt dpt hr hh hd hnd hanchor fuel hf1 hf2
    exact attach_total g p P C s hwf hP hpa hpair hgt dpt hr hh hd hnd hanchor fuel hf1 hf2

/-- The call `attach` at a concrete input: node 3 of `instancedGraph` is
attached under the
component 1 of node 1 at sort 5; its chain set already holds the component 3
whose next is 1, and that component is the one returned. -/
theorem attach_spec_witness :
    ChainsWF instancedGraph ∧ (instancedGraph.comps 1).node = 1 ∧ 1 < instancedGraph.fresh ∧
    EdgePair instancedGraph 1 3 ∧
    ∃ g2 r, attach 3 instancedGraph (some 1) 3 5 = .ok (g2, r) ∧
      ∃ k, r = some k ∧ (g2.comps k).node = 3 ∧ (g2.comps k).next = some 1 ∧
        k ∈ (g2.cdata 3).chains ∧ edgeCount (g2.cdata 1).down 3 = 1 ∧
        (∀ d, d ∈ (g2.cdata 1).down → d.child = 3 → d.sort = 5) ∧ 1 ∈ (g2.cdata 3).up ∧
        ((∃ k0, k0 ∈ (instancedGraph.cdata 3).chains ∧
            (instancedGraph.comps k0).next = some 1) →
          k ∈ (instancedGraph.cdata 3).chains ∧ (instancedGraph.comps k).next = some 1) := by
  have hrun := ok_of_completes (attach 3 instancedGraph (some 1) 3 5) (instancedGraph, none)
    (by decide)
  have hpair : EdgePair instancedGraph 1 3 := by
    unfold EdgePair
    decide
  have hthm := attach_spec instancedGraph 1 1 3 5 instancedGraph_chainsWF (by decide)
    (by decide) hpair
  exact ⟨instancedGraph_chainsWF, by decide, by decide, hpair, _, _, hrun, hthm.1 3 _ _ hrun⟩

/-! ## Two TOP components of one node -/

/-- C13 evaluated on the code: starting from the empty graph, after node 3 was
instanced under the nodes 1 and 2 and removed from both again (by `remove_child`,
or by `detach` of the components that `attach` returned), the run completes and
the chain set of node 3 holds the two distinct components 3 and 4, both naming
node 3 and both TOP. -/
theorem sever_leaves_two_tops :
    (∃ g, twoTopsRemoveRun = .ok g ∧ (g.cdata 3).chains = [3, 4] ∧
      (g.comps 3).node = 3 ∧ (g.comps 4).node = 3 ∧
      is_top_node g.comps 3 = true ∧ is_top_node g.comps 4 = true) ∧
    (∃ g, twoTopsDetachRun = .ok g ∧ (g.cdata 3).chains = [3, 4] ∧
      (g.comps 3).node = 3 ∧ (g.comps 4).node = 3 ∧
      is_top_node g.comps 3 = true ∧ is_top_node g.comps 4 = true) := by
  have h1 := ok_of_completes twoTopsRemoveRun emptyGraph (by decide)
  have h2 := ok_of_completes twoTopsDetachRun emptyGraph (by decide)
  exact ⟨⟨_, h1, by decide, by decide, by decide, by decide, by decide⟩,
    ⟨_, h2, by decide, by decide, by decide, by decide, by decide⟩⟩

/-! ## Stale propagation -/

theorem foldlM_all {α β : Type} (f : β → α → Except Fault β) (Q : β → α → Prop)
    (hstep : ∀ b a b1, f b a = .ok b1 → Q b1 a)
    (hmono : ∀ b a b1 x, f b a = .ok b1 → Q b x → Q b1 x) (l : List α) :
    ∀ b r, l.foldlM f b = .ok r → ∀ a, a ∈ l → Q r a := by
  induction l with
  | nil =>
    intro b r _ a ha
    simp at ha
  | cons a0 t ih =>
    intro b r h a ha
    simp only [List.foldlM_cons, bind, Except.bind] at h
    cases hfa : f b a0 with
    | error e => rw [hfa] at h; simp at h
    | ok b1 =>
      rw [hfa] at h
      rcases List.mem_cons.mp ha with e | hmem
      · subst e
        exact foldlM_invariant f (fun c => Q c a) t
          (fun c x c1 _ hc hx => hmono c x c1 a hx hc) b1 r (hstep b a b1 hfa) h
      · exact ih b1 r h a hmem

theorem upReach_trans (cd : Ptr → CData) (n p a : Ptr) (h1 : UpReach cd n p)
    (h2 : UpReach cd p a) : UpReach cd n a := by
  induction h1 with
  | refl n => exact h2
  | step n q b hq _ ih => exact UpReach.step n q a hq (ih h2)

theorem mark_bound_stale_spec (cd : Ptr → CData) :
    ∀ fuel st n st1, mark_bound_stale fuel cd st n = .ok st1 →
      st1 n = true ∧ (∀ x, st x = true → st1 x = true) ∧
      (∀ x, st1 x = true → st x = true ∨ UpReach cd n x) ∧
      (∀ S, ClosedExcept cd st S → ClosedExcept cd st1 S) := by
  intro fuel
  induction fuel with
  | zero =>
    intro st n st1 h
    simp [mark_bound_stale] at h
  | succ k ih =>
    intro st n st1 h
    unfold mark_bound_stale at h
    by_cases hs : st n = true
    · rw [if_pos hs] at h
      simp only [Except.ok.injEq] at h
      subst h
      exact ⟨hs, fun x hx => hx, fun x hx => Or.inl hx, fun S hS => hS⟩
    · rw [if_neg hs] at h
      have hinv := foldlM_invariant (fun acc p => mark_bound_stale k cd acc p)
        (fun acc => acc n = true ∧ (∀ x, st x = true → acc x = true) ∧
          (∀ x, acc x = true → st x = true ∨ UpReach cd n x) ∧
          (∀ S, ClosedExcept cd (setAt st n true) S → ClosedExcept cd acc S))
        (cd n).up
        (by
          intro b a b1 ha hb hf
          obtain ⟨i1, i2, i3, i4⟩ := ih b a b1 hf
          refine ⟨i2 n hb.1, fun x hx => i2 x (hb.2.1 x hx), ?_,
            fun S hS => i4 S (hb.2.2.2 S hS)⟩
          intro x hx
          rcases i3 x hx with hbx | hreach
          · exact hb.2.2.1 x hbx
          · exact Or.inr (UpReach.step n a x ha hreach))
        (setAt st n true) st1
        (by
          refine ⟨by simp [setAt], ?_, ?_, fun S hS => hS⟩
          · intro x hx
            simp only [setAt]
            split
            · rfl
            · exact hx
          · intro x hx
            simp only [setAt] at hx
            split at hx
            · next e => exact Or.inr (by rw [e]; exact UpReach.refl n)
            · exact Or.inl hx)
        h
      have hall := foldlM_all (fun acc p => mark_bound_stale k cd acc p)
        (fun acc p => acc p = true)
        (fun b a b1 hf => (ih b a b1 hf).1)
        (fun b a b1 x hf hx => (ih b a b1 hf).2.1 x hx)
        (cd n).up (setAt st n true) st1 h
      refine ⟨hinv.1, hinv.2.1, hinv.2.2.1, ?_⟩
      intro S hS
      have h0 : ClosedExcept cd (setAt st n true) (fun x => S x ∨ x = n) := by
        intro x p hx hnS hp
        have hxn : x ≠ n := fun e => hnS (Or.inr e)
        have hx2 : st x = true := by
          simpa [setAt, hxn] using hx
        have := hS x p hx2 (fun hSx => hnS (Or.inl hSx)) hp
        simp only [setAt]
        split
        · rfl
        · exact this
      have h1 := hinv.2.2.2 _ h0
      intro x p hx hnS hp
      by_cases hxn : x = n
      · subst hxn
        exact hall p hp
      · exact h1 x p hx (fun hc => hc.elim hnS hxn) hp

/-- C21: in a graph whose up-edges are acyclic (ranked by `dpt`) and in which
every parent of a stale node is stale, a completed `mark_bound_stale` on `L`
leaves `L` and every transitive ancestor of `L` stale, leaves the flag of every
other node as it was, and a second `mark_bound_stale` on `L` returns the same
flags; the first call completes with fuel beyond the depth of `L`. -/
theorem mark_stale_propagates (cd : Ptr → CData) (st : Ptr → Bool) (L : Ptr)
    (dpt : Ptr → Nat) (hacyc : ∀ n p, p ∈ (cd n).up → dpt p < dpt n)
    (hclosed : ∀ n p, st n = true → p ∈ (cd n).up → st p = true) :
    (∀ fuel st1, mark_bound_stale fuel cd st L = .ok st1 →
      (∀ a, UpReach cd L a → st1 a = true) ∧
      (∀ x, ¬ UpReach cd L x → st1 x = st x) ∧
      (∀ fuel2, mark_bound_stale (fuel2 + 1) cd st1 L = .ok st1)) ∧
    (∀ fuel, dpt L < fuel → ∃ st1, mark_bound_stale fuel cd st L = .ok st1) := by
  constructor
  · intro fuel st1 h
    obtain ⟨h1, h2, h3, h4⟩ := mark_bound_stale_spec cd fuel st L st1 h
    have hcl : ClosedExcept cd st1 (fun _ => False) :=
      h4 _ (fun x p hx _ hp => hclosed x p hx hp)
    refine ⟨?_, ?_, ?_⟩
    · intro a ha
      have key : ∀ n b, UpReach cd n b → st1 n = true → st1 b = true := by
        intro n b hr
        induction hr with
        | refl n => exact fun hn => hn
        | step n p b hp _ ih => exact fun hn => ih (hcl n p hn (fun hf => hf) hp)
      exact key L a ha h1
    · intro x hx
      cases hsx : st x with
      | true => exact h2 x hsx
      | false =>
        cases hs1 : st1 x with
        | false => rfl
        | true =>
          rcases h3 x hs1 with e | e
          · rw [hsx] at e
            exact absurd e (by decide)
          · exact absurd e hx
    · intro fuel2
      unfold mark_bound_stale
      rw [if_pos h1]
  · intro fuel hf
    exact mark_bound_stale_total cd dpt hacyc fuel st L hf

/-- C21 at a concrete input: node 3 of `twoParentsGraph`, whose parents are the
nodes 1 and 2, is marked stale when every node is fresh. -/
theorem mark_stale_propagates_witness :
    (∀ n p, p ∈ (twoParentsGraph.cdata n).up →
      (fun k : Ptr => if k = 3 then 1 else 0) p < (fun k : Ptr => if k = 3 then 1 else 0) n) ∧
    (∀ n p, (fun _ : Ptr => false) n = true → p ∈ (twoParentsGraph.cdata n).up →
      (fun _ : Ptr => false) p = true) ∧
    ∃ st1, mark_bound_stale 2 twoParentsGraph.cdata (fun _ => false) 3 = .ok st1 ∧
      st1 3 = true ∧ st1 1 = true ∧ st1 2 = true ∧ st1 4 = false ∧
      mark_bound_stale 1 twoParentsGraph.cdata st1 3 = .ok st1 := by
  have hr := (twoParentsGraph_ranked (fun n => if n = 3 then 0 else 1)
    (fun n => if n = 3 then 1 else 0) (by decide) (by decide) (by decide) (by decide)).up_lt
  have hcl : ∀ n p, (fun _ : Ptr => false) n = true → p ∈ (twoParentsGraph.cdata n).up →
      (fun _ : Ptr => false) p = true := fun n p h _ => by simp at h
  have hthm := mark_stale_propagates twoParentsGraph.cdata (fun _ => false) 3 _ hr hcl
  obtain ⟨st1, h⟩ := hthm.2 2 (by decide)
  obtain ⟨h1, h2, h3⟩ := hthm.1 2 st1 h
  have u1 : UpReach twoParentsGraph.cdata 3 1 :=
    UpReach.step 3 1 1 (by decide) (UpReach.refl 1)
  have u2 : UpReach twoParentsGraph.cdata 3 2 :=
    UpReach.step 3 2 2 (by decide) (UpReach.refl 2)
  have hno : ∀ n, UpReach twoParentsGraph.cdata n 4 → n ≠ 1 ∧ n ≠ 2 ∧ n ≠ 3 := by
    intro n hreach
    generalize h4 : (4 : Ptr) = a at hreach
    induction hreach with
    | refl n =>
      subst h4
      decide
    | step n p b hp _ ih =>
      have hp3 := ih h4
      refine ⟨?_, ?_, ?_⟩
      · intro e
        subst e
        simp [twoParentsGraph] at hp
      · intro e
        subst e
        simp [twoParentsGraph] at hp
      · intro e
        subst e
        have : p = 1 ∨ p = 2 := by simpa [twoParentsGraph] using hp
        rcases this with e | e
        · exact hp3.1 e
        · exact hp3.2.1 e
  exact ⟨hr, hcl, st1, h, h1 3 (UpReach.refl 3), h1 1 u1, h1 2 u2,
    h2 4 (fun hreach => (hno 3 hreach).2.2 rfl), h3 0⟩

/-! ## Recomputing the bounding volume -/

theorem foldl_push {α β : Type} (f : α → β) (l : List α) :
    ∀ acc : List β, l.foldl (fun acc d => acc ++ [f d]) acc = acc ++ l.map f := by
  induction l with
  | nil => intro acc; simp
  | cons a t ih =>
    intro acc
    simp only [List.foldl_cons, List.map_cons]
    rw [ih]
    simp

theorem child_volumes_eq {V : Type} (ops : BoundOps V) (g : Graph) (this : Ptr) :
    child_volumes ops g this =
      ops.get_internal_bound this :: (g.cdata this).down.map (fun d => ops.get_bound d.child) := by
  unfold child_volumes
  rw [foldl_push (fun d : DownConnection => ops.get_bound d.child)]
  rfl

/-- C22: the list that `recompute_bound` passes to `around` has one entry more
than the down-list of `N`: the internal bound of `N` first, then the bound of
each child in down-list order; a completed call returns the volume `around`
left behind when the transform of `N` is the identity and that volume
transformed by the transform of `N` otherwise; the call completes when the
fresh volume is not null and the volume is geometric or the transform is the
identity. -/
theorem recompute_bound_spec {V : Type} (ops : BoundOps V) (g : Graph) (N : Ptr) :
    (child_volumes ops g N).length = (g.cdata N).down.length + 1 ∧
    child_volumes ops g N =
      ops.get_internal_bound N :: (g.cdata N).down.map (fun d => ops.get_bound d.child) ∧
    (∀ res, recompute_bound ops g N = .ok res →
      ∃ b0, ops.fresh_bound = some b0 ∧
        res.success = (ops.around b0 (child_volumes ops g N)).2 ∧
        (ops.is_identity (g.cdata N).transform = true →
          res.bound = (ops.around b0 (child_volumes ops g N)).1) ∧
        (ops.is_identity (g.cdata N).transform = false →
          res.bound = ops.xform (ops.around b0 (child_volumes ops g N)).1
            (g.cdata N).transform)) ∧
    (∀ b0, ops.fresh_bound = some b0 →
      (ops.is_identity (g.cdata N).transform = true ∨
        ops.is_geometric (ops.around b0 (child_volumes ops g N)).1 = true) →
      ∃ res, recompute_bound ops g N = .ok res) := by
  refine ⟨?_, child_volumes_eq ops g N, ?_, ?_⟩
  · rw [child_volumes_eq]
    simp
  · intro res h
    unfold recompute_bound at h
    cases hb : ops.fresh_bound with
    | none => simp [hb] at h
    | some b0 =>
      simp only [hb] at h
      refine ⟨b0, rfl, ?_⟩
      by_cases hid : ops.is_identity (g.cdata N).transform = true
      · rw [if_pos hid] at h
        simp only [Except.ok.injEq] at h
        subst h
        exact ⟨rfl, fun _ => rfl, fun hf => by rw [hid] at hf; exact absurd hf (by decide)⟩
      · rw [if_neg hid] at h
        by_cases hg : ops.is_geometric (ops.around b0 (child_volumes ops g N)).1 = true
        · rw [if_pos hg] at h
          simp only [Except.ok.injEq] at h
          subst h
          exact ⟨rfl, fun ht => absurd ht hid, fun _ => rfl⟩
        · rw [if_neg hg] at h
          simp at h
  · intro b0 hb hor
    unfold recompute_bound
    simp only [hb]
    by_cases hid : ops.is_identity (g.cdata N).transform = true
    · rw [if_pos hid]
      exact ⟨_, rfl⟩
    · rw [if_neg hid]
      rcases hor with h1 | h1
      · exact absurd h1 hid
      · rw [if_pos h1]
        exact ⟨_, rfl⟩

/-- C22 at a concrete input: node 1 of `boundGraph` has two children and the
transform 7, which `sampleOps` does not take for the identity. -/
theorem recompute_bound_spec_witness :
    child_volumes sampleOps boundGraph 1 = [[1], [20], [30]] ∧
    ∃ res, recompute_bound sampleOps boundGraph 1 = .ok res ∧
      res.bound = [1, 20, 30, 7] := by
  have hthm := recompute_bound_spec sampleOps boundGraph 1
  obtain ⟨res, hres⟩ := hthm.2.2.2 [] rfl (Or.inr rfl)
  obtain ⟨b0, hb0, _, _, hx⟩ := hthm.2.2.1 res hres
  have hb : b0 = [] := by
    have : some b0 = some ([] : List Nat) := hb0.symm
    simpa using this
  subst hb
  refine ⟨by rw [hthm.2.1]; rfl, res, hres, ?_⟩
  rw [hx (by decide)]
  rfl

theorem recompute_bound_eq {V : Type} (ops : BoundOps V) (g : Graph) (N : Ptr)
    (b0 : V) (hb : ops.fresh_bound = some b0)
    (hgeo : ops.is_identity (g.cdata N).transform = true ∨
      ops.is_geometric (ops.around b0 (child_volumes ops g N)).1 = true) :
    recompute_bound ops g N = .ok ⟨g,
      (if ops.is_identity (g.cdata N).transform = true
        then (ops.around b0 (child_volumes ops g N)).1
        else ops.xform (ops.around b0 (child_volumes ops g N)).1 (g.cdata N).transform),
      (ops.around b0 (child_volumes ops g N)).2⟩ := by
  unfold recompute_bound
  simp only [hb]
  by_cases hid : ops.is_identity (g.cdata N).transform = true
  · rw [if_pos hid, if_pos hid]
  · rw [if_neg hid, if_neg hid]
    rcases hgeo with h1 | h1
    · exact absurd h1 hid
    · rw [if_pos h1]

/-- C23: when `around` reports failure (and the fresh volume is not null and
geometric, as on success), `recompute_bound` completes: it returns the volume
`around` left behind, transformed when the transform of `N` is not the identity,
the graph is the one it was given, and volume and graph are the ones returned
when `around` leaves the same volume behind and reports success. -/
theorem recompute_bound_around_failure {V : Type} (ops : BoundOps V) (g : Graph) (N : Ptr)
    (b0 : V) (hb : ops.fresh_bound = some b0)
    (hfail : (ops.around b0 (child_volumes ops g N)).2 = false)
    (hgeo : ops.is_identity (g.cdata N).transform = true ∨
      ops.is_geometric (ops.around b0 (child_volumes ops g N)).1 = true) :
    ∃ res ok, recompute_bound ops g N = .ok res ∧
      recompute_bound ops.succeeding g N = .ok ok ∧
      res.success = false ∧ ok.success = true ∧ res.bound = ok.bound ∧
      res.graph = g ∧ ok.graph = g ∧
      res.bound = (if ops.is_identity (g.cdata N).transform = true
        then (ops.around b0 (child_volumes ops g N)).1
        else ops.xform (ops.around b0 (child_volumes ops g N)).1 (g.cdata N).transform) := by
  have h1 := recompute_bound_eq ops g N b0 hb hgeo
  have h2 := recompute_bound_eq ops.succeeding g N b0 hb hgeo
  exact ⟨_, _, h1, h2, hfail, rfl, rfl, rfl, rfl, rfl⟩

/-- C23 at a concrete input: `around` of `sampleOps` always reports failure. -/
theorem recompute_bound_around_failure_witness :
    sampleOps.fresh_bound = some [] ∧
    (sampleOps.around [] (child_volumes sampleOps boundGraph 1)).2 = false ∧
    ∃ res, recompute_bound sampleOps boundGraph 1 = .ok res ∧ res.success = false ∧
      res.bound = [1, 20, 30, 7] ∧ SameEdges boundGraph res.graph := by
  obtain ⟨res, ok, h1, _, h3, _, _, h6, _, h8⟩ :=
    recompute_bound_around_failure sampleOps boundGraph 1 [] rfl rfl (Or.inr rfl)
  refine ⟨rfl, rfl, res, h1, h3, ?_, ?_⟩
  · rw [h8]
    rfl
  · rw [h6]
    exact fun n => ⟨rfl, rfl⟩

/-! ## The pipeline cycler and `delete_component` -/

theorem write_stage_unique (cy : Cycler) (i : Nat) (h : cy.is_stage_unique i = true) :
    cy.write_stage i = (cy, cy.read_stage i) := by
  unfold Cycler.write_stage
  rw [if_pos h]

theorem is_stage_unique_congr (cy cy1 : Cycler) (h : cy1.slots = cy.slots) (i : Nat) :
    cy1.is_stage_unique i = cy.is_stage_unique i := by
  unfold Cycler.is_stage_unique Cycler.get_num_stages Cycler.slot
  rw [h]

theorem eraseChain_idem (cd : CData) (c : Comp) : eraseChain (eraseChain cd c) c = eraseChain cd c := by
  unfold eraseChain
  simp only [setErase_idem]

theorem eraseStages_store (c : Comp) (stages : List Nat) :
    ∀ cy m, (eraseStages c stages cy m).1.slots = cy.slots ∧
      (∀ s, (∃ i, i ∈ stages ∧ cy.is_stage_unique i = true ∧ cy.slot i = s) →
        (eraseStages c stages cy m).1.store s = eraseChain (cy.store s) c) ∧
      (∀ s, (¬ ∃ i, i ∈ stages ∧ cy.is_stage_unique i = true ∧ cy.slot i = s) →
        (eraseStages c stages cy m).1.store s = cy.store s) := by
  induction stages with
  | nil =>
    intro cy m
    refine ⟨rfl, ?_, fun s _ => rfl⟩
    rintro s ⟨i, hi, _⟩
    simp at hi
  | cons i rest ih =>
    intro cy m
    by_cases hu : cy.is_stage_unique i = true
    · have hstep : eraseStages c (i :: rest) cy m =
          eraseStages c rest (cy.release_write_stage i (eraseChain (cy.read_stage i) c))
            (max m (numErased (cy.read_stage i).chains c)) := by
        conv_lhs => unfold eraseStages
        rw [if_pos hu]
        simp only [write_stage_unique cy i hu]
      rw [hstep]
      obtain ⟨h1, h2, h3⟩ := ih (cy.release_write_stage i (eraseChain (cy.read_stage i) c))
        (max m (numErased (cy.read_stage i).chains c))
      have hslots : (cy.release_write_stage i (eraseChain (cy.read_stage i) c)).slots =
          cy.slots := rfl
      have hslot : ∀ j, (cy.release_write_stage i (eraseChain (cy.read_stage i) c)).slot j =
          cy.slot j := fun j => rfl
      have huniq := is_stage_unique_congr cy _ hslots
      have hstore : ∀ s, (cy.release_write_stage i (eraseChain (cy.read_stage i) c)).store s =
          if s = cy.slot i then eraseChain (cy.store (cy.slot i)) c else cy.store s :=
        fun s => rfl
      refine ⟨h1.trans hslots, ?_, ?_⟩
      · intro s hs
        by_cases hex : ∃ j, j ∈ rest ∧ cy.is_stage_unique j = true ∧ cy.slot j = s
        · obtain ⟨j, hj, hju, hjs⟩ := hex
          rw [h2 s ⟨j, hj, by rw [huniq]; exact hju, by rw [hslot]; exact hjs⟩, hstore]
          split
          · next e => rw [e, eraseChain_idem]
          · rfl
        · have hsi : cy.slot i = s := by
            obtain ⟨j, hj, hju, hjs⟩ := hs
            rcases List.mem_cons.mp hj with e | hjr
            · rw [← e]
              exact hjs
            · exact absurd ⟨j, hjr, hju, hjs⟩ hex
          rw [h3 s (by
            rintro ⟨j, hj, hju, hjs⟩
            exact hex ⟨j, hj, by rw [← huniq]; exact hju, by rw [← hslot]; exact hjs⟩), hstore,
            if_pos hsi.symm, hsi]
      · intro s hs
        have hsi : s ≠ cy.slot i := fun e =>
          hs ⟨i, List.mem_cons_self _ _, hu, e.symm⟩
        rw [h3 s (by
          rintro ⟨j, hj, hju, hjs⟩
          exact hs ⟨j, List.mem_cons_of_mem _ hj, by rw [← huniq]; exact hju,
            by rw [← hslot]; exact hjs⟩), hstore, if_neg hsi]
    · have hstep : eraseStages c (i :: rest) cy m = eraseStages c rest cy m := by
        conv_lhs => unfold eraseStages
        rw [if_neg hu]
      rw [hstep]
      obtain ⟨h1, h2, h3⟩ := ih cy m
      refine ⟨h1, ?_, ?_⟩
      · rintro s ⟨j, hj, hju, hjs⟩
        rcases List.mem_cons.mp hj with e | hjr
        · subst e
          exact absurd hju hu
        · exact h2 s ⟨j, hjr, hju, hjs⟩
      · intro s hs
        exact h3 s (fun ⟨j, hj, hju, hjs⟩ => hs ⟨j, List.mem_cons_of_mem _ hj, hju, hjs⟩)

theorem numErased_nodup (l : List Nat) (c : Nat) (h : l.Nodup) :
    numErased l c ≤ 1 ∧ (numErased l c = 1 ↔ c ∈ l) := by
  unfold numErased
  by_cases hc : c ∈ l
  · have := List.count_eq_one_of_mem h hc
    exact ⟨by omega, fun _ => hc, fun _ => this⟩
  · have := List.count_eq_zero_of_not_mem hc
    exact ⟨by omega, fun h1 => by omega, fun h1 => absurd h1 hc⟩

theorem eraseStages_count (c : Comp) (stages : List Nat) :
    ∀ cy m, (∀ s, (cy.store s).chains.Nodup) → m ≤ 1 →
      (eraseStages c stages cy m).2 ≤ 1 ∧
      ((eraseStages c stages cy m).2 = 1 ↔
        m = 1 ∨ ∃ i, i ∈ stages ∧ cy.is_stage_unique i = true ∧
          c ∈ (cy.read_stage i).chains) := by
  induction stages with
  | nil =>
    intro cy m _ hm
    refine ⟨hm, fun h => Or.inl h, ?_⟩
    rintro (h | ⟨i, hi, _⟩)
    · exact h
    · simp at hi
  | cons i rest ih =>
    intro cy m hnd hm
    by_cases hu : cy.is_stage_unique i = true
    · have hstep : eraseStages c (i :: rest) cy m =
          eraseStages c rest (cy.release_write_stage i (eraseChain (cy.read_stage i) c))
            (max m (numErased (cy.read_stage i).chains c)) := by
        conv_lhs => unfold eraseStages
        rw [if_pos hu]
        simp only [write_stage_unique cy i hu]
      rw [hstep]
      have hslots : (cy.release_write_stage i (eraseChain (cy.read_stage i) c)).slots =
          cy.slots := rfl
      have huniq := is_stage_unique_congr cy _ hslots
      have hread : ∀ j, (cy.release_write_stage i (eraseChain (cy.read_stage i) c)).read_stage j =
          if cy.slot j = cy.slot i then eraseChain (cy.read_stage i) c else cy.read_stage j :=
        fun j => rfl
      have hstore : ∀ s, (cy.release_write_stage i (eraseChain (cy.read_stage i) c)).store s =
          if s = cy.slot i then eraseChain (cy.read_stage i) c else cy.store s :=
        fun s => rfl
      obtain ⟨n1, n2⟩ := numErased_nodup (cy.read_stage i).chains c (hnd _)
      have hnd1 : ∀ s,
          ((cy.release_write_stage i (eraseChain (cy.read_stage i) c)).store s).chains.Nodup := by
        intro s
        rw [hstore]
        split
        · exact nodup_setErase _ _ (hnd _)
        · exact hnd s
      obtain ⟨h1, h2⟩ := ih (cy.release_write_stage i (eraseChain (cy.read_stage i) c))
        (max m (numErased (cy.read_stage i).chains c)) hnd1 (by omega)
      refine ⟨h1, ?_⟩
      rw [h2]
      constructor
      · rintro (hmax | ⟨j, hj, hju, hjc⟩)
        · by_cases hm1 : m = 1
          · exact Or.inl hm1
          · have : numErased (cy.read_stage i).chains c = 1 := by omega
            exact Or.inr ⟨i, List.mem_cons_self _ _, hu, n2.mp this⟩
        · rw [hread] at hjc
          split at hjc
          · exact absurd hjc (not_mem_setErase _ _)
          · exact Or.inr ⟨j, List.mem_cons_of_mem _ hj, by rw [← huniq]; exact hju, hjc⟩
      · rintro (hm1 | ⟨j, hj, hju, hjc⟩)
        · exact Or.inl (by omega)
        · by_cases hsl : cy.slot j = cy.slot i
          · have hci : c ∈ (cy.read_stage i).chains := by
              unfold Cycler.read_stage at hjc ⊢
              rw [← hsl]
              exact hjc
            have := n2.mpr hci
            exact Or.inl (by omega)
          · rcases List.mem_cons.mp hj with e | hjr
            · exact absurd (by rw [e]) hsl
            · refine Or.inr ⟨j, hjr, by rw [huniq]; exact hju, ?_⟩
              rw [hread, if_neg hsl]
              exact hjc
    · have hstep : eraseStages c (i :: rest) cy m = eraseStages c rest cy m := by
        conv_lhs => unfold eraseStages
        rw [if_neg hu]
      rw [hstep]
      obtain ⟨h1, h2⟩ := ih cy m hnd hm
      refine ⟨h1, ?_⟩
      rw [h2]
      constructor
      · rintro (h | ⟨j, hj, hju, hjc⟩)
        · exact Or.inl h
        · exact Or.inr ⟨j, List.mem_cons_of_mem _ hj, hju, hjc⟩
      · rintro (h | ⟨j, hj, hju, hjc⟩)
        · exact Or.inl h
        · rcases List.mem_cons.mp hj with e | hjr
          · subst e
            exact absurd hju hu
          · exact Or.inr ⟨j, hjr, hju, hjc⟩

theorem slot_of_unique (cy : Cycler) (i j : Nat) (hj : j < cy.get_num_stages)
    (hu : cy.is_stage_unique i = true) (h : cy.slot j = cy.slot i) : j = i := by
  unfold Cycler.is_stage_unique at hu
  rw [List.all_eq_true] at hu
  have := hu j (List.mem_range.mpr hj)
  simp only [Bool.or_eq_true, decide_eq_true_eq] at this
  rcases this with e | e
  · exact e
  · exact absurd h e

/-- The stages after the loop of `delete_component`: a stage that has a snapshot
of its own reads it with `component` erased, any other stage reads what it read
before. -/
theorem eraseStages_read (cy : Cycler) (c : Comp) (m : Nat) (i : Nat)
    (hi : i < cy.get_num_stages) :
    (eraseStages c (List.range cy.get_num_stages) cy m).1.read_stage i =
      if cy.is_stage_unique i = true then eraseChain (cy.read_stage i) c
      else cy.read_stage i := by
  obtain ⟨h1, h2, h3⟩ := eraseStages_store c (List.range cy.get_num_stages) cy m
  have hslot : (eraseStages c (List.range cy.get_num_stages) cy m).1.slot i = cy.slot i := by
    unfold Cycler.slot
    rw [h1]
  unfold Cycler.read_stage
  rw [hslot]
  by_cases hu : cy.is_stage_unique i = true
  · rw [if_pos hu]
    exact h2 _ ⟨i, List.mem_range.mpr hi, hu, rfl⟩
  · rw [if_neg hu]
    apply h3
    rintro ⟨j, hj, hju, hjs⟩
    have := slot_of_unique cy j i hi hju hjs.symm
    subst this
    exact hu hju

/-- C24: let `after` be the cycler when the loop of `delete_component(c)` has
visited every stage.  Every stage that had a snapshot of its own reads a chain
set without `c`; in every stage the down-list, the up-set, the render state and
the transform are what they were, and the chain set is the old one with at most
`c` erased (the old one itself in a stage that shares its snapshot).  A
completed call returns `after`, and the call completes when the chain sets list
no component twice and a stage with a snapshot of its own holds `c`. -/
theorem delete_component_stages (cy : Cycler) (c : Comp) :
    (∀ i, i < cy.get_num_stages →
      (cy.is_stage_unique i = true →
        c ∉ ((eraseStages c (List.range cy.get_num_stages) cy 0).1.read_stage i).chains) ∧
      ((eraseStages c (List.range cy.get_num_stages) cy 0).1.read_stage i).down =
        (cy.read_stage i).down ∧
      ((eraseStages c (List.range cy.get_num_stages) cy 0).1.read_stage i).up =
        (cy.read_stage i).up ∧
      ((eraseStages c (List.range cy.get_num_stages) cy 0).1.read_stage i).state =
        (cy.read_stage i).state ∧
      ((eraseStages c (List.range cy.get_num_stages) cy 0).1.read_stage i).transform =
        (cy.read_stage i).transform ∧
      (∀ k, k ≠ c →
        (k ∈ ((eraseStages c (List.range cy.get_num_stages) cy 0).1.read_stage i).chains ↔
          k ∈ (cy.read_stage i).chains)) ∧
      (cy.is_stage_unique i = false →
        (eraseStages c (List.range cy.get_num_stages) cy 0).1.read_stage i =
          cy.read_stage i)) ∧
    (eraseStages c (List.range cy.get_num_stages) cy 0).1.get_num_stages =
      cy.get_num_stages ∧
    (∀ cy1, delete_component cy c = .ok cy1 →
      cy1 = (eraseStages c (List.range cy.get_num_stages) cy 0).1) ∧
    ((∀ s, (cy.store s).chains.Nodup) →
      (∃ i, i < cy.get_num_stages ∧ cy.is_stage_unique i = true ∧
        c ∈ (cy.read_stage i).chains) →
      ∃ cy1, delete_component cy c = .ok cy1) := by
  refine ⟨?_, ?_, ?_, ?_⟩
  · intro i hi
    rw [eraseStages_read cy c 0 i hi]
    by_cases hu : cy.is_stage_unique i = true
    · rw [if_pos hu]
      refine ⟨fun _ => not_mem_setErase _ _, rfl, rfl, rfl, rfl, ?_, ?_⟩
      · intro k hk
        exact mem_setErase_other _ _ _ hk
      · intro hf
        rw [hu] at hf
        exact absurd hf (by decide)
    · rw [if_neg hu]
      exact ⟨fun h => absurd h hu, rfl, rfl, rfl, rfl, fun _ _ => Iff.rfl, fun _ => rfl⟩
  · unfold Cycler.get_num_stages
    rw [(eraseStages_store c (List.range cy.slots.length) cy 0).1]
  · intro cy1 h
    unfold delete_component at h
    simp only at h
    split at h
    · simp only [Except.ok.injEq] at h
      exact h.symm
    · simp at h
  · intro hnd hex
    have hcount := (eraseStages_count c (List.range cy.get_num_stages) cy 0 hnd
      (Nat.zero_le _)).2
    have h1 : (eraseStages c (List.range cy.get_num_stages) cy 0).2 = 1 := by
      rw [hcount]
      obtain ⟨i, hi, hu, hc⟩ := hex
      exact Or.inr ⟨i, List.mem_range.mpr hi, hu, hc⟩
    refine ⟨(eraseStages c (List.range cy.get_num_stages) cy 0).1, ?_⟩
    unfold delete_component
    simp only
    rw [if_pos h1]

theorem sampleCycler_nodup : ∀ s, (sampleCycler.store s).chains.Nodup := by
  intro s
  by_cases h : s = 0
  · subst h
    decide
  · simp [sampleCycler, h]

/-- C24 at a concrete input: component 7 is deleted from `sampleCycler`; stage 0
loses it, the stages 1 and 2, which share a snapshot, keep it. -/
theorem delete_component_stages_witness :
    ∃ cy1, delete_component sampleCycler 7 = .ok cy1 ∧
      (cy1.read_stage 0).chains = [8] ∧ (cy1.read_stage 0).down = [⟨2, 0⟩] ∧
      (cy1.read_stage 0).up = [4] ∧ cy1.read_stage 1 = sampleCycler.read_stage 1 ∧
      cy1.read_stage 2 = sampleCycler.read_stage 2 := by
  have hthm := delete_component_stages sampleCycler 7
  obtain ⟨cy1, h⟩ := hthm.2.2.2 sampleCycler_nodup ⟨0, by decide, by decide, by decide⟩
  have he := hthm.2.2.1 cy1 h
  have h0 := hthm.1 0 (by decide)
  have h1 := hthm.1 1 (by decide)
  have h2 := hthm.1 2 (by decide)
  rw [← he] at h0 h1 h2
  refine ⟨cy1, h, ?_, h0.2.1, h0.2.2.1, h1.2.2.2.2.2.2 (by decide), h2.2.2.2.2.2.2 (by decide)⟩
  rw [he, eraseStages_read sampleCycler 7 0 0 (by decide)]
  decide

/-- C25, the claim refuted at a concrete input: both stages of `twoCopiesCycler`
have a snapshot of their own holding the component 7, so two erasures occur,
and the assertion of `delete_component` passes. -/
theorem delete_component_two_erasures :
    totalErased twoCopiesCycler 7 = 2 ∧
    ∃ cy1, delete_component twoCopiesCycler 7 = .ok cy1 ∧
      7 ∉ (cy1.read_stage 0).chains ∧ 7 ∉ (cy1.read_stage 1).chains := by
  have h := ok_of_completes (delete_component twoCopiesCycler 7) twoCopiesCycler (by decide)
  exact ⟨by decide, _, h, by decide, by decide⟩

theorem totalErased_pos (cy : Cycler) (c : Comp) :
    0 < totalErased cy c ↔
      ∃ i, i < cy.get_num_stages ∧ cy.is_stage_unique i = true ∧
        c ∈ (cy.read_stage i).chains := by
  unfold totalErased
  rw [Nat.pos_iff_ne_zero, Ne, List.sum_eq_zero_iff]
  simp only [List.mem_map, List.mem_filter, List.mem_range, not_forall]
  constructor
  · rintro ⟨x, ⟨i, ⟨hi, hu⟩, rfl⟩, hx⟩
    refine ⟨i, hi, hu, ?_⟩
    by_contra hc
    exact hx (List.count_eq_zero_of_not_mem hc)
  · rintro ⟨i, hi, hu, hc⟩
    refine ⟨_, ⟨i, ⟨hi, hu⟩, rfl⟩, ?_⟩
    unfold numErased
    exact (List.count_pos_iff.mpr hc).ne.symm

/-- C25 as amended: with chain sets that list no component twice, the assertion
of `delete_component(c)` passes exactly when at least one erasure occurs over
the stages that have a snapshot of their own, that is, when such a stage holds
`c`; it fails exactly when no erasure occurs. -/
theorem delete_component_passes_iff (cy : Cycler) (c : Comp)
    (hnd : ∀ s, (cy.store s).chains.Nodup) :
    ((∃ cy1, delete_component cy c = .ok cy1) ↔ 0 < totalErased cy c) ∧
    ((∃ cy1, delete_component cy c = .ok cy1) ↔
      ∃ i, i < cy.get_num_stages ∧ cy.is_stage_unique i = true ∧
        c ∈ (cy.read_stage i).chains) ∧
    (delete_component cy c = .error .assertion ↔ totalErased cy c = 0) := by
  have hcount := (eraseStages_count c (List.range cy.get_num_stages) cy 0 hnd
    (Nat.zero_le _)).2
  have hiff : (∃ cy1, delete_component cy c = .ok cy1) ↔
      ∃ i, i < cy.get_num_stages ∧ cy.is_stage_unique i = true ∧
        c ∈ (cy.read_stage i).chains := by
    constructor
    · rintro ⟨cy1, h⟩
      unfold delete_component at h
      simp only at h
      split at h
      · next h1 =>
        rcases hcount.mp h1 with e | ⟨i, hi, hu, hc⟩
        · exact absurd e (by decide)
        · exact ⟨i, List.mem_range.mp hi, hu, hc⟩
      · simp at h
    · rintro ⟨i, hi, hu, hc⟩
      have h1 := hcount.mpr (Or.inr ⟨i, List.mem_range.mpr hi, hu, hc⟩)
      refine ⟨(eraseStages c (List.range cy.get_num_stages) cy 0).1, ?_⟩
      unfold delete_component
      simp only
      rw [if_pos h1]
  refine ⟨hiff.trans (totalErased_pos cy c).symm, hiff, ?_⟩
  constructor
  · intro herr
    by_contra hne
    obtain ⟨cy1, h⟩ := hiff.mpr ((totalErased_pos cy c).mp (Nat.pos_of_ne_zero hne))
    rw [herr] at h
    simp at h
  · intro h0
    have hno : ¬ ∃ cy1, delete_component cy c = .ok cy1 := by
      rw [hiff, ← totalErased_pos]
      omega
    unfold delete_component at hno ⊢
    simp only at hno ⊢
    split
    · next h1 =>
      rw [if_pos h1] at hno
      exact absurd ⟨_, rfl⟩ hno
    · rfl

theorem twoCopiesCycler_nodup : ∀ s, (twoCopiesCycler.store s).chains.Nodup := by
  intro s
  by_cases h : s = 0
  · subst h
    decide
  · simp [twoCopiesCycler, h]

/-- C25 as amended at a concrete input: deleting the component 7, held by both
snapshots of `twoCopiesCycler`, passes the assertion, and deleting the
component 9, held by none, fails it. -/
theorem delete_component_passes_iff_witness :
    (∀ s, (twoCopiesCycler.store s).chains.Nodup) ∧
    (∃ cy1, delete_component twoCopiesCycler 7 = .ok cy1) ∧
    delete_component twoCopiesCycler 9 = .error .assertion := by
  refine ⟨twoCopiesCycler_nodup, ?_, ?_⟩
  · exact (delete_component_passes_iff twoCopiesCycler 7 twoCopiesCycler_nodup).1.mpr
      (by decide)
  · exact (delete_component_passes_iff twoCopiesCycler 9 twoCopiesCycler_nodup).2.2.mpr
      (by decide)

/-! ## Copying a node -/

/-- C26: for a node `N` in use, `make_copy` returns a node that is not null and
not `N`, with the render state and the transform of `N`, an empty down-list and
an empty up-set; the snapshot of `N` and of every node other than the new one,
and every path component, are unchanged. -/
theorem make_copy_spec (h : Heap) (N : Ptr) (hN : N < h.next_node) :
    (make_copy h N).2 ≠ N ∧ (make_copy h N).2 ≠ NULL ∧
    ((make_copy h N).1.graph.cdata (make_copy h N).2).state = (h.graph.cdata N).state ∧
    ((make_copy h N).1.graph.cdata (make_copy h N).2).transform =
      (h.graph.cdata N).transform ∧
    ((make_copy h N).1.graph.cdata (make_copy h N).2).down = [] ∧
    ((make_copy h N).1.graph.cdata (make_copy h N).2).up = [] ∧
    (make_copy h N).1.graph.cdata N = h.graph.cdata N ∧
    (∀ n, n ≠ (make_copy h N).2 → (make_copy h N).1.graph.cdata n = h.graph.cdata n) ∧
    (make_copy h N).1.graph.comps = h.graph.comps ∧
    (make_copy h N).2 < (make_copy h N).1.next_node := by
  have hne : h.next_node ≠ N := Nat.ne_of_gt hN
  have h2 : (make_copy h N).2 = h.next_node := rfl
  have hcd : ∀ n, (make_copy h N).1.graph.cdata n =
      if n = h.next_node
      then ⟨[], [], [], (h.graph.cdata N).state, (h.graph.cdata N).transform⟩
      else h.graph.cdata n := fun n => rfl
  rw [h2]
  refine ⟨hne, ?_, ?_, ?_, ?_, ?_, ?_, ?_, rfl, Nat.lt_succ_self _⟩
  · intro e
    rw [e] at hN
    exact Nat.not_lt_zero _ hN
  · rw [hcd, if_pos rfl]
  · rw [hcd, if_pos rfl]
  · rw [hcd, if_pos rfl]
  · rw [hcd, if_pos rfl]
  · rw [hcd, if_neg hne.symm]
  · intro n hn
    rw [hcd, if_neg hn]

/-- C26 at a concrete input: node 1 of `boundGraph`, whose transform is 7, is
copied when the nodes 1, 2 and 3 are in use. -/
theorem make_copy_spec_witness :
    (1 : Ptr) < (⟨boundGraph, 4⟩ : Heap).next_node ∧
    (make_copy ⟨boundGraph, 4⟩ 1).2 = 4 ∧
    ((make_copy ⟨boundGraph, 4⟩ 1).1.graph.cdata 4).transform = 7 ∧
    ((make_copy ⟨boundGraph, 4⟩ 1).1.graph.cdata 4).down = [] ∧
    ((make_copy ⟨boundGraph, 4⟩ 1).1.graph.cdata 1).down = [⟨2, 0⟩, ⟨3, 5⟩] := by
  have hthm := make_copy_spec ⟨boundGraph, 4⟩ 1 (by decide)
  exact ⟨by decide, rfl, hthm.2.2.2.1.trans rfl, hthm.2.2.2.2.1,
    (congrArg CData.down hthm.2.2.2.2.2.2.1).trans rfl⟩

/-- C27 evaluated on the code: `copy_subgraph` allocates nothing and returns no
node; on every heap and node it stops at its assertion. -/
theorem copy_subgraph_asserts (h : Heap) (N : Ptr) :
    copy_subgraph h N = .error .assertion ∧
    copy_subgraph ⟨boundGraph, 4⟩ 1 = .error .assertion :=
  ⟨rfl, rfl⟩

/-! ## Combining nodes -/

/-- C28: `a.combine_with(b)` is `b` when the exact type of `a` is the class
type of `PandaNode`, whatever `b` is; it is `a` when `a` has another type and
the exact type of `b` is that class type; and it is null when neither has the
class type as its exact type. -/
theorem combine_with_spec (type_of : Ptr → Nat) (T : Nat) (a b : Ptr) :
    (type_of a = T → combine_with type_of T a b = b) ∧
    (type_of a ≠ T → type_of b = T → combine_with type_of T a b = a) ∧
    (type_of a ≠ T → type_of b ≠ T → combine_with type_of T a b = NULL) := by
  unfold combine_with is_exact_type
  refine ⟨fun h => ?_, fun h1 h2 => ?_, fun h1 h2 => ?_⟩
  · simp [h]
  · simp [h1, h2]
  · simp [h1, h2]

/-- C28 at a concrete input: node 1 is a plain node (type 0), the nodes 2 and 3
have the derived types 5 and 6. -/
theorem combine_with_spec_witness :
    combine_with (fun n => if n = 1 then 0 else n + 3) 0 1 2 = 2 ∧
    combine_with (fun n => if n = 1 then 0 else n + 3) 0 2 1 = 2 ∧
    combine_with (fun n => if n = 1 then 0 else n + 3) 0 2 3 = NULL := by
  have h := fun a b => combine_with_spec (fun n => if n = 1 then 0 else n + 3) 0 a b
  exact ⟨(h 1 2).1 (by decide), (h 2 1).2.1 (by decide) (by decide),
    (h 2 3).2.2 (by decide) (by decide)⟩

/-! ## Self-parenting -/

theorem foldlM_total_inv {α β : Type} (f : β → α → Except Fault β) (P : β → Prop)
    (l : List α) (hstep : ∀ b a, a ∈ l → P b → ∃ b1, f b a = .ok b1 ∧ P b1) :
    ∀ b, P b → ∃ r, l.foldlM f b = .ok r ∧ P r := by
  induction l with
  | nil => intro b hb; exact ⟨b, rfl, hb⟩
  | cons a t ih =>
    intro b hb
    obtain ⟨b1, hb1, hp1⟩ := hstep b a (List.mem_cons_self _ _) hb
    obtain ⟨r, hr, hpr⟩ := ih (fun b2 a2 ha2 => hstep b2 a2 (List.mem_cons_of_mem _ ha2)) b1 hp1
    refine ⟨r, ?_, hpr⟩
    simp only [List.foldlM_cons, bind, Except.bind, hb1]
    exact hr

/-- Marking completes although the node `e` lists itself as a parent, once `e`
is stale: the propagation that reaches `e` stops there. -/
theorem mark_bound_stale_total_at (cd : Ptr → CData) (dpt : Ptr → Nat) (e : Ptr)
    (hr : ∀ n p, p ∈ (cd n).up → p = e ∨ dpt p < dpt n) :
    ∀ fuel st n, st e = true → ((n = e ∧ 0 < fuel) ∨ dpt n + 1 < fuel) →
      ∃ st1, mark_bound_stale fuel cd st n = .ok st1 ∧ st1 e = true := by
  intro fuel
  induction fuel with
  | zero =>
    intro st n _ h
    omega
  | succ k ih =>
    intro st n hst h
    unfold mark_bound_stale
    by_cases hs : st n = true
    · rw [if_pos hs]
      exact ⟨st, rfl, hst⟩
    · rw [if_neg hs]
      have hne : n ≠ e := fun e1 => hs (e1 ▸ hst)
      have hd : dpt n + 1 < k + 1 := by
        rcases h with h1 | h1
        · exact absurd h1.1 hne
        · exact h1
      apply foldlM_total_inv (fun acc p => mark_bound_stale k cd acc p) (fun acc => acc e = true)
      · intro b a ha hb
        apply ih b a hb
        rcases hr n a ha with h1 | h1
        · exact Or.inl ⟨h1, by omega⟩
        · exact Or.inr (by omega)
      · simp only [setAt]
        split
        · rfl
        · exact hst

/-- C29, the claim refuted at a concrete input: node 2 is the child of the root
1 in `oneChildGraph`; `add_child(2, 0)` on node 2 completes, and afterwards node
2 is in its own down-list and in its own up-set. -/
theorem add_child_self_not_rejected :
    (oneChildGraph.cdata 1).down = [⟨2, 0⟩] ∧ (oneChildGraph.cdata 2).up = [1] ∧
    ∃ g2, add_child 2 oneChildGraph 2 2 0 = .ok g2 ∧
      (g2.cdata 2).down = [⟨2, 0⟩] ∧ 2 ∈ (g2.cdata 2).up ∧ 1 ∈ (g2.cdata 2).up ∧
      (g2.cdata 1).down = [⟨2, 0⟩] := by
  have h := ok_of_completes (add_child 2 oneChildGraph 2 2 0) emptyGraph (by decide)
  exact ⟨by decide, by decide, _, h, by decide, by decide, by decide, by decide⟩

/-- C29 as amended: in a graph whose up-edges are acyclic, `N.add_child(N, s)`
is not rejected: a completed call has inserted the connection to `N` at sort `s`
in the down-list of `N` and `N`, once, in the up-set of `N` next to the parents
it had, and has left the edges of every other node alone; the call completes
when no path component names `N`. -/
theorem add_child_self_inserts (g : Graph) (N : Ptr) (s : Int) (dpt : Ptr → Nat)
    (hacyc : ∀ n p, p ∈ (g.cdata n).up → dpt p < dpt n) :
    (∀ fuel g2, add_child fuel g N N s = .ok g2 →
      (g2.cdata N).down = downInsert (g.cdata N).down ⟨N, s⟩ ∧
      (∀ p, p ∈ (g2.cdata N).up ↔ p ∈ (g.cdata N).up ∨ p = N) ∧
      (g2.cdata N).up.count N = 1 ∧
      (∀ n, n ≠ N → (g2.cdata n).down = (g.cdata n).down ∧
        (g2.cdata n).up = (g.cdata n).up)) ∧
    ((g.cdata N).chains = [] → ∀ fuel, dpt N < fuel →
      ∃ g2, add_child fuel g N N s = .ok g2) := by
  have hnot : N ∉ (g.cdata N).up := fun hm => Nat.lt_irrefl _ (hacyc N N hm)
  constructor
  · intro fuel g2 h
    obtain ⟨ds0, hds, hall⟩ := add_child_edges fuel g N N s g2 h
    have hds0 : ds0 = (g.cdata N).down := by
      rcases hds with ⟨_, e⟩ | ⟨hm, _⟩
      · exact e
      · exact absurd hm hnot
    subst hds0
    have hupN : (g2.cdata N).up = setInsert (g.cdata N).up N := by
      rw [(hall N).2, if_pos rfl, setErase_of_not_mem _ _ hnot]
    refine ⟨?_, ?_, ?_, ?_⟩
    · rw [(hall N).1, if_pos rfl]
    · intro p
      rw [hupN]
      exact mem_setInsert _ _ _
    · rw [hupN]
      unfold setInsert
      rw [if_neg hnot, List.count_append, List.count_eq_zero_of_not_mem hnot]
      simp
    · intro n hn
      rw [(hall n).1, (hall n).2, if_neg hn, if_neg hn]
      exact ⟨rfl, rfl⟩
  · intro hch fuel hf
    unfold add_child
    rw [remove_child_false fuel g N N hnot]
    simp only [setUp_chains, setDown_chains, hch, anchorLoop]
    obtain ⟨k, hk⟩ : ∃ k, fuel = k + 1 := ⟨fuel - 1, by omega⟩
    subst hk
    have hfix : ∀ (cd : Ptr → CData) (m : Comp → PathComponent), (cd N).chains = [] →
        fix_chain_lengths (k + 1) cd m N = .ok m := by
      intro cd m hc
      unfold fix_chain_lengths
      simp [hc, fix_chains]
    rw [hfix _ _ (by simp only [setUp_chains, setDown_chains]; exact hch)]
    simp only
    unfold forceStale force_bound_stale propagate_stale_bound
    simp only
    have hup : ∀ n p, p ∈ ((setUp (setDown g N (downInsert (g.cdata N).down ⟨N, s⟩)) N
        (setInsert ((setDown g N (downInsert (g.cdata N).down ⟨N, s⟩)).cdata N).up
          N)).cdata n).up → p = N ∨ dpt p < dpt n := by
      intro n p hp
      simp only [setUp_up, setDown_up] at hp
      split at hp
      · rename_i hn
        subst hn
        rcases (mem_setInsert _ _ _).mp hp with e | e
        · exact Or.inr (hacyc _ p e)
        · exact Or.inl e
      · exact Or.inr (hacyc n p hp)
    obtain ⟨st1, hst1, _⟩ := foldlM_total_inv
      (fun acc p => mark_bound_stale (k + 1)
        (setUp (setDown g N (downInsert (g.cdata N).down ⟨N, s⟩)) N
          (setInsert ((setDown g N (downInsert (g.cdata N).down ⟨N, s⟩)).cdata N).up
            N)).cdata acc p)
      (fun acc => acc N = true)
      ((setUp (setDown g N (downInsert (g.cdata N).down ⟨N, s⟩)) N
          (setInsert ((setDown g N (downInsert (g.cdata N).down ⟨N, s⟩)).cdata N).up
            N)).cdata N).up
      (by
        intro b a ha hb
        apply mark_bound_stale_total_at _ dpt N hup (k + 1) b a hb
        rcases hup N a ha with h1 | h1
        · exact Or.inl ⟨h1, Nat.succ_pos _⟩
        · exact Or.inr (by omega))
      (setAt g.stale N true) (by simp [setAt])
    simp only [setUp_stale, setDown_stale]
    rw [hst1]
    exact ⟨_, rfl⟩

/-- C29 as amended at a concrete input: node 2 is the child of the root 1 in
`oneChildGraph`, where the up-edges are acyclic and no path component names
node 2; `add_child(2, 5)` on node 2 completes, and afterwards node 2 is in its
own down-list at sort 5 and, once, in its own up-set next to its parent 1, while
the down-list of node 1 is as before. -/
theorem add_child_self_inserts_witness :
    (oneChildGraph.cdata 1).down = [⟨2, 0⟩] ∧ 1 ∈ (oneChildGraph.cdata 2).up ∧
    (∀ n p, p ∈ (oneChildGraph.cdata n).up →
      (fun k : Ptr => if k = 2 then 1 else 0) p < (fun k : Ptr => if k = 2 then 1 else 0) n) ∧
    (oneChildGraph.cdata 2).chains = [] ∧
    ∃ g2, add_child 2 oneChildGraph 2 2 5 = .ok g2 ∧ (g2.cdata 2).down = [⟨2, 5⟩] ∧
      2 ∈ (g2.cdata 2).up ∧ 1 ∈ (g2.cdata 2).up ∧ (g2.cdata 2).up.count 2 = 1 ∧
      (g2.cdata 1).down = [⟨2, 0⟩] := by
  have hacyc := (oneChildGraph_ranked (fun k => if k = 1 then 1 else 0)
    (fun k => if k = 2 then 1 else 0) (by decide) (by decide)).up_lt
  have hch : (oneChildGraph.cdata 2).chains = [] := by decide
  have hd1 : (oneChildGraph.cdata 1).down = [⟨2, 0⟩] := by decide
  have hu2 : 1 ∈ (oneChildGraph.cdata 2).up := by decide
  have hthm := add_child_self_inserts oneChildGraph 2 5 (fun k => if k = 2 then 1 else 0) hacyc
  obtain ⟨g2, h⟩ := hthm.2 hch 2 (by decide)
  obtain ⟨h1, h2, h3, h4⟩ := hthm.1 2 g2 h
  refine ⟨hd1, hu2, hacyc, hch, g2, h, ?_, (h2 2).mpr (Or.inr rfl), (h2 1).mpr (Or.inl hu2),
    h3, ?_⟩
  · rw [h1]
    decide
  · rw [(h4 1 (by decide)).1]
    exact hd1

/-! ## The record of a geom node -/

theorem writeGeoms_eq (manager : BamWriter) (es : List GeomEntry) :
    ∀ dg, writeGeoms manager es dg = dg ++ geomFields manager es := by
  induction es with
  | nil => intro dg; simp [writeGeoms, geomFields]
  | cons e t ih =>
    intro dg
    simp only [writeGeoms, ih, geomFields, List.flatMap_cons, BamWriter.write_pointer,
      List.append_assoc, List.cons_append, List.nil_append]

theorem length_geomFields (manager : BamWriter) (es : List GeomEntry) :
    (geomFields manager es).length = 2 * es.length := by
  induction es with
  | nil => rfl
  | cons e t ih =>
    have h : geomFields manager (e :: t) =
        Field.pointer (manager.token e.geom) :: Field.pointer (manager.token e.state) ::
          geomFields manager t := rfl
    rw [h]
    simp only [List.length_cons, ih]
    omega

theorem length_geomTokens (manager : BamWriter) (es : List GeomEntry) :
    (geomTokens manager es).length = 2 * es.length := by
  induction es with
  | nil => rfl
  | cons e t ih =>
    have h : geomTokens manager (e :: t) =
        manager.token e.geom :: manager.token e.state :: geomTokens manager t := rfl
    rw [h]
    simp only [List.length_cons, ih]
    omega

theorem fillinGeoms_eq (w : BamWriter) (es : List GeomEntry) :
    ∀ (cd : GeomCData) (manager : BamReader) (rest : Datagram),
      fillinGeoms es.length cd manager (geomFields w es ++ rest) =
        .ok ({ geoms := cd.geoms ++ List.replicate es.length ⟨NULL, NULL⟩ },
          { requested := manager.requested ++ geomTokens w es }, rest) := by
  induction es with
  | nil =>
    intro cd manager rest
    simp [fillinGeoms, geomFields, geomTokens]
  | cons e t ih =>
    intro cd manager rest
    have h : geomFields w (e :: t) ++ rest =
        Field.pointer (w.token e.geom) :: Field.pointer (w.token e.state) ::
          (geomFields w t ++ rest) := rfl
    have ht : geomTokens w (e :: t) = w.token e.geom :: w.token e.state :: geomTokens w t :=
      rfl
    rw [h, ht]
    simp only [List.length_cons, fillinGeoms, BamReader.read_pointer]
    rw [ih]
    simp [List.replicate_succ]

theorem completeGeoms_spec (es : List GeomEntry) (p_list : List Ptr) :
    ∀ i, (completeGeoms es p_list i).2 = i + 2 * es.length ∧
      (completeGeoms es p_list i).1.length = es.length ∧
      ∀ j, j < es.length →
        (completeGeoms es p_list i).1[j]? =
          some (⟨p_list.getD (i + 2 * j) NULL, p_list.getD (i + 2 * j + 1) NULL⟩ :
            GeomEntry) := by
  induction es with
  | nil =>
    intro i
    simp [completeGeoms]
  | cons e t ih =>
    intro i
    obtain ⟨h1, h2, h3⟩ := ih (i + 2)
    simp only [completeGeoms, List.length_cons]
    refine ⟨by rw [h1]; omega, by rw [h2], ?_⟩
    intro j hj
    cases j with
    | zero => simp
    | succ k =>
      simp only [List.getElem?_cons_succ]
      rw [h3 k (by omega)]
      have e1 : i + 2 + 2 * k = i + 2 * (k + 1) := by omega
      rw [e1]

theorem completeGeoms_restore (es : List GeomEntry) :
    ∀ (slots : List GeomEntry) (pre post : List Ptr), slots.length = es.length →
      (completeGeoms slots (pre ++ es.flatMap (fun e => [e.geom, e.state]) ++ post)
        pre.length).1 = es := by
  induction es with
  | nil =>
    intro slots pre post h
    have : slots = [] := List.length_eq_zero.mp h
    subst this
    rfl
  | cons e t ih =>
    intro slots pre post h
    cases slots with
    | nil => simp at h
    | cons x xs =>
      simp only [List.length_cons, Nat.add_right_cancel_iff] at h
      have hl : pre ++ (e :: t).flatMap (fun e => [e.geom, e.state]) ++ post =
          (pre ++ [e.geom, e.state]) ++ t.flatMap (fun e => [e.geom, e.state]) ++ post := by
        simp [List.flatMap_cons]
      have hlen : pre.length + 2 = (pre ++ [e.geom, e.state]).length := by simp
      simp only [completeGeoms]
      rw [hlen, hl, ih xs (pre ++ [e.geom, e.state]) post h]
      congr 1
      have g0 : (pre ++ [e.geom, e.state] ++ t.flatMap (fun e => [e.geom, e.state]) ++
          post).getD pre.length NULL = e.geom := by
        have := getD_mid pre (e.state :: (t.flatMap (fun e => [e.geom, e.state]) ++ post))
          e.geom NULL
        simpa [List.append_assoc] using this
      have g1 : (pre ++ [e.geom, e.state] ++ t.flatMap (fun e => [e.geom, e.state]) ++
          post).getD (pre.length + 1) NULL = e.state := by
        have := getD_mid (pre ++ [e.geom]) (t.flatMap (fun e => [e.geom, e.state]) ++ post)
          e.state NULL
        simpa [List.append_assoc] using this
      rw [g0, g1]

/-- C39: for a geom list of `n ≤ 65535` entries, `write_datagram` emits the
16-bit count `n` followed by `2n` pointers, the geom then the state of every
entry in list order; `fillin` on that record reads it to its end, leaves `n`
entries of null pointers and requests exactly these `2n` pointers;
`complete_pointers` returns its start count plus `2n`, gives entry `i` the geom
`p_list[base + 2i]` and the state `p_list[base + 2i + 1]`, and on the requested
pointers resolved in request order it yields the original list of entries. -/
theorem geom_record_round_trip (cd cd0 : GeomCData) (manager : BamWriter)
    (resolve : Nat → Ptr) (pre : List Ptr) (m : BamReader)
    (hn : cd.geoms.length ≤ 65535) (hres : ∀ p, resolve (manager.token p) = p)
    (h0 : cd0.geoms = []) :
    ∃ dg cd1 rd,
      GeomCData.write_datagram cd manager [] = .ok dg ∧
      dg = Field.uint16 cd.geoms.length :: geomFields manager cd.geoms ∧
      (geomFields manager cd.geoms).length = 2 * cd.geoms.length ∧
      GeomCData.fillin cd0 dg m = .ok (cd1, rd, []) ∧
      cd1.geoms = List.replicate cd.geoms.length ⟨NULL, NULL⟩ ∧
      rd.requested = m.requested ++ geomTokens manager cd.geoms ∧
      (geomTokens manager cd.geoms).length = 2 * cd.geoms.length ∧
      (∀ p_list base,
        (GeomCData.complete_pointers cd1 p_list base).2 = base + 2 * cd.geoms.length ∧
        (GeomCData.complete_pointers cd1 p_list base).1.geoms.length = cd.geoms.length ∧
        ∀ i, i < cd.geoms.length →
          (GeomCData.complete_pointers cd1 p_list base).1.geoms[i]? =
            some (⟨p_list.getD (base + 2 * i) NULL, p_list.getD (base + 2 * i + 1) NULL⟩ :
              GeomEntry)) ∧
      (GeomCData.complete_pointers cd1
        (pre ++ (geomTokens manager cd.geoms).map resolve) pre.length).1.geoms = cd.geoms := by
  have hmod : cd.geoms.length = cd.geoms.length % 65536 := by omega
  have hw : GeomCData.write_datagram cd manager [] =
      .ok (Field.uint16 cd.geoms.length :: geomFields manager cd.geoms) := by
    unfold GeomCData.write_datagram
    simp only
    rw [if_pos hmod, writeGeoms_eq]
    unfold add_uint16
    rw [← hmod]
    rfl
  have hf : GeomCData.fillin cd0 (Field.uint16 cd.geoms.length :: geomFields manager cd.geoms) m =
      .ok ({ geoms := List.replicate cd.geoms.length ⟨NULL, NULL⟩ },
        { requested := m.requested ++ geomTokens manager cd.geoms }, []) := by
    unfold GeomCData.fillin get_uint16
    simp only
    have := fillinGeoms_eq manager cd.geoms cd0 m []
    rw [List.append_nil, h0, List.nil_append] at this
    exact this
  have hlen : (List.replicate cd.geoms.length (⟨NULL, NULL⟩ : GeomEntry)).length =
      cd.geoms.length := List.length_replicate _ _
  refine ⟨_, _, _, hw, rfl, length_geomFields manager cd.geoms, hf, rfl, rfl,
    length_geomTokens manager cd.geoms, ?_, ?_⟩
  · intro p_list base
    obtain ⟨c1, c2, c3⟩ := completeGeoms_spec
      (List.replicate cd.geoms.length (⟨NULL, NULL⟩ : GeomEntry)) p_list base
    rw [hlen] at c1 c2 c3
    exact ⟨c1, c2, c3⟩
  · have htok : (geomTokens manager cd.geoms).map resolve =
        cd.geoms.flatMap (fun e => [e.geom, e.state]) := by
      unfold geomTokens
      induction cd.geoms with
      | nil => rfl
      | cons e t ih =>
        simp only [List.flatMap_cons, List.map_append, List.map_cons, List.map_nil, ih,
          hres]
    have := completeGeoms_restore cd.geoms
      (List.replicate cd.geoms.length (⟨NULL, NULL⟩ : GeomEntry)) pre [] hlen
    rw [List.append_nil] at this
    unfold GeomCData.complete_pointers
    simp only
    rw [htok]
    exact this

/-- C39 at a concrete input: the entries (11, 21) and (12, 22), written with
tokens that are the pointers themselves. -/
theorem geom_record_round_trip_witness :
    sampleGeoms.geoms.length ≤ 65535 ∧ (∀ p, (fun t : Nat => t) (registerAll.token p) = p) ∧
    ∃ cd1 rd,
      GeomCData.write_datagram sampleGeoms registerAll [] =
        .ok [Field.uint16 2, Field.pointer 11, Field.pointer 21, Field.pointer 12,
          Field.pointer 22] ∧
      GeomCData.fillin ⟨[]⟩ [Field.uint16 2, Field.pointer 11, Field.pointer 21,
        Field.pointer 12, Field.pointer 22] ⟨[]⟩ = .ok (cd1, rd, []) ∧
      rd.requested = [11, 21, 12, 22] ∧
      (GeomCData.complete_pointers cd1 [5, 11, 21, 12, 22] 1).2 = 5 ∧
      (GeomCData.complete_pointers cd1 [5, 11, 21, 12, 22] 1).1.geoms =
        [⟨11, 21⟩, ⟨12, 22⟩] := by
  have hres : ∀ p, (fun t : Nat => t) (registerAll.token p) = p := fun p => rfl
  obtain ⟨dg, cd1, rd, h1, h2, _, h4, _, h6, _, h8, h9⟩ :=
    geom_record_round_trip sampleGeoms ⟨[]⟩ registerAll (fun t => t) [5] ⟨[]⟩ (by decide)
      hres rfl
  have hdg : dg = [Field.uint16 2, Field.pointer 11, Field.pointer 21, Field.pointer 12,
      Field.pointer 22] := by
    rw [h2]
    rfl
  subst hdg
  exact ⟨by decide, hres, cd1, rd, h1, h4, by rw [h6]; rfl, (h8 _ 1).1, h9⟩

/-! ## Termination of `fix_chain_lengths` -/

theorem foldlM_mono {α β : Type} (f f1 : β → α → Except Fault β) (l : List α)
    (hstep : ∀ b a b1, a ∈ l → f b a = .ok b1 → f1 b a = .ok b1) :
    ∀ b r, l.foldlM f b = .ok r → l.foldlM f1 b = .ok r := by
  induction l with
  | nil => intro b r h; exact h
  | cons a t ih =>
    intro b r h
    simp only [List.foldlM_cons, bind, Except.bind] at h ⊢
    cases hfa : f b a with
    | error e => rw [hfa] at h; simp at h
    | ok b1 =>
      rw [hfa] at h
      rw [hstep b a b1 (List.mem_cons_self _ _) hfa]
      exact ih (fun b2 a2 b3 ha2 => hstep b2 a2 b3 (List.mem_cons_of_mem _ ha2)) b1 r h

theorem fix_chain_lengths_mono (cd : Ptr → CData) :
    ∀ fuel m n m1, fix_chain_lengths fuel cd m n = .ok m1 →
      fix_chain_lengths (fuel + 1) cd m n = .ok m1 := by
  intro fuel
  induction fuel with
  | zero =>
    intro m n m1 h
    simp [fix_chain_lengths] at h
  | succ k ih =>
    intro m n m1 h
    unfold fix_chain_lengths at h ⊢
    simp only at h ⊢
    split
    · next hb =>
      rw [if_pos hb] at h
      exact foldlM_mono _ _ _ (fun b a b1 _ hf => ih b a.child b1 hf) _ _ h
    · next hb =>
      rw [if_neg hb] at h
      exact h

theorem fix_chain_lengths_mono_le (cd : Ptr → CData) (fuel : Nat) (m : Comp → PathComponent)
    (n : Ptr) (m1 : Comp → PathComponent) (h : fix_chain_lengths fuel cd m n = .ok m1) :
    ∀ k, fix_chain_lengths (fuel + k) cd m n = .ok m1 := by
  intro k
  induction k with
  | zero => exact h
  | succ j ih => exact fix_chain_lengths_mono cd (fuel + j) m n m1 ih

theorem fix_length_touches (m : Comp → PathComponent) (c0 c : Comp)
    (h : (fix_length m c0).1 c ≠ m c) : c = c0 := by
  unfold fix_length at h
  split at h
  · exact absurd rfl h
  · by_contra hne
    exact h (setAt_other _ _ _ _ hne)

theorem fix_chains_touches (l : List Comp) :
    ∀ m c, (fix_chains m l).1 c ≠ m c → c ∈ l := by
  induction l with
  | nil =>
    intro m c h
    exact absurd rfl h
  | cons c0 t ih =>
    intro m c h
    simp only [fix_chains] at h
    by_cases h1 : (fix_chains (fix_length m c0).1 t).1 c = (fix_length m c0).1 c
    · rw [h1] at h
      rw [fix_length_touches m c0 c h]
      exact List.mem_cons_self _ _
    · exact List.mem_cons_of_mem _ (ih _ c h1)

theorem fix_chain_lengths_touches (cd : Ptr → CData) :
    ∀ fuel m n m1, fix_chain_lengths fuel cd m n = .ok m1 →
      ∀ c, m1 c ≠ m c → ∃ x, DownReach cd n x ∧ c ∈ (cd x).chains := by
  intro fuel
  induction fuel with
  | zero =>
    intro m n m1 h
    simp [fix_chain_lengths] at h
  | succ k ih =>
    intro m n m1 h c hc
    unfold fix_chain_lengths at h
    simp only at h
    have hbase : ∀ c, (fix_chains m (cd n).chains).1 c ≠ m c →
        ∃ x, DownReach cd n x ∧ c ∈ (cd x).chains :=
      fun c hne => ⟨n, DownReach.refl n, fix_chains_touches _ m c hne⟩
    split at h
    · have hinv := foldlM_invariant (fun acc d => fix_chain_lengths k cd acc d.child)
        (fun acc => ∀ c, acc c ≠ m c → ∃ x, DownReach cd n x ∧ c ∈ (cd x).chains)
        (cd n).down
        (by
          intro b a b1 ha hb hf c hne
          by_cases hbc : b1 c = b c
          · exact hb c (by rw [← hbc]; exact hne)
          · obtain ⟨x, hx, hmem⟩ := ih b a.child b1 hf c hbc
            exact ⟨x, DownReach.step n a x ha hx, hmem⟩)
        _ m1 hbase h
      exact hinv c hc
    · simp only [Except.ok.injEq] at h
      subst h
      exact hbase c hc

/-- C33: in a graph whose down-edges are acyclic (a child is strictly lower
than its parent for the height `hgt`), whatever the component table `m` with its
cached depths is, `fix_chain_lengths(N)` runs to completion with one result for
every fuel beyond the height of `N`; the result differs from `m` only in cached
depths, and only at components of the chain sets of `N` and of the nodes reached
from `N` along down-edges. -/
theorem fix_chain_lengths_terminates (cd : Ptr → CData) (hgt : Ptr → Nat)
    (hacyc : ∀ n d, d ∈ (cd n).down → hgt d.child < hgt n) (N : Ptr)
    (m : Comp → PathComponent) :
    ∃ m1, (∀ fuel, hgt N < fuel → fix_chain_lengths fuel cd m N = .ok m1) ∧
      SameButLength m m1 ∧
      ∀ c, m1 c ≠ m c → ∃ x, DownReach cd N x ∧ c ∈ (cd x).chains := by
  obtain ⟨m1, h1⟩ := fix_chain_lengths_total cd hgt hacyc (hgt N + 1) m N (Nat.lt_succ_self _)
  refine ⟨m1, ?_, fix_chain_lengths_frame cd _ m N m1 h1,
    fix_chain_lengths_touches cd _ m N m1 h1⟩
  intro fuel hf
  have := fix_chain_lengths_mono_le cd (hgt N + 1) m N m1 h1 (fuel - (hgt N + 1))
  have e : hgt N + 1 + (fuel - (hgt N + 1)) = fuel := by omega
  rw [e] at this
  exact this

/-- C33 at a concrete input: `fix_chain_lengths` on node 1 of `twoParentsGraph`
with every cached depth set to 9, for the height that puts the nodes 1 and 2
above node 3; the fuels 2 and 7 give the same result. -/
theorem fix_chain_lengths_terminates_witness :
    (∀ n d, d ∈ (twoParentsGraph.cdata n).down →
      (fun k : Ptr => if k = 3 then 0 else 1) d.child <
        (fun k : Ptr => if k = 3 then 0 else 1) n) ∧
    ∃ m1, fix_chain_lengths 2 twoParentsGraph.cdata
        (fun c => ⟨(twoParentsGraph.comps c).node, (twoParentsGraph.comps c).next, 9, none⟩)
        1 = .ok m1 ∧
      fix_chain_lengths 7 twoParentsGraph.cdata
        (fun c => ⟨(twoParentsGraph.comps c).node, (twoParentsGraph.comps c).next, 9, none⟩)
        1 = .ok m1 := by
  have hr := (twoParentsGraph_ranked (fun n => if n = 3 then 0 else 1)
    (fun n => if n = 3 then 1 else 0) (by decide) (by decide) (by decide) (by decide)).down_lt
  obtain ⟨m1, h1, _, _⟩ := fix_chain_lengths_terminates twoParentsGraph.cdata
    (fun k : Ptr => if k = 3 then 0 else 1) hr 1
    (fun c => ⟨(twoParentsGraph.comps c).node, (twoParentsGraph.comps c).next, 9, none⟩)
  exact ⟨hr, m1, h1 2 (by decide), h1 7 (by decide)⟩

/-! ## The round trip of `add_child` and `remove_child` on the edges -/

theorem eraseChild_downInsert (ds : List DownConnection) (c : Ptr) (s : Int)
    (h : ∀ d, d ∈ ds → d.child ≠ c) : eraseChild (downInsert ds ⟨c, s⟩) c = some ds := by
  induction ds with
  | nil => simp [downInsert, eraseChild]
  | cons d t ih =>
    have hd : d.child ≠ c := h d (List.mem_cons_self _ _)
    have ht := ih (fun x hx => h x (List.mem_cons_of_mem _ hx))
    unfold downInsert
    split
    · simp [eraseChild]
    · simp only [eraseChild, if_neg hd, ht]

/-- C38: when `C` is not a child of `P` (no connection to `C` in the down-list
of `P`, no `P` in the up-set of `C`), `P.add_child(C, s)` followed by
`P.remove_child(C)` returns true and leaves every down-list and every up-set,
those of `P` and `C` included, exactly as it was before; both calls complete on
a graph that stays acyclic with the new edge. -/
theorem add_remove_restores_edges (g : Graph) (P C : Ptr) (s : Int)
    (hnd : ∀ d, d ∈ (g.cdata P).down → d.child ≠ C) (hnp : P ∉ (g.cdata C).up) :
    (∀ fuel g1, add_child fuel g P C s = .ok g1 →
      ∀ fuel2 b g2, remove_child fuel2 g1 P C = .ok (b, g2) →
        b = true ∧ (g2.cdata P).down = (g.cdata P).down ∧
        (g2.cdata C).up = (g.cdata C).up ∧ SameEdges g g2) ∧
    (∀ hgt dpt, Ranked g hgt dpt → hgt C < hgt P → dpt P < dpt C → ChainsWF g →
      ∀ fuel, hgt C < fuel → dpt P < fuel →
        ∃ g1 g2, add_child fuel g P C s = .ok g1 ∧
          remove_child fuel g1 P C = .ok (true, g2)) := by
  have hpair : EdgePair g P C := by
    unfold EdgePair
    rw [if_neg hnp]
    exact (edgeCount_eq_zero _ _).mpr hnd
  constructor
  · intro fuel g1 h1 fuel2 b g2 h2
    obtain ⟨ds0, hds0, hall1⟩ := add_child_edges fuel g P C s g1 h1
    have e0 : ds0 = (g.cdata P).down := by
      rcases hds0 with ⟨_, e⟩ | ⟨hm, _⟩
      · exact e
      · exact absurd hm hnp
    subst e0
    have hup1 : (g1.cdata C).up = (g.cdata C).up ++ [P] := by
      rw [(hall1 C).2, if_pos rfl, setErase_of_not_mem _ _ hnp, setInsert_of_not_mem _ _ hnp]
    have hmem1 : P ∈ (g1.cdata C).up := by
      rw [hup1]
      simp
    rcases remove_child_ok fuel2 g1 P C b g2 h2 with ⟨_, hm, _⟩ | ⟨hb, _, ds, hds, hall2⟩
    · exact absurd hmem1 hm
    · have hds2 : ds = (g.cdata P).down := by
        rw [(hall1 P).1, if_pos rfl, eraseChild_downInsert _ _ _ hnd] at hds
        exact (Option.some.inj hds).symm
      have hupC : setErase (g1.cdata C).up P = (g.cdata C).up := by
        rw [hup1]
        unfold setErase
        rw [List.filter_append]
        have h1f : (g.cdata C).up.filter (fun y => decide (y ≠ P)) = (g.cdata C).up := by
          rw [List.filter_eq_self]
          intro a ha
          have : a ≠ P := fun e => hnp (e ▸ ha)
          simpa using this
        rw [h1f]
        simp
      have hall : ∀ n, (g2.cdata n).down = (g.cdata n).down ∧
          (g2.cdata n).up = (g.cdata n).up := by
        intro n
        constructor
        · rw [(hall2 n).1]
          split
          · next e => rw [e, hds2]
          · next e => rw [(hall1 n).1, if_neg e]
        · rw [(hall2 n).2]
          split
          · next e => rw [e, hupC]
          · next e => rw [(hall1 n).2, if_neg e]
      exact ⟨hb, (hall P).1, (hall C).2, hall⟩
  · intro hgt dpt hr hh hd hwf fuel hf1 hf2
    obtain ⟨g1, hg1, _⟩ := add_child_total fuel g P C s hgt dpt hr hh hd hwf
      (fun hm => absurd hm hnp) hf1 hf2
    obtain ⟨hc1, hu1⟩ := add_child_counts fuel g P C s g1 hg1 hpair
    have hr1 := add_child_ranked fuel g P C s g1 hg1 hgt dpt hr hh hd
    have hm1 : P ∈ (g1.cdata C).up := by
      by_contra hc
      have := List.count_eq_zero_of_not_mem hc
      omega
    obtain ⟨g2, hg2⟩ := remove_child_total fuel g1 P C hgt dpt hr1 hm1 (by omega) hf1
      (Nat.le_of_lt hf2)
    exact ⟨g1, g2, hg1, hg2⟩

/-- C38 at a concrete input: node 3 is added below node 1 of `oneChildGraph`,
which has the child 2, and removed again. -/
theorem add_remove_restores_edges_witness :
    (∀ d, d ∈ (oneChildGraph.cdata 1).down → d.child ≠ 3) ∧ 1 ∉ (oneChildGraph.cdata 3).up ∧
    ∃ g1 g2, add_child 2 oneChildGraph 1 3 4 = .ok g1 ∧
      remove_child 2 g1 1 3 = .ok (true, g2) ∧ (g2.cdata 1).down = [⟨2, 0⟩] ∧
      (g2.cdata 3).up = [] ∧ SameEdges oneChildGraph g2 := by
  have hnd : ∀ d, d ∈ (oneChildGraph.cdata 1).down → d.child ≠ 3 := by
    intro d hd
    rw [oneChildGraph_down, if_pos rfl] at hd
    have : d = ⟨2, 0⟩ := by simpa using hd
    subst this
    decide
  have hnp : 1 ∉ (oneChildGraph.cdata 3).up := by
    rw [oneChildGraph_up]
    simp
  have hthm := add_remove_restores_edges oneChildGraph 1 3 4 hnd hnp
  obtain ⟨g1, g2, h1, h2⟩ := hthm.2 (fun n => if n = 1 then 1 else 0)
    (fun n => if n = 1 then 0 else 1)
    (oneChildGraph_ranked _ _ (by decide) (by decide)) (by decide) (by decide)
    oneChildGraph_chainsWF 2 (by decide) (by decide)
  obtain ⟨_, h4, h5, h6⟩ := hthm.1 2 g1 h1 2 true g2 h2
  refine ⟨hnd, hnp, g1, g2, h1, h2, ?_, ?_, h6⟩
  · rw [h4, oneChildGraph_down, if_pos rfl]
  · rw [h5, oneChildGraph_up]
    simp

/-! ## The two forms of `remove_child` -/

theorem foldlM_congr {α β : Type} (f f1 : β → α → Except Fault β) (l : List α)
    (hstep : ∀ b a, a ∈ l → f b a = f1 b a) : ∀ b, l.foldlM f b = l.foldlM f1 b := by
  induction l with
  | nil => intro b; rfl
  | cons a t ih =>
    intro b
    simp only [List.foldlM_cons, bind, Except.bind]
    rw [hstep b a (List.mem_cons_self _ _)]
    cases f1 b a with
    | error e => rfl
    | ok b1 => exact ih (fun b2 a2 ha2 => hstep b2 a2 (List.mem_cons_of_mem _ ha2)) b1

/-- The run of `fix_chain_lengths` from a node lower than `bound` reads only the
snapshots of nodes lower than `bound`. -/
theorem fix_chain_lengths_congr (cd cd1 : Ptr → CData) (hgt : Ptr → Nat) (bound : Nat)
    (hacyc : ∀ n d, d ∈ (cd n).down → hgt d.child < hgt n)
    (hsame : ∀ x, hgt x < bound → cd1 x = cd x) :
    ∀ fuel m n, hgt n < bound →
      fix_chain_lengths fuel cd1 m n = fix_chain_lengths fuel cd m n := by
  intro fuel
  induction fuel with
  | zero => intro m n _; rfl
  | succ k ih =>
    intro m n hn
    unfold fix_chain_lengths
    simp only [hsame n hn]
    split
    · apply foldlM_congr
      intro b a ha
      exact ih b a.child (Nat.lt_trans (hacyc n a ha) hn)
    · rfl

theorem eraseChild_eq_eraseIdx (ds : List DownConnection) (c : Ptr) (dflt : DownConnection) :
    ∀ i, i < ds.length → (ds.getD i dflt).child = c → edgeCount ds c = 1 →
      eraseChild ds c = some (ds.eraseIdx i) := by
  induction ds with
  | nil => intro i hi; simp at hi
  | cons d t ih =>
    intro i hi hc hone
    by_cases hd : d.child = c
    · have ht : edgeCount t c = 0 := by
        unfold edgeCount at hone ⊢
        rw [List.countP_cons_of_pos _ _ (by simpa using hd)] at hone
        omega
      cases i with
      | zero => simp [eraseChild, hd]
      | succ j =>
        exfalso
        have hj : j < t.length := by simpa using hi
        have hmem : (t.getD j dflt) ∈ t := by
          rw [List.getD_eq_getElem _ _ hj]
          exact List.getElem_mem _
        have hcj : (t.getD j dflt).child = c := by simpa using hc
        exact (edgeCount_eq_zero t c).mp ht _ hmem hcj
    · have ht : edgeCount t c = 1 := by
        unfold edgeCount at hone ⊢
        rw [List.countP_cons_of_neg _ _ (by simpa using hd)] at hone
        exact hone
      cases i with
      | zero =>
        exfalso
        exact hd (by simpa using hc)
      | succ j =>
        have hj : j < t.length := by simpa using hi
        have hcj : (t.getD j dflt).child = c := by simpa using hc
        simp only [eraseChild, if_neg hd, ih j hj hcj ht, List.eraseIdx_cons_succ]

theorem setUp_setDown_comm (g : Graph) (P C : Ptr) (ds : List DownConnection)
    (us : List Ptr) :
    setUp (setDown g P ds) C us = setDown (setUp g C us) P ds := by
  unfold setUp setDown
  simp only [Graph.mk.injEq, and_true]
  funext x
  unfold setAt
  by_cases hc : x = C
  · by_cases hp : x = P
    · have hPC : P = C := hp.symm.trans hc
      subst hp
      subst hPC
      simp
    · have hCP : ¬ C = P := fun e => hp (hc.trans e)
      simp [hc, hCP]
  · by_cases hp : x = P
    · have hPC : ¬ P = C := fun e => hc (hp.trans e)
      simp [hp, hPC]
    · simp [hc, hp]

theorem severAndFix_setDown (fuel : Nat) (g : Graph) (P C : Ptr) (ds : List DownConnection)
    (hgt : Ptr → Nat) (hacyc : ∀ n d, d ∈ (g.cdata n).down → hgt d.child < hgt n)
    (hlt : hgt C < hgt P) :
    severAndFix fuel (setDown g P ds) P C =
      match severAndFix fuel g P C with
      | .ok g1 => .ok (setDown g1 P ds)
      | .error e => .error e := by
  have hne : P ≠ C := fun e => by rw [e] at hlt; exact Nat.lt_irrefl _ hlt
  have hch : ((setDown g P ds).cdata C).chains = (g.cdata C).chains := by
    rw [setDown_chains]
  unfold severAndFix
  simp only [hch]
  have hcomps : (setDown g P ds).comps = g.comps := rfl
  rw [hcomps]
  have hcongr := fix_chain_lengths_congr
    (setChains { g with comps := (sever P g.comps (g.cdata C).chains none
      (g.cdata C).chains).1 } C
      (sever P g.comps (g.cdata C).chains none (g.cdata C).chains).2).cdata
    (setChains { setDown g P ds with comps := (sever P g.comps (g.cdata C).chains none
      (g.cdata C).chains).1 } C
      (sever P g.comps (g.cdata C).chains none (g.cdata C).chains).2).cdata
    hgt (hgt P)
    (by
      intro n d hd
      rw [setChains_down] at hd
      exact hacyc n d hd)
    (by
      intro x hx
      have hxP : x ≠ P := fun e => by rw [e] at hx; exact Nat.lt_irrefl _ hx
      unfold setChains setDown setAt
      by_cases hxc : x = C
      · simp [hxc, Ne.symm hne]
      · simp [hxc, hxP])
    fuel (sever P g.comps (g.cdata C).chains none (g.cdata C).chains).1 C hlt
  simp only [setChains_comps] at hcongr ⊢
  rw [hcongr]
  cases fix_chain_lengths fuel
      (setChains { g with comps := (sever P g.comps (g.cdata C).chains none
        (g.cdata C).chains).1 } C
        (sever P g.comps (g.cdata C).chains none (g.cdata C).chains).2).cdata
      (sever P g.comps (g.cdata C).chains none (g.cdata C).chains).1 C with
  | error e => rfl
  | ok m =>
    simp only [Except.ok.injEq]
    unfold setChains setDown
    simp only [Graph.mk.injEq, and_true]
    funext x
    unfold setAt
    by_cases hxc : x = C
    · have hxP : x ≠ P := fun e => hne (e.symm.trans hxc)
      simp [hxc, hxP, Ne.symm hne]
    · by_cases hxP : x = P
      · simp [hxP, hne]
      · simp [hxc, hxP]

theorem remove_child_at_unfold (fuel : Nat) (g : Graph) (P : Ptr) (n : Nat)
    (hn : n < (g.cdata P).down.length)
    (hup : (g.cdata (get_child g P n)).up.count P = 1) :
    remove_child_at fuel g P (n : Int) =
      match severAndFix fuel (setDown (setUp g (get_child g P n)
          (setErase (g.cdata (get_child g P n)).up P)) P ((g.cdata P).down.eraseIdx n)) P
          (get_child g P n) with
      | .error e => .error e
      | .ok g3 => forceStale fuel g3 P := by
  unfold remove_child_at
  have hcond : 0 ≤ (n : Int) ∧ (n : Int) < ((g.cdata P).down.length : Int) :=
    ⟨Int.natCast_nonneg n, by exact_mod_cast hn⟩
  rw [if_pos hcond]
  simp only [Int.toNat_ofNat]
  have hc : ((g.cdata P).down.getD n ⟨NULL, 0⟩).child = get_child g P n := rfl
  rw [hc]
  have hupd : ((setDown g P ((g.cdata P).down.eraseIdx n)).cdata (get_child g P n)).up =
      (g.cdata (get_child g P n)).up := by
    rw [setDown_up]
  rw [hupd]
  have hnum : numErased (g.cdata (get_child g P n)).up P = 1 := hup
  rw [if_pos hnum, setUp_setDown_comm g P (get_child g P n) _ _]

theorem remove_child_unfold (fuel : Nat) (g : Graph) (P C : Ptr)
    (hup : (g.cdata C).up.count P = 1) :
    remove_child fuel g P C =
      match severAndFix fuel (setUp g C (setErase (g.cdata C).up P)) P C with
      | .error e => .error e
      | .ok g2 =>
        match eraseChild (g2.cdata P).down C with
        | none => .error .assertion
        | some ds =>
          match forceStale fuel (setDown g2 P ds) P with
          | .error e => .error e
          | .ok g3 => .ok (true, g3) := by
  unfold remove_child
  have hnum : ¬ numErased (g.cdata C).up P = 0 := by
    unfold numErased
    omega
  simp only
  rw [if_neg hnum]

/-! ## The path-anchoring invariant -/

theorem pathInv_newComponent (g : Graph) (C : Ptr) (next : Option Comp) (hinv : PathInv g)
    (hnext : ∀ p, next = some p → p < g.fresh ∧ (g.comps p).node ∈ (g.cdata C).up) :
    PathInv (setChains (newComponent g C next).1 C
      (setInsert ((newComponent g C next).1.cdata C).chains (newComponent g C next).2)) := by
  have hfr : (newComponent g C next).1.fresh = g.fresh + 1 := rfl
  have hr2 : (newComponent g C next).2 = g.fresh := rfl
  have hmem : ∀ x c, c ∈ ((setChains (newComponent g C next).1 C
      (setInsert ((newComponent g C next).1.cdata C).chains
        (newComponent g C next).2)).cdata x).chains →
      c ∈ (g.cdata x).chains ∨ (x = C ∧ c = g.fresh) := by
    intro x c hc
    simp only [setChains_chains, newComponent_cdata, hr2] at hc
    split at hc
    · next e =>
      subst e
      rcases (mem_setInsert _ _ _).mp hc with h1 | h1
      · exact Or.inl h1
      · exact Or.inr ⟨rfl, h1⟩
    · exact Or.inl hc
  have hold : ∀ c, c < g.fresh → (newComponent g C next).1.comps c = g.comps c :=
    fun c hc => newComponent_comps_old g C next c (Nat.ne_of_lt hc)
  have key : ∀ x c nx, c ∈ ((setChains (newComponent g C next).1 C
      (setInsert ((newComponent g C next).1.cdata C).chains
        (newComponent g C next).2)).cdata x).chains →
      ((newComponent g C next).1.comps c).next = some nx →
      nx < g.fresh ∧ (g.comps nx).node ∈ (g.cdata x).up := by
    intro x c nx hc hn
    rcases hmem x c hc with h1 | ⟨hx, hcf⟩
    · have hlt := (hinv.wf x c h1).2
      rw [hold c hlt] at hn
      exact ⟨hinv.next_lt x c nx h1 hn, hinv.anchored x c nx h1 hn⟩
    · subst hx
      subst hcf
      rw [(newComponent_comps_new g x next).2.1] at hn
      exact hnext nx hn
  refine ⟨newComponent_chains_wf g C next hinv.wf, ?_, ?_⟩
  · intro x c nx hc hn
    simp only [setChains_comps] at hn
    simp only [setChains_fresh, hfr]
    exact Nat.lt_succ_of_lt (key x c nx hc hn).1
  · intro x c nx hc hn
    simp only [setChains_comps] at hn ⊢
    simp only [setChains_up, newComponent_cdata]
    obtain ⟨h1, h2⟩ := key x c nx hc hn
    rw [hold nx h1]
    exact h2

theorem get_top_component_pathInv (g : Graph) (N : Ptr) (hinv : PathInv g) :
    PathInv (get_top_component g N).1 := by
  unfold get_top_component
  split
  · exact hinv
  · exact pathInv_newComponent g N none hinv (fun p hp => by simp at hp)

theorem get_component_pathInv (g ga : Graph) (p : Comp) (C : Ptr) (r : Option Comp)
    (hinv : PathInv g) (hp : p < g.fresh) (h : get_component g (some p) C = .ok (ga, r)) :
    PathInv ga := by
  unfold get_component at h
  simp only at h
  split at h
  · simp only [Except.ok.injEq, Prod.mk.injEq] at h
    rw [← h.1]
    exact hinv
  · split at h
    · next hfp =>
      simp only [Except.ok.injEq, Prod.mk.injEq] at h
      rw [← h.1]
      apply pathInv_newComponent g C (some p) hinv
      intro q hq
      have e : q = p := (Option.some.inj hq).symm
      subst e
      refine ⟨hp, ?_⟩
      by_contra hc
      exact find_parent_neg g C _ hc hfp
    · simp only [Except.ok.injEq, Prod.mk.injEq] at h
      rw [← h.1]
      exact hinv

theorem pathInv_congr (g g1 : Graph) (hinv : PathInv g)
    (hcd : ∀ x, (g1.cdata x).chains = (g.cdata x).chains ∧ (g1.cdata x).up = (g.cdata x).up)
    (hcomps : g1.comps = g.comps) (hfresh : g1.fresh = g.fresh) : PathInv g1 := by
  refine ⟨?_, ?_, ?_⟩
  · intro n c hc
    rw [(hcd n).1] at hc
    rw [hcomps, hfresh]
    exact hinv.wf n c hc
  · intro C c nx hc hn
    rw [(hcd C).1] at hc
    rw [hcomps] at hn
    rw [hfresh]
    exact hinv.next_lt C c nx hc hn
  · intro C c nx hc hn
    rw [(hcd C).1] at hc
    rw [hcomps] at hn ⊢
    rw [(hcd C).2]
    exact hinv.anchored C c nx hc hn

theorem sever_next_cases (this : Ptr) (l : List Comp) :
    ∀ m chains collapsed c,
      ((sever this m chains collapsed l).1 c).next = (m c).next ∨
      (((sever this m chains collapsed l).1 c).next = none ∧ c ∈ l) := by
  induction l with
  | nil => intro m chains collapsed c; exact Or.inl rfl
  | cons ci rest ih =>
    intro m chains collapsed c
    unfold sever
    split
    · cases collapsed with
      | none =>
        simp only
        rcases ih (set_top_node m ci) chains (some ci) c with h | ⟨h, hm⟩
        · by_cases hc : c = ci
          · subst hc
            right
            refine ⟨?_, List.mem_cons_self _ _⟩
            rw [h]
            simp [set_top_node, setAt]
          · left
            rw [h]
            simp [set_top_node, setAt, hc]
        · exact Or.inr ⟨h, List.mem_cons_of_mem _ hm⟩
      | some k =>
        simp only
        rcases ih (collapse_with m ci k) (setErase chains ci) (some k) c with h | ⟨h, hm⟩
        · left
          rw [h]
          unfold collapse_with setAt
          split
          · next e => rw [e]
          · rfl
        · exact Or.inr ⟨h, List.mem_cons_of_mem _ hm⟩
    · rcases ih m chains collapsed c with h | ⟨h, hm⟩
      · exact Or.inl h
      · exact Or.inr ⟨h, List.mem_cons_of_mem _ hm⟩

theorem sever_length (this : Ptr) (l : List Comp) :
    ∀ m chains collapsed c,
      ((sever this m chains collapsed l).1 c).length = (m c).length := by
  induction l with
  | nil => intro m chains collapsed c; rfl
  | cons ci rest ih =>
    intro m chains collapsed c
    unfold sever
    split
    · cases collapsed with
      | none =>
        simp only
        rw [ih]
        unfold set_top_node setAt
        split
        · next e => rw [e]
        · rfl
      | some k =>
        simp only
        rw [ih]
        unfold collapse_with setAt
        split
        · next e => rw [e]
        · rfl
    · exact ih m chains collapsed c

theorem severed_no_reference (g0 g2 : Graph) (P C : Ptr) (hs : Severed g0 g2 P C)
    (hsub : ∀ c, c ∈ (g2.cdata C).chains → c ∈ (g0.cdata C).chains)
    (hnode : ∀ c, (g2.comps c).node = (g0.comps c).node) :
    ∀ c, c ∈ (g2.cdata C).chains → references g2.comps c P = false := by
  intro c hc
  have hc0 := hsub c hc
  cases href : references g0.comps c P with
  | false =>
    have hn := (hs.2 c hc0 href).2
    unfold references at href ⊢
    rw [hn]
    cases hnx : (g0.comps c).next with
    | none => rfl
    | some nx =>
      rw [hnx] at href
      simp only at href ⊢
      rw [hnode nx]
      exact href
  | true =>
    cases hfind : (g0.cdata C).chains.find? (fun x => references g0.comps x P) with
    | none =>
      have := (List.find?_eq_none.mp hfind) c hc0
      rw [href] at this
      exact absurd rfl this
    | some f =>
      obtain ⟨_, hnone, hrest⟩ := hs.1 f hfind
      by_cases hcf : c = f
      · subst hcf
        unfold references
        rw [hnone]
      · exact absurd hc (hrest c hc0 href hcf).1

theorem severAndFix_pathInv (fuel : Nat) (g g0 g2 : Graph) (P C : Ptr) (hinv : PathInv g)
    (hcomps : g0.comps = g.comps) (hfresh : g0.fresh = g.fresh)
    (hchains : ∀ x, (g0.cdata x).chains = (g.cdata x).chains)
    (hup : ∀ x, (g0.cdata x).up =
      if x = C then setErase (g.cdata C).up P else (g.cdata x).up)
    (h : severAndFix fuel g0 P C = .ok g2) : PathInv g2 := by
  obtain ⟨hse, _, hfr, hnode, hsub⟩ := severAndFix_frame fuel g0 g2 P C h
  obtain ⟨hch, hsbl, _⟩ := severAndFix_chains fuel g0 g2 P C h
  have hsev := severAndFix_severed fuel g0 g2 P C h
  have hwf0 : ChainsWF g0 := by
    intro n c hc
    rw [hchains] at hc
    rw [hcomps, hfresh]
    exact hinv.wf n c hc
  have hnoref := severed_no_reference g0 g2 P C hsev (hsub C) hnode
  have hnext : ∀ x c nx, c ∈ (g2.cdata x).chains → (g2.comps c).next = some nx →
      c ∈ (g.cdata x).chains ∧ (g.comps c).next = some nx := by
    intro x c nx hc hn
    have hc0 := hsub x c hc
    rw [hchains] at hc0
    refine ⟨hc0, ?_⟩
    rw [(hsbl c).2.1] at hn
    rcases sever_next_cases P (g0.cdata C).chains g0.comps (g0.cdata C).chains none c with
      e | ⟨e, _⟩
    · rw [e, hcomps] at hn
      exact hn
    · rw [e] at hn
      simp at hn
  refine ⟨severAndFix_wf fuel g0 g2 P C h hwf0, ?_, ?_⟩
  · intro x c nx hc hn
    obtain ⟨h1, h2⟩ := hnext x c nx hc hn
    rw [hfr, hfresh]
    exact hinv.next_lt x c nx h1 h2
  · intro x c nx hc hn
    obtain ⟨h1, h2⟩ := hnext x c nx hc hn
    have ha := hinv.anchored x c nx h1 h2
    rw [hnode nx, hcomps, (hse x).2, hup x]
    split
    · next e =>
      subst e
      rw [mem_setErase]
      refine ⟨ha, ?_⟩
      have hr := hnoref c hc
      unfold references at hr
      rw [hn] at hr
      simp only [decide_eq_false_iff_not] at hr
      rw [hnode nx, hcomps] at hr
      exact hr
    · exact ha

theorem remove_child_pathInv (fuel : Nat) (g g1 : Graph) (P C : Ptr) (b : Bool)
    (h : remove_child fuel g P C = .ok (b, g1)) (hinv : PathInv g) : PathInv g1 := by
  unfold remove_child at h
  simp only at h
  split at h
  · simp only [Except.ok.injEq, Prod.mk.injEq] at h
    rw [← h.2]
    exact hinv
  · cases hsf : severAndFix fuel (setUp g C (setErase (g.cdata C).up P)) P C with
    | error e => rw [hsf] at h; simp at h
    | ok g2 =>
      rw [hsf] at h
      simp only at h
      have hp2 := severAndFix_pathInv fuel g (setUp g C (setErase (g.cdata C).up P)) g2 P C
        hinv rfl rfl (fun x => by rw [setUp_chains]) (fun x => by rw [setUp_up]) hsf
      cases hec : eraseChild (g2.cdata P).down C with
      | none => rw [hec] at h; simp at h
      | some ds =>
        rw [hec] at h
        simp only at h
        cases hfs : forceStale fuel (setDown g2 P ds) P with
        | error e => rw [hfs] at h; simp at h
        | ok g3 =>
          rw [hfs] at h
          simp only [Except.ok.injEq, Prod.mk.injEq] at h
          rw [← h.2]
          obtain ⟨f1, f2, f3⟩ := forceStale_frame fuel _ g3 P hfs
          apply pathInv_congr g2 g3 hp2
          · intro x
            rw [f1]
            exact ⟨setDown_chains _ _ _ _, setDown_up _ _ _ _⟩
          · rw [f2]
            rfl
          · rw [f3]
            rfl

theorem remove_child_at_pathInv (fuel : Nat) (g g1 : Graph) (P : Ptr) (n : Int)
    (h : remove_child_at fuel g P n = .ok g1) (hinv : PathInv g) : PathInv g1 := by
  unfold remove_child_at at h
  split at h
  · simp only at h
    split at h
    · cases hsf : severAndFix fuel
          (setUp (setDown g P ((g.cdata P).down.eraseIdx n.toNat))
            ((g.cdata P).down.getD n.toNat ⟨NULL, 0⟩).child
            (setErase ((setDown g P ((g.cdata P).down.eraseIdx n.toNat)).cdata
              ((g.cdata P).down.getD n.toNat ⟨NULL, 0⟩).child).up P)) P
          ((g.cdata P).down.getD n.toNat ⟨NULL, 0⟩).child with
      | error e => rw [hsf] at h; simp at h
      | ok g3 =>
        rw [hsf] at h
        simp only at h
        have hp3 := severAndFix_pathInv fuel g
          (setUp (setDown g P ((g.cdata P).down.eraseIdx n.toNat))
            ((g.cdata P).down.getD n.toNat ⟨NULL, 0⟩).child
            (setErase ((setDown g P ((g.cdata P).down.eraseIdx n.toNat)).cdata
              ((g.cdata P).down.getD n.toNat ⟨NULL, 0⟩).child).up P)) g3 P
          ((g.cdata P).down.getD n.toNat ⟨NULL, 0⟩).child hinv rfl rfl
          (fun x => by rw [setUp_chains, setDown_chains])
          (fun x => by rw [setUp_up, setDown_up, setDown_up]) hsf
        obtain ⟨f1, f2, f3⟩ := forceStale_frame fuel _ g1 P h
        exact pathInv_congr g3 g1 hp3 (fun x => by rw [f1]; exact ⟨rfl, rfl⟩) f2 f3
    · simp at h
  · simp at h

/-! ## The edge-pair invariant under `attach` and `detach` -/

theorem edgeInv_erase (g g1 : Graph) (P C : Ptr) (ds : List DownConnection)
    (hm : P ∈ (g.cdata C).up) (hds : eraseChild (g.cdata P).down C = some ds)
    (hall : ∀ n, (g1.cdata n).down = (if n = P then ds else (g.cdata n).down) ∧
      (g1.cdata n).up = (if n = C then setErase (g.cdata C).up P else (g.cdata n).up))
    (hinv : EdgeInv g) : EdgeInv g1 := by
  obtain ⟨hc1, hc2⟩ := eraseChild_some _ _ _ hds
  have hone := edgePair_mem g P C (hinv.1 P C) hm
  constructor
  · intro N X
    unfold EdgePair
    rw [(hall N).1, (hall X).2]
    by_cases hN : N = P
    · subst hN
      rw [if_pos (Eq.refl _)]
      by_cases hX : X = C
      · subst hX
        rw [if_pos (Eq.refl _), if_neg (not_mem_setErase _ _)]
        omega
      · rw [if_neg hX, hc2 X hX]
        exact hinv.1 N X
    · rw [if_neg hN]
      by_cases hX : X = C
      · subst hX
        rw [if_pos (Eq.refl _)]
        have := hinv.1 N X
        unfold EdgePair at this
        rw [this]
        by_cases hm1 : N ∈ (g.cdata X).up
        · rw [if_pos hm1, if_pos ((mem_setErase_other _ _ _ hN).mpr hm1)]
        · rw [if_neg hm1, if_neg (fun hc => hm1 ((mem_setErase_other _ _ _ hN).mp hc))]
      · rw [if_neg hX]
        exact hinv.1 N X
  · intro X
    rw [(hall X).2]
    split
    · exact nodup_setErase _ _ (hinv.2 C)
    · exact hinv.2 X

theorem edgeInv_insert (g g1 : Graph) (P C : Ptr) (s : Int) (hnm : P ∉ (g.cdata C).up)
    (hall : ∀ n, (g1.cdata n).down =
        (if n = P then downInsert (g.cdata P).down ⟨C, s⟩ else (g.cdata n).down) ∧
      (g1.cdata n).up = (if n = C then setInsert (g.cdata C).up P else (g.cdata n).up))
    (hinv : EdgeInv g) : EdgeInv g1 := by
  have hzero : edgeCount (g.cdata P).down C = 0 := by
    have := hinv.1 P C
    unfold EdgePair at this
    rw [if_neg hnm] at this
    exact this
  constructor
  · intro N X
    unfold EdgePair
    rw [(hall N).1, (hall X).2]
    by_cases hN : N = P
    · subst hN
      rw [if_pos (Eq.refl _), edgeCount_downInsert]
      by_cases hX : X = C
      · subst hX
        rw [if_pos (Eq.refl _), if_pos (Eq.refl _),
          if_pos ((mem_setInsert _ _ _).mpr (Or.inr (Eq.refl _))), hzero]
      · rw [if_neg hX]
        have hCX : ¬ C = X := fun e => hX e.symm
        simp only [hCX, if_false, Nat.add_zero]
        exact hinv.1 N X
    · rw [if_neg hN]
      by_cases hX : X = C
      · subst hX
        rw [if_pos (Eq.refl _)]
        have hiff : N ∈ setInsert (g.cdata X).up P ↔ N ∈ (g.cdata X).up := by
          rw [mem_setInsert]
          exact ⟨fun h1 => h1.elim id (fun e => absurd e hN), Or.inl⟩
        have := hinv.1 N X
        unfold EdgePair at this
        rw [this]
        by_cases hm : N ∈ (g.cdata X).up
        · rw [if_pos hm, if_pos (hiff.mpr hm)]
        · rw [if_neg hm, if_neg (fun hc => hm (hiff.mp hc))]
      · rw [if_neg hX]
        exact hinv.1 N X
  · intro X
    rw [(hall X).2]
    split
    · exact nodup_setInsert _ _ (hinv.2 C)
    · exact hinv.2 X

theorem detach_edgeInv (fuel : Nat) (g g1 : Graph) (c : Comp)
    (h : detach fuel g (some c) = .ok g1) (hinv : EdgeInv g) : EdgeInv g1 := by
  obtain ⟨nx, _, hcount, ds, hds, hall, _⟩ := detach_ok fuel g g1 c h
  have hm : (g.comps nx).node ∈ (g.cdata (g.comps c).node).up := by
    by_contra hc
    have := List.count_eq_zero_of_not_mem hc
    omega
  exact edgeInv_erase g g1 _ _ ds hm hds hall hinv

theorem reattach_edgeInv (fuel : Nat) (g1 g2 : Graph) (np c : Comp) (s : Int)
    (h : reattach fuel g1 np c s = .ok g2)
    (hnm : (g1.comps np).node ∉ (g1.cdata (g1.comps c).node).up) (hinv : EdgeInv g1) :
    EdgeInv g2 := by
  obtain ⟨hall, _⟩ := reattach_ok fuel g1 g2 np c s h
  exact edgeInv_insert g1 g2 _ _ s hnm (fun n => ⟨(hall n).1, (hall n).2.1⟩) hinv

theorem detach_paths (fuel : Nat) (g g1 : Graph) (c : Comp)
    (h : detach fuel g (some c) = .ok g1) :
    ∃ nx, (g.comps c).next = some nx ∧ g1.fresh = g.fresh ∧
      (∀ y, (g1.comps y).node = (g.comps y).node) ∧
      (∀ y, (g1.comps y).next = if y = c then none else (g.comps y).next) ∧
      (∀ x, x ≠ (g.comps c).node → (g1.cdata x).chains = (g.cdata x).chains) ∧
      (∀ y, y ∈ (g1.cdata (g.comps c).node).chains →
        y ∈ (g.cdata (g.comps c).node).chains ∧
        (y ≠ c → references (set_top_node g.comps c) y (g.comps nx).node = false)) ∧
      (∀ x, (g1.cdata x).up = if x = (g.comps c).node
        then setErase (g.cdata (g.comps c).node).up (g.comps nx).node
        else (g.cdata x).up) := by
  obtain ⟨nx, hnx, _, ds, _, hall, hch, hoth, hsbl, hfr⟩ := detach_ok fuel g g1 c h
  refine ⟨nx, hnx, hfr, ?_, ?_, hoth, ?_, fun x => (hall x).2⟩
  · intro y
    rw [(hsbl y).1, (detachLoop_next_node _ _ _ _ _ y).2, set_top_node_node]
  · intro y
    rw [(hsbl y).2.1, (detachLoop_next_node _ _ _ _ _ y).1]
    unfold set_top_node setAt
    split
    · rfl
    · rfl
  · intro y hy
    rw [hch, (detachLoop_spec c (g.comps nx).node (g.cdata (g.comps c).node).chains
      (set_top_node g.comps c) (g.cdata (g.comps c).node).chains).1, List.mem_filter] at hy
    refine ⟨hy.1, ?_⟩
    intro hyc
    have h2 := hy.2
    simp only [hy.1, hyc, ne_eq, not_false_eq_true, decide_True, Bool.true_and,
      Bool.not_eq_true', decide_eq_true_eq] at h2
    exact h2

theorem detach_pathInv (fuel : Nat) (g g1 : Graph) (c : Comp)
    (h : detach fuel g (some c) = .ok g1) (hinv : PathInv g) : PathInv g1 := by
  obtain ⟨nx, hnx, hfr, hnode, hnext, hoth, hch, hup⟩ := detach_paths fuel g g1 c h
  have hmem : ∀ x y, y ∈ (g1.cdata x).chains → y ∈ (g.cdata x).chains := by
    intro x y hy
    by_cases hx : x = (g.comps c).node
    · subst hx
      exact (hch y hy).1
    · rw [hoth x hx] at hy
      exact hy
  refine ⟨?_, ?_, ?_⟩
  · intro x y hy
    rw [hnode, hfr]
    exact hinv.wf x y (hmem x y hy)
  · intro x y n hy hn
    rw [hnext] at hn
    split at hn
    · simp at hn
    · rw [hfr]
      exact hinv.next_lt x y n (hmem x y hy) hn
  · intro x y n hy hn
    rw [hnext] at hn
    split at hn
    · simp at hn
    · next hyc =>
      have ha := hinv.anchored x y n (hmem x y hy) hn
      rw [hnode, hup]
      split
      · next hx =>
        subst hx
        rw [mem_setErase]
        refine ⟨ha, ?_⟩
        have hr := (hch y hy).2 hyc
        unfold references at hr
        have hn2 : (set_top_node g.comps c y).next = some n := by
          unfold set_top_node setAt
          rw [if_neg hyc]
          exact hn
        rw [hn2] at hr
        simp only [decide_eq_false_iff_not] at hr
        rw [set_top_node_node] at hr
        exact hr
      · exact ha

theorem reattach_pathInv (fuel : Nat) (g1 g2 : Graph) (np c : Comp) (s : Int)
    (h : reattach fuel g1 np c s = .ok g2) (hinv : PathInv g1) (hnp : np < g1.fresh)
    (hc : c < g1.fresh) : PathInv g2 := by
  obtain ⟨hall, hsbl, hfr⟩ := reattach_ok fuel g1 g2 np c s h
  have hnode : ∀ y, (g2.comps y).node = (g1.comps y).node := by
    intro y
    rw [(hsbl y).1, set_next_node]
  have hnext : ∀ y, (g2.comps y).next = if y = c then some np else (g1.comps y).next := by
    intro y
    rw [(hsbl y).2.1]
    unfold set_next setAt
    split
    · rfl
    · rfl
  have hmem : ∀ x y, y ∈ (g2.cdata x).chains →
      y ∈ (g1.cdata x).chains ∨ (y = c ∧ x = (g1.comps c).node) := by
    intro x y hy
    rw [(hall x).2.2] at hy
    split at hy
    · next hx =>
      rcases (mem_setInsert _ _ _).mp hy with h1 | h1
      · exact Or.inl (hx ▸ h1)
      · exact Or.inr ⟨h1, hx⟩
    · exact Or.inl hy
  refine ⟨?_, ?_, ?_⟩
  · intro x y hy
    rw [hnode, hfr]
    rcases hmem x y hy with h1 | ⟨h1, h2⟩
    · exact hinv.wf x y h1
    · rw [h1, h2]
      exact ⟨rfl, hc⟩
  · intro x y n hy hn
    rw [hnext] at hn
    rw [hfr]
    split at hn
    · rw [← Option.some.inj hn]
      exact hnp
    · next hyc =>
      rcases hmem x y hy with h1 | ⟨h1, _⟩
      · exact hinv.next_lt x y n h1 hn
      · exact absurd h1 hyc
  · intro x y n hy hn
    rw [hnext] at hn
    rw [hnode, (hall x).2.1]
    split at hn
    · next hyc =>
      have hx : x = (g1.comps c).node := by
        rcases hmem x y hy with h1 | ⟨_, h2⟩
        · rw [hyc] at h1
          exact (hinv.wf x c h1).1.symm
        · exact h2
      rw [if_pos hx, ← Option.some.inj hn]
      exact (mem_setInsert _ _ _).mpr (Or.inr rfl)
    · next hyc =>
      rcases hmem x y hy with h1 | ⟨h1, _⟩
      · have ha := hinv.anchored x y n h1 hn
        split
        · next hx =>
          subst hx
          exact (mem_setInsert _ _ _).mpr (Or.inl ha)
        · exact ha
      · exact absurd h1 hyc

theorem edgeInv_of_sameEdges (g g1 : Graph) (hse : SameEdges g g1) (hinv : EdgeInv g) :
    EdgeInv g1 := by
  constructor
  · intro n c
    exact edgePair_of_sameEdges g g1 n c hse (hinv.1 n c)
  · intro c
    rw [(hse c).2]
    exact hinv.2 c

theorem get_component_frame (g ga : Graph) (p : Comp) (C : Ptr) (r : Option Comp)
    (h : get_component g (some p) C = .ok (ga, r)) :
    g.fresh ≤ ga.fresh ∧ ∀ c, c < g.fresh → ga.comps c = g.comps c := by
  unfold get_component at h
  simp only at h
  split at h
  · simp only [Except.ok.injEq, Prod.mk.injEq] at h
    rw [← h.1]
    exact ⟨Nat.le_refl _, fun _ _ => rfl⟩
  · split at h
    · simp only [Except.ok.injEq, Prod.mk.injEq] at h
      rw [← h.1]
      refine ⟨Nat.le_succ _, ?_⟩
      intro c hc
      rw [setChains_comps]
      exact newComponent_comps_old g C (some p) c (Nat.ne_of_lt hc)
    · simp only [Except.ok.injEq, Prod.mk.injEq] at h
      rw [← h.1]
      exact ⟨Nat.le_refl _, fun _ _ => rfl⟩

theorem attach_inv (fuel : Nat) (g g2 : Graph) (p : Comp) (C : Ptr) (s : Int)
    (r : Option Comp) (h : attach fuel g (some p) C s = .ok (g2, r)) (hinv : PathInv g)
    (hedge : EdgeInv g) (hp : p < g.fresh) : PathInv g2 ∧ EdgeInv g2 := by
  obtain ⟨ga, ra, hget, hcase⟩ := attach_ok fuel g g2 p C s r h
  have hpa := get_component_pathInv g ga p C ra hinv hp hget
  have hea := edgeInv_of_sameEdges g ga (get_component_edges g (some p) C _ hget) hedge
  obtain ⟨hfa, hca⟩ := get_component_frame g ga p C ra hget
  have hpfa : p < ga.fresh := Nat.lt_of_lt_of_le hp hfa
  obtain ⟨g1f, r1f, hgetf, hiff, hsome⟩ := get_component_facts g p C hinv.wf
  rw [hget] at hgetf
  simp only [Except.ok.injEq, Prod.mk.injEq] at hgetf
  rcases hcase with ⟨k, hra, _, hrep⟩ | ⟨hra, _, hrep⟩
  · obtain ⟨hk1, hk2, hk3, _⟩ := hsome k (by rw [← hgetf.2]; exact hra)
    rw [← hgetf.1] at hk1 hk2 hk3
    have hkf : k < ga.fresh := (hpa.wf C k hk3).2
    obtain ⟨g1m, hbranch, hre⟩ := reparent_ok fuel ga g2 p k s hrep
    rcases hbranch with ⟨htop, _⟩ | ⟨_, hdet⟩
    · rw [is_top_node_iff, hk2] at htop
      simp at htop
    · have hp1 := detach_pathInv fuel ga g1m k hdet hpa
      have he1 := detach_edgeInv fuel ga g1m k hdet hea
      obtain ⟨nx, hnx, hfr, hnode, _, _, _, hup⟩ := detach_paths fuel ga g1m k hdet
      have hnxp : nx = p := by
        rw [hk2] at hnx
        exact (Option.some.inj hnx).symm
      subst hnxp
      have hnm : (g1m.comps nx).node ∉ (g1m.cdata (g1m.comps k).node).up := by
        rw [hnode nx, hnode k, hup, if_pos rfl]
        exact not_mem_setErase _ _
      exact ⟨reattach_pathInv fuel g1m g2 nx k s hre hp1 (by rw [hfr]; exact hpfa)
        (by rw [hfr]; exact hkf), reattach_edgeInv fuel g1m g2 nx k s hre hnm he1⟩
  · have hnone := hiff.mp (by rw [← hgetf.2]; exact hra)
    have hga : ga = g := by
      have hfind : (g.cdata C).chains.find?
          (fun ci => decide ((g.comps ci).next = some p)) = none := by
        rw [List.find?_eq_none]
        intro x hx
        simpa using hnone.1 x hx
      rw [get_component_unrelated g p C hfind hnone.2] at hget
      simp only [Except.ok.injEq, Prod.mk.injEq] at hget
      exact hget.1.symm
    subst hga
    have hpb := get_top_component_pathInv ga C hpa
    have hseb := get_top_component_edges ga C
    have heb := edgeInv_of_sameEdges ga _ hseb hea
    have hfacts := get_top_component_facts ga C hpa.wf
    have hfrb := get_top_component_frame ga C
    obtain ⟨g1m, hbranch, hre⟩ := reparent_ok fuel _ g2 p _ s hrep
    rcases hbranch with ⟨_, hg1m⟩ | ⟨hnt, _⟩
    · subst hg1m
      have hnm : ((get_top_component ga C).1.comps p).node ∉
          ((get_top_component ga C).1.cdata
            ((get_top_component ga C).1.comps (get_top_component ga C).2).node).up := by
        rw [hfacts.2.1, (hseb C).2, hfrb.2.1 p hp]
        exact hnone.2
      exact ⟨reattach_pathInv fuel _ g2 p _ s hre hpb (Nat.lt_of_lt_of_le hp hfrb.2.2.1)
        (hpb.wf C _ hfacts.2.2.1).2, reattach_edgeInv fuel _ g2 p _ s hre hnm heb⟩
    · rw [hfacts.1] at hnt
      exact absurd hnt (by decide)

theorem get_top_component_mono (g : Graph) (N : Ptr) (x : Ptr) (c : Comp)
    (h : c ∈ (g.cdata x).chains) : c ∈ ((get_top_component g N).1.cdata x).chains := by
  unfold get_top_component
  split
  · exact h
  · simp only [setChains_chains, newComponent_cdata]
    split
    · next e =>
      subst e
      exact (mem_setInsert _ _ _).mpr (Or.inl h)
    · exact h

theorem get_component_mono (g ga : Graph) (p : Option Comp) (C : Ptr) (r : Option Comp)
    (h : get_component g p C = .ok (ga, r)) (x : Ptr) (c : Comp)
    (hc : c ∈ (g.cdata x).chains) : c ∈ (ga.cdata x).chains := by
  unfold get_component at h
  cases p with
  | none => simp at h
  | some q =>
    simp only at h
    split at h
    · simp only [Except.ok.injEq, Prod.mk.injEq] at h
      rw [← h.1]
      exact hc
    · split at h
      · simp only [Except.ok.injEq, Prod.mk.injEq] at h
        rw [← h.1]
        simp only [setChains_chains, newComponent_cdata]
        split
        · next e =>
          subst e
          exact (mem_setInsert _ _ _).mpr (Or.inl hc)
        · exact hc
      · simp only [Except.ok.injEq, Prod.mk.injEq] at h
        rw [← h.1]
        exact hc

/-- What a completed `get_generic_component` keeps: the invariant of the chain
sets, the old components and chain members, and a result that is in the chain
set of the node. -/
theorem get_generic_component_inv :
    ∀ fuel g N r, PathInv g → get_generic_component fuel g N = .ok r →
      PathInv r.1 ∧ (∃ k, r.2 = some k ∧ k ∈ (r.1.cdata N).chains) ∧
      g.fresh ≤ r.1.fresh ∧ (∀ c, c < g.fresh → r.1.comps c = g.comps c) ∧
      (∀ x c, c ∈ (g.cdata x).chains → c ∈ (r.1.cdata x).chains) := by
  intro fuel
  induction fuel with
  | zero =>
    intro g N r _ h
    simp [get_generic_component] at h
  | succ k ih =>
    intro g N r hinv h
    unfold get_generic_component at h
    split at h
    · simp only [Except.ok.injEq] at h
      rw [← h]
      have hfr := get_top_component_frame g N
      exact ⟨get_top_component_pathInv g N hinv,
        ⟨_, rfl, (get_top_component_facts g N hinv.wf).2.2.1⟩, hfr.2.2.1, hfr.2.1,
        fun x c hc => get_top_component_mono g N x c hc⟩
    · cases hrec : get_generic_component k g (get_parent g N 0) with
      | error e => rw [hrec] at h; simp at h
      | ok r1 =>
        rw [hrec] at h
        simp only at h
        obtain ⟨hp1, ⟨q, hq, hqm⟩, hf1, hc1, hm1⟩ := ih g _ r1 hinv hrec
        rw [hq] at h
        have hqf : q < r1.1.fresh := (hp1.wf _ q hqm).2
        have hr : get_component r1.1 (some q) N = .ok (r.1, r.2) := h
        have hp2 := get_component_pathInv r1.1 r.1 q N r.2 hp1 hqf hr
        obtain ⟨hf2, hc2⟩ := get_component_frame r1.1 r.1 q N r.2 hr
        obtain ⟨gx, rx, hx1, hx2, hx3⟩ := get_component_facts r1.1 q N hp1.wf
        rw [hr] at hx1
        simp only [Except.ok.injEq, Prod.mk.injEq] at hx1
        have hsome : ∃ k2, r.2 = some k2 ∧ k2 ∈ (r.1.cdata N).chains := by
          cases hr2 : r.2 with
          | none =>
            exfalso
            have hnone := hx2.mp (by rw [← hx1.2]; exact hr2)
            have hse := get_generic_component_edges k g _ r1 hrec
            apply hnone.2
            rw [(hp1.wf _ q hqm).1, (hse N).2]
            exact get_parent_mem g N (by assumption)
          | some k2 =>
            refine ⟨k2, rfl, ?_⟩
            have := (hx3 k2 (by rw [← hx1.2]; exact hr2)).2.2.1
            rw [← hx1.1] at this
            exact this
        exact ⟨hp2, hsome, Nat.le_trans hf1 hf2,
          fun c hc => by rw [hc2 c (Nat.lt_of_lt_of_le hc hf1), hc1 c hc],
          fun x c hc => get_component_mono r1.1 r.1 (some q) N r.2 hr x c (hm1 x c hc)⟩

theorem pathInv_up_mono (g g1 : Graph) (hinv : PathInv g)
    (hch : ∀ x, (g1.cdata x).chains = (g.cdata x).chains)
    (hup : ∀ x p, p ∈ (g.cdata x).up → p ∈ (g1.cdata x).up)
    (hcomps : g1.comps = g.comps) (hfresh : g1.fresh = g.fresh) : PathInv g1 := by
  refine ⟨?_, ?_, ?_⟩
  · intro n c hc
    rw [hch] at hc
    rw [hcomps, hfresh]
    exact hinv.wf n c hc
  · intro C c nx hc hn
    rw [hch] at hc
    rw [hcomps] at hn
    rw [hfresh]
    exact hinv.next_lt C c nx hc hn
  · intro C c nx hc hn
    rw [hch] at hc
    rw [hcomps] at hn ⊢
    exact hup C _ (hinv.anchored C c nx hc hn)

theorem pathInv_sameButLength (g : Graph) (m : Comp → PathComponent) (hinv : PathInv g)
    (hs : SameButLength g.comps m) : PathInv { g with comps := m } := by
  refine ⟨?_, ?_, ?_⟩
  · intro n c hc
    have := hinv.wf n c hc
    exact ⟨by rw [← this.1]; exact (hs c).1, this.2⟩
  · intro C c nx hc hn
    have hn2 : (g.comps c).next = some nx := by rw [← (hs c).2.1]; exact hn
    exact hinv.next_lt C c nx hc hn2
  · intro C c nx hc hn
    have hn2 : (g.comps c).next = some nx := by rw [← (hs c).2.1]; exact hn
    have := hinv.anchored C c nx hc hn2
    rw [← (hs nx).1] at this
    exact this

theorem pathInv_set_next (g : Graph) (ci k : Comp) (C P : Ptr) (hinv : PathInv g)
    (hci : ci ∈ (g.cdata C).chains) (hk : k ∈ (g.cdata P).chains)
    (hP : P ∈ (g.cdata C).up) :
    PathInv { g with comps := set_next g.comps ci (some k) } := by
  have hnext : ∀ y, (set_next g.comps ci (some k) y).next =
      if y = ci then some k else (g.comps y).next := by
    intro y
    unfold set_next setAt
    split
    · rfl
    · rfl
  refine ⟨?_, ?_, ?_⟩
  · intro n c hc
    have := hinv.wf n c hc
    exact ⟨by rw [← this.1]; exact set_next_node _ _ _ _, this.2⟩
  · intro x y n hy hn
    have hn2 : (set_next g.comps ci (some k) y).next = some n := hn
    rw [hnext] at hn2
    split at hn2
    · rw [← Option.some.inj hn2]
      exact (hinv.wf P k hk).2
    · exact hinv.next_lt x y n hy hn2
  · intro x y n hy hn
    have hn2 : (set_next g.comps ci (some k) y).next = some n := hn
    rw [hnext] at hn2
    show (set_next g.comps ci (some k) n).node ∈ (g.cdata x).up
    rw [set_next_node]
    split at hn2
    · next hyc =>
      rw [hyc] at hy
      have hx : x = C := by
        rw [← (hinv.wf x ci hy).1, (hinv.wf C ci hci).1]
      rw [← Option.some.inj hn2, (hinv.wf P k hk).1, hx]
      exact hP
    · exact hinv.anchored x y n hy hn2

theorem anchorLoop_pathInv (fuel : Nat) (this C : Ptr) (l : List Comp) :
    ∀ g g1, PathInv g → this ∈ (g.cdata C).up → (∀ ci, ci ∈ l → ci ∈ (g.cdata C).chains) →
      anchorLoop fuel this g l = .ok g1 → PathInv g1 := by
  induction l with
  | nil =>
    intro g g1 hinv _ _ h
    simp only [anchorLoop, Except.ok.injEq] at h
    exact h ▸ hinv
  | cons ci rest ih =>
    intro g g1 hinv hup hl h
    unfold anchorLoop at h
    split at h
    · cases hgen : get_generic_component fuel g this with
      | error e => rw [hgen] at h; simp at h
      | ok r =>
        rw [hgen] at h
        simp only at h
        obtain ⟨hp1, ⟨k, hk, hkm⟩, _, _, hmono⟩ := get_generic_component_inv fuel g this r hinv hgen
        have hse := get_generic_component_edges fuel g this r hgen
        have hup1 : this ∈ (r.1.cdata C).up := by
          rw [(hse C).2]
          exact hup
        rw [hk] at h
        have hp2 := pathInv_set_next r.1 ci k C this hp1
          (hmono C ci (hl ci (List.mem_cons_self _ _))) hkm hup1
        exact ih _ g1 hp2 hup1
          (fun c hc => hmono C c (hl c (List.mem_cons_of_mem _ hc))) h
    · exact ih g g1 hinv hup (fun c hc => hl c (List.mem_cons_of_mem _ hc)) h

theorem add_child_pathInv (fuel : Nat) (g g2 : Graph) (P C : Ptr) (s : Int)
    (h : add_child fuel g P C s = .ok g2) (hinv : PathInv g) : PathInv g2 := by
  unfold add_child at h
  cases hrem : remove_child fuel g P C with
  | error e => rw [hrem] at h; simp at h
  | ok r =>
    rw [hrem] at h
    simp only at h
    have hp1 := remove_child_pathInv fuel g r.2 P C r.1 hrem hinv
    have hp2 : PathInv (setUp (setDown r.2 P (downInsert (r.2.cdata P).down ⟨C, s⟩)) C
        (setInsert ((setDown r.2 P (downInsert (r.2.cdata P).down ⟨C, s⟩)).cdata C).up P)) := by
      apply pathInv_up_mono r.2 _ hp1
      · intro x
        rw [setUp_chains, setDown_chains]
      · intro x q hq
        rw [setUp_up]
        split
        · next e =>
          subst e
          rw [setDown_up]
          exact (mem_setInsert _ _ _).mpr (Or.inl hq)
        · rw [setDown_up]
          exact hq
      · rfl
      · rfl
    cases hanc : anchorLoop fuel P
        (setUp (setDown r.2 P (downInsert (r.2.cdata P).down ⟨C, s⟩)) C
          (setInsert ((setDown r.2 P (downInsert (r.2.cdata P).down ⟨C, s⟩)).cdata C).up P))
        ((setUp (setDown r.2 P (downInsert (r.2.cdata P).down ⟨C, s⟩)) C
          (setInsert ((setDown r.2 P (downInsert (r.2.cdata P).down ⟨C, s⟩)).cdata C).up
            P)).cdata C).chains with
    | error e => rw [hanc] at h; simp at h
    | ok g3 =>
      rw [hanc] at h
      simp only at h
      have hp3 := anchorLoop_pathInv fuel P C _ _ g3 hp2
        (by
          rw [setUp_up, if_pos rfl]
          exact (mem_setInsert _ _ _).mpr (Or.inr rfl))
        (fun ci hci => hci) hanc
      cases hfix : fix_chain_lengths fuel g3.cdata g3.comps C with
      | error e => rw [hfix] at h; simp at h
      | ok m =>
        rw [hfix] at h
        simp only at h
        have hp4 := pathInv_sameButLength g3 m hp3 (fix_chain_lengths_frame _ _ _ _ _ hfix)
        obtain ⟨f1, f2, f3⟩ := forceStale_frame fuel _ g2 P h
        exact pathInv_congr _ g2 hp4 (fun x => by rw [f1]; exact ⟨rfl, rfl⟩) f2 f3

theorem pathReach_inv (g : Graph) (h : PathReach g) : PathInv g ∧ EdgeInv g := by
  induction h with
  | init g h0 =>
    refine ⟨⟨?_, ?_, ?_⟩, ?_, ?_⟩
    · intro n c hc
      rw [(h0 n).2.2] at hc
      simp at hc
    · intro C c nx hc
      rw [(h0 C).2.2] at hc
      simp at hc
    · intro C c nx hc
      rw [(h0 C).2.2] at hc
      simp at hc
    · intro n c
      unfold EdgePair edgeCount
      rw [(h0 n).1, (h0 c).2.1]
      simp
    · intro c
      rw [(h0 c).2.1]
      exact List.nodup_nil
  | byAdd g g1 fuel P C s _ h ih =>
    exact ⟨add_child_pathInv fuel g g1 P C s h ih.1, add_child_inv fuel g g1 P C s h ih.2⟩
  | byRemove g g1 fuel P C b _ h ih =>
    exact ⟨remove_child_pathInv fuel g g1 P C b h ih.1,
      remove_child_inv fuel g g1 P C b h ih.2⟩
  | byRemoveAt g g1 fuel P n _ h ih =>
    exact ⟨remove_child_at_pathInv fuel g g1 P n h ih.1,
      remove_child_at_inv fuel g g1 P n h ih.2⟩
  | byAttach g g1 fuel p C s r _ hp h ih =>
    exact attach_inv fuel g g1 p C s r h ih.1 ih.2 hp
  | byDetach g g1 fuel c _ h ih =>
    exact ⟨detach_pathInv fuel g g1 c h ih.1, detach_edgeInv fuel g g1 c h ih.2⟩
  | byGetComponent g g1 p C r _ hp h ih =>
    exact ⟨get_component_pathInv g g1 p C r ih.1 hp h,
      edgeInv_of_sameEdges g g1 (get_component_edges g (some p) C _ h) ih.2⟩
  | byGetTop g N _ ih =>
    exact ⟨get_top_component_pathInv g N ih.1,
      edgeInv_of_sameEdges g _ (get_top_component_edges g N) ih.2⟩

/-- C31: in every state reached from a graph without edges and path components
by completed calls of `add_child`, both `remove_child` forms, `attach`,
`detach`, `get_component` and `get_top_component`, a component `c` of the chain
set of a node `C` names `C`, and when it is not TOP the node named by its next
component is in the up-set of `C`. -/
theorem reachable_anchored (g : Graph) (h : PathReach g) (C : Ptr) (c : Comp)
    (hc : c ∈ (g.cdata C).chains) :
    (g.comps c).node = C ∧
    ∀ nx, (g.comps c).next = some nx → (g.comps nx).node ∈ (g.cdata C).up := by
  have hinv := (pathReach_inv g h).1
  exact ⟨(hinv.wf C c hc).1, fun nx hn => hinv.anchored C c nx hc hn⟩

theorem oneChildGraph_pathReach : PathReach oneChildGraph :=
  PathReach.byAdd emptyGraph oneChildGraph 2 1 2 0
    (PathReach.init emptyGraph (fun _ => ⟨rfl, rfl, rfl⟩)) oneChildGraph_eq

theorem anchoredGraph_pathReach : PathReach anchoredGraph := by
  have h1 := PathReach.byGetTop oneChildGraph 1 oneChildGraph_pathReach
  have hrun := ok_of_completes (get_component (get_top_component oneChildGraph 1).1
    (some (get_top_component oneChildGraph 1).2) 2) (emptyGraph, none) (by decide)
  have heq : (valueOr (get_component (get_top_component oneChildGraph 1).1
      (some (get_top_component oneChildGraph 1).2) 2) (emptyGraph, none)).1 =
      anchoredGraph := by
    unfold anchoredGraph
    rw [hrun]
    rfl
  rw [← heq]
  exact PathReach.byGetComponent _ _ (get_top_component oneChildGraph 1).2 2 _ h1
    (by decide) hrun

/-- C31 at a concrete input: in `anchoredGraph` the component 2 of node 2 has
the component 1 as its next, which names node 1, the parent of node 2. -/
theorem reachable_anchored_witness :
    PathReach anchoredGraph ∧ 2 ∈ (anchoredGraph.cdata 2).chains ∧
    (anchoredGraph.comps 2).next = some 1 ∧ (anchoredGraph.comps 2).node = 2 ∧
    (anchoredGraph.comps 1).node ∈ (anchoredGraph.cdata 2).up := by
  have hm : 2 ∈ (anchoredGraph.cdata 2).chains := by decide
  have hn : (anchoredGraph.comps 2).next = some 1 := by decide
  have hthm := reachable_anchored anchoredGraph anchoredGraph_pathReach 2 2 hm
  exact ⟨anchoredGraph_pathReach, hm, hn, hthm.1, hthm.2 1 hn⟩

/-- C37: in every state reached from a graph without edges by completed calls
of `add_child`, both `remove_child` forms, `attach` and `detach` (and of the two
lookups), a node occurs at most once as the child of a connection of a down-list,
and erasing the first connection to it leaves none. -/
theorem reachable_single_edge (g : Graph) (h : PathReach g) (P C : Ptr) :
    edgeCount (g.cdata P).down C ≤ 1 ∧
    ∀ ds, eraseChild (g.cdata P).down C = some ds → ∀ d, d ∈ ds → d.child ≠ C := by
  have hinv := (pathReach_inv g h).2
  have hle : edgeCount (g.cdata P).down C ≤ 1 := by
    have := hinv.1 P C
    unfold EdgePair at this
    rw [this]
    split
    · exact Nat.le_refl _
    · exact Nat.zero_le _
  refine ⟨hle, ?_⟩
  intro ds hds
  have := (eraseChild_some _ _ _ hds).1
  exact (edgeCount_eq_zero ds C).mp (by omega)

/-- C37 at a concrete input: node 2 occurs once in the down-list of node 1 of
`oneChildGraph`. -/
theorem reachable_single_edge_witness :
    PathReach oneChildGraph ∧ edgeCount (oneChildGraph.cdata 1).down 2 ≤ 1 ∧
    (∀ d, d ∈ ([] : List DownConnection) → d.child ≠ 2) := by
  have hthm := reachable_single_edge oneChildGraph oneChildGraph_pathReach 1 2
  refine ⟨oneChildGraph_pathReach, hthm.1, hthm.2 [] ?_⟩
  rw [oneChildGraph_down, if_pos rfl]
  rfl

/-! ## The depth invariant -/

theorem foldlM_all_inv {α β : Type} (f : β → α → Except Fault β) (P : β → Prop)
    (Q : β → α → Prop) (l : List α)
    (hP : ∀ b a b1, a ∈ l → P b → f b a = .ok b1 → P b1)
    (hstep : ∀ b a b1, a ∈ l → P b → f b a = .ok b1 → Q b1 a)
    (hmono : ∀ b a b1 x, a ∈ l → P b → f b a = .ok b1 → Q b x → Q b1 x) :
    ∀ b r, P b → l.foldlM f b = .ok r → P r ∧ ∀ a, a ∈ l → Q r a := by
  induction l with
  | nil =>
    intro b r hb h
    simp only [List.foldlM_nil, pure, Except.pure, Except.ok.injEq] at h
    subst h
    exact ⟨hb, fun a ha => by simp at ha⟩
  | cons a0 t ih =>
    intro b r hb h
    simp only [List.foldlM_cons, bind, Except.bind] at h
    cases hfa : f b a0 with
    | error e => rw [hfa] at h; simp at h
    | ok b1 =>
      rw [hfa] at h
      have hb1 := hP b a0 b1 (List.mem_cons_self _ _) hb hfa
      have hq1 := hstep b a0 b1 (List.mem_cons_self _ _) hb hfa
      obtain ⟨hr, hall⟩ := ih
        (fun b2 a2 b3 ha2 => hP b2 a2 b3 (List.mem_cons_of_mem _ ha2))
        (fun b2 a2 b3 ha2 => hstep b2 a2 b3 (List.mem_cons_of_mem _ ha2))
        (fun b2 a2 b3 x ha2 => hmono b2 a2 b3 x (List.mem_cons_of_mem _ ha2)) b1 r hb1 h
      refine ⟨hr, ?_⟩
      intro a ha
      rcases List.mem_cons.mp ha with e | hmem
      · subst e
        have hkeep := foldlM_invariant f (fun c => P c ∧ Q c a) t
          (fun c x c1 hx hc hf =>
            ⟨hP c x c1 (List.mem_cons_of_mem _ hx) hc.1 hf,
              hmono c x c1 a (List.mem_cons_of_mem _ hx) hc.1 hf hc.2⟩)
          b1 r ⟨hb1, hq1⟩ h
        exact hkeep.2
      · exact hall a hmem

theorem fixCtx_sameButLength (cd : Ptr → CData) (m m1 : Comp → PathComponent)
    (h : FixCtx cd m) (hs : SameButLength m m1) : FixCtx cd m1 := by
  refine ⟨?_, ?_, h.child⟩
  · intro x c hc
    rw [(hs c).1]
    exact h.node x c hc
  · intro x c nx hc hn
    rw [(hs c).2.1] at hn
    rw [(hs nx).1]
    exact h.anchored x c nx hc hn

theorem fixCtx_not_self (cd : Ptr → CData) (m : Comp → PathComponent)
    (h : FixCtx cd m) (x : Ptr) (hns : ¬ ∃ d, d ∈ (cd x).down ∧ d.child = x) (c k : Comp)
    (hc : c ∈ (cd x).chains) (hn : (m c).next = some k) : k ∉ (cd x).chains := by
  intro hk
  have h1 := h.anchored x c k hc hn
  rw [h.node x k hk] at h1
  exact hns (h.child x x h1)

theorem fix_length_false (m : Comp → PathComponent) (c : Comp)
    (h : (fix_length m c).2 = false) : (fix_length m c).1 = m := by
  unfold fix_length at h ⊢
  split
  · rfl
  · next hne =>
    rw [if_neg hne] at h
    simp at h

theorem fix_chains_false (l : List Comp) :
    ∀ m, (fix_chains m l).2 = false → (fix_chains m l).1 = m := by
  induction l with
  | nil => intro m _; rfl
  | cons c t ih =>
    intro m h
    simp only [fix_chains, Bool.or_eq_false_iff] at h ⊢
    rw [ih _ h.2]
    exact fix_length_false m c h.1

theorem length_should_be_congr (m m1 : Comp → PathComponent) (c : Comp)
    (hnext : (m1 c).next = (m c).next)
    (hlen : ∀ k, (m c).next = some k → (m1 k).length = (m k).length) :
    length_should_be m1 c = length_should_be m c := by
  unfold length_should_be
  rw [hnext]
  cases hn : (m c).next with
  | none => rfl
  | some k =>
    simp only
    rw [hlen k hn]

theorem fix_length_right (m : Comp → PathComponent) (c : Comp)
    (hself : (m c).next ≠ some c) :
    ((fix_length m c).1 c).length = length_should_be (fix_length m c).1 c := by
  by_cases he : (m c).length = length_should_be m c
  · have hfl : fix_length m c = (m, false) := by
      unfold fix_length
      rw [if_pos he]
    rw [hfl]
    exact he
  · have hfl : fix_length m c =
        (setAt m c { m c with length := length_should_be m c }, true) := by
      unfold fix_length
      rw [if_neg he]
    rw [hfl]
    simp only
    rw [length_should_be_congr m (setAt m c { m c with length := length_should_be m c }) c
      (by rw [setAt_same])
      (by
        intro k hk
        have hkc : k ≠ c := fun e => hself (by rw [hk, e])
        rw [setAt_other _ _ _ _ hkc]), setAt_same]

theorem fix_chains_untouched (l : List Comp) (m : Comp → PathComponent) (c : Comp)
    (h : c ∉ l) : (fix_chains m l).1 c = m c := by
  by_contra hne
  exact h (fix_chains_touches l m c hne)

theorem fix_chains_right (l : List Comp) :
    ∀ m, (∀ c, c ∈ l → ∀ k, (m c).next = some k → k ∉ l) →
      ∀ c, c ∈ l → ((fix_chains m l).1 c).length = length_should_be (fix_chains m l).1 c := by
  induction l with
  | nil => intro m _ c hc; simp at hc
  | cons c0 t ih =>
    intro m hl c hc
    have hfr := fix_length_frame m c0
    have hl1 : ∀ c, c ∈ t → ∀ k, ((fix_length m c0).1 c).next = some k → k ∉ t := by
      intro c1 hc1 k hk
      rw [(hfr c1).2.1] at hk
      exact fun hkt => hl c1 (List.mem_cons_of_mem _ hc1) k hk (List.mem_cons_of_mem _ hkt)
    have hdef : (fix_chains m (c0 :: t)).1 = (fix_chains (fix_length m c0).1 t).1 := rfl
    rw [hdef]
    by_cases hct : c ∈ t
    · exact ih _ hl1 c hct
    · have hc0 : c = c0 := by
        rcases List.mem_cons.mp hc with e | e
        · exact e
        · exact absurd e hct
      subst hc0
      have hself : (m c).next ≠ some c := fun e =>
        hl c (List.mem_cons_self _ _) c e (List.mem_cons_self _ _)
      rw [fix_chains_untouched t _ c hct, fix_length_right m c hself]
      symm
      apply length_should_be_congr
      · rw [fix_chains_untouched t _ c hct]
      · intro k hk
        rw [(hfr c).2.1] at hk
        have hkt : k ∉ t := fun hkt =>
          hl c (List.mem_cons_self _ _) k hk (List.mem_cons_of_mem _ hkt)
        rw [fix_chains_untouched t _ k hkt]

theorem fix_length_flag (m : Comp → PathComponent) (c : Comp)
    (h : (fix_length m c).2 = false) : (m c).length = length_should_be m c := by
  unfold fix_length at h
  by_cases e : (m c).length = length_should_be m c
  · exact e
  · rw [if_neg e] at h
    simp at h

theorem fix_chains_flag (l : List Comp) :
    ∀ m, (fix_chains m l).2 = false → ∀ c, c ∈ l → (m c).length = length_should_be m c := by
  induction l with
  | nil => intro m _ c hc; simp at hc
  | cons c0 t ih =>
    intro m h c hc
    have hdef : (fix_chains m (c0 :: t)).2 =
        ((fix_length m c0).2 || (fix_chains (fix_length m c0).1 t).2) := rfl
    rw [hdef, Bool.or_eq_false_iff] at h
    have hm := fix_length_false m c0 h.1
    rw [hm] at h
    rcases List.mem_cons.mp hc with e | e
    · rw [e]
      exact fix_length_flag m c0 h.1
    · exact ih m h.2 c e

/-- The effect of `fix_chain_lengths(n)` when it returns: the chain set of `n`
is right afterwards, and so is every other chain set that was right before. -/
theorem fix_chain_lengths_good (cd : Ptr → CData) :
    ∀ fuel m n m1, FixCtx cd m → fix_chain_lengths fuel cd m n = .ok m1 →
      Good cd m1 n ∧ ∀ x, x ≠ n → Good cd m x → Good cd m1 x := by
  intro fuel
  induction fuel with
  | zero =>
    intro m n m1 _ h
    simp [fix_chain_lengths] at h
  | succ k ih =>
    intro m n m1 hctx h
    unfold fix_chain_lengths at h
    simp only at h
    have hsbl := fix_chains_frame (cd n).chains m
    have hctx1 := fixCtx_sameButLength cd m _ hctx hsbl
    have hother : ∀ x, x ≠ n → (¬ ∃ d, d ∈ (cd n).down ∧ d.child = x) → Good cd m x →
        Good cd (fix_chains m (cd n).chains).1 x := by
      intro x hx hnc hg c hc
      have hcn : c ∉ (cd n).chains := fun hcn => hx ((hctx.node x c hc).symm.trans
        (hctx.node n c hcn))
      rw [fix_chains_untouched _ m c hcn, hg c hc]
      symm
      apply length_should_be_congr
      · rw [fix_chains_untouched _ m c hcn]
      · intro q hq
        by_contra hne
        have hqn : q ∈ (cd n).chains := fix_chains_touches _ m q (fun e => hne (by rw [e]))
        have hup := hctx.anchored x c q hc hq
        rw [hctx.node n q hqn] at hup
        exact hnc (hctx.child x n hup)
    split at h
    · obtain ⟨⟨hc2, hg2, ho2⟩, hall⟩ := foldlM_all_inv
        (fun acc d => fix_chain_lengths k cd acc d.child)
        (fun acc => FixCtx cd acc ∧
          ((¬ ∃ d, d ∈ (cd n).down ∧ d.child = n) → Good cd acc n) ∧
          ∀ x, x ≠ n → (¬ ∃ d, d ∈ (cd n).down ∧ d.child = x) → Good cd m x → Good cd acc x)
        (fun acc d => Good cd acc d.child) (cd n).down
        (by
          intro b a b1 ha hb hf
          obtain ⟨_, i2⟩ := ih b a.child b1 hb.1 hf
          refine ⟨fixCtx_sameButLength cd b b1 hb.1 (fix_chain_lengths_frame cd _ _ _ _ hf),
            ?_, ?_⟩
          · intro hns
            exact i2 n (fun e => hns ⟨a, ha, e.symm⟩) (hb.2.1 hns)
          · intro x hx hnc hg
            exact i2 x (fun e => hnc ⟨a, ha, e.symm⟩) (hb.2.2 x hx hnc hg))
        (by
          intro b a b1 _ hb hf
          exact (ih b a.child b1 hb.1 hf).1)
        (by
          intro b a b1 x _ hb hf hq
          obtain ⟨i1, i2⟩ := ih b a.child b1 hb.1 hf
          by_cases e : x.child = a.child
          · rw [e]
            exact i1
          · exact i2 x.child e hq)
        _ m1 ⟨hctx1, fun hns => fix_chains_right (cd n).chains m
            (fun c hc k hk => fixCtx_not_self cd m hctx n hns c k hc hk), hother⟩ h
      refine ⟨?_, ?_⟩
      · by_cases hns : ∃ d, d ∈ (cd n).down ∧ d.child = n
        · obtain ⟨d, hd, hdx⟩ := hns
          have := hall d hd
          rw [hdx] at this
          exact this
        · exact hg2 hns
      · intro x hx hg
        by_cases hch : ∃ d, d ∈ (cd n).down ∧ d.child = x
        · obtain ⟨d, hd, hdx⟩ := hch
          rw [← hdx]
          exact hall d hd
        · exact ho2 x hx hch hg
    · next hflag =>
      simp only [Except.ok.injEq] at h
      subst h
      have hf : (fix_chains m (cd n).chains).2 = false := by simpa using hflag
      have hm : (fix_chains m (cd n).chains).1 = m := fix_chains_false _ m hf
      rw [hm]
      exact ⟨fun c hc => fix_chains_flag _ m hf c hc, fun x _ hg => hg⟩

/-- A state in which `fix_chain_lengths(n)` returns satisfies the depth
invariant when every chain set other than that of `n` was right before. -/
theorem deep_after_fix (fuel : Nat) (g : Graph) (n : Ptr) (m : Comp → PathComponent)
    (hctx : FixCtx g.cdata g.comps) (hgood : ∀ x, x ≠ n → Good g.cdata g.comps x)
    (h : fix_chain_lengths fuel g.cdata g.comps n = .ok m) :
    ∀ x, Good g.cdata m x := by
  obtain ⟨h1, h2⟩ := fix_chain_lengths_good g.cdata fuel g.comps n m hctx h
  intro x
  by_cases e : x = n
  · rw [e]
    exact h1
  · exact h2 x e (hgood x e)

theorem sameButLength_symm (m m1 : Comp → PathComponent) (h : SameButLength m m1) :
    SameButLength m1 m :=
  fun c => ⟨(h c).1.symm, (h c).2.1.symm, (h c).2.2.symm⟩

theorem fixCtx_of_inv_child (g : Graph) (he : EdgeInv g) :
    ∀ x p, p ∈ (g.cdata x).up → ∃ d, d ∈ (g.cdata p).down ∧ d.child = x := by
  intro x p hpx
  have h := he.1 p x
  unfold EdgePair at h
  rw [if_pos hpx] at h
  unfold edgeCount at h
  have hpos : 0 < (g.cdata p).down.countP (fun d => decide (d.child = x)) := by omega
  obtain ⟨d, hd, hdx⟩ := List.countP_pos_iff.mp hpos
  exact ⟨d, hd, by simpa using hdx⟩

/-- The context of `fix_chain_lengths` in a state satisfying the path and the
edge-pair invariants. -/
theorem fixCtx_of_inv (g : Graph) (hp : PathInv g) (he : EdgeInv g) :
    FixCtx g.cdata g.comps :=
  ⟨fun x c hc => (hp.wf x c hc).1, hp.anchored, fixCtx_of_inv_child g he⟩

theorem deep_congr (g g1 : Graph) (hd : Deep g)
    (hch : ∀ x, (g1.cdata x).chains = (g.cdata x).chains) (hcomps : g1.comps = g.comps) :
    Deep g1 := by
  intro x c hc
  rw [hch] at hc
  rw [hcomps]
  exact hd x c hc

/-- The severing loop followed by `fix_chain_lengths` restores the depth
invariant. -/
theorem severAndFix_deep (fuel : Nat) (g g0 g2 : Graph) (P C : Ptr) (hinv : PathInv g)
    (hdeep : Deep g)
    (hcomps : g0.comps = g.comps) (hfresh : g0.fresh = g.fresh)
    (hchains : ∀ x, (g0.cdata x).chains = (g.cdata x).chains)
    (hup : ∀ x, (g0.cdata x).up =
      if x = C then setErase (g.cdata C).up P else (g.cdata x).up)
    (hchild : ∀ x p, p ∈ (g0.cdata x).up → ∃ d, d ∈ (g0.cdata p).down ∧ d.child = x)
    (h : severAndFix fuel g0 P C = .ok g2) : Deep g2 := by
  have hp2 := severAndFix_pathInv fuel g g0 g2 P C hinv hcomps hfresh hchains hup h
  unfold severAndFix at h
  simp only at h
  split at h
  · simp at h
  · rename_i m hm
    simp only [Except.ok.injEq] at h
    subst h
    have hsbl := fix_chain_lengths_frame _ _ _ _ _ hm
    have hctx : FixCtx (setChains { g0 with comps := (sever P g0.comps (g0.cdata C).chains none
        (g0.cdata C).chains).1 } C (sever P g0.comps (g0.cdata C).chains none
        (g0.cdata C).chains).2).cdata m :=
      ⟨fun x c hc => (hp2.wf x c hc).1, hp2.anchored, by
        intro x p hpx
        simp only [setChains_up, setChains_down] at hpx ⊢
        exact hchild x p hpx⟩
    have hctx0 := fixCtx_sameButLength _ _ _ hctx (sameButLength_symm _ _ hsbl)
    refine deep_after_fix fuel (setChains { g0 with comps := (sever P g0.comps
      (g0.cdata C).chains none (g0.cdata C).chains).1 } C (sever P g0.comps
      (g0.cdata C).chains none (g0.cdata C).chains).2) C m hctx0 ?_ hm
    intro x hx c hc
    simp only [setChains_chains, if_neg hx] at hc
    rw [hchains] at hc
    simp only [setChains_comps]
    have hcC : c ∉ (g0.cdata C).chains := by
      intro hcc
      rw [hchains] at hcc
      exact hx ((hinv.wf x c hc).1.symm.trans (hinv.wf C c hcc).1)
    rw [sever_length, hcomps, hdeep x c hc]
    symm
    apply length_should_be_congr
    · rcases sever_next_cases P (g0.cdata C).chains g0.comps (g0.cdata C).chains none c with
        e | ⟨_, e⟩
      · rw [hcomps] at e
        exact e
      · exact absurd e hcC
    · intro k _
      rw [sever_length]

theorem edgeInv_child (g : Graph) (he : EdgeInv g) (x p : Ptr) (hpx : p ∈ (g.cdata x).up) :
    ∃ d, d ∈ (g.cdata p).down ∧ d.child = x :=
  (fixCtx_of_inv_child g he) x p hpx

theorem remove_child_deep (fuel : Nat) (g g1 : Graph) (P C : Ptr) (b : Bool)
    (h : remove_child fuel g P C = .ok (b, g1)) (hinv : PathInv g) (he : EdgeInv g)
    (hd : Deep g) : Deep g1 := by
  unfold remove_child at h
  simp only at h
  split at h
  · simp only [Except.ok.injEq, Prod.mk.injEq] at h
    rw [← h.2]
    exact hd
  · cases hsf : severAndFix fuel (setUp g C (setErase (g.cdata C).up P)) P C with
    | error e => rw [hsf] at h; simp at h
    | ok g2 =>
      rw [hsf] at h
      simp only at h
      have hd2 := severAndFix_deep fuel g (setUp g C (setErase (g.cdata C).up P)) g2 P C
        hinv hd rfl rfl (fun x => by rw [setUp_chains]) (fun x => by rw [setUp_up])
        (by
          intro x p hpx
          simp only [setUp_down]
          apply edgeInv_child g he x p
          rw [setUp_up] at hpx
          split at hpx
          · next e =>
            rw [e]
            exact ((mem_setErase _ _ _).mp hpx).1
          · exact hpx) hsf
      cases hec : eraseChild (g2.cdata P).down C with
      | none => rw [hec] at h; simp at h
      | some ds =>
        rw [hec] at h
        simp only at h
        cases hfs : forceStale fuel (setDown g2 P ds) P with
        | error e => rw [hfs] at h; simp at h
        | ok g3 =>
          rw [hfs] at h
          simp only [Except.ok.injEq, Prod.mk.injEq] at h
          rw [← h.2]
          obtain ⟨f1, f2, _⟩ := forceStale_frame fuel _ g3 P hfs
          apply deep_congr g2 g3 hd2
          · intro x
            rw [f1]
            exact setDown_chains _ _ _ _
          · rw [f2]
            rfl

theorem remove_child_at_deep (fuel : Nat) (g g1 : Graph) (P : Ptr) (n : Int)
    (h : remove_child_at fuel g P n = .ok g1) (hinv : PathInv g) (he : EdgeInv g)
    (hd : Deep g) : Deep g1 := by
  have he1 := remove_child_at_inv fuel g g1 P n h he
  unfold remove_child_at at h
  split at h
  · simp only at h
    split at h
    · cases hsf : severAndFix fuel
          (setUp (setDown g P ((g.cdata P).down.eraseIdx n.toNat))
            ((g.cdata P).down.getD n.toNat ⟨NULL, 0⟩).child
            (setErase ((setDown g P ((g.cdata P).down.eraseIdx n.toNat)).cdata
              ((g.cdata P).down.getD n.toNat ⟨NULL, 0⟩).child).up P)) P
          ((g.cdata P).down.getD n.toNat ⟨NULL, 0⟩).child with
      | error e => rw [hsf] at h; simp at h
      | ok g3 =>
        rw [hsf] at h
        simp only at h
        obtain ⟨f1, f2, _⟩ := forceStale_frame fuel _ g1 P h
        obtain ⟨hse, _⟩ := severAndFix_frame _ _ _ _ _ hsf
        have hd3 := severAndFix_deep fuel g
          (setUp (setDown g P ((g.cdata P).down.eraseIdx n.toNat))
            ((g.cdata P).down.getD n.toNat ⟨NULL, 0⟩).child
            (setErase ((setDown g P ((g.cdata P).down.eraseIdx n.toNat)).cdata
              ((g.cdata P).down.getD n.toNat ⟨NULL, 0⟩).child).up P)) g3 P
          ((g.cdata P).down.getD n.toNat ⟨NULL, 0⟩).child hinv hd rfl rfl
          (fun x => by rw [setUp_chains, setDown_chains])
          (fun x => by rw [setUp_up, setDown_up, setDown_up])
          (by
            intro x p hpx
            rw [← (hse x).2] at hpx
            rw [← (hse p).1]
            have := edgeInv_child g1 he1 x p (by rw [f1]; exact hpx)
            rw [f1] at this
            exact this) hsf
        exact deep_congr g3 g1 hd3 (fun x => by rw [f1]) f2
    · simp at h
  · simp at h

theorem deep_of_fix (fuel : Nat) (cd : Ptr → CData) (m0 m : Comp → PathComponent) (C : Ptr)
    (hnode : ∀ x c, c ∈ (cd x).chains → (m c).node = x)
    (hanch : ∀ x c nx, c ∈ (cd x).chains → (m c).next = some nx → (m nx).node ∈ (cd x).up)
    (hchild : ∀ x p, p ∈ (cd x).up → ∃ d, d ∈ (cd p).down ∧ d.child = x)
    (hgood : ∀ x, x ≠ C → Good cd m0 x)
    (hfix : fix_chain_lengths fuel cd m0 C = .ok m) : ∀ x, Good cd m x := by
  have hsbl := fix_chain_lengths_frame _ _ _ _ _ hfix
  have hctx0 := fixCtx_sameButLength cd m m0 ⟨hnode, hanch, hchild⟩
    (sameButLength_symm _ _ hsbl)
  obtain ⟨h1, h2⟩ := fix_chain_lengths_good cd fuel m0 C m hctx0 hfix
  intro x
  by_cases e : x = C
  · rw [e]
    exact h1
  · exact h2 x e (hgood x e)

theorem good_transfer (g : Graph) (cd : Ptr → CData) (m0 : Comp → PathComponent) (x : Ptr)
    (hg : Good g.cdata g.comps x)
    (hsub : ∀ c, c ∈ (cd x).chains →
      c ∈ (g.cdata x).chains ∧ (m0 c).next = (g.comps c).next)
    (hlen : ∀ y, (m0 y).length = (g.comps y).length) : Good cd m0 x := by
  intro c hc
  obtain ⟨h1, h2⟩ := hsub c hc
  rw [hlen, hg c h1]
  symm
  exact length_should_be_congr g.comps m0 c h2 (fun k _ => hlen k)

theorem detachLoop_length (child : Comp) (pn : Ptr) (rest : List Comp)
    (m : Comp → PathComponent) (chains : List Comp) (y : Comp) :
    ((detachLoop child pn m chains rest).1 y).length = (m y).length := by
  rw [(detachLoop_spec child pn rest m chains).2 y]
  split <;> rfl

theorem set_top_node_length (m : Comp → PathComponent) (c y : Comp) :
    (set_top_node m c y).length = (m y).length := by
  unfold set_top_node setAt
  split
  · next e => rw [e]
  · rfl

theorem detach_deep (fuel : Nat) (g g1 : Graph) (c : Comp)
    (h : detach fuel g (some c) = .ok g1) (hinv : PathInv g) (he : EdgeInv g)
    (hd : Deep g) : Deep g1 := by
  have hp1 := detach_pathInv fuel g g1 c h hinv
  unfold detach at h
  simp only at h
  split at h
  · simp at h
  · rename_i nx hnx
    split at h
    · rename_i hone
      split at h
      · simp at h
      · rename_i m hm
        split at h
        · simp at h
        · rename_i ds hds
          obtain ⟨hcd, hcm, hfr⟩ := forceStale_frame _ _ _ _ h
          have hall := deep_of_fix fuel _ _ m (g.comps c).node
            (by
              intro x cc hcc
              have := (hp1.wf x cc (by rw [hcd]; simpa using hcc)).1
              rw [hcm] at this
              exact this)
            (by
              intro x cc k hcc hk
              have := hp1.anchored x cc k (by rw [hcd]; simpa using hcc)
                (by rw [hcm]; exact hk)
              rw [hcm, hcd] at this
              simpa using this)
            (by
              intro x p hpx
              simp only [setUp_up, setChains_up, setUp_down, setChains_down] at hpx ⊢
              apply edgeInv_child g he x p
              split at hpx
              · next e =>
                rw [e]
                exact ((mem_setErase _ _ _).mp hpx).1
              · exact hpx)
            (by
              intro x hx
              apply good_transfer g _ _ x (hd x)
              · intro cc hcc
                simp only [setUp_chains, setChains_chains, if_neg hx] at hcc
                refine ⟨hcc, ?_⟩
                simp only [setUp_comps, setChains_comps]
                rw [(detachLoop_next_node _ _ _ _ _ cc).1]
                have hne : cc ≠ c := by
                  intro e
                  rw [e] at hcc
                  exact hx (hinv.wf x c hcc).1.symm
                unfold set_top_node
                rw [setAt_other _ _ _ _ hne]
              · intro y
                simp only [setUp_comps, setChains_comps]
                rw [detachLoop_length, set_top_node_length])
            hm
          intro x cc hcc
          rw [hcm]
          apply hall x cc
          rw [hcd] at hcc
          simpa using hcc
    · simp at h

theorem set_next_length (m : Comp → PathComponent) (c y : Comp) (n : Option Comp) :
    (set_next m c n y).length = (m y).length := by
  unfold set_next setAt
  split
  · next e => rw [e]
  · rfl

theorem reattach_deep (fuel : Nat) (g1 g2 : Graph) (np c : Comp) (s : Int)
    (h : reattach fuel g1 np c s = .ok g2) (hinv : PathInv g1) (he : EdgeInv g1)
    (hd : Deep g1) (hnp : np < g1.fresh) (hc : c < g1.fresh)
    (hnm : (g1.comps np).node ∉ (g1.cdata (g1.comps c).node).up) : Deep g2 := by
  have hp2 := reattach_pathInv fuel g1 g2 np c s h hinv hnp hc
  have he2 := reattach_edgeInv fuel g1 g2 np c s h hnm he
  unfold reattach at h
  simp only [set_next_node] at h
  split at h
  · simp at h
  · rename_i m hm
    obtain ⟨hcd, hcm, hfr⟩ := forceStale_frame _ _ _ _ h
    have hall := deep_of_fix fuel _ _ m (g1.comps c).node
      (by
        intro x cc hcc
        have := (hp2.wf x cc (by rw [hcd]; exact hcc)).1
        rw [hcm] at this
        exact this)
      (by
        intro x cc k hcc hk
        have := hp2.anchored x cc k (by rw [hcd]; exact hcc) (by rw [hcm]; exact hk)
        rw [hcm, hcd] at this
        exact this)
      (by
        intro x p hpx
        have := edgeInv_child g2 he2 x p (by rw [hcd]; exact hpx)
        rw [hcd] at this
        exact this)
      (by
        intro x hx
        apply good_transfer g1 _ _ x (hd x)
        · intro cc hcc
          simp only [setChains_chains, setUp_chains, setDown_chains, if_neg hx] at hcc
          refine ⟨hcc, ?_⟩
          have hne : cc ≠ c := by
            intro e
            rw [e] at hcc
            exact hx (hinv.wf x c hcc).1.symm
          simp only [setChains_comps, setUp_comps, setDown_comps]
          unfold set_next
          rw [setAt_other _ _ _ _ hne]
        · intro y
          simp only [setChains_comps, setUp_comps, setDown_comps]
          rw [set_next_length])
      hm
    intro x cc hcc
    rw [hcm]
    apply hall x cc
    rw [hcd] at hcc
    exact hcc

theorem good_newComponent (g : Graph) (C : Ptr) (next : Option Comp) (hinv : PathInv g)
    (hnext : ∀ p, next = some p → p < g.fresh) (x : Ptr) (hg : Good g.cdata g.comps x) :
    Good (setChains (newComponent g C next).1 C
      (setInsert ((newComponent g C next).1.cdata C).chains (newComponent g C next).2)).cdata
      (setChains (newComponent g C next).1 C
      (setInsert ((newComponent g C next).1.cdata C).chains (newComponent g C next).2)).comps
      x := by
  have hr2 : (newComponent g C next).2 = g.fresh := rfl
  have hold : ∀ c, c < g.fresh → (newComponent g C next).1.comps c = g.comps c :=
    fun c hc => newComponent_comps_old g C next c (Nat.ne_of_lt hc)
  intro c hc
  simp only [setChains_chains, newComponent_cdata, hr2] at hc
  simp only [setChains_comps]
  have hcase : c ∈ (g.cdata x).chains ∨ c = g.fresh := by
    split at hc
    · next e =>
      subst e
      exact (mem_setInsert _ _ _).mp hc
    · exact Or.inl hc
  rcases hcase with h1 | h1
  · have hlt := (hinv.wf x c h1).2
    rw [hold c hlt, hg c h1]
    symm
    apply length_should_be_congr
    · rw [hold c hlt]
    · intro k hk
      rw [hold k (hinv.next_lt x c k h1 hk)]
  · subst h1
    unfold length_should_be
    rw [(newComponent_comps_new g C next).2.1]
    cases next with
    | none => simp [newComponent, setAt_same]
    | some p =>
      simp only
      rw [hold p (hnext p rfl)]
      simp [newComponent, setAt_same]

theorem get_top_component_good (g : Graph) (N : Ptr) (hinv : PathInv g) (x : Ptr)
    (hg : Good g.cdata g.comps x) :
    Good (get_top_component g N).1.cdata (get_top_component g N).1.comps x := by
  unfold get_top_component
  split
  · exact hg
  · exact good_newComponent g N none hinv (fun p hp => by simp at hp) x hg

theorem get_component_good (g ga : Graph) (p : Comp) (C : Ptr) (r : Option Comp)
    (hinv : PathInv g) (hp : p < g.fresh) (h : get_component g (some p) C = .ok (ga, r))
    (x : Ptr) (hg : Good g.cdata g.comps x) : Good ga.cdata ga.comps x := by
  unfold get_component at h
  simp only at h
  split at h
  · simp only [Except.ok.injEq, Prod.mk.injEq] at h
    rw [← h.1]
    exact hg
  · split at h
    · simp only [Except.ok.injEq, Prod.mk.injEq] at h
      rw [← h.1]
      apply good_newComponent g C (some p) hinv _ x hg
      intro q hq
      rw [← Option.some.inj hq]
      exact hp
    · simp only [Except.ok.injEq, Prod.mk.injEq] at h
      rw [← h.1]
      exact hg

theorem get_generic_component_good :
    ∀ fuel g N r, PathInv g → get_generic_component fuel g N = .ok r →
      ∀ x, Good g.cdata g.comps x → Good r.1.cdata r.1.comps x := by
  intro fuel
  induction fuel with
  | zero =>
    intro g N r _ h
    simp [get_generic_component] at h
  | succ k ih =>
    intro g N r hinv h x hg
    unfold get_generic_component at h
    split at h
    · simp only [Except.ok.injEq] at h
      rw [← h]
      exact get_top_component_good g N hinv x hg
    · cases hrec : get_generic_component k g (get_parent g N 0) with
      | error e => rw [hrec] at h; simp at h
      | ok r1 =>
        rw [hrec] at h
        simp only at h
        obtain ⟨hp1, ⟨q, hq, hqm⟩, _, _, _⟩ := get_generic_component_inv k g _ r1 hinv hrec
        rw [hq] at h
        have hqf : q < r1.1.fresh := (hp1.wf _ q hqm).2
        have hr : get_component r1.1 (some q) N = .ok (r.1, r.2) := h
        exact get_component_good r1.1 r.1 q N r.2 hp1 hqf hr x (ih g _ r1 hinv hrec x hg)

theorem anchorLoop_good (fuel : Nat) (this C : Ptr) (l : List Comp) :
    ∀ g g1, PathInv g → this ∈ (g.cdata C).up → (∀ ci, ci ∈ l → ci ∈ (g.cdata C).chains) →
      anchorLoop fuel this g l = .ok g1 →
      ∀ x, x ≠ C → Good g.cdata g.comps x → Good g1.cdata g1.comps x := by
  induction l with
  | nil =>
    intro g g1 _ _ _ h x _ hg
    simp only [anchorLoop, Except.ok.injEq] at h
    exact h ▸ hg
  | cons ci rest ih =>
    intro g g1 hinv hup hl h x hx hg
    unfold anchorLoop at h
    split at h
    · cases hgen : get_generic_component fuel g this with
      | error e => rw [hgen] at h; simp at h
      | ok r =>
        rw [hgen] at h
        simp only at h
        obtain ⟨hp1, ⟨k, hk, hkm⟩, _, _, hmono⟩ := get_generic_component_inv fuel g this r hinv hgen
        have hse := get_generic_component_edges fuel g this r hgen
        have hup1 : this ∈ (r.1.cdata C).up := by
          rw [(hse C).2]
          exact hup
        rw [hk] at h
        have hci := hmono C ci (hl ci (List.mem_cons_self _ _))
        have hp2 := pathInv_set_next r.1 ci k C this hp1 hci hkm hup1
        have hg1 := get_generic_component_good fuel g this r hinv hgen x hg
        have hg2 : Good r.1.cdata (set_next r.1.comps ci (some k)) x := by
          apply good_transfer r.1 _ _ x hg1
          · intro cc hcc
            refine ⟨hcc, ?_⟩
            have hne : cc ≠ ci := by
              intro e
              rw [e] at hcc
              exact hx ((hp1.wf x ci hcc).1.symm.trans (hp1.wf C ci hci).1)
            unfold set_next
            rw [setAt_other _ _ _ _ hne]
          · intro y
            exact set_next_length _ _ _ _
        exact ih _ g1 hp2 hup1
          (fun c hc => hmono C c (hl c (List.mem_cons_of_mem _ hc))) h x hx hg2
    · exact ih g g1 hinv hup (fun c hc => hl c (List.mem_cons_of_mem _ hc)) h x hx hg

theorem add_child_deep (fuel : Nat) (g g2 : Graph) (P C : Ptr) (s : Int)
    (h : add_child fuel g P C s = .ok g2) (hinv : PathInv g) (he : EdgeInv g)
    (hd : Deep g) : Deep g2 := by
  have he2 := add_child_inv fuel g g2 P C s h he
  unfold add_child at h
  cases hrem : remove_child fuel g P C with
  | error e => rw [hrem] at h; simp at h
  | ok r =>
    rw [hrem] at h
    simp only at h
    have hp1 := remove_child_pathInv fuel g r.2 P C r.1 hrem hinv
    have hd1 := remove_child_deep fuel g r.2 P C r.1 hrem hinv he hd
    have hp2 : PathInv (setUp (setDown r.2 P (downInsert (r.2.cdata P).down ⟨C, s⟩)) C
        (setInsert ((setDown r.2 P (downInsert (r.2.cdata P).down ⟨C, s⟩)).cdata C).up P)) := by
      apply pathInv_up_mono r.2 _ hp1
      · intro x
        rw [setUp_chains, setDown_chains]
      · intro x q hq
        rw [setUp_up]
        split
        · next e =>
          subst e
          rw [setDown_up]
          exact (mem_setInsert _ _ _).mpr (Or.inl hq)
        · rw [setDown_up]
          exact hq
      · rfl
      · rfl
    have hd2 : Deep (setUp (setDown r.2 P (downInsert (r.2.cdata P).down ⟨C, s⟩)) C
        (setInsert ((setDown r.2 P (downInsert (r.2.cdata P).down ⟨C, s⟩)).cdata C).up P)) :=
      deep_congr r.2 _ hd1 (fun x => by rw [setUp_chains, setDown_chains]) rfl
    cases hanc : anchorLoop fuel P
        (setUp (setDown r.2 P (downInsert (r.2.cdata P).down ⟨C, s⟩)) C
          (setInsert ((setDown r.2 P (downInsert (r.2.cdata P).down ⟨C, s⟩)).cdata C).up P))
        ((setUp (setDown r.2 P (downInsert (r.2.cdata P).down ⟨C, s⟩)) C
          (setInsert ((setDown r.2 P (downInsert (r.2.cdata P).down ⟨C, s⟩)).cdata C).up
            P)).cdata C).chains with
    | error e => rw [hanc] at h; simp at h
    | ok g3 =>
      rw [hanc] at h
      simp only at h
      have hup : P ∈ ((setUp (setDown r.2 P (downInsert (r.2.cdata P).down ⟨C, s⟩)) C
          (setInsert ((setDown r.2 P (downInsert (r.2.cdata P).down ⟨C, s⟩)).cdata C).up
            P)).cdata C).up := by
        rw [setUp_up, if_pos rfl]
        exact (mem_setInsert _ _ _).mpr (Or.inr rfl)
      have hp3 := anchorLoop_pathInv fuel P C _ _ g3 hp2 hup (fun ci hci => hci) hanc
      have hg3 := anchorLoop_good fuel P C _ _ g3 hp2 hup (fun ci hci => hci) hanc
      cases hfix : fix_chain_lengths fuel g3.cdata g3.comps C with
      | error e => rw [hfix] at h; simp at h
      | ok m =>
        rw [hfix] at h
        simp only at h
        obtain ⟨f1, f2, _⟩ := forceStale_frame fuel _ g2 P h
        have hall := deep_after_fix fuel g3 C m
          ⟨fun x c hc => (hp3.wf x c hc).1, hp3.anchored, by
            intro x p hpx
            have := edgeInv_child g2 he2 x p (by rw [f1]; exact hpx)
            rw [f1] at this
            exact this⟩
          (fun x hx => hg3 x hx (hd2 x)) hfix
        intro x c hc
        rw [f2]
        apply hall x c
        rw [f1] at hc
        exact hc

theorem attach_deep (fuel : Nat) (g g2 : Graph) (p : Comp) (C : Ptr) (s : Int)
    (r : Option Comp) (h : attach fuel g (some p) C s = .ok (g2, r)) (hinv : PathInv g)
    (hedge : EdgeInv g) (hd : Deep g) (hp : p < g.fresh) : Deep g2 := by
  obtain ⟨ga, ra, hget, hcase⟩ := attach_ok fuel g g2 p C s r h
  have hpa := get_component_pathInv g ga p C ra hinv hp hget
  have hea := edgeInv_of_sameEdges g ga (get_component_edges g (some p) C _ hget) hedge
  have hda : Deep ga := fun x => get_component_good g ga p C ra hinv hp hget x (hd x)
  obtain ⟨hfa, hca⟩ := get_component_frame g ga p C ra hget
  have hpfa : p < ga.fresh := Nat.lt_of_lt_of_le hp hfa
  obtain ⟨g1f, r1f, hgetf, hiff, hsome⟩ := get_component_facts g p C hinv.wf
  rw [hget] at hgetf
  simp only [Except.ok.injEq, Prod.mk.injEq] at hgetf
  rcases hcase with ⟨k, hra, _, hrep⟩ | ⟨hra, _, hrep⟩
  · obtain ⟨hk1, hk2, hk3, _⟩ := hsome k (by rw [← hgetf.2]; exact hra)
    rw [← hgetf.1] at hk1 hk2 hk3
    have hkf : k < ga.fresh := (hpa.wf C k hk3).2
    obtain ⟨g1m, hbranch, hre⟩ := reparent_ok fuel ga g2 p k s hrep
    rcases hbranch with ⟨htop, _⟩ | ⟨_, hdet⟩
    · rw [is_top_node_iff, hk2] at htop
      simp at htop
    · have hp1 := detach_pathInv fuel ga g1m k hdet hpa
      have he1 := detach_edgeInv fuel ga g1m k hdet hea
      have hd1 := detach_deep fuel ga g1m k hdet hpa hea hda
      obtain ⟨nx, hnx, hfr, hnode, _, _, _, hup⟩ := detach_paths fuel ga g1m k hdet
      have hnxp : nx = p := by
        rw [hk2] at hnx
        exact (Option.some.inj hnx).symm
      subst hnxp
      have hnm : (g1m.comps nx).node ∉ (g1m.cdata (g1m.comps k).node).up := by
        rw [hnode nx, hnode k, hup, if_pos rfl]
        exact not_mem_setErase _ _
      exact reattach_deep fuel g1m g2 nx k s hre hp1 he1 hd1 (by rw [hfr]; exact hpfa)
        (by rw [hfr]; exact hkf) hnm
  · have hnone := hiff.mp (by rw [← hgetf.2]; exact hra)
    have hga : ga = g := by
      have hfind : (g.cdata C).chains.find?
          (fun ci => decide ((g.comps ci).next = some p)) = none := by
        rw [List.find?_eq_none]
        intro x hx
        simpa using hnone.1 x hx
      rw [get_component_unrelated g p C hfind hnone.2] at hget
      simp only [Except.ok.injEq, Prod.mk.injEq] at hget
      exact hget.1.symm
    subst hga
    have hpb := get_top_component_pathInv ga C hpa
    have hseb := get_top_component_edges ga C
    have heb := edgeInv_of_sameEdges ga _ hseb hea
    have hdb : Deep (get_top_component ga C).1 :=
      fun x => get_top_component_good ga C hpa x (hda x)
    have hfacts := get_top_component_facts ga C hpa.wf
    have hfrb := get_top_component_frame ga C
    obtain ⟨g1m, hbranch, hre⟩ := reparent_ok fuel _ g2 p _ s hrep
    rcases hbranch with ⟨_, hg1m⟩ | ⟨hnt, _⟩
    · subst hg1m
      have hnm : ((get_top_component ga C).1.comps p).node ∉
          ((get_top_component ga C).1.cdata
            ((get_top_component ga C).1.comps (get_top_component ga C).2).node).up := by
        rw [hfacts.2.1, (hseb C).2, hfrb.2.1 p hp]
        exact hnone.2
      exact reattach_deep fuel _ g2 p _ s hre hpb heb hdb
        (Nat.lt_of_lt_of_le hp hfrb.2.2.1) (hpb.wf C _ hfacts.2.2.1).2 hnm
    · rw [hfacts.1] at hnt
      exact absurd hnt (by decide)

/-- Every state reached by completed operations satisfies the depth
invariant. -/
theorem pathReach_deep (g : Graph) (h : PathReach g) : Deep g := by
  induction h with
  | init g h0 =>
    intro n c hc
    rw [(h0 n).2.2] at hc
    simp at hc
  | byAdd g g1 fuel P C s hg h ih =>
    exact add_child_deep fuel g g1 P C s h (pathReach_inv g hg).1 (pathReach_inv g hg).2 ih
  | byRemove g g1 fuel P C b hg h ih =>
    exact remove_child_deep fuel g g1 P C b h (pathReach_inv g hg).1 (pathReach_inv g hg).2 ih
  | byRemoveAt g g1 fuel P n hg h ih =>
    exact remove_child_at_deep fuel g g1 P n h (pathReach_inv g hg).1 (pathReach_inv g hg).2 ih
  | byAttach g g1 fuel p C s r hg hp h ih =>
    exact attach_deep fuel g g1 p C s r h (pathReach_inv g hg).1 (pathReach_inv g hg).2 ih hp
  | byDetach g g1 fuel c hg h ih =>
    exact detach_deep fuel g g1 c h (pathReach_inv g hg).1 (pathReach_inv g hg).2 ih
  | byGetComponent g g1 p C r hg hp h ih =>
    exact fun x => get_component_good g g1 p C r (pathReach_inv g hg).1 hp h x (ih x)
  | byGetTop g N hg ih =>
    exact fun x => get_top_component_good g N (pathReach_inv g hg).1 x (ih x)

theorem twoEdgeGraph_pathReach : PathReach twoEdgeGraph := by
  have hrun := ok_of_completes (add_child 3 anchoredGraph 2 3 0) emptyGraph (by decide)
  have heq : valueOr (add_child 3 anchoredGraph 2 3 0) emptyGraph = twoEdgeGraph := by
    unfold twoEdgeGraph
    rw [hrun]
    rfl
  rw [← heq]
  exact PathReach.byAdd _ _ 3 2 3 0 anchoredGraph_pathReach hrun

theorem chainGraph_pathReach : PathReach chainGraph := by
  have hrun := ok_of_completes (get_component twoEdgeGraph (some 2) 3) (emptyGraph, none)
    (by decide)
  have heq : (valueOr (get_component twoEdgeGraph (some 2) 3) (emptyGraph, none)).1 =
      chainGraph := by
    unfold chainGraph
    rw [hrun]
    rfl
  rw [← heq]
  exact PathReach.byGetComponent _ _ 2 3 _ twoEdgeGraph_pathReach (by decide) hrun

/-- A generic component stays one when the state changes neither at the nodes
below the bound nor in the next of the components of their chain sets. -/
theorem isGeneric_congr_chains (g g1 : Graph) (dpt : Ptr → Nat) (bound : Nat)
    (hr : ∀ n p, p ∈ (g.cdata n).up → dpt p < dpt n)
    (hcd : ∀ x, dpt x < bound → g1.cdata x = g.cdata x)
    (hcm : ∀ x c, dpt x < bound → c ∈ (g.cdata x).chains →
      (g1.comps c).next = (g.comps c).next) (n : Ptr) (r : Comp)
    (h : IsGeneric g n r) : dpt n < bound → IsGeneric g1 n r := by
  induction h with
  | top n r h0 hf =>
    intro hb
    apply IsGeneric.top
    · unfold get_num_parents at h0 ⊢
      rw [hcd n hb]
      exact h0
    · rw [hcd n hb, ← hf]
      apply find?_congr_mem
      intro x hx
      unfold is_top_node
      rw [hcm n x hb hx]
  | step n q r h0 _ hf ih =>
    intro hb
    have hlt := hr n _ (get_parent_mem g n h0)
    have hpar : get_parent g1 n 0 = get_parent g n 0 := by
      unfold get_parent
      rw [hcd n hb]
    apply IsGeneric.step n q r
    · unfold get_num_parents at h0 ⊢
      rw [hcd n hb]
      exact h0
    · rw [hpar]
      exact ih (by omega)
    · rw [hcd n hb, ← hf]
      apply find?_congr_mem
      intro x hx
      rw [hcm n x hb hx]

/-- The loop of `add_child` over the chain set of the child `C`, on a graph
without cycle in which `this` is above `C`: it runs to completion, every TOP
component visited gets a generic component of `this` as its next, and no other
component of `C` changes its next. -/
theorem anchorLoop_anchors (fuel : Nat) (this C : Ptr) (dpt : Ptr → Nat)
    (hf : dpt this < fuel) (hPC : dpt this < dpt C) (l : List Comp) :
    ∀ g, (∀ n p, p ∈ (g.cdata n).up → dpt p < dpt n) → ChainsWF g →
      (∀ ci, ci ∈ l → ci ∈ (g.cdata C).chains) →
      ∃ g1, anchorLoop fuel this g l = .ok g1 ∧
        (∀ x, dpt this < dpt x → g1.cdata x = g.cdata x) ∧
        (∀ c, c ∈ (g.cdata C).chains →
          (c ∈ l → (g.comps c).next = none →
            ∃ k, (g1.comps c).next = some k ∧ IsGeneric g1 this k) ∧
          ((c ∉ l ∨ (g.comps c).next ≠ none) → (g1.comps c).next = (g.comps c).next)) ∧
        (∀ k, IsGeneric g this k → IsGeneric g1 this k) := by
  induction l with
  | nil =>
    intro g _ _ _
    refine ⟨g, rfl, fun _ _ => rfl, ?_, fun _ h => h⟩
    intro c _
    exact ⟨fun hc => by simp at hc, fun _ => rfl⟩
  | cons ci rest ih =>
    intro g hr hwf hl
    have hci := hl ci (List.mem_cons_self _ _)
    unfold anchorLoop
    by_cases htop : is_top_node g.comps ci = true
    · rw [if_pos htop]
      obtain ⟨ga, k, hrun, hwfa, hgen, hse, hcda, hcma, hfra⟩ :=
        get_generic_component_isGeneric dpt fuel g this hr hwf hf
      rw [hrun]
      simp only
      have hra : ∀ n p, p ∈ (ga.cdata n).up → dpt p < dpt n := by
        intro n p hp
        rw [(hse n).2] at hp
        exact hr n p hp
      have hCa : ga.cdata C = g.cdata C := hcda C hPC
      have hcia : ci ∈ (ga.cdata C).chains := by rw [hCa]; exact hci
      have hwf2 : ChainsWF { ga with comps := set_next ga.comps ci (some k) } := by
        intro n c hc
        have := hwfa n c hc
        refine ⟨?_, this.2⟩
        show (set_next ga.comps ci (some k) c).node = n
        rw [set_next_node]
        exact this.1
      have hgen2 : ∀ k0, IsGeneric ga this k0 →
          IsGeneric { ga with comps := set_next ga.comps ci (some k) } this k0 := by
        intro k0 hk0
        apply isGeneric_congr_chains ga { ga with comps := set_next ga.comps ci (some k) } dpt
          (dpt this + 1) hra (fun _ _ => rfl) _ this k0 hk0 (Nat.lt_succ_self _)
        intro x c hx hc
        have hne : c ≠ ci := by
          intro e
          rw [e] at hc
          have h1 := (hwfa x ci hc).1
          have h2 := (hwfa C ci hcia).1
          have : x = C := h1.symm.trans h2
          rw [this] at hx
          omega
        show (set_next ga.comps ci (some k) c).next = (ga.comps c).next
        unfold set_next
        rw [setAt_other _ _ _ _ hne]
      obtain ⟨g1, hg1, hcd1, hc1, hgen1⟩ := ih { ga with comps := set_next ga.comps ci (some k) }
        hra hwf2 (fun c hc => by
          show c ∈ (ga.cdata C).chains
          rw [hCa]
          exact hl c (List.mem_cons_of_mem _ hc))
      refine ⟨g1, hg1, ?_, ?_, ?_⟩
      · intro x hx
        rw [hcd1 x hx]
        exact hcda x hx
      · intro c hc
        have hca : c ∈ (ga.cdata C).chains := by rw [hCa]; exact hc
        have hold : ga.comps c = g.comps c := hcma c (hwf C c hc).2
        obtain ⟨i1, i2⟩ := hc1 c hca
        by_cases hcc : c = ci
        · subst hcc
          have hnx : (set_next ga.comps c (some k) c).next = some k := by
            unfold set_next
            rw [setAt_same]
          constructor
          · intro _ _
            refine ⟨k, ?_, hgen1 k (hgen2 k hgen)⟩
            have := i2 (Or.inr (by
              show (set_next ga.comps c (some k) c).next ≠ none
              rw [hnx]
              simp))
            rw [this]
            exact hnx
          · intro h
            rcases h with h | h
            · exact absurd (List.mem_cons_self _ _) h
            · rw [is_top_node_iff] at htop
              exact absurd htop h
        · have hsame : (set_next ga.comps ci (some k) c).next = (g.comps c).next := by
            unfold set_next
            rw [setAt_other _ _ _ _ hcc, hold]
          constructor
          · intro hmem hn
            have hrest : c ∈ rest := by
              rcases List.mem_cons.mp hmem with e | e
              · exact absurd e hcc
              · exact e
            exact i1 hrest (by
              show (set_next ga.comps ci (some k) c).next = none
              rw [hsame]
              exact hn)
          · intro h
            have := i2 (by
              rcases h with h | h
              · exact Or.inl (fun hm => h (List.mem_cons_of_mem _ hm))
              · right
                show (set_next ga.comps ci (some k) c).next ≠ none
                rw [hsame]
                exact h)
            rw [this]
            exact hsame
      · intro k0 hk0
        have hrun0 := isGeneric_run g dpt hr this k0 hk0 fuel hf
        rw [hrun] at hrun0
        simp only [Except.ok.injEq, Prod.mk.injEq, Option.some.injEq] at hrun0
        obtain ⟨e1, e2⟩ := hrun0
        subst e2
        exact hgen1 k (hgen2 k hgen)
    · rw [if_neg htop]
      obtain ⟨g1, hg1, hcd1, hc1, hgen1⟩ := ih g hr hwf
        (fun c hc => hl c (List.mem_cons_of_mem _ hc))
      refine ⟨g1, hg1, hcd1, ?_, hgen1⟩
      intro c hc
      obtain ⟨i1, i2⟩ := hc1 c hc
      constructor
      · intro hmem hn
        rcases List.mem_cons.mp hmem with e | e
        · subst e
          exact absurd ((is_top_node_iff _ _).mpr hn) htop
        · exact i1 e hn
      · intro h
        apply i2
        rcases h with h | h
        · exact Or.inl (fun hm => h (List.mem_cons_of_mem _ hm))
        · exact Or.inr h

/-- C34: on a graph without cycle whose chain sets are well formed, for a node
`P` and a node `C` that the new edge puts below `P` without closing a cycle,
`add_child(C, s)` on `P` runs to completion as soon as the fuel exceeds the
ranks, and with `g1` the state left by the implicit `remove_child`, just before
the edge is inserted: the chain set of `C` is the one of `g1`; none of its
components is TOP afterwards; every component of it that was TOP in `g1` has as
its next the generic component of `P`, the component that
`get_generic_component` returns on `P` in the final state without changing it;
every component that had a next in `g1` keeps it; and every component of the
original chain set of `C` whose next names a node other than `P` is still in
the chain set with the same next. -/
theorem add_child_anchors (g : Graph) (P C : Ptr) (s : Int) (hgt dpt : Ptr → Nat)
    (hr : Ranked g hgt dpt) (h1 : hgt C < hgt P) (h2 : dpt P < dpt C) (hwf : ChainsWF g)
    (hpair : P ∈ (g.cdata C).up → 0 < edgeCount (g.cdata P).down C)
    (fuel : Nat) (hf1 : hgt C < fuel) (hf2 : dpt P < fuel) :
    ∃ b g1 g2, remove_child fuel g P C = .ok (b, g1) ∧ add_child fuel g P C s = .ok g2 ∧
      (g2.cdata C).chains = (g1.cdata C).chains ∧
      (∀ c, c ∈ (g2.cdata C).chains → is_top_node g2.comps c = false) ∧
      (∀ c, c ∈ (g1.cdata C).chains → is_top_node g1.comps c = true →
        ∃ k, (g2.comps c).next = some k ∧ IsGeneric g2 P k ∧
          ∀ f, dpt P < f → get_generic_component f g2 P = .ok (g2, some k)) ∧
      (∀ c nx, c ∈ (g1.cdata C).chains → (g1.comps c).next = some nx →
        (g2.comps c).next = some nx) ∧
      (∀ c nx, c ∈ (g.cdata C).chains → (g.comps c).next = some nx →
        (g.comps nx).node ≠ P →
        c ∈ (g2.cdata C).chains ∧ (g2.comps c).next = some nx) := by
  have hrem : ∃ b g1, remove_child fuel g P C = .ok (b, g1) := by
    by_cases hm : P ∈ (g.cdata C).up
    · obtain ⟨g1, hg1⟩ := remove_child_total fuel g P C hgt dpt hr hm (hpair hm) hf1
        (Nat.le_of_lt hf2)
      exact ⟨true, g1, hg1⟩
    · exact ⟨false, g, remove_child_false fuel g P C hm⟩
  obtain ⟨b, g1, hg1⟩ := hrem
  obtain ⟨hsd, hsu⟩ := remove_child_subset fuel g P C b g1 hg1
  have hwf1 := remove_child_wf fuel g P C b g1 hg1 hwf
  have hkeep : ∀ c nx, c ∈ (g.cdata C).chains → (g.comps c).next = some nx →
      (g.comps nx).node ≠ P → c ∈ (g1.cdata C).chains ∧ (g1.comps c).next = some nx := by
    intro c nx hc hn hne
    rcases remove_child_ok fuel g P C b g1 hg1 with ⟨_, _, he⟩ | ⟨hb, _, _⟩
    · rw [he]
      exact ⟨hc, hn⟩
    · rw [hb] at hg1
      have hs := remove_child_severed fuel g g1 P C hg1
      have href : references g.comps c P = false := by
        unfold references
        rw [hn]
        simpa using hne
      obtain ⟨i1, i2⟩ := hs.2 c hc href
      exact ⟨i1, by rw [i2]; exact hn⟩
  have key : ∃ g2, add_child fuel g P C s = .ok g2 ∧
      (g2.cdata C).chains = (g1.cdata C).chains ∧
      (∀ c, c ∈ (g1.cdata C).chains → (g1.comps c).next = none →
        ∃ k, (g2.comps c).next = some k ∧ IsGeneric g2 P k ∧
          ∀ f, dpt P < f → get_generic_component f g2 P = .ok (g2, some k)) ∧
      (∀ c nx, c ∈ (g1.cdata C).chains → (g1.comps c).next = some nx →
        (g2.comps c).next = some nx) := by
    unfold add_child
    rw [hg1]
    simp only
    generalize hG : setUp (setDown g1 P (downInsert (g1.cdata P).down ⟨C, s⟩)) C
      (setInsert ((setDown g1 P (downInsert (g1.cdata P).down ⟨C, s⟩)).cdata C).up P) = G
    have hGup : ∀ n, (G.cdata n).up =
        if n = C then setInsert (g1.cdata C).up P else (g1.cdata n).up := by
      intro n
      rw [← hG]
      simp only [setUp_up, setDown_up]
    have hGdown : ∀ n, (G.cdata n).down =
        if n = P then downInsert (g1.cdata P).down ⟨C, s⟩ else (g1.cdata n).down := by
      intro n
      rw [← hG]
      simp only [setUp_down, setDown_down]
    have hGch : ∀ n, (G.cdata n).chains = (g1.cdata n).chains := by
      intro n
      rw [← hG]
      simp only [setUp_chains, setDown_chains]
    have hGcomps : G.comps = g1.comps := by rw [← hG]; rfl
    have hGfresh : G.fresh = g1.fresh := by rw [← hG]; rfl
    have hup : ∀ n p, p ∈ (G.cdata n).up → dpt p < dpt n := by
      intro n p hp
      rw [hGup] at hp
      split at hp
      · rename_i hn
        subst hn
        rcases (mem_setInsert _ _ _).mp hp with e | e
        · exact hr.up_lt _ p (hsu _ p e)
        · subst e; exact h2
      · exact hr.up_lt n p (hsu n p hp)
    have hdown : ∀ n d, d ∈ (G.cdata n).down → hgt d.child < hgt n := by
      intro n d hd
      rw [hGdown] at hd
      split at hd
      · rename_i hn
        subst hn
        rcases (mem_downInsert _ _ _).mp hd with e | e
        · subst e; exact h1
        · exact hr.down_lt _ d (hsd _ d e)
      · exact hr.down_lt n d (hsd n d hd)
    have hwfG : ChainsWF G := by
      intro n x hx
      rw [hGch] at hx
      rw [hGcomps, hGfresh]
      exact hwf1 n x hx
    obtain ⟨g3, hg3, hcd3, hc3, _⟩ := anchorLoop_anchors fuel P C dpt hf2 h2
      (G.cdata C).chains G hup hwfG (fun ci hci => hci)
    rw [hg3]
    simp only
    have hse := anchorLoop_edges _ _ _ _ _ hg3
    have hup3 : ∀ n p, p ∈ (g3.cdata n).up → dpt p < dpt n := by
      intro n p hp
      rw [(hse n).2] at hp
      exact hup n p hp
    obtain ⟨m, hm⟩ := fix_chain_lengths_total g3.cdata hgt
      (by intro n d hd; rw [(hse n).1] at hd; exact hdown n d hd) fuel g3.comps C hf1
    rw [hm]
    simp only
    obtain ⟨g4, hg4⟩ := forceStale_total fuel { g3 with comps := m } P dpt hup3
      (Nat.le_of_lt hf2)
    obtain ⟨hcd, hcm, _⟩ := forceStale_frame _ _ _ _ hg4
    have hsl := fix_chain_lengths_frame _ _ _ _ _ hm
    have hcd4 : g4.cdata = g3.cdata := hcd
    have hnext4 : ∀ c, (g4.comps c).next = (g3.comps c).next := by
      intro c
      rw [hcm]
      exact (hsl c).2.1
    have hup4 : ∀ n p, p ∈ (g4.cdata n).up → dpt p < dpt n := by
      intro n p hp
      rw [hcd4] at hp
      exact hup3 n p hp
    refine ⟨g4, hg4, ?_, ?_, ?_⟩
    · rw [hcd4, hcd3 C h2, hGch]
    · intro c hc hn
      obtain ⟨k, hk, hgen⟩ := (hc3 c (by rw [hGch]; exact hc)).1 (by rw [hGch]; exact hc)
        (by rw [hGcomps]; exact hn)
      have hgen4 : IsGeneric g4 P k :=
        isGeneric_congr_chains g3 g4 dpt (dpt P + 1) hup3 (fun x _ => by rw [hcd4])
          (fun x c _ _ => hnext4 c) P k hgen (Nat.lt_succ_self _)
      exact ⟨k, by rw [hnext4]; exact hk, hgen4,
        fun f hf => isGeneric_run g4 dpt hup4 P k hgen4 f hf⟩
    · intro c nx hc hn
      have := (hc3 c (by rw [hGch]; exact hc)).2 (Or.inr (by rw [hGcomps, hn]; simp))
      rw [hnext4, this, hGcomps]
      exact hn
  obtain ⟨g2, hadd, hch, htopc, hnextc⟩ := key
  refine ⟨b, g1, g2, hg1, hadd, hch, ?_, ?_, hnextc, ?_⟩
  · intro c hc
    rw [hch] at hc
    cases hn : (g1.comps c).next with
    | none =>
      obtain ⟨k, hk, _⟩ := htopc c hc hn
      unfold is_top_node
      rw [hk]
      rfl
    | some nx =>
      unfold is_top_node
      rw [hnextc c nx hc hn]
      rfl
  · intro c hc ht
    exact htopc c hc ((is_top_node_iff _ _).mp ht)
  · intro c nx hc hn hne
    obtain ⟨i1, i2⟩ := hkeep c nx hc hn hne
    exact ⟨by rw [hch]; exact i1, hnextc c nx i1 i2⟩

theorem anchoredGraph_sameEdges : SameEdges oneChildGraph anchoredGraph := by
  have hrun := ok_of_completes (get_component (get_top_component oneChildGraph 1).1
    (some (get_top_component oneChildGraph 1).2) 2) (emptyGraph, none) (by decide)
  have heq : (valueOr (get_component (get_top_component oneChildGraph 1).1
      (some (get_top_component oneChildGraph 1).2) 2) (emptyGraph, none)).1 =
      anchoredGraph := by
    unfold anchoredGraph
    rw [hrun]
    rfl
  rw [← heq]
  exact sameEdges_trans (get_top_component_edges oneChildGraph 1)
    (get_component_edges _ _ 2 _ hrun)

theorem rootedGraph_ranked (hgt dpt : Ptr → Nat) (h1 : hgt 2 < hgt 1) (h2 : dpt 1 < dpt 2) :
    Ranked rootedGraph hgt dpt :=
  ranked_of_sameEdges oneChildGraph rootedGraph hgt dpt
    (sameEdges_trans anchoredGraph_sameEdges (get_top_component_edges anchoredGraph 3))
    (oneChildGraph_ranked hgt dpt h1 h2)

theorem rootedGraph_pathReach : PathReach rootedGraph :=
  PathReach.byGetTop anchoredGraph 3 anchoredGraph_pathReach

/-- C34 at a concrete input: in `rootedGraph` the node 3 has the TOP component
3, and the component 2 of node 2 is the generic component of node 2;
`add_child(3, 0)` on node 2 leaves the component 3 in the chain set of node 3
with the component 2 as its next. -/
theorem add_child_anchors_witness :
    Ranked rootedGraph (fun n => if n = 1 then 2 else if n = 2 then 1 else 0)
      (fun n => if n = 1 then 0 else if n = 2 then 1 else 2) ∧
    ChainsWF rootedGraph ∧ 3 ∈ (rootedGraph.cdata 3).chains ∧
    is_top_node rootedGraph.comps 3 = true ∧
    ∃ g2, add_child 3 rootedGraph 2 3 0 = .ok g2 ∧ (g2.cdata 3).chains = [3] ∧
      (g2.comps 3).next = some 2 ∧ IsGeneric g2 2 2 := by
  have hr := rootedGraph_ranked (fun n => if n = 1 then 2 else if n = 2 then 1 else 0)
    (fun n => if n = 1 then 0 else if n = 2 then 1 else 2) (by decide) (by decide)
  have hwf := (pathReach_inv rootedGraph rootedGraph_pathReach).1.wf
  have hno : 2 ∉ (rootedGraph.cdata 3).up := by decide
  have hmem : 3 ∈ (rootedGraph.cdata 3).chains := by decide
  have htop3 : is_top_node rootedGraph.comps 3 = true := by decide
  obtain ⟨b, g1, g2, hrem, hadd, hch, _, htop, _, _⟩ := add_child_anchors rootedGraph 2 3 0
    (fun n => if n = 1 then 2 else if n = 2 then 1 else 0)
    (fun n => if n = 1 then 0 else if n = 2 then 1 else 2) hr (by decide) (by decide) hwf
    (fun h => absurd h hno) 3 (by decide) (by decide)
  rw [remove_child_false 3 rootedGraph 2 3 hno] at hrem
  simp only [Except.ok.injEq, Prod.mk.injEq] at hrem
  obtain ⟨_, hg1⟩ := hrem
  subst hg1
  obtain ⟨k, hk, hgen, _⟩ := htop 3 hmem htop3
  have hrun := ok_of_completes (add_child 3 rootedGraph 2 3 0) emptyGraph (by decide)
  rw [hrun] at hadd
  simp only [Except.ok.injEq] at hadd
  subst hadd
  have hk2 : ((valueOr (add_child 3 rootedGraph 2 3 0) emptyGraph).comps 3).next = some 2 := by
    decide
  have hkk : k = 2 := by
    rw [hk2] at hk
    exact (Option.some.inj hk).symm
  subst hkk
  exact ⟨hr, hwf, hmem, htop3, _, hrun, by rw [hch]; decide, hk2, hgen⟩

/-! ## The generic component along a chain of single parents -/

theorem generic_chain_aux (N : Nat → Ptr) (g : Graph) (hinv : PathInv g) (hdeep : Deep g)
    (h0 : (g.cdata (N 0)).up = []) :
    ∀ k, (∀ i, i < k → (g.cdata (N (i + 1))).up = [N i]) → ∀ fuel, k < fuel →
      ∃ g1 r, ∃ path : Nat → Comp,
        get_generic_component fuel g (N k) = .ok (g1, some r) ∧ PathInv g1 ∧ Deep g1 ∧
        SameEdges g g1 ∧ path k = r ∧ (g1.comps (path 0)).next = none ∧
        (∀ i, i ≤ k → (g1.comps (path i)).node = N i ∧ path i ∈ (g1.cdata (N i)).chains ∧
          (g1.comps (path i)).length = (g1.comps (path 0)).length + (i : Int)) ∧
        (∀ i, i < k → (g1.comps (path (i + 1))).next = some (path i)) := by
  intro k
  induction k with
  | zero =>
    intro _ fuel hf
    cases fuel with
    | zero => omega
    | succ f =>
      have hnp : get_num_parents g (N 0) = 0 := by
        unfold get_num_parents
        rw [h0]
        rfl
      have hfacts := get_top_component_facts g (N 0) hinv.wf
      refine ⟨(get_top_component g (N 0)).1, (get_top_component g (N 0)).2,
        fun _ => (get_top_component g (N 0)).2, ?_, get_top_component_pathInv g (N 0) hinv,
        fun x => get_top_component_good g (N 0) hinv x (hdeep x),
        get_top_component_edges g (N 0), rfl, (is_top_node_iff _ _).mp hfacts.1, ?_, ?_⟩
      · unfold get_generic_component
        rw [if_pos hnp]
      · intro i hi
        have : i = 0 := by omega
        subst this
        exact ⟨hfacts.2.1, hfacts.2.2.1, by simp⟩
      · intro i hi
        omega
  | succ k ih =>
    intro hstep fuel hf
    cases fuel with
    | zero => omega
    | succ f =>
      have hupk : (g.cdata (N (k + 1))).up = [N k] := hstep k (Nat.lt_succ_self _)
      have hnp : ¬ get_num_parents g (N (k + 1)) = 0 := by
        unfold get_num_parents
        rw [hupk]
        simp
      have hpar : get_parent g (N (k + 1)) 0 = N k := by
        unfold get_parent
        rw [hupk]
        rfl
      obtain ⟨g1, r, path, hrun, hp1, hd1, hse1, hpk, htop, hall, hnext⟩ :=
        ih (fun i hi => hstep i (Nat.lt_succ_of_lt hi)) f (by omega)
      have hrk := hall k (Nat.le_refl _)
      rw [hpk] at hrk
      have hmem : (g1.comps r).node ∈ (g1.cdata (N (k + 1))).up := by
        rw [hrk.1, (hse1 _).2, hupk]
        exact List.mem_singleton.mpr rfl
      obtain ⟨g2, r2, hget, _, hnode2, hnext2, hmem2, hse2, hold2, _, hmono2, _⟩ :=
        get_component_some g1 r (N (k + 1)) hp1.wf hmem
      have hrf : r < g1.fresh := (hp1.wf _ r hrk.2.1).2
      have hp2 := get_component_pathInv g1 g2 r (N (k + 1)) (some r2) hp1 hrf hget
      have hd2 : Deep g2 :=
        fun x => get_component_good g1 g2 r (N (k + 1)) (some r2) hp1 hrf hget x (hd1 x)
      have hkeep : ∀ i, i ≤ k → g2.comps (path i) = g1.comps (path i) :=
        fun i hi => hold2 _ (hp1.wf _ _ (hall i hi).2.1).2
      have hlen2 : (g2.comps r2).length = (g2.comps r).length + 1 := by
        have := hd2 (N (k + 1)) r2 hmem2
        rw [this]
        unfold length_should_be
        rw [hnext2]
      refine ⟨g2, r2, fun i => if i = k + 1 then r2 else path i, ?_, hp2, hd2,
        sameEdges_trans hse1 hse2, if_pos rfl, ?_, ?_, ?_⟩
      · unfold get_generic_component
        rw [if_neg hnp, hpar, hrun]
        exact hget
      · show (g2.comps (if 0 = k + 1 then r2 else path 0)).next = none
        rw [if_neg (by omega), hkeep 0 (Nat.zero_le _)]
        exact htop
      · intro i hi
        simp only
        rw [if_neg (show ¬ (0 = k + 1) by omega), hkeep 0 (Nat.zero_le _)]
        by_cases hik : i = k + 1
        · rw [if_pos hik, hik]
          refine ⟨hnode2, hmem2, ?_⟩
          rw [hlen2, hold2 r hrf, hrk.2.2]
          push_cast
          omega
        · have hle : i ≤ k := by omega
          rw [if_neg hik, hkeep i hle]
          exact ⟨(hall i hle).1, hmono2 _ _ (hall i hle).2.1, (hall i hle).2.2⟩
      · intro i hi
        simp only
        by_cases hik : i = k
        · rw [if_pos (by omega), if_neg (by omega), hik, hpk]
          exact hnext2
        · have hlt : i < k := by omega
          rw [if_neg (by omega), if_neg (by omega), hkeep (i + 1) (by omega)]
          exact hnext i hlt

/-- C35: in a state satisfying the path invariant of the data model and the
depth invariant, for nodes `N 0`, ..., `N k` such that `N 0` has no parent and
every `N (i+1)` has the single parent `N i`, `get_generic_component` on `N k`
runs to completion as soon as the fuel exceeds `k` and returns a component `r`
at the end of a sequence `path 0`, ..., `path k = r` in which `path i` is a
component of the chain set of `N i` naming `N i`, the next of `path (i+1)` is
`path i`, `path 0` is TOP, and `path i` caches the depth of `path 0` plus `i`;
so `r` caches the depth of the TOP component plus `k`. -/
theorem generic_component_chain (g : Graph) (N : Nat → Ptr) (k : Nat) (hinv : PathInv g)
    (hdeep : Deep g) (h0 : (g.cdata (N 0)).up = [])
    (hstep : ∀ i, i < k → (g.cdata (N (i + 1))).up = [N i]) (fuel : Nat) (hf : k < fuel) :
    ∃ g1 r, ∃ path : Nat → Comp,
      get_generic_component fuel g (N k) = .ok (g1, some r) ∧ path k = r ∧
      is_top_node g1.comps (path 0) = true ∧
      (∀ i, i ≤ k → (g1.comps (path i)).node = N i ∧ path i ∈ (g1.cdata (N i)).chains ∧
        (g1.comps (path i)).length = (g1.comps (path 0)).length + (i : Int)) ∧
      (∀ i, i < k → (g1.comps (path (i + 1))).next = some (path i)) ∧
      (g1.comps r).length = (g1.comps (path 0)).length + (k : Int) := by
  obtain ⟨g1, r, path, hrun, _, _, _, hpk, htop, hall, hnext⟩ :=
    generic_chain_aux N g hinv hdeep h0 k hstep fuel hf
  refine ⟨g1, r, path, hrun, hpk, (is_top_node_iff _ _).mpr htop, hall, hnext, ?_⟩
  rw [← hpk]
  exact (hall k (Nat.le_refl _)).2.2

/-- C35 at a concrete input: in `chainGraph` node 1 has no parent, node 2 the
single parent 1 and node 3 the single parent 2; `get_generic_component` on node
3 returns the component 3, which caches the depth 2, two more than the TOP
component at the end of its path. -/
theorem generic_component_chain_witness :
    PathInv chainGraph ∧ Deep chainGraph ∧ (chainGraph.cdata 1).up = [] ∧
    (chainGraph.cdata 2).up = [1] ∧ (chainGraph.cdata 3).up = [2] ∧
    ∃ g1 r, ∃ path : Nat → Comp,
      get_generic_component 3 chainGraph 3 = .ok (g1, some r) ∧ path 2 = r ∧ r = 3 ∧
      is_top_node g1.comps (path 0) = true ∧
      (g1.comps (path 1)).node = 2 ∧ (g1.comps r).next = some (path 1) ∧
      (g1.comps (path 1)).next = some (path 0) ∧
      (g1.comps r).length = (g1.comps (path 0)).length + 2 ∧ (g1.comps 3).length = 2 := by
  have hp := (pathReach_inv chainGraph chainGraph_pathReach).1
  have hd := pathReach_deep chainGraph chainGraph_pathReach
  have h0 : (chainGraph.cdata 1).up = [] := by decide
  have h1 : (chainGraph.cdata 2).up = [1] := by decide
  have h2 : (chainGraph.cdata 3).up = [2] := by decide
  obtain ⟨g1, r, path, hrun, hpk, htop, hall, hnext, hlen⟩ :=
    generic_component_chain chainGraph (fun i => i + 1) 2 hp hd h0
      (by
        intro i hi
        have : i = 0 ∨ i = 1 := by omega
        rcases this with e | e
        · rw [e]
          exact h1
        · rw [e]
          exact h2)
      3 (by decide)
  have hrunc := ok_of_completes (get_generic_component 3 chainGraph 3) (emptyGraph, none)
    (by decide)
  have hval : (valueOr (get_generic_component 3 chainGraph 3) (emptyGraph, none)).2 = some 3 := by
    decide
  have hlen3 : ((valueOr (get_generic_component 3 chainGraph 3) (emptyGraph, none)).1.comps
      3).length = 2 := by decide
  have hrun2 : get_generic_component 3 chainGraph 3 = .ok (g1, some r) := hrun
  rw [hrunc] at hrun2
  simp only [Except.ok.injEq] at hrun2
  have hg1 : (valueOr (get_generic_component 3 chainGraph 3) (emptyGraph, none)).1 = g1 :=
    congrArg Prod.fst hrun2
  have hr : (valueOr (get_generic_component 3 chainGraph 3) (emptyGraph, none)).2 = some r :=
    congrArg Prod.snd hrun2
  have hr3 : r = 3 := by
    rw [hval] at hr
    exact (Option.some.inj hr).symm
  have hn1 := hnext 1 (by decide)
  have hp2 : path (1 + 1) = r := hpk
  rw [hp2] at hn1
  refine ⟨hp, hd, h0, h1, h2, g1, r, path, hrun, hpk, hr3, htop, (hall 1 (by decide)).1,
    hn1, hnext 0 (by decide), hlen, ?_⟩
  rw [← hg1]
  exact hlen3

/-! ## The two forms of `remove_child` on any graph -/

theorem int_lower_bound (f : Nat → Int) : ∀ n, ∃ L : Int, ∀ c, c < n → L ≤ f c := by
  intro n
  induction n with
  | zero => exact ⟨0, fun c hc => by omega⟩
  | succ k ih =>
    obtain ⟨L, hL⟩ := ih
    refine ⟨min L (f k), ?_⟩
    intro c hc
    by_cases e : c = k
    · rw [e]
      exact min_le_right _ _
    · exact le_trans (min_le_left _ _) (hL c (by omega))

/-- The depth invariant fixes the cached depths: two component tables with the
same next links that both satisfy it on the chain sets, and that agree on the
components outside the chain sets, cache the same depths. -/
theorem deep_unique (cd : Ptr → CData) (bound : Nat) (m1 m2 : Comp → PathComponent)
    (hnext : ∀ c, (m1 c).next = (m2 c).next)
    (hwf : ∀ x c, c ∈ (cd x).chains → c < bound)
    (hg1 : ∀ x, Good cd m1 x) (hg2 : ∀ x, Good cd m2 x)
    (hout : ∀ c, (∀ x, c ∉ (cd x).chains) → (m1 c).length = (m2 c).length) :
    ∀ c, (m1 c).length = (m2 c).length := by
  obtain ⟨L, hL⟩ := int_lower_bound (fun c => (m1 c).length) bound
  have key : ∀ k : Nat, ∀ c x, c ∈ (cd x).chains → (m1 c).length - L < (k : Int) →
      (m1 c).length = (m2 c).length := by
    intro k
    induction k with
    | zero =>
      intro c x hc hlt
      have := hL c (hwf x c hc)
      simp only at this
      omega
    | succ k ih =>
      intro c x hc hlt
      have h1 := hg1 x c hc
      have h2 := hg2 x c hc
      unfold length_should_be at h1 h2
      rw [← hnext c] at h2
      cases hn : (m1 c).next with
      | none =>
        rw [hn] at h1 h2
        simp only at h1 h2
        rw [h1, h2]
      | some q =>
        rw [hn] at h1 h2
        simp only at h1 h2
        rw [h1, h2]
        have hq : (m1 q).length = (m2 q).length := by
          by_cases hch : ∃ y, q ∈ (cd y).chains
          · obtain ⟨y, hy⟩ := hch
            apply ih q y hy
            push_cast at hlt
            omega
          · exact hout q (fun y hy => hch ⟨y, hy⟩)
        rw [hq]
  intro c
  by_cases hch : ∃ x, c ∈ (cd x).chains
  · obtain ⟨x, hx⟩ := hch
    have := hL c (hwf x c hx)
    simp only at this
    exact key (((m1 c).length - L).toNat + 1) c x hx (by omega)
  · exact hout c (fun y hy => hch ⟨y, hy⟩)

theorem pathComponent_eq (a b : PathComponent) (h1 : a.node = b.node) (h2 : a.next = b.next)
    (h3 : a.length = b.length) (h4 : a.collapsed = b.collapsed) : a = b := by
  cases a
  cases b
  simp only [PathComponent.mk.injEq]
  exact ⟨h1, h2, h3, h4⟩

theorem severAndFix_eq (fuel : Nat) (g g1 : Graph) (P C : Ptr)
    (h : severAndFix fuel g P C = .ok g1) :
    ∃ m, fix_chain_lengths fuel
        (setChains { g with comps := (sever P g.comps (g.cdata C).chains none
          (g.cdata C).chains).1 } C
          (sever P g.comps (g.cdata C).chains none (g.cdata C).chains).2).cdata
        (sever P g.comps (g.cdata C).chains none (g.cdata C).chains).1 C = .ok m ∧
      g1 = { setChains { g with comps := (sever P g.comps (g.cdata C).chains none
          (g.cdata C).chains).1 } C
          (sever P g.comps (g.cdata C).chains none (g.cdata C).chains).2 with comps := m } := by
  unfold severAndFix at h
  simp only at h
  split at h
  · simp at h
  · rename_i m hm
    simp only [Except.ok.injEq] at h
    exact ⟨m, hm, h.symm⟩

theorem sever_state_comm (G : Graph) (P C : Ptr) (ds : List DownConnection) (cs : List Comp)
    (m0 m : Comp → PathComponent) :
    ({ setChains { setDown G P ds with comps := m0 } C cs with comps := m } : Graph) =
      setDown { setChains { G with comps := m0 } C cs with comps := m } P ds := by
  unfold setChains setDown
  simp only [Graph.mk.injEq, and_true]
  funext x
  unfold setAt
  by_cases hc : x = C
  · by_cases hp : x = P
    · have hPC : P = C := hp.symm.trans hc
      subst hp
      subst hPC
      simp
    · have hCP : ¬ C = P := fun e => hp (hc.trans e)
      simp [hc, hCP]
  · by_cases hp : x = P
    · have hPC : ¬ P = C := fun e => hc (hp.trans e)
      simp [hp, hPC]
    · simp [hc, hp]

/-- In a state satisfying the path, edge-pair and depth invariants, cyclic or
not, the two forms of `remove_child` that both run to completion end in the
same state. -/
theorem remove_child_forms_agree_inv (fuel : Nat) (g : Graph) (P : Ptr) (n : Nat)
    (hn : n < (g.cdata P).down.length)
    (hone : edgeCount (g.cdata P).down (get_child g P n) = 1)
    (hup : (g.cdata (get_child g P n)).up.count P = 1)
    (hinv : PathInv g) (he : EdgeInv g) (hd : Deep g) (ga gb : Graph) (b : Bool)
    (hA : remove_child_at fuel g P (n : Int) = .ok ga)
    (hB : remove_child fuel g P (get_child g P n) = .ok (b, gb)) : b = true ∧ gb = ga := by
  have hdA := remove_child_at_deep fuel g ga P n hA hinv he hd
  have hdB := remove_child_deep fuel g gb P _ b hB hinv he hd
  have hpA := remove_child_at_pathInv fuel g ga P n hA hinv
  rw [remove_child_at_unfold fuel g P n hn hup] at hA
  rw [remove_child_unfold fuel g P _ hup] at hB
  have hC : ((g.cdata P).down.getD n ⟨NULL, 0⟩).child = get_child g P n := rfl
  generalize get_child g P n = C at hone hup hA hB hC
  cases hsA : severAndFix fuel (setDown (setUp g C (setErase (g.cdata C).up P)) P
      ((g.cdata P).down.eraseIdx n)) P C with
  | error e => rw [hsA] at hA; simp at hA
  | ok g3A =>
    rw [hsA] at hA
    simp only at hA
    cases hsB : severAndFix fuel (setUp g C (setErase (g.cdata C).up P)) P C with
    | error e => rw [hsB] at hB; simp at hB
    | ok g2B =>
      rw [hsB] at hB
      simp only at hB
      have hd2 : (g2B.cdata P).down = (g.cdata P).down := by
        rw [((severAndFix_frame fuel _ g2B P _ hsB).1 P).1, setUp_down]
      rw [hd2, eraseChild_eq_eraseIdx (g.cdata P).down C ⟨NULL, 0⟩ n hn hC hone] at hB
      simp only at hB
      cases hfB : forceStale fuel (setDown g2B P ((g.cdata P).down.eraseIdx n)) P with
      | error e => rw [hfB] at hB; simp at hB
      | ok g3 =>
        rw [hfB] at hB
        simp only [Except.ok.injEq, Prod.mk.injEq] at hB
        obtain ⟨hb, hg3⟩ := hB
        subst hg3
        refine ⟨hb.symm, ?_⟩
        obtain ⟨mA, hmA, hgA⟩ := severAndFix_eq fuel _ g3A P C hsA
        obtain ⟨mB, hmB, hgB⟩ := severAndFix_eq fuel _ g2B P C hsB
        simp only [setDown_chains, setUp_chains, setDown_comps, setUp_comps] at hmA hgA hmB hgB
        generalize sever P g.comps (g.cdata C).chains none (g.cdata C).chains = s
          at hmA hgA hmB hgB
        have hsblA := fix_chain_lengths_frame _ _ _ _ _ hmA
        have hsblB := fix_chain_lengths_frame _ _ _ _ _ hmB
        have htA := fix_chain_lengths_touches _ _ _ _ _ hmA
        have htB := fix_chain_lengths_touches _ _ _ _ _ hmB
        obtain ⟨fA1, fA2, _⟩ := forceStale_frame fuel g3A ga P hA
        obtain ⟨fB1, fB2, _⟩ := forceStale_frame fuel _ g3 P hfB
        have hchA : ∀ x, (ga.cdata x).chains = if x = C then s.2 else (g.cdata x).chains := by
          intro x
          rw [fA1, hgA]
          simp only [setChains_chains, setDown_chains, setUp_chains]
        have hchB : ∀ x, (g3.cdata x).chains = if x = C then s.2 else (g.cdata x).chains := by
          intro x
          rw [fB1, hgB]
          simp only [setChains_chains, setDown_chains, setUp_chains]
        have hcA : ga.comps = mA := by rw [fA2, hgA]
        have hcB : g3.comps = mB := by rw [fB2, hgB]; rfl
        have hlen : ∀ c, (mA c).length = (mB c).length := by
          apply deep_unique ga.cdata ga.fresh mA mB
          · intro c
            rw [(hsblA c).2.1, (hsblB c).2.1]
          · intro x c hc
            exact (hpA.wf x c hc).2
          · intro x c hc
            have := hdA x c hc
            rw [hcA] at this
            exact this
          · intro x c hc
            have := hdB x c (by rw [hchB, ← hchA]; exact hc)
            rw [hcB] at this
            exact this
          · intro c hno
            have h1 : mA c = s.1 c := by
              by_contra hne
              obtain ⟨x, _, hx⟩ := htA c hne
              apply hno x
              rw [hchA]
              simpa only [setChains_chains, setDown_chains, setUp_chains] using hx
            have h2 : mB c = s.1 c := by
              by_contra hne
              obtain ⟨x, _, hx⟩ := htB c hne
              apply hno x
              rw [hchA]
              simpa only [setChains_chains, setDown_chains, setUp_chains] using hx
            rw [h1, h2]
        have hm : mA = mB := by
          funext c
          apply pathComponent_eq
          · rw [(hsblA c).1, (hsblB c).1]
          · rw [(hsblA c).2.1, (hsblB c).2.1]
          · exact hlen c
          · rw [(hsblA c).2.2, (hsblB c).2.2]
        have hstate : g3A = setDown g2B P ((g.cdata P).down.eraseIdx n) := by
          rw [hgA, hgB, hm]
          exact sever_state_comm _ P C _ _ _ _
        rw [hstate, hfB] at hA
        simp only [Except.ok.injEq] at hA
        exact hA

/-- C36: for a valid index `n` of the down-list of `P` whose child
`C = get_child(n)` is listed once in that down-list and lists `P` once in its
up-set.  First, in a state satisfying the path, edge-pair and depth invariants
of the data model, whether or not the graph has a cycle: whenever
`P.remove_child(n)` and `P.remove_child(C)` both run to completion, the second
returns true and both end in the same state (down-lists, up-sets, chain sets,
components with their next and cached depths, stale flags).  Second, on a graph
whose down-edges are acyclic, whatever the components and their cached depths
are: the two calls agree for every fuel, the second returning true with a state
exactly when the first returns that same state, a fault of one being the same
fault of the other, and both complete with enough fuel. -/
theorem remove_child_forms_agree (g : Graph) (P : Ptr) (n : Nat)
    (hn : n < (g.cdata P).down.length)
    (hone : edgeCount (g.cdata P).down (get_child g P n) = 1)
    (hup : (g.cdata (get_child g P n)).up.count P = 1) :
    (PathInv g → EdgeInv g → Deep g → ∀ fuel ga b gb,
      remove_child_at fuel g P (n : Int) = .ok ga →
      remove_child fuel g P (get_child g P n) = .ok (b, gb) → b = true ∧ gb = ga) ∧
    (∀ hgt : Ptr → Nat, (∀ x d, d ∈ (g.cdata x).down → hgt d.child < hgt x) →
      (∀ fuel, remove_child_at fuel g P (n : Int) =
        match remove_child fuel g P (get_child g P n) with
        | .ok r => .ok r.2
        | .error e => .error e) ∧
      (∀ fuel b g1, remove_child fuel g P (get_child g P n) = .ok (b, g1) →
        b = true ∧ remove_child_at fuel g P (n : Int) = .ok g1) ∧
      (∀ dpt : Ptr → Nat, (∀ x p, p ∈ (g.cdata x).up → dpt p < dpt x) →
        ∀ fuel, hgt (get_child g P n) < fuel → dpt P ≤ fuel →
          ∃ g1, remove_child_at fuel g P (n : Int) = .ok g1 ∧
            remove_child fuel g P (get_child g P n) = .ok (true, g1))) := by
  constructor
  · intro hinv he hd fuel ga b gb hA hB
    exact remove_child_forms_agree_inv fuel g P n hn hone hup hinv he hd ga gb b hA hB
  intro hgt hacyc
  have hmem : (g.cdata P).down.getD n ⟨NULL, 0⟩ ∈ (g.cdata P).down := by
    rw [List.getD_eq_getElem _ _ hn]
    exact List.getElem_mem _
  have hlt : hgt (get_child g P n) < hgt P := hacyc P _ hmem
  have heq : ∀ fuel, remove_child_at fuel g P (n : Int) =
      match remove_child fuel g P (get_child g P n) with
      | .ok r => .ok r.2
      | .error e => .error e := by
    intro fuel
    rw [remove_child_at_unfold fuel g P n hn hup, remove_child_unfold fuel g P _ hup,
      severAndFix_setDown fuel _ P (get_child g P n) _ hgt
        (by
          intro x d hd
          rw [setUp_down] at hd
          exact hacyc x d hd) hlt]
    cases hsf : severAndFix fuel (setUp g (get_child g P n)
        (setErase (g.cdata (get_child g P n)).up P)) P (get_child g P n) with
    | error e => rfl
    | ok g2 =>
      simp only
      have hd2 : (g2.cdata P).down = (g.cdata P).down := by
        rw [((severAndFix_frame fuel _ g2 P _ hsf).1 P).1, setUp_down]
      rw [hd2, eraseChild_eq_eraseIdx (g.cdata P).down (get_child g P n) ⟨NULL, 0⟩ n hn rfl
        hone]
      simp only
      cases forceStale fuel (setDown g2 P ((g.cdata P).down.eraseIdx n)) P with
      | error e => rfl
      | ok g3 => rfl
  refine ⟨heq, ?_, ?_⟩
  · intro fuel b g1 h
    have hb : b = true := by
      rcases remove_child_ok fuel g P _ b g1 h with ⟨_, hm, _⟩ | ⟨hb, _⟩
      · have := List.count_eq_zero_of_not_mem hm
        omega
      · exact hb
    refine ⟨hb, ?_⟩
    rw [heq fuel, h]
  · intro dpt hd fuel hf1 hf2
    have hm : P ∈ (g.cdata (get_child g P n)).up := by
      by_contra hc
      have := List.count_eq_zero_of_not_mem hc
      omega
    obtain ⟨g1, hg1⟩ := remove_child_total fuel g P (get_child g P n) hgt dpt ⟨hacyc, hd⟩ hm
      (by omega) hf1 hf2
    refine ⟨g1, ?_, hg1⟩
    rw [heq fuel, hg1]

theorem boundGraph_ranked :
    Ranked boundGraph (fun k => if k = 1 then 1 else 0) (fun k => if k = 1 then 0 else 1) := by
  constructor
  · intro x d hd
    by_cases h1 : x = 1
    · subst h1
      have : d = ⟨2, 0⟩ ∨ d = ⟨3, 5⟩ := by simpa [boundGraph] using hd
      rcases this with e | e <;> subst e <;> decide
    · by_cases h2 : x = 2
      · subst h2
        simp [boundGraph] at hd
      · by_cases h3 : x = 3
        · subst h3
          simp [boundGraph] at hd
        · simp [boundGraph, h1, h2, h3] at hd
  · intro x p hp
    by_cases h1 : x = 1
    · subst h1
      simp [boundGraph] at hp
    · by_cases h2 : x = 2
      · subst h2
        have : p = 1 := by simpa [boundGraph] using hp
        subst this
        decide
      · by_cases h3 : x = 3
        · subst h3
          have : p = 1 := by simpa [boundGraph] using hp
          subst this
          decide
        · simp [boundGraph, h1, h2, h3] at hp

/-- C36 at concrete inputs: the child at index 1 of node 1 of `boundGraph`, a
graph without cycle, is node 3, and both forms remove it and end in the same
state; the child at index 0 of node 2 of `chainGraph`, a state satisfying the
invariants, is node 3, and again both forms end in the same state. -/
theorem remove_child_forms_agree_witness :
    (∀ x d, d ∈ (boundGraph.cdata x).down →
      (fun k : Ptr => if k = 1 then 1 else 0) d.child <
        (fun k : Ptr => if k = 1 then 1 else 0) x) ∧
    1 < (boundGraph.cdata 1).down.length ∧ get_child boundGraph 1 1 = 3 ∧
    edgeCount (boundGraph.cdata 1).down (get_child boundGraph 1 1) = 1 ∧
    (boundGraph.cdata (get_child boundGraph 1 1)).up.count 1 = 1 ∧
    (∃ g1, remove_child_at 2 boundGraph 1 1 = .ok g1 ∧
      remove_child 2 boundGraph 1 3 = .ok (true, g1) ∧
      (g1.cdata 1).down = [⟨2, 0⟩] ∧ (g1.cdata 3).up = []) ∧
    PathInv chainGraph ∧ EdgeInv chainGraph ∧ Deep chainGraph ∧
    get_child chainGraph 2 0 = 3 ∧
    ∃ g2, remove_child_at 3 chainGraph 2 0 = .ok g2 ∧
      remove_child 3 chainGraph 2 3 = .ok (true, g2) := by
  have hthm := remove_child_forms_agree boundGraph 1 1 (by decide) (by decide) (by decide)
  obtain ⟨g1, h1, h2⟩ := (hthm.2 (fun k => if k = 1 then 1 else 0)
    boundGraph_ranked.down_lt).2.2 (fun k => if k = 1 then 0 else 1) boundGraph_ranked.up_lt 2
    (by decide) (by decide)
  have h3 : remove_child 2 boundGraph 1 3 = .ok (true, g1) := h2
  obtain ⟨_, _, _, hall⟩ := remove_child_at_ok 2 boundGraph g1 1 1 h1
  have hp := (pathReach_inv chainGraph chainGraph_pathReach).1
  have he := (pathReach_inv chainGraph chainGraph_pathReach).2
  have hd := pathReach_deep chainGraph chainGraph_pathReach
  have hA := ok_of_completes (remove_child_at 3 chainGraph 2 0) emptyGraph (by decide)
  have hB := ok_of_completes (remove_child 3 chainGraph 2 3) (false, emptyGraph) (by decide)
  have hthm2 := (remove_child_forms_agree chainGraph 2 0 (by decide) (by decide)
    (by decide)).1 hp he hd 3 _ (valueOr (remove_child 3 chainGraph 2 3) (false, emptyGraph)).1
    (valueOr (remove_child 3 chainGraph 2 3) (false, emptyGraph)).2 hA hB
  refine ⟨boundGraph_ranked.down_lt, by decide, rfl, by decide, by decide,
    ⟨g1, h1, h3, ?_, ?_⟩, hp, he, hd, rfl, _, hA, ?_⟩
  · rw [(hall 1).1, if_pos rfl]
    rfl
  · rw [(hall 3).2]
    rfl
  · rw [hB]
    exact congrArg Except.ok (Prod.ext hthm2.1 hthm2.2)

/-! ## Edge operations in the state left by `remove_all_children` -/

theorem halfRemovedGraph_eq : remove_all_children 2 oneChildGraph 1 = .ok halfRemovedGraph :=
  ok_of_completes (remove_all_children 2 oneChildGraph 1) emptyGraph (by decide)

/-- C1, the code at a failing input: after `add_child(2, 0)` and
`remove_all_children()` on node 1 the down-list of node 1 still holds the
connection to node 2 while the up-set of node 2 is empty.  There
`add_child(2, 7)` on node 1 completes, `find_child(2)` is not `-1` and node 1 is
once in the up-set of node 2; the following `remove_child(2)` returns true and
removes node 1 from the up-set of node 2, but the down-list of node 1 still
holds a connection to node 2 and `find_child(2)` answers index 0, not `-1`. -/
theorem add_child_then_remove_child_keeps_edge :
    remove_all_children 2 oneChildGraph 1 = .ok halfRemovedGraph ∧
    (halfRemovedGraph.cdata 1).down = [⟨2, 0⟩] ∧ (halfRemovedGraph.cdata 2).up = [] ∧
    ∃ g1 g2, add_child 2 halfRemovedGraph 1 2 7 = .ok g1 ∧
      find_child g1 1 2 ≠ -1 ∧ (g1.cdata 2).up.count 1 = 1 ∧
      (g1.cdata 1).down = [⟨2, 0⟩, ⟨2, 7⟩] ∧
      remove_child 2 g1 1 2 = .ok (true, g2) ∧
      (g2.cdata 2).up.count 1 = 0 ∧ (g2.cdata 1).down = [⟨2, 7⟩] ∧
      find_child g2 1 2 = 0 := by
  have h1 := ok_of_completes (add_child 2 halfRemovedGraph 1 2 7) emptyGraph (by decide)
  have h2 := ok_of_completes
    (remove_child 2 (valueOr (add_child 2 halfRemovedGraph 1 2 7) emptyGraph) 1 2)
    (false, emptyGraph) (by decide)
  refine ⟨halfRemovedGraph_eq, by decide, by decide, _,
    (valueOr (remove_child 2 (valueOr (add_child 2 halfRemovedGraph 1 2 7) emptyGraph) 1 2)
      (false, emptyGraph)).2, h1, by decide, by decide, by decide, ?_, by decide, by decide,
    by decide⟩
  rw [h2]
  exact congrArg Except.ok (Prod.ext (by decide) rfl)

/-- C2, the code at a failing input: in the state left by `add_child(2, 0)` and
`remove_all_children()` on node 1, node 1 has exactly one connection to node 2
in its down-list.  `add_child(2, 7)` on node 1 completes and leaves two
connections to node 2, the old one at sort 0 and the new one at sort 7: the
number of children has grown from 1 to 2. -/
theorem add_child_existing_duplicates :
    remove_all_children 2 oneChildGraph 1 = .ok halfRemovedGraph ∧
    (halfRemovedGraph.cdata 1).down.length = 1 ∧
    edgeCount (halfRemovedGraph.cdata 1).down 2 = 1 ∧
    ∃ g1, add_child 2 halfRemovedGraph 1 2 7 = .ok g1 ∧
      (g1.cdata 1).down = [⟨2, 0⟩, ⟨2, 7⟩] ∧ (g1.cdata 1).down.length = 2 ∧
      edgeCount (g1.cdata 1).down 2 = 2 := by
  have h1 := ok_of_completes (add_child 2 halfRemovedGraph 1 2 7) emptyGraph (by decide)
  exact ⟨halfRemovedGraph_eq, by decide, by decide, _, h1, by decide, by decide, by decide⟩

/-- C19, the code at a failing input: in the state left by `add_child(2, 0)` and
`remove_all_children()` on node 1, with `p` the component returned by
`get_top_component` on node 1, `attach(p, 2, 5)` completes and returns a
component of node 2 whose next is `p`, but afterwards node 2 occurs twice in the
down-list of node 1, at the old sort 0 and at sort 5. -/
theorem attach_duplicates_edge :
    remove_all_children 2 oneChildGraph 1 = .ok halfRemovedGraph ∧
    ((get_top_component halfRemovedGraph 1).1.comps
      (get_top_component halfRemovedGraph 1).2).node = 1 ∧
    ∃ g2 r, attach 2 (get_top_component halfRemovedGraph 1).1
        (some (get_top_component halfRemovedGraph 1).2) 2 5 = .ok (g2, some r) ∧
      (g2.comps r).node = 2 ∧
      (g2.comps r).next = some (get_top_component halfRemovedGraph 1).2 ∧
      r ∈ (g2.cdata 2).chains ∧ 1 ∈ (g2.cdata 2).up ∧
      (g2.cdata 1).down = [⟨2, 0⟩, ⟨2, 5⟩] ∧ edgeCount (g2.cdata 1).down 2 = 2 := by
  have h1 := ok_of_completes (attach 2 (get_top_component halfRemovedGraph 1).1
    (some (get_top_component halfRemovedGraph 1).2) 2 5) (emptyGraph, none) (by decide)
  refine ⟨halfRemovedGraph_eq, by decide,
    (valueOr (attach 2 (get_top_component halfRemovedGraph 1).1
      (some (get_top_component halfRemovedGraph 1).2) 2 5) (emptyGraph, none)).1, 2, ?_,
    by decide, by decide, by decide, by decide, by decide, by decide⟩
  rw [h1]
  exact congrArg Except.ok (Prod.ext rfl (by decide))

end PandaNode
